import Mathlib

/-!
# Casio fx-991ES PLUS simulator: the decimal-text engine and the expression pipeline

A shallow embedding of `calc.cpp`, `parsing.cpp` and `evaluator.cpp`.

* A `std::string` is a `List Char` (`Str`); the engine only ever inspects ASCII.
* A C++ exception is a value of `Exn`; a function that may throw returns `Except Exn _`.
* Loops that walk a string from its last character to its first are recursions over the
  reversed string; counting loops are recursions over the counter.
* `int`, `long long` and `size_t` quantities are far below their limits (string lengths,
  single digits, an exponent capped at 1000), so they are `Nat` or `Int` without wrap-around.
* Logging calls (`LOGD`, `LOGE`) have no effect on results and are left out.
-/

namespace Calc

/-- A `std::string`: a sequence of characters. -/
abbrev Str := List Char

/-- The two exception classes the engine throws. -/
inductive ExnKind where
  | invalidArgument
  | domainError
deriving DecidableEq, Repr

/-- A thrown exception: its class and its `what()` text. -/
structure Exn where
  kind : ExnKind
  what : Str
deriving DecidableEq, Repr

/-- Throwing `std::invalid_argument(msg)`. -/
def invalid_argument {α : Type} (msg : Str) : Except Exn α := .error ⟨.invalidArgument, msg⟩

/-- Throwing `std::domain_error(msg)`. -/
def domain_error {α : Type} (msg : Str) : Except Exn α := .error ⟨.domainError, msg⟩

/-- Equality of results is decidable, so that concrete runs can be checked by evaluation. -/
instance decEqExcept {ε α : Type} [DecidableEq ε] [DecidableEq α] : DecidableEq (Except ε α)
  | .ok a, .ok b =>
    if h : a = b then isTrue (congrArg _ h) else isFalse (fun h2 => h (Except.ok.inj h2))
  | .error a, .error b =>
    if h : a = b then isTrue (congrArg _ h) else isFalse (fun h2 => h (Except.error.inj h2))
  | .ok _, .error _ => isFalse (fun h => Except.noConfusion h)
  | .error _, .ok _ => isFalse (fun h => Except.noConfusion h)

/-! ## Characters -/

/-- The C expression `c - '0'` on a digit character. Every public entry validates its
operands before any digit arithmetic, so the loops below only meet `'0'`..`'9'`. -/
def digitVal (c : Char) : Nat := c.toNat - 48

/-- The C expression `char(n + '0')`. -/
def digitChar (n : Nat) : Char := Char.ofNat (n + 48)

/-- The test `c >= '0' && c <= '9'` (also `isdigit` in the C locale). -/
def isDigit (c : Char) : Bool := decide (48 ≤ c.toNat) && decide (c.toNat ≤ 57)

/-- The test `s[0] == c`; on an empty `std::string`, `s[0]` is the terminating NUL. -/
def startsWith (s : Str) (c : Char) : Bool := s.head? == some c

/-- Position-free form of `s.find('.') != npos`. -/
def hasDot (s : Str) : Bool := s.contains '.'

/-- The text before the first `'.'`: `s.substr(0, dot)`, or all of `s` without a point. -/
def intPart (s : Str) : Str := s.takeWhile (fun c => c != '.')

/-- The text after the first `'.'`: `s.substr(dot + 1)`, or empty without a point. -/
def decPart (s : Str) : Str := (s.dropWhile (fun c => c != '.')).drop 1

/-- The call `s.resize(n, '0')` for `n` not below the length: pad with zeros on the right. -/
def padRight (s : Str) (n : Nat) : Str := s ++ List.replicate (n - s.length) '0'

/-- The sign of `a.compare(b)`: lexicographic comparison of two strings. -/
def strCompare : Str → Str → Int
  | [], [] => 0
  | [], _ :: _ => -1
  | _ :: _, [] => 1
  | a :: as, b :: bs =>
    if a.toNat < b.toNat then -1
    else if b.toNat < a.toNat then 1
    else strCompare as bs

/-! ## calc.cpp: validation and normalisation -/

/-- The loop of `isValidNumber` from index `start` on; the flag is `hasDecimal`. -/
def isValidLoop : Bool → Str → Bool
  | _, [] => true
  | hasDecimal, c :: cs =>
    if c == '.' then
      if hasDecimal then false else isValidLoop true cs
    else if !isDigit c then false
    else isValidLoop hasDecimal cs

/-- Source function `isValidNumber` (calc.cpp 23-40). -/
def isValidNumber (str : Str) : Bool :=
  match str with
  | [] => false
  | c :: cs =>
    let body := if c == '-' || c == '+' then cs else c :: cs
    if body.isEmpty then false else isValidLoop false body

/-- Source function `removeLeadingZeros` (calc.cpp 43-57). -/
def removeLeadingZeros (str : Str) : Str :=
  match str with
  | [] => ['0']
  | c :: cs =>
    let signed := c == '-' || c == '+'
    let rest := (if signed then cs else c :: cs).dropWhile (fun d => d == '0')
    if rest.isEmpty then ['0']
    else
      let result := (if signed then [c] else []) ++ rest
      if result.isEmpty then ['0'] else result

/-- The loop `while (result.length() > 1 && result.back() == '0') result.pop_back()`,
on the reversed string. -/
def popZerosRev : Str → Str
  | c :: d :: rest => if c == '0' then popZerosRev (d :: rest) else c :: d :: rest
  | r => r

/-- Source function `removeTrailingZeros` (calc.cpp 60-71). -/
def removeTrailingZeros (str : Str) : Str :=
  if !hasDot str then str
  else
    let result := popZerosRev str.reverse
    (if startsWith result '.' then result.drop 1 else result).reverse

/-- The signless text: `s.substr(1)` when `s` starts with `'-'` or `'+'`. -/
def dropSign (s : Str) : Str :=
  if startsWith s '-' || startsWith s '+' then s.drop 1 else s

/-- Source function `compareAbs` (calc.cpp 74-109): -1, 0 or 1. -/
def compareAbs (a b : Str) : Int :=
  let intA := removeLeadingZeros (dropSign (intPart a))
  let intB := removeLeadingZeros (dropSign (intPart b))
  if intA.length != intB.length then
    if intA.length < intB.length then -1 else 1
  else
    let intComp := strCompare intA intB
    if intComp != 0 then (if intComp < 0 then -1 else 1)
    else
      let maxDecLen := max (decPart a).length (decPart b).length
      let decComp := strCompare (padRight (decPart a) maxDecLen) (padRight (decPart b) maxDecLen)
      if decComp < 0 then -1 else if decComp > 0 then 1 else 0

/-! ## calc.cpp: unsigned addition, subtraction and multiplication -/

/-- The fractional loop of `addPositive`, last digit first: the two padded fractional
parts reversed, the carry, and the result built so far; returns the result and the carry. -/
def addDecLoop : Str → Str → Nat → Str → Str × Nat
  | a :: as, b :: bs, carry, result =>
    let sum := digitVal a + digitVal b + carry
    addDecLoop as bs (sum / 10) (digitChar (sum % 10) :: result)
  | _, _, carry, result => (result, carry)

/-- The tail of the integer loop of `addPositive` once both strings are used up:
`while (carry > 0)`. The carry shrinks on every pass, so `carry` passes are enough. -/
def addCarryLoop : Nat → Nat → Str → Str
  | 0, _, intResult => intResult
  | fuel + 1, carry, intResult =>
    if carry > 0 then addCarryLoop fuel (carry / 10) (digitChar (carry % 10) :: intResult)
    else intResult

/-- The integer loop of `addPositive` once `intA` is used up (`i < 0`): the remaining
digits of `intB`, then the carry. -/
def addIntRest : Str → Nat → Str → Str
  | [], carry, intResult => addCarryLoop carry carry intResult
  | b :: bs, carry, intResult =>
    let sum := carry + digitVal b
    addIntRest bs (sum / 10) (digitChar (sum % 10) :: intResult)

/-- The integer loop of `addPositive`, `while (i >= 0 || j >= 0 || carry > 0)`, on the two
reversed integer parts. -/
def addIntLoop : Str → Str → Nat → Str → Str
  | [], bs, carry, intResult => addIntRest bs carry intResult
  | a :: as, [], carry, intResult =>
    let sum := carry + digitVal a
    addIntLoop as [] (sum / 10) (digitChar (sum % 10) :: intResult)
  | a :: as, b :: bs, carry, intResult =>
    let sum := carry + digitVal a + digitVal b
    addIntLoop as bs (sum / 10) (digitChar (sum % 10) :: intResult)

/-- Source function `addPositive` (calc.cpp 112-158). -/
def addPositive (a b : Str) : Str :=
  let maxDecLen := max (decPart a).length (decPart b).length
  let decA := padRight (decPart a) maxDecLen
  let decB := padRight (decPart b) maxDecLen
  let (dec, carry) := addDecLoop decA.reverse decB.reverse 0 []
  let result := if maxDecLen > 0 then '.' :: dec else dec
  let intResult := addIntLoop (intPart a).reverse (intPart b).reverse carry []
  removeTrailingZeros (removeLeadingZeros (intResult ++ result))

/-- The loop of `subtractPositive`, last digit first, on the reversed `fullA` and `fullB`
(equally long). -/
def subLoop : Str → Str → Int → Str → Str
  | a :: as, b :: bs, borrow, result =>
    let diff : Int := (digitVal a : Int) - (digitVal b : Int) - borrow
    if diff < 0 then subLoop as bs 1 (digitChar (diff + 10).toNat :: result)
    else subLoop as bs 0 (digitChar diff.toNat :: result)
  | _, _, _, result => result

/-- Source function `subtractPositive` (calc.cpp 161-206); the caller passes `a >= b`. -/
def subtractPositive (a b : Str) : Str :=
  let maxDecLen := max (decPart a).length (decPart b).length
  let decA := padRight (decPart a) maxDecLen
  let decB := padRight (decPart b) maxDecLen
  let maxIntLen := max (intPart a).length (intPart b).length
  let intA := List.replicate (maxIntLen - (intPart a).length) '0' ++ intPart a
  let intB := List.replicate (maxIntLen - (intPart b).length) '0' ++ intPart b
  let fullA := intA ++ decA
  let fullB := intB ++ decB
  let result := subLoop fullA.reverse fullB.reverse 0 []
  let result :=
    if maxDecLen > 0 then
      result.take (result.length - maxDecLen) ++ '.' :: result.drop (result.length - maxDecLen)
    else result
  removeTrailingZeros (removeLeadingZeros result)

/-- The statement `num.erase(dot, 1)`: the text without its first `'.'`. -/
def eraseDot (s : Str) : Str := s.erase '.'

/-- The count `num.length() - dot - 1` of characters after the first `'.'`, 0 without one. -/
def decPlaces (s : Str) : Nat := (decPart s).length

/-- The inner loop of `multiplyPositive` for one digit `numA[i]` (of value `da`): the
counter is `j + 1`, so the loop runs `j = numB.length() - 1` down to `0`. -/
def mulInner (numB : Str) (da i : Nat) : Nat → List Nat → List Nat
  | 0, result => result
  | j + 1, result =>
    let mul := da * digitVal (numB.getD j '0')
    let pos1 := i + j
    let pos2 := i + j + 1
    let sum := mul + result.getD pos2 0
    let result := result.set pos2 (sum % 10)
    let result := result.set pos1 (result.getD pos1 0 + sum / 10)
    mulInner numB da i j result

/-- The outer loop of `multiplyPositive`: the counter is `i + 1`. -/
def mulOuter (numA numB : Str) : Nat → List Nat → List Nat
  | 0, result => result
  | i + 1, result =>
    mulOuter numA numB i (mulInner numB (digitVal (numA.getD i '0')) i numB.length result)

/-- The conversion loop of `multiplyPositive`: skip zero cells, then one character per cell. -/
def cellsToStr : List Nat → Str
  | [] => []
  | c :: cs => if c != 0 then (c :: cs).map digitChar else cellsToStr cs

/-- The point insertion of `multiplyPositive` (calc.cpp 259-267): `totalDecPlaces` digits
go behind the point, with `"0."` and zeros in front when the text is too short. -/
def placePoint (resultStr : Str) (totalDecPlaces : Nat) : Str :=
  if totalDecPlaces > 0 then
    if totalDecPlaces ≥ resultStr.length then
      '0' :: '.' :: (List.replicate (totalDecPlaces - resultStr.length) '0' ++ resultStr)
    else
      resultStr.take (resultStr.length - totalDecPlaces) ++
        '.' :: resultStr.drop (resultStr.length - totalDecPlaces)
  else resultStr

/-- Source function `multiplyPositive` (calc.cpp 209-270). -/
def multiplyPositive (a b : Str) : Str :=
  if a == ['0'] || b == ['0'] then ['0']
  else
    let decPlacesA := decPlaces a
    let decPlacesB := decPlaces b
    let numA := removeLeadingZeros (eraseDot a)
    let numB := removeLeadingZeros (eraseDot b)
    let result := mulOuter numA numB numA.length (List.replicate (numA.length + numB.length) 0)
    let resultStr := cellsToStr result
    let resultStr := if resultStr.isEmpty then ['0'] else resultStr
    let totalDecPlaces := decPlacesA + decPlacesB
    removeTrailingZeros (removeLeadingZeros (placePoint resultStr totalDecPlaces))

/-! ## calc.cpp: the signed operations -/

/-- The sign stripping shared by `add`, `multiply` and `divide`: drop a leading `'-'`,
then a leading `'+'`. -/
def absText (operand : Str) : Str :=
  let abs1 := if startsWith operand '-' then operand.drop 1 else operand
  if startsWith abs1 '+' then abs1.drop 1 else abs1

/-- Source function `add` (calc.cpp 273-304). -/
def add (operand1 operand2 : Str) : Except Exn Str :=
  if !isValidNumber operand1 then invalid_argument ("Invalid first operand: ".toList ++ operand1)
  else if !isValidNumber operand2 then
    invalid_argument ("Invalid second operand: ".toList ++ operand2)
  else
    let neg1 := startsWith operand1 '-'
    let neg2 := startsWith operand2 '-'
    let abs1 := absText operand1
    let abs2 := absText operand2
    let result :=
      if neg1 == neg2 then
        let result := addPositive abs1 abs2
        if neg1 then '-' :: result else result
      else if compareAbs abs1 abs2 ≥ 0 then
        let result := subtractPositive abs1 abs2
        if neg1 then '-' :: result else result
      else
        let result := subtractPositive abs2 abs1
        if neg2 then '-' :: result else result
    .ok (if result == ['-', '0'] then ['0'] else result)

/-- Source function `subtract` (calc.cpp 307-320). -/
def subtract (operand1 operand2 : Str) : Except Exn Str :=
  if !isValidNumber operand1 then invalid_argument ("Invalid first operand: ".toList ++ operand1)
  else if !isValidNumber operand2 then
    invalid_argument ("Invalid second operand: ".toList ++ operand2)
  else
    let negOperand2 := if startsWith operand2 '-' then operand2.drop 1 else '-' :: operand2
    add operand1 negOperand2

/-- Source function `multiply` (calc.cpp 323-343). -/
def multiply (operand1 operand2 : Str) : Except Exn Str :=
  if !isValidNumber operand1 then invalid_argument ("Invalid first operand: ".toList ++ operand1)
  else if !isValidNumber operand2 then
    invalid_argument ("Invalid second operand: ".toList ++ operand2)
  else
    let neg1 := startsWith operand1 '-'
    let neg2 := startsWith operand2 '-'
    let result := multiplyPositive (absText operand1) (absText operand2)
    .ok (if result != ['0'] && neg1 != neg2 then '-' :: result else result)

/-! ## calc.cpp: long division -/

/-- The number a digit string denotes, read left to right (`exp = exp * 10 + (c - '0')`). -/
def natVal (s : Str) : Nat := s.foldl (fun acc c => acc * 10 + digitVal c) 0

/-- The loop `while (compareAbs(remainder, divisor) >= 0)` of both division routines:
returns the final remainder and `count`. Every pass lowers the remainder by the divisor,
so for a positive divisor `natVal remainder + 1` passes (the first argument) are enough. -/
def divSubLoop (divisor : Str) : Nat → Str → Nat → Str × Nat
  | 0, remainder, count => (remainder, count)
  | fuel + 1, remainder, count =>
    if compareAbs remainder divisor ≥ 0 then
      divSubLoop divisor fuel (subtractPositive remainder divisor) (count + 1)
    else (remainder, count)

/-- The digit loop of `divideIntegers`: the dividend digits still to bring down, the
quotient and the remainder so far. -/
def divDigitLoop (divisor : Str) : Str → Str → Str → Str × Str
  | [], quotient, remainder => (quotient, remainder)
  | d :: ds, quotient, remainder =>
    let remainder := removeLeadingZeros (remainder ++ [d])
    let (remainder, count) := divSubLoop divisor (natVal remainder + 1) remainder 0
    divDigitLoop divisor ds (quotient ++ [digitChar count]) remainder

/-- Source function `divideIntegers` (calc.cpp 346-378): quotient and remainder. -/
def divideIntegers (dividend divisor : Str) : Except Exn (Str × Str) :=
  if divisor == ['0'] then domain_error "Division by zero".toList
  else if dividend == ['0'] then .ok (['0'], ['0'])
  else if compareAbs dividend divisor < 0 then .ok (['0'], dividend)
  else
    let (quotient, remainder) := divDigitLoop divisor dividend [] []
    .ok (removeLeadingZeros quotient, removeLeadingZeros remainder)

/-- The loop `while (remainder != "0" && decimalPlaces < MAX_DECIMAL_PLACES)` of `divide`;
the counter is the number of places still allowed. -/
def divDecLoop (divisor : Str) : Nat → Str → Str → Str
  | 0, quotient, _ => quotient
  | places + 1, quotient, remainder =>
    if remainder != ['0'] then
      let remainder := removeLeadingZeros (remainder ++ ['0'])
      let (remainder, count) := divSubLoop divisor (natVal remainder + 1) remainder 0
      divDecLoop divisor places (quotient ++ [digitChar count]) remainder
    else quotient

/-- The constant `MAX_DECIMAL_PLACES` of `divide`. -/
def MAX_DECIMAL_PLACES : Nat := 15

/-- The test `s == "0" || s == "+0" || s == "-0"` of `divide`. -/
def isZeroLiteral (s : Str) : Bool := s == ['0'] || s == ['+', '0'] || s == ['-', '0']

/-- Source function `divide` (calc.cpp 381-483). -/
def divide (operand1 operand2 : Str) : Except Exn Str :=
  if !isValidNumber operand1 then invalid_argument ("Invalid first operand: ".toList ++ operand1)
  else if !isValidNumber operand2 then
    invalid_argument ("Invalid second operand: ".toList ++ operand2)
  else if isZeroLiteral operand2 then domain_error "Division by zero".toList
  else if isZeroLiteral operand1 then .ok ['0']
  else
    let resultNegative := startsWith operand1 '-' != startsWith operand2 '-'
    let abs1 := absText operand1
    let abs2 := absText operand2
    let dec1 := decPart abs1
    let dec2 := decPart abs2
    let dividend := intPart abs1 ++ dec1
    let divisor := intPart abs2 ++ dec2
    let decimalShift : Int := (dec2.length : Int) - (dec1.length : Int)
    let dividend :=
      if decimalShift > 0 then dividend ++ List.replicate decimalShift.toNat '0' else dividend
    let decimalShift : Int := if decimalShift > 0 then 0 else decimalShift
    let dividend := removeLeadingZeros dividend
    let divisor := removeLeadingZeros divisor
    match divideIntegers dividend divisor with
    | .error e => .error e
    | .ok (quotient, remainder) =>
      let quotient :=
        if decimalShift < 0 then
          let insertPos : Int := (quotient.length : Int) + decimalShift
          if insertPos ≤ 0 then
            '0' :: '.' :: (List.replicate (-insertPos).toNat '0' ++ quotient)
          else if insertPos < (quotient.length : Int) then
            quotient.take insertPos.toNat ++ '.' :: quotient.drop insertPos.toNat
          else quotient
        else quotient
      let quotient :=
        if remainder != ['0'] && !hasDot quotient then quotient ++ ['.'] else quotient
      let quotient := divDecLoop divisor MAX_DECIMAL_PLACES quotient remainder
      let quotient := removeTrailingZeros (removeLeadingZeros quotient)
      .ok (if resultNegative && quotient != ['0'] then '-' :: quotient else quotient)

/-! ## calc.cpp: power, nthRoot and powerDecimal -/

/-- How the exponent-parsing loop of `power` ends. -/
inductive ExpParse where
  | value (exp : Nat)
  | tooLarge
  | badFormat
deriving DecidableEq, Repr

/-- The loop `for (char c : absExponent)` of `power`, with `exp` so far. -/
def parseExponent : Str → Nat → ExpParse
  | [], exp => .value exp
  | c :: cs, exp =>
    if !isDigit c then .badFormat
    else
      let exp := exp * 10 + digitVal c
      if exp > 1000 then .tooLarge else parseExponent cs exp

/-- The squaring loop `while (exp > 0)` of `power`; `exp` halves on every pass, so `exp`
passes (the first argument) are enough. -/
def powLoop : Nat → Nat → Str → Str → Except Exn Str
  | 0, _, result, _ => .ok result
  | fuel + 1, exp, result, currentBase =>
    if exp > 0 then
      match (if exp % 2 == 1 then multiply result currentBase else .ok result) with
      | .error e => .error e
      | .ok result =>
        match (if exp > 1 then multiply currentBase currentBase else .ok currentBase) with
        | .error e => .error e
        | .ok currentBase => powLoop fuel (exp / 2) result currentBase
    else .ok result

/-- The part of `power` for an exponent without a decimal point (calc.cpp 509-552). -/
def powerInteger (base exponent absExponent : Str) (negativeExponent : Bool) : Except Exn Str :=
  if absExponent.length > 9 then
    .ok ("power(".toList ++ base ++ ", ".toList ++ exponent ++ ") [exponent too large]".toList)
  else
    match parseExponent absExponent 0 with
    | .badFormat => invalid_argument ("Invalid exponent format: ".toList ++ exponent)
    | .tooLarge =>
      .ok ("power(".toList ++ base ++ ", ".toList ++ exponent ++
        ") [exponent too large for computation]".toList)
    | .value exp =>
      if exp == 0 then .ok ['1']
      else if exp == 1 then .ok base
      else
        match powLoop exp exp ['1'] base with
        | .error e => .error e
        | .ok result => if negativeExponent then divide ['1'] result else .ok result

/-- The parity scan of `nthRoot` over the root text: digits only, stopped once above 100. -/
def rootIntLoop : Str → Nat → Nat
  | [], rootInt => rootInt
  | c :: cs, rootInt =>
    if isDigit c then
      let rootInt := rootInt * 10 + digitVal c
      if rootInt > 100 then rootInt else rootIntLoop cs rootInt
    else rootIntLoop cs rootInt

/-- One pass of the Newton loop of `nthRoot`, with `pw` standing for `power`: the new `x`
and whether the loop goes on. An exception inside the `try` block ends the loop with the
`x` assigned so far; `none` is an unfinished nested call. -/
def newtonStep (pw : Str → Str → Option (Except Exn Str)) (absNumber root x : Str) :
    Option (Str × Bool) :=
  match subtract root ['1'] with
  | .error _ => some (x, false)
  | .ok rootMinus1 =>
    match pw x rootMinus1 with
    | none => none
    | some (.error _) => some (x, false)
    | some (.ok xPowerNMinus1) =>
      match divide absNumber xPowerNMinus1 with
      | .error _ => some (x, false)
      | .ok dividend =>
        match multiply rootMinus1 x with
        | .error _ => some (x, false)
        | .ok term1 =>
          match add term1 dividend with
          | .error _ => some (x, false)
          | .ok numerator =>
            match divide numerator root with
            | .error _ => some (x, false)
            | .ok x2 =>
              match subtract x2 x with
              | .error _ => some (x2, false)
              | .ok diff =>
                let diff := if startsWith diff '-' then diff.drop 1 else diff
                if compareAbs diff "0.000000001".toList < 0 then some (x2, false)
                else some (x2, true)

/-- The loop `while (iterations < maxIterations)` of `nthRoot`; the counter is the number
of passes left. -/
def newtonLoop (pw : Str → Str → Option (Except Exn Str)) (absNumber root : Str) :
    Nat → Str → Option Str
  | 0, x => some x
  | left + 1, x =>
    match newtonStep pw absNumber root x with
    | none => none
    | some (x2, false) => some x2
    | some (x2, true) => newtonLoop pw absNumber root left x2

/-- The constant `maxIterations` of `nthRoot`. -/
def maxIterations : Nat := 50

/-- The body of `nthRoot` (calc.cpp 556-644), with `pw` standing for `power`. -/
def nthRootBody (pw : Str → Str → Option (Except Exn Str)) (number root : Str) :
    Option (Except Exn Str) :=
  if !isValidNumber number || !isValidNumber root then
    some (invalid_argument "Invalid input for nth root".toList)
  else if number == ['0'] then some (.ok ['0'])
  else if number == ['1'] then some (.ok ['1'])
  else if root == ['1'] then some (.ok number)
  else if root == ['0'] then some (domain_error "Cannot take 0th root".toList)
  else
    let negativeNumber := startsWith number '-'
    let absNumber := if negativeNumber then number.drop 1 else number
    if negativeNumber && !hasDot root && rootIntLoop root 0 % 2 == 0 then
      some (domain_error "Even root of negative number is undefined in real numbers".toList)
    else
      match divide absNumber root with
      | .error e => some (.error e)
      | .ok x =>
        let x := if compareAbs x "0.001".toList < 0 then "0.001".toList else x
        let x := if compareAbs x "1000".toList > 0 then "1000".toList else x
        match newtonLoop pw absNumber root maxIterations x with
        | none => none
        | some x => some (.ok (if negativeNumber then '-' :: x else x))

/-- The loop `for (i < fractionalPart.length()) denominator = multiply(denominator, "10")`
of `powerDecimal`; the counter is the number of passes left. -/
def denominatorLoop : Nat → Str → Except Exn Str
  | 0, denominator => .ok denominator
  | n + 1, denominator =>
    match multiply denominator ['1', '0'] with
    | .error e => .error e
    | .ok d => denominatorLoop n d

/-- The reduction loop of `powerDecimal`, on the reversed numerator and denominator:
`while (numerator.length() > 1 && numerator.back() == '0' && denominator.length() > 1)`. -/
def reduceLoop : Str → Str → Str × Str
  | n :: n2 :: ns, d :: d2 :: ds =>
    if n == '0' then reduceLoop (n2 :: ns) (d2 :: ds) else (n :: n2 :: ns, d :: d2 :: ds)
  | numerator, denominator => (numerator, denominator)

/-- The `try` block of `powerDecimal` (calc.cpp 701-727), with `pw` and `nr` standing for
`power` and `nthRoot`. -/
def powerDecimalTry (pw nr : Str → Str → Option (Except Exn Str))
    (base integerPart numerator denominator : Str) (negativeExponent : Bool) :
    Option (Except Exn Str) :=
  let result : Option (Except Exn Str) :=
    if integerPart != ['0'] then
      match pw base integerPart with
      | none => none
      | some (.error e) => some (.error e)
      | some (.ok integerResult) =>
        if numerator != ['0'] then
          match pw integerResult numerator with
          | none => none
          | some (.error e) => some (.error e)
          | some (.ok powered) => nr powered denominator
        else some (.ok integerResult)
    else
      match pw base numerator with
      | none => none
      | some (.error e) => some (.error e)
      | some (.ok powered) => nr powered denominator
  match result with
  | none => none
  | some (.error e) => some (.error e)
  | some (.ok result) => some (if negativeExponent then divide ['1'] result else .ok result)

/-- The body of `powerDecimal` (calc.cpp 647-733), with `pw` and `nr` standing for `power`
and `nthRoot`. -/
def powerDecimalBody (pw nr : Str → Str → Option (Except Exn Str)) (base exponent : Str) :
    Option (Except Exn Str) :=
  if !isValidNumber base || !isValidNumber exponent then
    some (invalid_argument "Invalid input for decimal power".toList)
  else if base == ['0'] then
    if startsWith exponent '-' then
      some (domain_error "0 to negative power is undefined".toList)
    else some (.ok ['0'])
  else if base == ['1'] then some (.ok ['1'])
  else if exponent == ['0'] then some (.ok ['1'])
  else if exponent == ['1'] then some (.ok base)
  else
    let negativeExponent := startsWith exponent '-'
    let absExponent := if negativeExponent then exponent.drop 1 else exponent
    let integerPart := intPart absExponent
    let fractionalPart := if hasDot absExponent then decPart absExponent else absExponent
    let integerPart := if integerPart.isEmpty then ['0'] else integerPart
    let fractionalPart := (fractionalPart.reverse.dropWhile (fun c => c == '0')).reverse
    if fractionalPart.isEmpty then
      match pw base integerPart with
      | none => none
      | some (.error e) => some (.error e)
      | some (.ok r) => some (if negativeExponent then divide ['1'] r else .ok r)
    else
      match denominatorLoop fractionalPart.length ['1'] with
      | .error e => some (.error e)
      | .ok denominator =>
        let (numeratorRev, denominatorRev) := reduceLoop fractionalPart.reverse denominator.reverse
        let numerator := numeratorRev.reverse
        let denominator := denominatorRev.reverse
        match powerDecimalTry pw nr base integerPart numerator denominator negativeExponent with
        | none => none
        | some (.error _) =>
          some (.ok ("decimal_power(".toList ++ base ++ ", ".toList ++ exponent ++
            ") [approximation needed]".toList))
        | some (.ok result) => some (.ok result)

/-- The body of `power` (calc.cpp 486-553), with `pd` standing for `powerDecimal`. -/
def powerBody (pd : Str → Str → Option (Except Exn Str)) (base exponent : Str) :
    Option (Except Exn Str) :=
  if !isValidNumber base then some (invalid_argument ("Invalid base: ".toList ++ base))
  else if !isValidNumber exponent then
    some (invalid_argument ("Invalid exponent: ".toList ++ exponent))
  else if exponent == ['0'] then some (.ok ['1'])
  else if base == ['0'] then some (.ok ['0'])
  else if base == ['1'] then some (.ok ['1'])
  else if exponent == ['1'] then some (.ok base)
  else
    let negativeExponent := startsWith exponent '-'
    let absExponent := if negativeExponent then exponent.drop 1 else exponent
    if hasDot absExponent then pd base exponent
    else some (powerInteger base exponent absExponent negativeExponent)

mutual
/-- Source function `power`, run with a bound on the depth of nested calls among `power`,
`powerDecimal` and `nthRoot`; `none` when the bound is used up. -/
def powerAux : Nat → Str → Str → Option (Except Exn Str)
  | 0, _, _ => none
  | depth + 1, base, exponent => powerBody (powerDecimalAux depth) base exponent
/-- Source function `powerDecimal` under the same bound. -/
def powerDecimalAux : Nat → Str → Str → Option (Except Exn Str)
  | 0, _, _ => none
  | depth + 1, base, exponent => powerDecimalBody (powerAux depth) (nthRootAux depth) base exponent
/-- Source function `nthRoot` under the same bound. -/
def nthRootAux : Nat → Str → Str → Option (Except Exn Str)
  | 0, _, _ => none
  | depth + 1, number, root => nthRootBody (powerAux depth) number root
end

/-- The longest chain of nested calls is `nthRoot`, `power`, `powerDecimal`, `nthRoot`,
`power`: a point in the exponent sends `power` to `powerDecimal`, which hands `power` and
`nthRoot` texts without a point. -/
def callDepth : Nat := 5

/-- What a call yields when it finishes within the depth bound. -/
def finished (r : Option (Except Exn Str)) : Except Exn Str :=
  match r with
  | some r => r
  | none => .error ⟨.domainError, "call depth exceeded".toList⟩

/-- Source function `power` (calc.cpp 486-553). -/
def power (base exponent : Str) : Except Exn Str := finished (powerAux callDepth base exponent)

/-- Source function `nthRoot` (calc.cpp 556-644). -/
def nthRoot (number root : Str) : Except Exn Str := finished (nthRootAux callDepth number root)

/-- Source function `powerDecimal` (calc.cpp 647-733). -/
def powerDecimal (base exponent : Str) : Except Exn Str :=
  finished (powerDecimalAux callDepth base exponent)

/-! ## parsing.cpp: tokens, the tokenizer and the shunting yard -/

/-- The enumeration `TokenType`. -/
inductive TokenType where
  | NUMBER
  | OPERATOR
  | FUNCTION
  | LEFT_PAREN
  | RIGHT_PAREN
  | VARIABLE
deriving DecidableEq, Repr

/-- The structure `Token`; the constructor defaults are `precedence = 0` and
`rightAssociative = false`. -/
structure Token where
  type : TokenType
  value : Str
  precedence : Nat := 0
  rightAssociative : Bool := false
deriving DecidableEq, Repr

/-- The table `operatorMap` (parsing.cpp 59-63): precedence and right-associativity. -/
def operatorMap (op : Str) : Option (Nat × Bool) :=
  if op == ['+'] then some (1, false)
  else if op == ['-'] then some (1, false)
  else if op == ['*'] then some (2, false)
  else if op == ['/'] then some (2, false)
  else if op == ['%'] then some (2, false)
  else if op == ['^'] then some (4, true)
  else if op == ['*', '*'] then some (4, true)
  else none

/-- The keys of the table `functionMap` (parsing.cpp 66-73). -/
def functionNames : List Str :=
  ["sin", "cos", "tan", "asin", "acos", "atan", "sinh", "cosh", "tanh",
   "log", "ln", "log10", "sqrt", "abs", "inv", "exp", "floor", "ceil"].map String.toList

/-- The test `functionMap.find(name) != functionMap.end()`. -/
def isFunctionName (name : Str) : Bool := functionNames.contains name

/-- The C library test `isspace` in the C locale. -/
def isSpace (c : Char) : Bool := c.toNat == 32 || (decide (9 ≤ c.toNat) && decide (c.toNat ≤ 13))

/-- The C library test `isalpha` in the C locale. -/
def isAlpha (c : Char) : Bool :=
  (decide (97 ≤ c.toNat) && decide (c.toNat ≤ 122)) ||
    (decide (65 ≤ c.toNat) && decide (c.toNat ≤ 90))

/-- Source function `isAlphaNum` (parsing.cpp 76-78). -/
def isAlphaNum (c : Char) : Bool := isAlpha c || isDigit c

/-- The condition of the number loop of `tokenize` on the character `c = expression[i]`,
where `prev` is `expression[i-1]` (`none` when `i = 0`). -/
def isNumberChar (prev : Option Char) (c : Char) : Bool :=
  isDigit c || c == '.' || c == 'e' || c == 'E' ||
    (c == '-' && (prev == some 'e' || prev == some 'E'))

/-- The number loop of `tokenize`: the characters taken into `current`, the text left,
and the last character passed. -/
def scanNumber : Option Char → Str → Str × Str × Option Char
  | prev, [] => ([], [], prev)
  | prev, c :: cs =>
    if isNumberChar prev c then
      let (current, rest, last) := scanNumber (some c) cs
      (c :: current, rest, last)
    else ([], c :: cs, prev)

/-- The identifier loop of `tokenize`. -/
def scanIdent : Option Char → Str → Str × Str × Option Char
  | prev, [] => ([], [], prev)
  | prev, c :: cs =>
    if isAlphaNum c then
      let (current, rest, last) := scanIdent (some c) cs
      (c :: current, rest, last)
    else ([], c :: cs, prev)

/-- The `for` loop of `tokenize` from position `i` on: `prev` is `expression[i-1]` and the
text is `expression` from `i`. Every pass takes at least one character, so the length of the
text bounds the number of passes (the first argument). -/
def tokenizeLoop : Nat → Option Char → Str → List Token
  | 0, _, _ => []
  | _ + 1, _, [] => []
  | fuel + 1, prev, c :: cs =>
    if isSpace c then tokenizeLoop fuel (some c) cs
    else if isDigit c || c == '.' then
      let (current, rest, last) := scanNumber prev (c :: cs)
      { type := .NUMBER, value := current } :: tokenizeLoop fuel last rest
    else if isAlpha c then
      let (current, rest, last) := scanIdent prev (c :: cs)
      if isFunctionName current then
        { type := .FUNCTION, value := current } :: tokenizeLoop fuel last rest
      else { type := .VARIABLE, value := current } :: tokenizeLoop fuel last rest
    else if c == '+' || c == '-' || c == '*' || c == '/' || c == '%' || c == '^' then
      let double := c == '*' && startsWith cs '*'
      let op := if double then ['*', '*'] else [c]
      let rest := if double then cs.drop 1 else cs
      let last := if double then some '*' else some c
      match operatorMap op with
      | some opInfo =>
        { type := .OPERATOR, value := op, precedence := opInfo.1, rightAssociative := opInfo.2 } ::
          tokenizeLoop fuel last rest
      | none => tokenizeLoop fuel last rest
    else if c == '(' then { type := .LEFT_PAREN, value := ['('] } :: tokenizeLoop fuel (some c) cs
    else if c == ')' then { type := .RIGHT_PAREN, value := [')'] } :: tokenizeLoop fuel (some c) cs
    else tokenizeLoop fuel (some c) cs

/-- Source function `tokenize` (parsing.cpp 81-150). -/
def tokenize (expression : Str) : List Token := tokenizeLoop expression.length none expression

/-- The operator loop of `shuntingYard` (parsing.cpp 169-176): pops from the operator
stack to the output; returns the output and the stack. -/
def popOperators (token : Token) : List Token → List Token → List Token × List Token
  | output, [] => (output, [])
  | output, top :: operators =>
    if top.type != TokenType.LEFT_PAREN &&
        (top.type == TokenType.FUNCTION || decide (top.precedence > token.precedence) ||
          (top.precedence == token.precedence && !token.rightAssociative)) then
      popOperators token (output ++ [top]) operators
    else (output, top :: operators)

/-- The first loop of the `RIGHT_PAREN` case (parsing.cpp 185-188): pops to the output
until a left parenthesis is on top. -/
def popToLeftParen : List Token → List Token → List Token × List Token
  | output, [] => (output, [])
  | output, top :: operators =>
    if top.type != TokenType.LEFT_PAREN then popToLeftParen (output ++ [top]) operators
    else (output, top :: operators)

/-- One pass of the `for` loop of `shuntingYard` on the pair of output and operator stack. -/
def shuntingStep (state : List Token × List Token) (token : Token) : List Token × List Token :=
  let (output, operators) := state
  match token.type with
  | .NUMBER => (output ++ [token], operators)
  | .VARIABLE => (output ++ [token], operators)
  | .FUNCTION => (output, token :: operators)
  | .OPERATOR =>
    let (output, operators) := popOperators token output operators
    (output, token :: operators)
  | .LEFT_PAREN => (output, token :: operators)
  | .RIGHT_PAREN =>
    let (output, operators) := popToLeftParen output operators
    let operators :=
      match operators with
      | top :: below => if top.type == TokenType.LEFT_PAREN then below else top :: below
      | [] => []
    match operators with
    | top :: below =>
      if top.type == TokenType.FUNCTION then (output ++ [top], below) else (output, top :: below)
    | [] => (output, [])

/-- Source function `shuntingYard` (parsing.cpp 153-208); the final loop appends the
operator stack, top first. -/
def shuntingYard (tokens : List Token) : List Token :=
  let (output, operators) := tokens.foldl shuntingStep ([], [])
  output ++ operators

/-! ## evaluator.cpp: complex values and the postfix evaluator -/

/-- The structure `ComplexNumber`. -/
structure ComplexNumber where
  real : Str
  imaginary : Str
deriving DecidableEq, Repr

/-- The marker of a value built from a real part alone. -/
def notInitiated : Str := "not initiated".toList

/-- The one-argument constructor `ComplexNumber(r)`. -/
def ComplexNumber.ofReal (r : Str) : ComplexNumber := { real := r, imaginary := notInitiated }

/-- Member function `ComplexNumber::isReal`. -/
def ComplexNumber.isReal (z : ComplexNumber) : Bool :=
  z.imaginary == notInitiated || z.imaginary == ['0']

/-- Member function `ComplexNumber::toString` (evaluator.cpp 77-92). -/
def ComplexNumber.toString (z : ComplexNumber) : Str :=
  if z.isReal then z.real
  else if z.real == ['0'] && z.imaginary == ['1'] then ['i']
  else if z.real == ['0'] && z.imaginary == ['-', '1'] then ['-', 'i']
  else if z.real == ['0'] then z.imaginary ++ ['i']
  else if z.imaginary == ['0'] then z.real
  else
    let sign : Str := if startsWith z.imaginary '-' then [] else ['+']
    if z.imaginary == ['1'] then z.real ++ ['+', 'i']
    else if z.imaginary == ['-', '1'] then z.real ++ ['-', 'i']
    else z.real ++ sign ++ z.imaginary ++ ['i']

/-- The expression `z.isReal() ? "0" : z.imaginary`. -/
def ComplexNumber.imagOrZero (z : ComplexNumber) : Str := if z.isReal then ['0'] else z.imaginary

/-- The closing lines of the four complex operations: a real value when `imagPart == "0"`. -/
def ComplexNumber.collapse (realPart imagPart : Str) : ComplexNumber :=
  if imagPart == ['0'] then .ofReal realPart else { real := realPart, imaginary := imagPart }

/-- Source function `addComplex` (evaluator.cpp 96-105). -/
def addComplex (a b : ComplexNumber) : Except Exn ComplexNumber := do
  let realPart ← add a.real b.real
  let imagPart ← add a.imagOrZero b.imagOrZero
  pure (ComplexNumber.collapse realPart imagPart)

/-- Source function `subtractComplex` (evaluator.cpp 107-116). -/
def subtractComplex (a b : ComplexNumber) : Except Exn ComplexNumber := do
  let realPart ← subtract a.real b.real
  let imagPart ← subtract a.imagOrZero b.imagOrZero
  pure (ComplexNumber.collapse realPart imagPart)

/-- Source function `multiplyComplex` (evaluator.cpp 118-132). The two products inside one
call are taken left to right; the order only decides which of two exceptions is seen. -/
def multiplyComplex (a b : ComplexNumber) : Except Exn ComplexNumber := do
  let ar := a.real
  let ai := a.imagOrZero
  let br := b.real
  let bi := b.imagOrZero
  let realPart ← subtract (← multiply ar br) (← multiply ai bi)
  let imagPart ← add (← multiply ar bi) (← multiply ai br)
  pure (ComplexNumber.collapse realPart imagPart)

/-- Source function `divideComplex` (evaluator.cpp 134-157). -/
def divideComplex (a b : ComplexNumber) : Except Exn ComplexNumber := do
  let ar := a.real
  let ai := a.imagOrZero
  let br := b.real
  let bi := b.imagOrZero
  let denominator ← add (← multiply br br) (← multiply bi bi)
  if denominator == ['0'] then domain_error "Division by zero".toList
  else
    let realNum ← add (← multiply ar br) (← multiply ai bi)
    let imagNum ← subtract (← multiply ai br) (← multiply ar bi)
    let realPart ← divide realNum denominator
    let imagPart ← divide imagNum denominator
    pure (ComplexNumber.collapse realPart imagPart)

/-- Source function `parseVariable` (evaluator.cpp 160-171). -/
def parseVariable (variableName : Str) : ComplexNumber :=
  if variableName == ['i'] || variableName == ['j'] then { real := ['0'], imaginary := ['1'] }
  else if variableName == ['p', 'i'] then
    .ofReal
      "3.141592653589793238462643383279502884197169399375105820974944592307816406286".toList
  else if variableName == ['e'] then
    .ofReal
      "2.718281828459045235360287471352662497757247093699959574966967627724076630353".toList
  else .ofReal ['0']

/-- The placeholder `name(text)` that most functions return. -/
def placeholder (name text : Str) : ComplexNumber := .ofReal (name ++ ['('] ++ text ++ [')'])

/-- The shared shape of the placeholder branches of `applyFunction`: `name(real)` for a
real operand, `complex_name(text)` otherwise. -/
def placeholderFor (name : Str) (operand : ComplexNumber) : ComplexNumber :=
  if operand.isReal then placeholder name operand.real
  else placeholder ("complex_".toList ++ name) operand.toString

/-- Source function `applyFunction` (evaluator.cpp 174-269). -/
def applyFunction (functionName : Str) (operand : ComplexNumber) : Except Exn ComplexNumber :=
  if functionName == "inv".toList then
    if operand.isReal then
      if operand.real == ['0'] then domain_error "Cannot take inverse of zero".toList
      else do
        let r ← divide ['1'] operand.real
        pure (.ofReal r)
    else do
      let a := operand.real
      let b := operand.imaginary
      let denom ← add (← multiply a a) (← multiply b b)
      if denom == ['0'] then domain_error "Cannot take inverse of zero".toList
      else
        let realPart ← divide a denom
        let imagPart ← divide (← multiply ['-', '1'] b) denom
        pure { real := realPart, imaginary := imagPart }
  else if functionName == "abs".toList then
    if operand.isReal then
      if startsWith operand.real '-' then .ok (.ofReal (operand.real.drop 1)) else .ok operand
    else do
      let a := operand.real
      let b := operand.imaginary
      let magnitude_squared ← add (← multiply a a) (← multiply b b)
      pure (placeholder "sqrt".toList magnitude_squared)
  else if functionName == "sqrt".toList then .ok (placeholderFor "sqrt".toList operand)
  else if functionName == "ln".toList then .ok (placeholderFor "ln".toList operand)
  else if functionName == "log".toList || functionName == "log10".toList then
    .ok (placeholderFor "log10".toList operand)
  else if functionName == "sin".toList || functionName == "cos".toList ||
      functionName == "tan".toList then .ok (placeholderFor functionName operand)
  else if functionName == "asin".toList || functionName == "acos".toList ||
      functionName == "atan".toList then .ok (placeholderFor functionName operand)
  else if functionName == "sinh".toList || functionName == "cosh".toList ||
      functionName == "tanh".toList then .ok (placeholderFor functionName operand)
  else if functionName == "exp".toList then .ok (placeholderFor "exp".toList operand)
  else if functionName == "floor".toList || functionName == "ceil".toList then
    if operand.isReal then .ok (placeholder functionName operand.real)
    else domain_error (functionName ++ " not defined for complex numbers".toList)
  else invalid_argument ("Unknown function: ".toList ++ functionName)

/-- The `OPERATOR` case of `evaluatePostfixExpression` once `b` and `a` are popped
(evaluator.cpp 306-329). -/
def applyOperator (op : Str) (a b : ComplexNumber) : Except Exn ComplexNumber :=
  if op == ['+'] then addComplex a b
  else if op == ['-'] then subtractComplex a b
  else if op == ['*'] then multiplyComplex a b
  else if op == ['/'] || op == "÷".toList then divideComplex a b
  else if op == ['^'] || op == ['*', '*'] then
    if a.isReal && b.isReal then
      match power a.real b.real with
      | .ok powerResult => .ok (.ofReal powerResult)
      | .error e => .ok (.ofReal ("Power Error: ".toList ++ e.what))
    else
      .ok (.ofReal ("complex_pow(".toList ++ a.toString ++ ", ".toList ++ b.toString ++ [')']))
  else invalid_argument ("Unknown operator: ".toList ++ op)

/-- The `for` loop of `evaluatePostfixExpression` on the value stack (top first). -/
def evalLoop : List Token → List ComplexNumber → Except Exn (List ComplexNumber)
  | [], evalStack => .ok evalStack
  | token :: rest, evalStack =>
    match token.type with
    | .NUMBER => evalLoop rest (.ofReal token.value :: evalStack)
    | .VARIABLE => evalLoop rest (parseVariable token.value :: evalStack)
    | .OPERATOR =>
      match evalStack with
      | b :: a :: below =>
        match applyOperator token.value a b with
        | .error e => .error e
        | .ok r => evalLoop rest (r :: below)
      | _ =>
        invalid_argument
          ("Invalid expression: not enough operands for operator ".toList ++ token.value)
    | .FUNCTION =>
      match evalStack with
      | operand :: below =>
        match applyFunction token.value operand with
        | .error e => .error e
        | .ok r => evalLoop rest (r :: below)
      | [] =>
        invalid_argument ("Invalid expression: no operand for function ".toList ++ token.value)
    | _ => invalid_argument "Unexpected token type in postfix expression".toList

/-- Source function `evaluatePostfixExpression` (evaluator.cpp 272-364). -/
def evaluatePostfixExpression (postfixTokens : List Token) : Except Exn Str :=
  match evalLoop postfixTokens [] with
  | .error e => .error e
  | .ok [top] => .ok top.toString
  | .ok evalStack =>
    invalid_argument ("Invalid expression: final stack size is ".toList ++
      (toString evalStack.length).toList ++ ", expected 1".toList)

/-- Source function `parseExpression` (parsing.cpp 212-236). -/
def parseExpression (expression : Str) : Str :=
  match evaluatePostfixExpression (shuntingYard (tokenize expression)) with
  | .ok result => "Result: ".toList ++ result
  | .error e => "Error: ".toList ++ e.what

/-! ## Vocabulary of the statements -/

/-- An unsigned decimal literal: non-empty, digits and points only, at most one point. -/
def isUnsignedLiteral (a : Str) : Bool :=
  !a.isEmpty && a.all (fun c => isDigit c || c == '.') && decide (a.count '.' ≤ 1)

/-- A character that ends a number run of the tokenizer whatever came before it. -/
def endsNumber (c : Char) : Bool :=
  !(isDigit c || c == '.' || c == 'e' || c == 'E' || c == '-')

/-- The `Number` token of a literal: `Token(NUMBER, a)`. -/
def numberToken (a : Str) : Token := { type := .NUMBER, value := a }

/-- The `Operator` token of a symbol: `Token(OPERATOR, op, precedence, rightAssociative)`. -/
def operatorToken (op : Str) (precedence : Nat) (rightAssociative : Bool) : Token :=
  { type := .OPERATOR, value := op, precedence := precedence,
    rightAssociative := rightAssociative }

/-- The number a list of digit cells denotes, most significant cell first. -/
def cellsVal : List Nat → Nat
  | [] => 0
  | x :: xs => x * 10 ^ xs.length + cellsVal xs

/-- The canonical decimal text of a natural number: its decimal digits, most significant
first, and `"0"` for zero. -/
def natText (n : Nat) : Str :=
  if n = 0 then ['0'] else (Nat.digits 10 n).reverse.map digitChar

/-- The canonical decimal text of an integer: a `'-'` before the digits of a negative one. -/
def intText (x : Int) : Str :=
  if x < 0 then '-' :: natText x.natAbs else natText x.natAbs

/-- The normalisation the engine applies to its results. -/
def canonicalize (x : Str) : Str := removeTrailingZeros (removeLeadingZeros x)

/-- The fractional digits with their trailing zeros removed. -/
def stripTrailingZeros (F : Str) : Str := (F.reverse.dropWhile (fun d => d == '0')).reverse

/-- What is left of `.F` after normalisation: nothing when `F` is all zeros. -/
def fractionTail (F : Str) : Str :=
  if (stripTrailingZeros F).isEmpty then [] else '.' :: stripTrailingZeros F

/-- The text without a leading `'+'`. -/
def dropPlus (a : Str) : Str := if startsWith a '+' then a.drop 1 else a

/-- A zero written with a bare point: behind the optional sign, only zeros (or nothing)
before the point and nothing after it, such as `"0."`, `"."` or `"-00."`. -/
def isBarePointZero (a : Str) : Bool := (absText a).dropWhile (fun d => d == '0') == ['.']

/-- A canonical non-negative integer text: digits only, and no leading zero except in
`"0"` itself. -/
def isCanonicalNat (s : Str) : Bool :=
  !s.isEmpty && s.all isDigit && (s == ['0'] || !startsWith s '0')

/-- A canonical integer text: a canonical non-negative one, or `'-'` before one other
than `"0"`. -/
def isCanonicalInt (s : Str) : Bool :=
  isCanonicalNat s || (startsWith s '-' && isCanonicalNat (s.drop 1) && s.drop 1 != ['0'])

/-- The integer a signed digit string denotes. -/
def intVal (s : Str) : Int :=
  if startsWith s '-' then -((natVal (s.drop 1) : Nat) : Int) else ((natVal s : Nat) : Int)

/-- A canonical Decimal in the words of the data model: an optional `'-'`, a non-empty
integer digit run without a redundant leading zero, and an optional `'.'` followed by a
non-empty fractional digit run without a trailing zero; zero only as `"0"`. -/
def isCanonicalDecimal (s : Str) : Bool :=
  let body := if startsWith s '-' then s.drop 1 else s
  let fraction := decPart body
  isCanonicalNat (intPart body) &&
    (!hasDot body ||
      (!fraction.isEmpty && fraction.all isDigit && fraction.getLast? != some '0')) &&
    !(startsWith s '-' && body == ['0'])

/-- The five operator symbols of the claim on missing operands. -/
def operatorSymbols : List Char := ['+', '-', '*', '/', '^']

/-- The message of the exception for a missing operand. -/
def notEnoughOperands (op : Str) : Exn :=
  ⟨.invalidArgument, "Invalid expression: not enough operands for operator ".toList ++ op⟩

/-- The grammar of a valid number in the words of the specification: an optional leading
`'+'` or `'-'`, then at least one digit, then optionally one `'.'` followed by zero or more
digits. -/
def claimedValidNumber (s : Str) : Bool :=
  let body := dropSign s
  let rest := body.dropWhile isDigit
  !(body.takeWhile isDigit).isEmpty &&
    (rest.isEmpty || (startsWith rest '.' && (rest.drop 1).all isDigit))

/-- Zero or more digits, then optionally one `'.'` followed by zero or more digits. -/
def decimalShape (body : Str) : Bool :=
  let rest := body.dropWhile isDigit
  rest.isEmpty || (startsWith rest '.' && (rest.drop 1).all isDigit)

/-- The grammar the code follows by design: an optional leading `'+'` or `'-'`, then zero or
more digits, then optionally one `'.'` followed by zero or more digits, with at least one
digit in all. -/
def relaxedValidNumber (s : Str) : Bool :=
  decimalShape (dropSign s) && (dropSign s).any isDigit

/-- The three texts made of a point alone behind an optional sign. -/
def isBarePoint (s : Str) : Bool := s == ['.'] || s == ['+', '.'] || s == ['-', '.']

/-- The three-way comparison of two natural numbers as -1, 0 or 1. -/
def cmp3 (x y : Nat) : Int := if x < y then -1 else if x = y then 0 else 1

/-- The magnitude a decimal text denotes, as a rational number: the sign is dropped, and an
absent integer or fractional digit run reads as zero. -/
def magnitude (s : Str) : ℚ :=
  (natVal (intPart (absText s)) : ℚ) +
    (natVal (decPart (absText s)) : ℚ) / 10 ^ (decPart (absText s)).length

/-- The digits of an integer exponent text: the text behind an optional `'-'`. -/
def exponentDigits (e : Str) : Str := if startsWith e '-' then e.drop 1 else e

/-- An integer exponent text: an optional `'-'` and then at least one digit, digits only. -/
def isIntegerExponent (e : Str) : Bool :=
  !(exponentDigits e).isEmpty && (exponentDigits e).all isDigit

/-- The marker `power` returns for an exponent of more than nine digits. -/
def tooLargeMarker (base exponent : Str) : Str :=
  "power(".toList ++ base ++ ", ".toList ++ exponent ++ ") [exponent too large]".toList

/-- The marker `power` returns for an exponent above 1000. -/
def tooLargeForComputationMarker (base exponent : Str) : Str :=
  "power(".toList ++ base ++ ", ".toList ++ exponent ++
    ") [exponent too large for computation]".toList

/-- The squaring loop of `power` (`powLoop`) with the multiplication routine abstracted to
`mul`, to state that a run does not depend on it. -/
def powLoopWith (mul : Str → Str → Except Exn Str) : Nat → Nat → Str → Str → Except Exn Str
  | 0, _, result, _ => .ok result
  | fuel + 1, exp, result, currentBase =>
    if exp > 0 then
      match (if exp % 2 == 1 then mul result currentBase else .ok result) with
      | .error e => .error e
      | .ok result =>
        match (if exp > 1 then mul currentBase currentBase else .ok currentBase) with
        | .error e => .error e
        | .ok currentBase => powLoopWith mul fuel (exp / 2) result currentBase
    else .ok result

/-- The integer-exponent part of `power` (`powerInteger`) with the multiplication routine
abstracted to `mul`. -/
def powerIntegerWith (mul : Str → Str → Except Exn Str) (base exponent absExponent : Str)
    (negativeExponent : Bool) : Except Exn Str :=
  if absExponent.length > 9 then
    .ok ("power(".toList ++ base ++ ", ".toList ++ exponent ++ ") [exponent too large]".toList)
  else
    match parseExponent absExponent 0 with
    | .badFormat => invalid_argument ("Invalid exponent format: ".toList ++ exponent)
    | .tooLarge =>
      .ok ("power(".toList ++ base ++ ", ".toList ++ exponent ++
        ") [exponent too large for computation]".toList)
    | .value exp =>
      if exp == 0 then .ok ['1']
      else if exp == 1 then .ok base
      else
        match powLoopWith mul exp exp ['1'] base with
        | .error e => .error e
        | .ok result => if negativeExponent then divide ['1'] result else .ok result

/-- A character the arithmetic routines can write: `'-'`, `'.'` or `char(n + '0')`. -/
def MachineChar (c : Char) : Prop := c = '-' ∨ c = '.' ∨ ∃ n : Nat, c = digitChar n

/-- The integer dividend, the integer divisor and the decimal shift that `divide` derives
from its operands (calc.cpp 393-429). -/
def divisionOperands (operand1 operand2 : Str) : Str × Str × Int :=
  let abs1 := absText operand1
  let abs2 := absText operand2
  let dec1 := decPart abs1
  let dec2 := decPart abs2
  let dividend := intPart abs1 ++ dec1
  let divisor := intPart abs2 ++ dec2
  let decimalShift : Int := (dec2.length : Int) - (dec1.length : Int)
  let dividend :=
    if decimalShift > 0 then dividend ++ List.replicate decimalShift.toNat '0' else dividend
  let decimalShift : Int := if decimalShift > 0 then 0 else decimalShift
  (removeLeadingZeros dividend, removeLeadingZeros divisor, decimalShift)

/-- The point placement of `divide` for a negative decimal shift (calc.cpp 437-444). -/
def placeShift (quotient : Str) (decimalShift : Int) : Str :=
  if decimalShift < 0 then
    let insertPos : Int := (quotient.length : Int) + decimalShift
    if insertPos ≤ 0 then
      '0' :: '.' :: (List.replicate (-insertPos).toNat '0' ++ quotient)
    else if insertPos < (quotient.length : Int) then
      quotient.take insertPos.toNat ++ '.' :: quotient.drop insertPos.toNat
    else quotient
  else quotient

/-- The closing part of `divide` from the integer quotient and remainder on
(calc.cpp 437-482). -/
def finishDivide (divisor quotient remainder : Str) (decimalShift : Int)
    (resultNegative : Bool) : Str :=
  let quotient := placeShift quotient decimalShift
  let quotient :=
    if remainder != ['0'] && !hasDot quotient then quotient ++ ['.'] else quotient
  let quotient := divDecLoop divisor MAX_DECIMAL_PLACES quotient remainder
  let quotient := removeTrailingZeros (removeLeadingZeros quotient)
  if resultNegative && quotient != ['0'] then '-' :: quotient else quotient

/-- The rational number a decimal text denotes: its magnitude, negated behind a `'-'`. -/
def decimalValue (s : Str) : ℚ := if startsWith s '-' then -magnitude s else magnitude s

/-- The number a digit string denotes when read last digit first, as the loops of
`addPositive` and `subtractPositive` walk it. -/
def leVal : Str → Nat
  | [] => 0
  | c :: cs => digitVal c + 10 * leVal cs

/-- The digits of a positive number, most significant first; the empty text for zero. -/
def digitsText (n : Nat) : Str := (Nat.digits 10 n).reverse.map digitChar

/-- A digit text behind an optional `'-'`: the operands `add` receives from `subtract`
include `"-0"`, which is no canonical integer text. -/
def signedText (neg : Bool) (n : Nat) : Str := if neg then '-' :: natText n else natText n

/-- The integer a signed digit text denotes. -/
def signedVal (neg : Bool) (n : Nat) : Int := if neg then -(n : Int) else (n : Int)

/-- The digit loop of `divideIntegers` (`divDigitLoop`) with `extra` more passes allowed
to the inner subtraction loop. -/
def divDigitLoopWith (extra : Nat) (divisor : Str) : Str → Str → Str → Str × Str
  | [], quotient, remainder => (quotient, remainder)
  | d :: ds, quotient, remainder =>
    let remainder := removeLeadingZeros (remainder ++ [d])
    let (remainder, count) := divSubLoop divisor (natVal remainder + 1 + extra) remainder 0
    divDigitLoopWith extra divisor ds (quotient ++ [digitChar count]) remainder

/-- Source function `divideIntegers` with `extra` more passes allowed to the inner
subtraction loop. -/
def divideIntegersWith (extra : Nat) (dividend divisor : Str) : Except Exn (Str × Str) :=
  if divisor == ['0'] then domain_error "Division by zero".toList
  else if dividend == ['0'] then .ok (['0'], ['0'])
  else if compareAbs dividend divisor < 0 then .ok (['0'], dividend)
  else
    let (quotient, remainder) := divDigitLoopWith extra divisor dividend [] []
    .ok (removeLeadingZeros quotient, removeLeadingZeros remainder)

/-- The decimal-place loop of `divide` (`divDecLoop`) with `extra` more passes allowed to
the inner subtraction loop. -/
def divDecLoopWith (extra : Nat) (divisor : Str) : Nat → Str → Str → Str
  | 0, quotient, _ => quotient
  | places + 1, quotient, remainder =>
    if remainder != ['0'] then
      let remainder := removeLeadingZeros (remainder ++ ['0'])
      let (remainder, count) := divSubLoop divisor (natVal remainder + 1 + extra) remainder 0
      divDecLoopWith extra divisor places (quotient ++ [digitChar count]) remainder
    else quotient

/-- The closing part of `divide` (`finishDivide`) with `extra` more passes allowed to the
inner subtraction loop. -/
def finishDivideWith (extra : Nat) (divisor quotient remainder : Str) (decimalShift : Int)
    (resultNegative : Bool) : Str :=
  let quotient := placeShift quotient decimalShift
  let quotient :=
    if remainder != ['0'] && !hasDot quotient then quotient ++ ['.'] else quotient
  let quotient := divDecLoopWith extra divisor MAX_DECIMAL_PLACES quotient remainder
  let quotient := removeTrailingZeros (removeLeadingZeros quotient)
  if resultNegative && quotient != ['0'] then '-' :: quotient else quotient

/-- Source function `divide` with `extra` more passes allowed to every inner subtraction
loop `while (compareAbs(remainder, divisor) >= 0)`. -/
def divideWith (extra : Nat) (operand1 operand2 : Str) : Except Exn Str :=
  if !isValidNumber operand1 then invalid_argument ("Invalid first operand: ".toList ++ operand1)
  else if !isValidNumber operand2 then
    invalid_argument ("Invalid second operand: ".toList ++ operand2)
  else if isZeroLiteral operand2 then domain_error "Division by zero".toList
  else if isZeroLiteral operand1 then .ok ['0']
  else
    match divideIntegersWith extra (divisionOperands operand1 operand2).1
        (divisionOperands operand1 operand2).2.1 with
    | .error e => .error e
    | .ok (quotient, remainder) =>
      .ok (finishDivideWith extra (divisionOperands operand1 operand2).2.1 quotient remainder
        (divisionOperands operand1 operand2).2.2
        (startsWith operand1 '-' != startsWith operand2 '-'))

/-- The integer part and the fractional part (without trailing zeros) that `powerDecimal`
reads from its exponent (calc.cpp 664-678). -/
def exponentParts (exponent : Str) : Str × Str :=
  let absExponent := if startsWith exponent '-' then exponent.drop 1 else exponent
  let integerPart := intPart absExponent
  let fractionalPart := if hasDot absExponent then decPart absExponent else absExponent
  (if integerPart.isEmpty then ['0'] else integerPart,
    (fractionalPart.reverse.dropWhile (fun c => c == '0')).reverse)

/-- The part of `powerDecimal` behind its guards, from the exponent parts on
(calc.cpp 680-732). -/
def powerDecimalCore (pw nr : Str → Str → Option (Except Exn Str)) (base exponent : Str) :
    Option (Except Exn Str) :=
  if (exponentParts exponent).2.isEmpty then
    match pw base (exponentParts exponent).1 with
    | none => none
    | some (.error e) => some (.error e)
    | some (.ok r) => some (if startsWith exponent '-' then divide ['1'] r else .ok r)
  else
    match denominatorLoop (exponentParts exponent).2.length ['1'] with
    | .error e => some (.error e)
    | .ok denominator =>
      match powerDecimalTry pw nr base (exponentParts exponent).1
          (reduceLoop (exponentParts exponent).2.reverse denominator.reverse).1.reverse
          (reduceLoop (exponentParts exponent).2.reverse denominator.reverse).2.reverse
          (startsWith exponent '-') with
      | none => none
      | some (.error _) =>
        some (.ok ("decimal_power(".toList ++ base ++ ", ".toList ++ exponent ++
          ") [approximation needed]".toList))
      | some (.ok result) => some (.ok result)

/-- A routine that always finishes, standing in where a nested call is never made. -/
def finishedCall : Str → Str → Option (Except Exn Str) := fun _ _ => some (.ok [])

/-- The call `power(base, exponent)` for an exponent without a point: no nested call. -/
def powerFlat : Str → Str → Option (Except Exn Str) := powerBody finishedCall

/-- The call `nthRoot(number, root)` for a root without a point: its nested calls of
`power` have an exponent without a point. -/
def nthRootFlat : Str → Str → Option (Except Exn Str) := nthRootBody powerFlat

/-- The call `powerDecimal(base, exponent)`: its nested calls of `power` and `nthRoot` have
an exponent or a root without a point. -/
def powerDecimalFlat : Str → Str → Option (Except Exn Str) :=
  powerDecimalBody powerFlat nthRootFlat

/-- A token of an integer expression: a canonical unsigned integer literal, one of the
operators `+`, `-`, `*`, or a parenthesis. -/
def isIntegerToken (t : Token) : Bool :=
  (t.type == TokenType.NUMBER && isCanonicalNat t.value) ||
    (t.type == TokenType.OPERATOR &&
      (t.value == ['+'] || t.value == ['-'] || t.value == ['*'])) ||
    t.type == TokenType.LEFT_PAREN || t.type == TokenType.RIGHT_PAREN

/-- A real value whose text is the canonical text of an integer. -/
def IsIntegerValue (z : ComplexNumber) : Prop := ∃ x : Int, z = ComplexNumber.ofReal (intText x)

/-- The message of the error for a final stack of `n` values. -/
def finalStackMessage (n : Nat) : Str :=
  "Invalid expression: final stack size is ".toList ++ (toString n).toList ++
    ", expected 1".toList

/-- The first arguments of the calls `subtractPositive(remainder, divisor)` that the
subtraction loop of the division routines makes, in order: one per pass of the loop. -/
def divSubLoopTrace (divisor : Str) : Nat → Str → List Str
  | 0, _ => []
  | fuel + 1, remainder =>
    if compareAbs remainder divisor ≥ 0 then
      remainder :: divSubLoopTrace divisor fuel (subtractPositive remainder divisor)
    else []

/-- The traces of the subtraction loop over the passes of the digit loop of
`divideIntegers`, one per dividend digit. -/
def divDigitLoopTrace (divisor : Str) : Str → Str → List (List Str)
  | [], _ => []
  | d :: ds, remainder =>
    let remainder := removeLeadingZeros (remainder ++ [d])
    divSubLoopTrace divisor (natVal remainder + 1) remainder ::
      divDigitLoopTrace divisor ds (divSubLoop divisor (natVal remainder + 1) remainder 0).1

/-- The remainder the loop `while (remainder != "0" && decimalPlaces < MAX_DECIMAL_PLACES)`
of `divide` ends with: the loop of `divDecLoop`, followed on its variable `remainder`. -/
def divDecRemainder (divisor : Str) : Nat → Str → Str
  | 0, remainder => remainder
  | places + 1, remainder =>
    if remainder != ['0'] then
      let remainder := removeLeadingZeros (remainder ++ ['0'])
      let (remainder, _) := divSubLoop divisor (natVal remainder + 1) remainder 0
      divDecRemainder divisor places remainder
    else remainder

/-- The unsigned result of `divide`: the normal form of what the decimal loop leaves,
started on the quotient with its point placed. -/
def divideMagnitudeText (divisor quotient remainder : Str) (decimalShift : Int) : Str :=
  canonicalize (divDecLoop divisor MAX_DECIMAL_PLACES
    (if remainder != ['0'] && !hasDot (placeShift quotient decimalShift)
      then placeShift quotient decimalShift ++ ['.'] else placeShift quotient decimalShift)
    remainder)

/-- A character of the alphabet of the tokenizer: a digit, a letter, or one of
`. + - * / % ^ ( )`. -/
def isTokenChar (c : Char) : Bool :=
  isDigit c || isAlpha c || ['.', '+', '-', '*', '/', '%', '^', '(', ')'].contains c

/-- The text with every whitespace character and every character outside the alphabet of
the tokenizer removed. -/
def keptText (s : Str) : Str := s.filter (fun c => !isSpace c && isTokenChar c)

/-- The value fields of a token sequence, concatenated in order. -/
def tokenValues : List Token → Str
  | [] => []
  | token :: tokens => token.value ++ tokenValues tokens

/-- An ASCII text: every character code is below 128. -/
def isAscii (s : Str) : Bool := s.all (fun c => decide (c.toNat < 128))

/-- A parenthesis token, of either kind. -/
def isParen (t : Token) : Bool := t.type == .LEFT_PAREN || t.type == .RIGHT_PAREN

/-- The token sequence with the parenthesis tokens removed. -/
def withoutParens (tokens : List Token) : List Token := tokens.filter (fun t => !isParen t)

/-- The `Number` and `Variable` tokens of a sequence, in order. -/
def operandTokens (tokens : List Token) : List Token :=
  tokens.filter (fun t => t.type == .NUMBER || t.type == .VARIABLE)

/-- The number of `LeftParen` tokens of a sequence. -/
def leftParenCount (tokens : List Token) : Nat :=
  tokens.countP (fun t => t.type == .LEFT_PAREN)

/-- The number of left parentheses open behind a token, from the number open before it:
a left parenthesis opens one, a right parenthesis closes the nearest open one if there is
one. -/
def parenDepth (depth : Nat) (token : Token) : Nat :=
  match token.type with
  | .LEFT_PAREN => depth + 1
  | .RIGHT_PAREN => depth - 1
  | _ => depth

/-- The number of left parentheses of a token sequence that are never closed. -/
def openParens (tokens : List Token) : Nat := tokens.foldl parenDepth 0

/-- The text `powerDecimal` returns when an exception is caught in its `try` block. -/
def approximationMarker (base exponent : Str) : Str :=
  "decimal_power(".toList ++ base ++ ", ".toList ++ exponent ++
    ") [approximation needed]".toList

/-- The text of `10^k`: a one followed by `k` zeros. -/
def powerOfTenText (k : Nat) : Str := '1' :: List.replicate k '0'

/-- The number of passes the Newton loop of `nthRoot` makes, with `left` passes allowed:
the loop of `newtonLoop`, counting. -/
def newtonPasses (pw : Str → Str → Option (Except Exn Str)) (absNumber root : Str) :
    Nat → Str → Nat
  | 0, _ => 0
  | left + 1, x =>
    match newtonStep pw absNumber root x with
    | none => 1
    | some (_, false) => 1
    | some (x2, true) => 1 + newtonPasses pw absNumber root left x2

/-! ## The tokenizer on literals and operator symbols -/

theorem isNumberChar_of_mem (prev : Option Char) (c : Char)
    (h : (isDigit c || c == '.') = true) : isNumberChar prev c = true := by
  unfold isNumberChar
  simp only [Bool.or_eq_true] at h ⊢
  tauto

theorem isNumberChar_of_endsNumber (prev : Option Char) (c : Char)
    (h : endsNumber c = true) : isNumberChar prev c = false := by
  unfold endsNumber at h
  unfold isNumberChar
  simp only [Bool.not_eq_true', Bool.or_eq_false_iff] at h
  obtain ⟨⟨⟨⟨h1, h2⟩, h3⟩, h4⟩, h5⟩ := h
  simp [h1, h2, h3, h4, h5]

theorem scanNumber_run (a : Str) (ha : a.all (fun c => isDigit c || c == '.') = true) :
    ∀ (prev : Option Char) (rest : Str),
      (∀ c ∈ rest.head?, endsNumber c = true) →
      ∃ last, scanNumber prev (a ++ rest) = (a, rest, last) := by
  induction a with
  | nil =>
    intro prev rest hrest
    cases rest with
    | nil => exact ⟨prev, rfl⟩
    | cons c cs =>
      have hc : endsNumber c = true := hrest c (by simp)
      refine ⟨prev, ?_⟩
      simp [scanNumber, isNumberChar_of_endsNumber prev c hc]
  | cons x xs ih =>
    intro prev rest hrest
    simp only [List.all_cons, Bool.and_eq_true] at ha
    obtain ⟨last, hl⟩ := ih ha.2 (some x) rest hrest
    refine ⟨last, ?_⟩
    simp [scanNumber, isNumberChar_of_mem prev x ha.1, hl]

theorem tokenizeLoop_number (a : Str) (ha : isUnsignedLiteral a = true) (fuel : Nat)
    (prev : Option Char) (rest : Str) (hrest : ∀ c ∈ rest.head?, endsNumber c = true) :
    ∃ last, tokenizeLoop (fuel + 1) prev (a ++ rest) =
      numberToken a :: tokenizeLoop fuel last rest := by
  unfold isUnsignedLiteral at ha
  simp only [Bool.and_eq_true, Bool.not_eq_true', decide_eq_true_eq] at ha
  obtain ⟨⟨hne, hall⟩, _⟩ := ha
  obtain ⟨last, hl⟩ := scanNumber_run a hall prev rest hrest
  cases a with
  | nil => simp at hne
  | cons x xs =>
    refine ⟨last, ?_⟩
    simp only [List.all_cons, Bool.and_eq_true] at hall
    have hx := hall.1
    have hsp : isSpace x = false := by
      unfold isSpace
      unfold isDigit at hx
      rcases Bool.or_eq_true _ _ |>.mp hx with h | h
      · simp only [Bool.and_eq_true, decide_eq_true_eq] at h
        simp only [Bool.or_eq_false_iff, beq_eq_false_iff_ne, ne_eq, Bool.and_eq_false_iff,
          decide_eq_false_iff_not]
        omega
      · have : x = '.' := by simpa using h
        subst this
        decide
    rw [List.cons_append] at hl ⊢
    simp only [tokenizeLoop, hsp, hx, hl, numberToken]
    simp

theorem literal_length_pos (a : Str) (ha : isUnsignedLiteral a = true) : 0 < a.length := by
  cases a with
  | nil => simp [isUnsignedLiteral] at ha
  | cons x xs => simp

theorem literal_not_star (a rest : Str) (ha : isUnsignedLiteral a = true) :
    startsWith (a ++ rest) '*' = false := by
  cases a with
  | nil => simp [isUnsignedLiteral] at ha
  | cons x xs =>
    unfold isUnsignedLiteral at ha
    simp only [List.all_cons, Bool.and_eq_true] at ha
    have hx := ha.1.2.1
    simp only [startsWith, List.cons_append, List.head?_cons]
    by_contra h
    have : x = '*' := by simpa using h
    subst this
    revert hx
    decide

theorem tokenizeLoop_plus (fuel : Nat) (prev : Option Char) (rest : Str) :
    tokenizeLoop (fuel + 1) prev ('+' :: rest) =
      operatorToken ['+'] 1 false :: tokenizeLoop fuel (some '+') rest := by
  simp [tokenizeLoop, isSpace, isDigit, isAlpha, operatorMap, operatorToken]

theorem tokenizeLoop_caret (fuel : Nat) (prev : Option Char) (rest : Str) :
    tokenizeLoop (fuel + 1) prev ('^' :: rest) =
      operatorToken ['^'] 4 true :: tokenizeLoop fuel (some '^') rest := by
  simp [tokenizeLoop, isSpace, isDigit, isAlpha, operatorMap, operatorToken]

theorem tokenizeLoop_star (fuel : Nat) (prev : Option Char) (rest : Str)
    (h : startsWith rest '*' = false) :
    tokenizeLoop (fuel + 1) prev ('*' :: rest) =
      operatorToken ['*'] 2 false :: tokenizeLoop fuel (some '*') rest := by
  simp [tokenizeLoop, isSpace, isDigit, isAlpha, operatorMap, operatorToken, h]

theorem tokenizeLoop_lparen (fuel : Nat) (prev : Option Char) (rest : Str) :
    tokenizeLoop (fuel + 1) prev ('(' :: rest) =
      { type := .LEFT_PAREN, value := ['('] } :: tokenizeLoop fuel (some '(') rest := by
  simp [tokenizeLoop, isSpace, isDigit, isAlpha]

theorem tokenizeLoop_rparen (fuel : Nat) (prev : Option Char) (rest : Str) :
    tokenizeLoop (fuel + 1) prev (')' :: rest) =
      { type := .RIGHT_PAREN, value := [')'] } :: tokenizeLoop fuel (some ')') rest := by
  simp [tokenizeLoop, isSpace, isDigit, isAlpha]

theorem tokenizeLoop_nil (fuel : Nat) (prev : Option Char) : tokenizeLoop fuel prev [] = [] := by
  cases fuel <;> rfl

theorem tokenize_sum_product (a b c : Str) (ha : isUnsignedLiteral a = true)
    (hb : isUnsignedLiteral b = true) (hc : isUnsignedLiteral c = true) :
    tokenize (a ++ '+' :: (b ++ '*' :: c)) =
      [numberToken a, operatorToken ['+'] 1 false, numberToken b, operatorToken ['*'] 2 false,
        numberToken c] := by
  have la := literal_length_pos a ha
  have lb := literal_length_pos b hb
  have lc := literal_length_pos c hc
  obtain ⟨n, hn⟩ : ∃ n, (a ++ '+' :: (b ++ '*' :: c)).length = n + 5 :=
    ⟨a.length + b.length + c.length - 3, by simp; omega⟩
  unfold tokenize
  rw [hn]
  obtain ⟨l1, h1⟩ := tokenizeLoop_number a ha (n + 4) none ('+' :: (b ++ '*' :: c))
    (by simp; decide)
  obtain ⟨l2, h2⟩ := tokenizeLoop_number b hb (n + 2) (some '+') ('*' :: c) (by simp; decide)
  obtain ⟨l3, h3⟩ := tokenizeLoop_number c hc n (some '*') [] (by simp)
  rw [List.append_nil] at h3
  rw [h1, tokenizeLoop_plus, h2, tokenizeLoop_star _ _ _ (by simpa using literal_not_star c [] hc),
    h3, tokenizeLoop_nil]

theorem tokenize_sum_paren_product (a b c : Str) (ha : isUnsignedLiteral a = true)
    (hb : isUnsignedLiteral b = true) (hc : isUnsignedLiteral c = true) :
    tokenize (a ++ '+' :: '(' :: (b ++ '*' :: (c ++ [')']))) =
      [numberToken a, operatorToken ['+'] 1 false, { type := .LEFT_PAREN, value := ['('] },
        numberToken b, operatorToken ['*'] 2 false, numberToken c,
        { type := .RIGHT_PAREN, value := [')'] }] := by
  have la := literal_length_pos a ha
  have lb := literal_length_pos b hb
  have lc := literal_length_pos c hc
  obtain ⟨n, hn⟩ : ∃ n, (a ++ '+' :: '(' :: (b ++ '*' :: (c ++ [')']))).length = n + 7 :=
    ⟨a.length + b.length + c.length - 3, by simp; omega⟩
  unfold tokenize
  rw [hn]
  obtain ⟨l1, h1⟩ := tokenizeLoop_number a ha (n + 6) none
    ('+' :: '(' :: (b ++ '*' :: (c ++ [')']))) (by simp; decide)
  obtain ⟨l2, h2⟩ := tokenizeLoop_number b hb (n + 3) (some '(') ('*' :: (c ++ [')']))
    (by simp; decide)
  obtain ⟨l3, h3⟩ := tokenizeLoop_number c hc (n + 1) (some '*') [')'] (by simp; decide)
  rw [h1, tokenizeLoop_plus, tokenizeLoop_lparen, h2,
    tokenizeLoop_star _ _ _ (literal_not_star c [')'] hc), h3, tokenizeLoop_rparen,
    tokenizeLoop_nil]

theorem tokenize_power_tower (a b c : Str) (ha : isUnsignedLiteral a = true)
    (hb : isUnsignedLiteral b = true) (hc : isUnsignedLiteral c = true) :
    tokenize (a ++ '^' :: (b ++ '^' :: c)) =
      [numberToken a, operatorToken ['^'] 4 true, numberToken b, operatorToken ['^'] 4 true,
        numberToken c] := by
  have la := literal_length_pos a ha
  have lb := literal_length_pos b hb
  have lc := literal_length_pos c hc
  obtain ⟨n, hn⟩ : ∃ n, (a ++ '^' :: (b ++ '^' :: c)).length = n + 5 :=
    ⟨a.length + b.length + c.length - 3, by simp; omega⟩
  unfold tokenize
  rw [hn]
  obtain ⟨l1, h1⟩ := tokenizeLoop_number a ha (n + 4) none ('^' :: (b ++ '^' :: c))
    (by simp; decide)
  obtain ⟨l2, h2⟩ := tokenizeLoop_number b hb (n + 2) (some '^') ('^' :: c) (by simp; decide)
  obtain ⟨l3, h3⟩ := tokenizeLoop_number c hc n (some '^') [] (by simp)
  rw [List.append_nil] at h3
  rw [h1, tokenizeLoop_caret, h2, tokenizeLoop_caret, h3, tokenizeLoop_nil]

/-! ## Precedence and associativity (C1, C2) -/

/-- C1: multiplication binds tighter than addition and parentheses override precedence.
For all unsigned decimal literals `a`, `b`, `c`, the texts `a+b*c` and `a+(b*c)` are both
turned into the postfix sequence `a b c * +`, so `parseExpression` returns the same string
on both; `"2+3*4"` gives `"Result: 14"` and `"(2+3)*4"` gives `"Result: 20"`. -/
theorem precedence_product_over_sum (a b c : Str) (ha : isUnsignedLiteral a = true)
    (hb : isUnsignedLiteral b = true) (hc : isUnsignedLiteral c = true) :
    shuntingYard (tokenize (a ++ ['+'] ++ b ++ ['*'] ++ c)) =
        [numberToken a, numberToken b, numberToken c, operatorToken ['*'] 2 false,
          operatorToken ['+'] 1 false] ∧
      shuntingYard (tokenize (a ++ ['+', '('] ++ b ++ ['*'] ++ c ++ [')'])) =
        [numberToken a, numberToken b, numberToken c, operatorToken ['*'] 2 false,
          operatorToken ['+'] 1 false] ∧
      parseExpression (a ++ ['+'] ++ b ++ ['*'] ++ c) =
        parseExpression (a ++ ['+', '('] ++ b ++ ['*'] ++ c ++ [')']) ∧
      parseExpression "2+3*4".toList = "Result: 14".toList ∧
      parseExpression "(2+3)*4".toList = "Result: 20".toList := by
  have e1 : a ++ ['+'] ++ b ++ ['*'] ++ c = a ++ '+' :: (b ++ '*' :: c) := by simp
  have e2 : a ++ ['+', '('] ++ b ++ ['*'] ++ c ++ [')'] =
      a ++ '+' :: '(' :: (b ++ '*' :: (c ++ [')'])) := by simp
  have p1 : shuntingYard (tokenize (a ++ ['+'] ++ b ++ ['*'] ++ c)) =
      [numberToken a, numberToken b, numberToken c, operatorToken ['*'] 2 false,
        operatorToken ['+'] 1 false] := by
    rw [e1, tokenize_sum_product a b c ha hb hc]
    simp [shuntingYard, shuntingStep, popOperators, popToLeftParen, numberToken, operatorToken]
  have p2 : shuntingYard (tokenize (a ++ ['+', '('] ++ b ++ ['*'] ++ c ++ [')'])) =
      [numberToken a, numberToken b, numberToken c, operatorToken ['*'] 2 false,
        operatorToken ['+'] 1 false] := by
    rw [e2, tokenize_sum_paren_product a b c ha hb hc]
    simp [shuntingYard, shuntingStep, popOperators, popToLeftParen, numberToken, operatorToken]
  refine ⟨p1, p2, ?_, by decide, by decide⟩
  unfold parseExpression
  rw [p1, p2]

/-- C1, at the literals 2, 3 and 4. -/
theorem precedence_product_over_sum_witness :
    (isUnsignedLiteral ['2'] = true ∧ isUnsignedLiteral ['3'] = true ∧
      isUnsignedLiteral ['4'] = true) ∧
    parseExpression (['2'] ++ ['+'] ++ ['3'] ++ ['*'] ++ ['4']) =
      parseExpression (['2'] ++ ['+', '('] ++ ['3'] ++ ['*'] ++ ['4'] ++ [')']) :=
  ⟨by decide,
    (precedence_product_over_sum ['2'] ['3'] ['4'] (by decide) (by decide) (by decide)).2.2.1⟩

/-- C2: the power operator is right-associative. For all unsigned decimal literals `a`,
`b`, `c`, `shuntingYard` turns the tokens of `a^b^c` into the postfix sequence
`a b c ^ ^`, which groups as `a^(b^c)`; `"2^3^2"` gives `"Result: 512"`. -/
theorem power_right_associative (a b c : Str) (ha : isUnsignedLiteral a = true)
    (hb : isUnsignedLiteral b = true) (hc : isUnsignedLiteral c = true) :
    tokenize (a ++ ['^'] ++ b ++ ['^'] ++ c) =
        [numberToken a, operatorToken ['^'] 4 true, numberToken b, operatorToken ['^'] 4 true,
          numberToken c] ∧
      shuntingYard (tokenize (a ++ ['^'] ++ b ++ ['^'] ++ c)) =
        [numberToken a, numberToken b, numberToken c, operatorToken ['^'] 4 true,
          operatorToken ['^'] 4 true] ∧
      parseExpression "2^3^2".toList = "Result: 512".toList := by
  have e1 : a ++ ['^'] ++ b ++ ['^'] ++ c = a ++ '^' :: (b ++ '^' :: c) := by simp
  have t1 := tokenize_power_tower a b c ha hb hc
  refine ⟨by rw [e1, t1], ?_, by decide⟩
  rw [e1, t1]
  simp [shuntingYard, shuntingStep, popOperators, popToLeftParen, numberToken, operatorToken]

/-- C2, at the literals 2, 3 and 2. -/
theorem power_right_associative_witness :
    (isUnsignedLiteral ['2'] = true ∧ isUnsignedLiteral ['3'] = true) ∧
    shuntingYard (tokenize (['2'] ++ ['^'] ++ ['3'] ++ ['^'] ++ ['2'])) =
      [numberToken ['2'], numberToken ['3'], numberToken ['2'], operatorToken ['^'] 4 true,
        operatorToken ['^'] 4 true] :=
  ⟨by decide,
    (power_right_associative ['2'] ['3'] ['2'] (by decide) (by decide) (by decide)).2.1⟩

/-! ## Digits -/

theorem isDigit_iff (c : Char) : isDigit c = true ↔ 48 ≤ c.toNat ∧ c.toNat ≤ 57 := by
  simp [isDigit]

theorem digitVal_le (c : Char) (h : isDigit c = true) : digitVal c ≤ 9 := by
  rw [isDigit_iff] at h
  unfold digitVal
  omega

theorem digitChar_digitVal (c : Char) (h : isDigit c = true) : digitChar (digitVal c) = c := by
  rw [isDigit_iff] at h
  unfold digitChar digitVal
  rw [Nat.sub_add_cancel h.1, Char.ofNat_toNat]

theorem digitVal_digitChar (n : Nat) (h : n ≤ 9) : digitVal (digitChar n) = n := by
  interval_cases n <;> decide

theorem isDigit_digitChar (n : Nat) (h : n ≤ 9) : isDigit (digitChar n) = true := by
  interval_cases n <;> decide

theorem digitChar_eq_zero (n : Nat) (h : n ≤ 9) : digitChar n = '0' ↔ n = 0 := by
  interval_cases n <;> decide

theorem digitVal_eq_zero (c : Char) (h : isDigit c = true) : digitVal c = 0 ↔ c = '0' := by
  constructor
  · intro h0
    have := digitChar_digitVal c h
    rw [h0] at this
    exact this.symm
  · intro h0
    subst h0
    decide

/-! ## The multiplication loops: value and digit bound -/

theorem getD_set (r : List Nat) (i k v : Nat) :
    (r.set i v).getD k 0 = if k = i ∧ i < r.length then v else r.getD k 0 := by
  simp only [List.getD_eq_getElem?_getD, List.getElem?_set]
  by_cases h : i = k
  · subst h
    by_cases h2 : i < r.length
    · simp [h2]
    · simp [h2]
      rw [List.getElem?_eq_none (by omega)]
      rfl
  · have : ¬ (k = i ∧ i < r.length) := fun hh => h hh.1.symm
    simp [h, this]

theorem cellsVal_set (r : List Nat) : ∀ (k e v : Nat), r.length = k + 1 + e →
    cellsVal (r.set k v) + r.getD k 0 * 10 ^ e = cellsVal r + v * 10 ^ e := by
  induction r with
  | nil => intro k e v h; simp at h; omega
  | cons x xs ih =>
    intro k e v h
    cases k with
    | zero =>
      have hl : xs.length = e := by simp at h; omega
      simp [cellsVal, hl]
      ring
    | succ k =>
      have hl : xs.length = k + 1 + e := by simp at h; omega
      have := ih k e v hl
      simp only [List.set_cons_succ, cellsVal, List.getD_cons_succ, List.length_set]
      omega

theorem mulInner_length (numB : Str) (da i : Nat) : ∀ (j : Nat) (r : List Nat),
    (mulInner numB da i j r).length = r.length := by
  intro j
  induction j with
  | zero => intro r; rfl
  | succ j ih => intro r; simp [mulInner, ih]

theorem natVal_append_singleton (s : Str) (c : Char) :
    natVal (s ++ [c]) = natVal s * 10 + digitVal c := by
  simp [natVal, List.foldl_append]

theorem natVal_take_succ (s : Str) (j : Nat) (h : j < s.length) :
    natVal (s.take (j + 1)) = natVal (s.take j) * 10 + digitVal (s.getD j '0') := by
  rw [List.take_succ, List.getD_eq_getElem?_getD, List.getElem?_eq_getElem h]
  simp only [Option.toList_some, Option.getD_some]
  rw [natVal_append_singleton]

theorem mulInner_val (numB : Str) (da i : Nat) : ∀ (j e : Nat) (r : List Nat),
    r.length = i + j + 1 + e → j ≤ numB.length →
    cellsVal (mulInner numB da i j r) = cellsVal r + da * natVal (numB.take j) * 10 ^ e := by
  intro j
  induction j with
  | zero => intro e r _ _; simp [mulInner, natVal]
  | succ j ih =>
    intro e r hlen hj
    simp only [mulInner]
    set sum := da * digitVal (numB.getD j '0') + r.getD (i + j + 1) 0 with hsum
    set r1 := r.set (i + j + 1) (sum % 10) with hr1
    set r2 := r1.set (i + j) (r1.getD (i + j) 0 + sum / 10) with hr2
    have hl1 : r1.length = i + j + 1 + (e + 1) := by rw [hr1, List.length_set]; omega
    have hl2 : r2.length = i + j + 1 + (e + 1) := by rw [hr2, List.length_set]; exact hl1
    rw [ih (e + 1) r2 hl2 (by omega)]
    have s1 := cellsVal_set r (i + j + 1) e (sum % 10) (by omega)
    have s2 := cellsVal_set r1 (i + j) (e + 1) (r1.getD (i + j) 0 + sum / 10) (by omega)
    rw [← hr1] at s1
    rw [← hr2] at s2
    rw [natVal_take_succ numB j (by omega)]
    have hdm := Nat.div_add_mod sum 10
    have key : cellsVal r2 = cellsVal r + da * digitVal (numB.getD j '0') * 10 ^ e := by
      have e1 : (r1.getD (i + j) 0 + sum / 10) * 10 ^ (e + 1) =
          r1.getD (i + j) 0 * 10 ^ (e + 1) + (sum / 10) * 10 * 10 ^ e := by ring
      have e2 : (sum / 10) * 10 * 10 ^ e + (sum % 10) * 10 ^ e = sum * 10 ^ e := by
        rw [← Nat.add_mul]
        congr 1
        omega
      have e3 : sum * 10 ^ e = da * digitVal (numB.getD j '0') * 10 ^ e +
          r.getD (i + j + 1) 0 * 10 ^ e := by rw [hsum]; ring
      omega
    rw [key]
    ring

theorem mulOuter_length (numA numB : Str) : ∀ (i : Nat) (r : List Nat),
    (mulOuter numA numB i r).length = r.length := by
  intro i
  induction i with
  | zero => intro r; rfl
  | succ i ih => intro r; simp [mulOuter, ih, mulInner_length]

theorem mulOuter_val (numA numB : Str) : ∀ (i e : Nat) (r : List Nat),
    r.length = i + e + numB.length → i ≤ numA.length →
    cellsVal (mulOuter numA numB i r) =
      cellsVal r + natVal (numA.take i) * natVal numB * 10 ^ e := by
  intro i
  induction i with
  | zero => intro e r _ _; simp [mulOuter, natVal]
  | succ i ih =>
    intro e r hlen hi
    simp only [mulOuter]
    rw [ih (e + 1) _ (by rw [mulInner_length]; omega) (by omega)]
    rw [mulInner_val numB _ i numB.length e r (by omega) (le_refl _)]
    rw [List.take_length, natVal_take_succ numA i (by omega)]
    ring

theorem cellsVal_replicate_zero (n : Nat) : cellsVal (List.replicate n 0) = 0 := by
  induction n with
  | zero => rfl
  | succ n ih => simp [List.replicate_succ, cellsVal, ih]

theorem mulCells_val (numA numB : Str) :
    cellsVal (mulOuter numA numB numA.length (List.replicate (numA.length + numB.length) 0)) =
      natVal numA * natVal numB := by
  rw [mulOuter_val numA numB numA.length 0 _ (by simp) (le_refl _)]
  simp [cellsVal_replicate_zero]

theorem digitVal_getD_le (s : Str) (hs : ∀ c ∈ s, isDigit c = true) (j : Nat) :
    digitVal (s.getD j '0') ≤ 9 := by
  rw [List.getD_eq_getElem?_getD]
  by_cases h : j < s.length
  · rw [List.getElem?_eq_getElem h]
    exact digitVal_le _ (hs _ (List.getElem_mem h))
  · rw [List.getElem?_eq_none (by omega)]
    decide

theorem mulStep_getD (r : List Nat) (p v w k : Nat) (hp : p + 1 < r.length) :
    ((r.set (p + 1) v).set p ((r.set (p + 1) v).getD p 0 + w)).getD k 0 =
      if k = p then r.getD p 0 + w else if k = p + 1 then v else r.getD k 0 := by
  have e1 : (r.set (p + 1) v).getD p 0 = r.getD p 0 := by
    rw [getD_set]
    have : ¬ (p = p + 1 ∧ p + 1 < r.length) := fun h => by omega
    rw [if_neg this]
  rw [e1, getD_set, getD_set]
  simp only [List.length_set]
  by_cases h1 : k = p
  · subst h1
    have : k = k ∧ k < r.length := ⟨rfl, by omega⟩
    rw [if_pos this, if_pos rfl]
  · have : ¬ (k = p ∧ p < r.length) := fun h => h1 h.1
    rw [if_neg this, if_neg h1]
    by_cases h2 : k = p + 1
    · have : k = p + 1 ∧ p + 1 < r.length := ⟨h2, hp⟩
      rw [if_pos this, if_pos h2]
    · have : ¬ (k = p + 1 ∧ p + 1 < r.length) := fun h => h2 h.1
      rw [if_neg this, if_neg h2]

theorem mulInner_getD_lt (numB : Str) (da i k : Nat) (hk : k < i) : ∀ (j : Nat) (r : List Nat),
    i + j < r.length → (mulInner numB da i j r).getD k 0 = r.getD k 0 := by
  intro j
  induction j with
  | zero => intro r _; rfl
  | succ j ih =>
    intro r hlen
    simp only [mulInner]
    rw [ih _ (by simp only [List.length_set]; omega), mulStep_getD r (i + j) _ _ k (by omega)]
    rw [if_neg (by omega), if_neg (by omega)]

theorem mulInner_bound (numB : Str) (da i : Nat) (hda : da ≤ 9)
    (hB : ∀ c ∈ numB, isDigit c = true) : ∀ (j : Nat) (r : List Nat),
    i + j < r.length →
    (∀ k, k ≠ i + j → r.getD k 0 ≤ 9) → r.getD (i + j) 0 ≤ 18 →
    (j = 0 → r.getD i 0 ≤ 9) → (0 < j → r.getD i 0 = 0) →
    ∀ k, (mulInner numB da i j r).getD k 0 ≤ 9 := by
  intro j
  induction j with
  | zero =>
    intro r _ h1 _ h3 _ k
    simp only [mulInner]
    by_cases hk : k = i
    · subst hk; exact h3 rfl
    · exact h1 k (by omega)
  | succ j ih =>
    intro r hlen h1 h2 _ h4 k
    simp only [mulInner]
    have hdb := digitVal_getD_le numB hB j
    have hmul : da * digitVal (numB.getD j '0') ≤ 81 := by
      calc da * digitVal (numB.getD j '0') ≤ 9 * 9 := Nat.mul_le_mul hda hdb
        _ = 81 := rfl
    have h2' : r.getD (i + j + 1) 0 ≤ 18 := h2
    have hs : da * digitVal (numB.getD j '0') + r.getD (i + j + 1) 0 ≤ 99 := by omega
    generalize da * digitVal (numB.getD j '0') + r.getD (i + j + 1) 0 = sum at hs ⊢
    have hq : sum / 10 ≤ 9 := by omega
    have hm : sum % 10 ≤ 9 := by omega
    have hij : r.getD (i + j) 0 ≤ 9 := h1 (i + j) (by omega)
    have hi0 : r.getD i 0 = 0 := h4 (by omega)
    have step := fun k => mulStep_getD r (i + j) (sum % 10) (sum / 10) k (by omega)
    apply ih
    · simp only [List.length_set]; omega
    · intro k' hk'
      rw [step, if_neg hk']
      split
      · exact hm
      · rename_i hn
        exact h1 k' (by omega)
    · rw [step, if_pos rfl]
      omega
    · intro hj
      subst hj
      rw [step, if_pos (by omega)]
      simp only [Nat.add_zero] at hij ⊢
      omega
    · intro hj
      rw [step, if_neg (by omega), if_neg (by omega)]
      exact hi0

theorem mulOuter_bound (numA numB : Str) (hA : ∀ c ∈ numA, isDigit c = true)
    (hB : ∀ c ∈ numB, isDigit c = true) : ∀ (i : Nat) (r : List Nat),
    i + numB.length ≤ r.length →
    (∀ k, r.getD k 0 ≤ 9) → (∀ k, k < i → r.getD k 0 = 0) →
    ∀ k, (mulOuter numA numB i r).getD k 0 ≤ 9 := by
  intro i
  induction i with
  | zero => intro r _ h1 _ k; exact h1 k
  | succ i ih =>
    intro r hlen h1 h2 k
    simp only [mulOuter]
    apply ih
    · rw [mulInner_length]; omega
    · exact mulInner_bound numB _ i (digitVal_getD_le numA hA i) hB numB.length r (by omega)
        (fun k _ => h1 k) (le_trans (h1 _) (by decide)) (fun _ => h1 i)
        (fun _ => h2 i (by omega))
    · intro k' hk'
      rw [mulInner_getD_lt numB _ i k' hk' _ _ (by omega)]
      exact h2 k' (by omega)

theorem getD_replicate_zero (n k : Nat) : (List.replicate n 0).getD k 0 = 0 := by
  rw [List.getD_eq_getElem?_getD]
  by_cases h : k < n
  · rw [List.getElem?_eq_getElem (by simpa using h)]
    simp
  · rw [List.getElem?_eq_none (by simp; omega)]
    rfl

theorem mem_le_of_getD_le (r : List Nat) (h : ∀ k, r.getD k 0 ≤ 9) : ∀ x ∈ r, x ≤ 9 := by
  intro x hx
  obtain ⟨k, hk, rfl⟩ := List.getElem_of_mem hx
  have := h k
  rw [List.getD_eq_getElem?_getD, List.getElem?_eq_getElem hk] at this
  exact this

theorem mulCells_bound (numA numB : Str) (hA : ∀ c ∈ numA, isDigit c = true)
    (hB : ∀ c ∈ numB, isDigit c = true) :
    ∀ x ∈ mulOuter numA numB numA.length (List.replicate (numA.length + numB.length) 0),
      x ≤ 9 := by
  apply mem_le_of_getD_le
  apply mulOuter_bound numA numB hA hB
  · simp
  · intro k; rw [getD_replicate_zero]; omega
  · intro k _; exact getD_replicate_zero _ k

/-! ## Canonical texts of natural numbers -/

theorem cellsVal_eq_ofDigits (r : List Nat) : cellsVal r = Nat.ofDigits 10 r.reverse := by
  induction r with
  | nil => rfl
  | cons x xs ih =>
    rw [List.reverse_cons, Nat.ofDigits_append, Nat.ofDigits_singleton, cellsVal, ih,
      List.length_reverse]
    ring

theorem cells_digits (c : Nat) (cs : List Nat) (h9 : ∀ x ∈ c :: cs, x ≤ 9) (hc : c ≠ 0) :
    Nat.digits 10 (cellsVal (c :: cs)) = (c :: cs).reverse := by
  rw [cellsVal_eq_ofDigits]
  apply Nat.digits_ofDigits 10 (by decide)
  · intro l hl
    have := h9 l (List.mem_reverse.mp hl)
    omega
  · intro _
    simp [hc]

theorem cellsVal_pos (c : Nat) (cs : List Nat) (hc : c ≠ 0) : cellsVal (c :: cs) ≠ 0 := by
  have : 0 < c * 10 ^ cs.length := Nat.mul_pos (Nat.pos_of_ne_zero hc) (by positivity)
  simp only [cellsVal]
  omega

theorem cellsToStr_eq (r : List Nat) (h9 : ∀ x ∈ r, x ≤ 9) :
    (if (cellsToStr r).isEmpty then ['0'] else cellsToStr r) = natText (cellsVal r) := by
  induction r with
  | nil => rfl
  | cons c cs ih =>
    by_cases hc : c = 0
    · subst hc
      have : cellsToStr (0 :: cs) = cellsToStr cs := by simp [cellsToStr]
      rw [this, ih (fun x hx => h9 x (List.mem_cons_of_mem _ hx))]
      simp [cellsVal]
    · have e : cellsToStr (c :: cs) = (c :: cs).map digitChar := by simp [cellsToStr, hc]
      rw [e]
      unfold natText
      rw [if_neg (cellsVal_pos c cs hc), cells_digits c cs h9 hc, List.reverse_reverse]
      simp

theorem natVal_acc (s : Str) : ∀ acc : Nat,
    s.foldl (fun acc c => acc * 10 + digitVal c) acc =
      acc * 10 ^ s.length + cellsVal (s.map digitVal) := by
  induction s with
  | nil => intro acc; simp [cellsVal]
  | cons c cs ih =>
    intro acc
    simp only [List.foldl_cons, ih, List.map_cons, cellsVal, List.length_cons, List.length_map]
    ring

theorem natVal_eq_cellsVal (s : Str) : natVal s = cellsVal (s.map digitVal) := by
  unfold natVal
  rw [natVal_acc]
  simp

theorem natVal_cons (c : Char) (cs : Str) :
    natVal (c :: cs) = digitVal c * 10 ^ cs.length + natVal cs := by
  simp [natVal_eq_cellsVal, cellsVal]

theorem map_digitChar_digitVal (s : Str) (hs : ∀ c ∈ s, isDigit c = true) :
    (s.map digitVal).map digitChar = s := by
  induction s with
  | nil => rfl
  | cons c cs ih =>
    simp only [List.map_cons]
    rw [digitChar_digitVal c (hs c (List.mem_cons_self _ _)),
      ih (fun x hx => hs x (List.mem_cons_of_mem _ hx))]

theorem natText_natVal_canonical (c : Char) (cs : Str) (hs : ∀ x ∈ c :: cs, isDigit x = true)
    (hc : c ≠ '0') : natText (natVal (c :: cs)) = c :: cs := by
  have h9 : ∀ x ∈ (c :: cs).map digitVal, x ≤ 9 := by
    intro x hx
    obtain ⟨y, hy, rfl⟩ := List.mem_map.mp hx
    exact digitVal_le y (hs y hy)
  have hc0 : digitVal c ≠ 0 := fun h =>
    hc ((digitVal_eq_zero c (hs c (List.mem_cons_self _ _))).mp h)
  rw [natVal_eq_cellsVal]
  unfold natText
  rw [List.map_cons] at h9 ⊢
  rw [if_neg (cellsVal_pos _ _ hc0), cells_digits _ _ h9 hc0, List.reverse_reverse,
    ← List.map_cons, map_digitChar_digitVal _ hs]

theorem removeLeadingZeros_zero_cons (cs : Str) (hs : ∀ x ∈ cs, isDigit x = true) :
    removeLeadingZeros ('0' :: cs) = removeLeadingZeros cs := by
  cases cs with
  | nil => rfl
  | cons d ds =>
    have hd := hs d (List.mem_cons_self _ _)
    have h1 : (d == '-' || d == '+') = false := by
      by_contra h
      simp only [Bool.not_eq_false, Bool.or_eq_true, beq_iff_eq] at h
      rcases h with h | h <;> subst h <;> revert hd <;> decide
    simp [removeLeadingZeros, h1]

theorem removeLeadingZeros_digits (s : Str) (hs : ∀ x ∈ s, isDigit x = true) :
    removeLeadingZeros s = natText (natVal s) := by
  induction s with
  | nil => rfl
  | cons c cs ih =>
    have hcs : ∀ x ∈ cs, isDigit x = true := fun x hx => hs x (List.mem_cons_of_mem _ hx)
    by_cases hc : c = '0'
    · subst hc
      rw [removeLeadingZeros_zero_cons cs hcs, ih hcs, natVal_cons]
      simp [digitVal]
    · rw [natText_natVal_canonical c cs hs hc]
      have hd := hs c (List.mem_cons_self _ _)
      have h1 : (c == '-' || c == '+') = false := by
        by_contra h
        simp only [Bool.not_eq_false, Bool.or_eq_true, beq_iff_eq] at h
        rcases h with h | h <;> subst h <;> revert hd <;> decide
      simp [removeLeadingZeros, h1, hc]

theorem natText_digits (n : Nat) : ∀ c ∈ natText n, isDigit c = true := by
  intro c hc
  unfold natText at hc
  split at hc
  · simp at hc; subst hc; decide
  · obtain ⟨d, hd, rfl⟩ := List.mem_map.mp hc
    have := Nat.digits_lt_base (by decide : 1 < 10) (List.mem_reverse.mp hd)
    exact isDigit_digitChar d (by omega)

theorem natVal_natText (n : Nat) : natVal (natText n) = n := by
  unfold natText
  split
  · rename_i h; subst h; decide
  · rw [natVal_eq_cellsVal, List.map_map]
    have : List.map (digitVal ∘ digitChar) (Nat.digits 10 n).reverse = (Nat.digits 10 n).reverse := by
      conv_rhs => rw [← List.map_id (Nat.digits 10 n).reverse]
      apply List.map_congr_left
      intro d hd
      have := Nat.digits_lt_base (by decide : 1 < 10) (List.mem_reverse.mp hd)
      simp [digitVal_digitChar d (by omega)]
    rw [this, cellsVal_eq_ofDigits, List.reverse_reverse, Nat.ofDigits_digits]

theorem natText_natVal (s : Str) (hs : ∀ x ∈ s, isDigit x = true) :
    natText (natVal s) = removeLeadingZeros s := (removeLeadingZeros_digits s hs).symm

theorem removeLeadingZeros_natText (n : Nat) : removeLeadingZeros (natText n) = natText n := by
  rw [removeLeadingZeros_digits _ (natText_digits n), natVal_natText]

theorem natText_eq_zero (n : Nat) : natText n = ['0'] ↔ n = 0 := by
  constructor
  · intro h
    have := natVal_natText n
    rw [h] at this
    rw [← this]; decide
  · intro h; subst h; rfl

theorem natText_ne_nil (n : Nat) : natText n ≠ [] := by
  unfold natText
  split
  · simp
  · rename_i h
    intro hh
    simp only [List.map_eq_nil_iff, List.reverse_eq_nil_iff] at hh
    exact h (Nat.digits_eq_nil_iff_eq_zero.mp hh)

/-! ## Valid texts and the product of two of them (C8) -/

theorem isDigit_not_sign (c : Char) (h : isDigit c = true) :
    c ≠ '-' ∧ c ≠ '+' ∧ c ≠ '.' := by
  refine ⟨?_, ?_, ?_⟩ <;> (intro hc; subst hc; revert h; decide)

theorem validLoop_true (s : Str) (h : isValidLoop true s = true) :
    ∀ c ∈ s, isDigit c = true := by
  induction s with
  | nil => intro c hc; simp at hc
  | cons x xs ih =>
    by_cases hx : x = '.'
    · subst hx; simp [isValidLoop] at h
    · by_cases hd : isDigit x = true
      · simp [isValidLoop, hx, hd] at h
        intro c hc
        rcases List.mem_cons.mp hc with rfl | hc
        · exact hd
        · exact ih h c hc
      · simp [isValidLoop, hx, hd] at h

theorem validLoop_false (s : Str) (h : isValidLoop false s = true) :
    (∀ c ∈ s, isDigit c = true) ∨
      ∃ I F, s = I ++ '.' :: F ∧ (∀ c ∈ I, isDigit c = true) ∧ (∀ c ∈ F, isDigit c = true) := by
  induction s with
  | nil => left; intro c hc; simp at hc
  | cons x xs ih =>
    by_cases hx : x = '.'
    · subst hx
      simp [isValidLoop] at h
      right
      exact ⟨[], xs, rfl, by simp, validLoop_true xs h⟩
    · by_cases hd : isDigit x = true
      · simp [isValidLoop, hx, hd] at h
        rcases ih h with h1 | ⟨I, F, e, hI, hF⟩
        · left
          intro c hc
          rcases List.mem_cons.mp hc with rfl | hc
          · exact hd
          · exact h1 c hc
        · right
          refine ⟨x :: I, F, by rw [e]; rfl, ?_, hF⟩
          intro c hc
          rcases List.mem_cons.mp hc with rfl | hc
          · exact hd
          · exact hI c hc
      · simp [isValidLoop, hx, hd] at h

/-- The shape of a valid number text `a`: a non-empty unsigned body accepted by the
validation loop, behind an optional sign. -/
theorem valid_shape (a : Str) (h : isValidNumber a = true) :
    ∃ body, body ≠ [] ∧ isValidLoop false body = true ∧ absText a = body ∧
      ((a = body ∧ startsWith a '-' = false) ∨ (a = '-' :: body ∧ startsWith a '-' = true) ∨
        (a = '+' :: body ∧ startsWith a '-' = false)) := by
  cases a with
  | nil => simp [isValidNumber] at h
  | cons c cs =>
    have hbody : ∀ body : Str, body ≠ [] → isValidLoop false body = true →
        startsWith body '-' = false ∧ startsWith body '+' = false := by
      intro body hne hv
      cases body with
      | nil => exact absurd rfl hne
      | cons d ds =>
        have hd : d ≠ '-' ∧ d ≠ '+' := by
          constructor <;> (intro hc; subst hc; simp [isValidLoop, isDigit] at hv)
        simp [startsWith, hd.1, hd.2]
    by_cases h1 : c = '-'
    · subst h1
      simp only [isValidNumber, beq_self_eq_true, Bool.true_or, if_true] at h
      have hne : cs ≠ [] := by intro hh; subst hh; simp at h
      have hv : isValidLoop false cs = true := by
        cases cs with
        | nil => exact absurd rfl hne
        | cons d ds => simpa using h
      refine ⟨cs, hne, hv, ?_, Or.inr (Or.inl ⟨rfl, by simp [startsWith]⟩)⟩
      have := (hbody cs hne hv).2
      simp [absText, startsWith] at this ⊢
      simp [this]
    · by_cases h2 : c = '+'
      · subst h2
        simp only [isValidNumber, beq_self_eq_true, Bool.or_true, if_true] at h
        have hne : cs ≠ [] := by intro hh; subst hh; simp at h
        have hv : isValidLoop false cs = true := by
          cases cs with
          | nil => exact absurd rfl hne
          | cons d ds => simpa using h
        refine ⟨cs, hne, hv, ?_, Or.inr (Or.inr ⟨rfl, by simp [startsWith]⟩)⟩
        simp [absText, startsWith]
      · have hv : isValidLoop false (c :: cs) = true := by
          simpa [isValidNumber, h1, h2] using h
        refine ⟨c :: cs, by simp, hv, ?_, Or.inl ⟨rfl, by simp [startsWith, h1]⟩⟩
        simp [absText, startsWith, h1, h2]

theorem eraseDot_digits (s : Str) (h : isValidLoop false s = true) :
    ∀ c ∈ eraseDot s, isDigit c = true := by
  rcases validLoop_false s h with h1 | ⟨I, F, e, hI, hF⟩
  · have : '.' ∉ s := fun hm => (isDigit_not_sign _ (h1 _ hm)).2.2 rfl
    rw [eraseDot, List.erase_of_not_mem this]
    exact h1
  · have : '.' ∉ I := fun hm => (isDigit_not_sign _ (hI _ hm)).2.2 rfl
    rw [eraseDot, e, List.erase_append_right _ this, List.erase_cons_head]
    intro c hc
    rcases List.mem_append.mp hc with hc | hc
    · exact hI c hc
    · exact hF c hc

theorem multiplyPositive_eq (a b : Str) (hA : ∀ c ∈ eraseDot a, isDigit c = true)
    (hB : ∀ c ∈ eraseDot b, isDigit c = true) :
    multiplyPositive a b =
      if a == ['0'] || b == ['0'] then ['0']
      else canonicalize (placePoint (natText (natVal (eraseDot a) * natVal (eraseDot b)))
        (decPlaces a + decPlaces b)) := by
  unfold multiplyPositive
  split
  · rfl
  · simp only []
    rw [removeLeadingZeros_digits _ hA, removeLeadingZeros_digits _ hB]
    rw [cellsToStr_eq _ (mulCells_bound _ _ (natText_digits _) (natText_digits _)),
      mulCells_val, natVal_natText, natVal_natText]
    rfl

theorem multiply_valid (a b : Str) (ha : isValidNumber a = true) (hb : isValidNumber b = true) :
    multiply a b = .ok
      (let result := multiplyPositive (absText a) (absText b)
       if result != ['0'] && startsWith a '-' != startsWith b '-' then '-' :: result
       else result) := by
  simp [multiply, ha, hb]

theorem multiplyPositive_comm_of_valid (a b : Str) (ha : isValidNumber a = true)
    (hb : isValidNumber b = true) :
    multiplyPositive (absText a) (absText b) = multiplyPositive (absText b) (absText a) := by
  obtain ⟨ba, _, hva, ea, _⟩ := valid_shape a ha
  obtain ⟨bb, _, hvb, eb, _⟩ := valid_shape b hb
  rw [ea, eb, multiplyPositive_eq ba bb (eraseDot_digits ba hva) (eraseDot_digits bb hvb),
    multiplyPositive_eq bb ba (eraseDot_digits bb hvb) (eraseDot_digits ba hva),
    Bool.or_comm, Nat.mul_comm, Nat.add_comm]

/-- C8: multiply is commutative. For all valid decimal texts `a` and `b`, `multiply(a,b)`
and `multiply(b,a)` both return a value, and the two strings are identical. -/
theorem multiply_comm (a b : Str) (ha : isValidNumber a = true) (hb : isValidNumber b = true) :
    ∃ r, multiply a b = .ok r ∧ multiply b a = .ok r := by
  refine ⟨_, multiply_valid a b ha hb, ?_⟩
  rw [multiply_valid b a hb ha, multiplyPositive_comm_of_valid a b ha hb]
  have : (startsWith a '-' != startsWith b '-') = (startsWith b '-' != startsWith a '-') := by
    cases startsWith a '-' <;> cases startsWith b '-' <;> rfl
  simp only [this]

/-- C8, at the texts -12.5 and 0.04. -/
theorem multiply_comm_witness :
    (isValidNumber "-12.5".toList = true ∧ isValidNumber "0.04".toList = true) ∧
    ∃ r, multiply "-12.5".toList "0.04".toList = .ok r ∧
      multiply "0.04".toList "-12.5".toList = .ok r :=
  ⟨by decide, multiply_comm "-12.5".toList "0.04".toList (by decide) (by decide)⟩

/-! ## Integer texts: products and powers (C6) -/

theorem natText_no_dot (n : Nat) : '.' ∉ natText n :=
  fun hm => (isDigit_not_sign _ (natText_digits n _ hm)).2.2 rfl

theorem natText_head (n : Nat) : ∃ d ds, natText n = d :: ds ∧ isDigit d = true := by
  cases h : natText n with
  | nil => exact absurd h (natText_ne_nil n)
  | cons d ds => exact ⟨d, ds, rfl, natText_digits n d (by rw [h]; simp)⟩

theorem validLoop_of_digits (s : Str) (hs : ∀ c ∈ s, isDigit c = true) (flag : Bool) :
    isValidLoop flag s = true := by
  induction s with
  | nil => rfl
  | cons x xs ih =>
    have hx := hs x (List.mem_cons_self _ _)
    have hne : x ≠ '.' := (isDigit_not_sign x hx).2.2
    simp [isValidLoop, hne, hx, ih (fun c hc => hs c (List.mem_cons_of_mem _ hc))]

theorem isValidNumber_natText (n : Nat) : isValidNumber (natText n) = true := by
  obtain ⟨d, ds, e, hd⟩ := natText_head n
  have hv := validLoop_of_digits (natText n) (natText_digits n) false
  rw [e] at hv ⊢
  have := isDigit_not_sign d hd
  simp [isValidNumber, this.1, this.2.1, hv]

theorem isValidNumber_neg_natText (n : Nat) : isValidNumber ('-' :: natText n) = true := by
  obtain ⟨d, ds, e, hd⟩ := natText_head n
  have hv := validLoop_of_digits (natText n) (natText_digits n) false
  rw [e] at hv ⊢
  simp [isValidNumber, hv]

theorem isValidNumber_intText (x : Int) : isValidNumber (intText x) = true := by
  unfold intText
  split
  · exact isValidNumber_neg_natText _
  · exact isValidNumber_natText _

theorem startsWith_natText (n : Nat) (c : Char) (hc : isDigit c = false) :
    startsWith (natText n) c = false := by
  obtain ⟨d, ds, e, hd⟩ := natText_head n
  rw [e]
  simp only [startsWith, List.head?_cons]
  by_contra h
  have : d = c := by simpa using h
  subst this
  rw [hd] at hc
  exact absurd hc (by decide)

theorem startsWith_intText (x : Int) : startsWith (intText x) '-' = decide (x < 0) := by
  unfold intText
  split
  · rename_i h; simp [startsWith, h]
  · rename_i h; rw [startsWith_natText _ _ (by decide)]; simp [h]

theorem absText_natText (n : Nat) : absText (natText n) = natText n := by
  simp [absText, startsWith_natText n '-' (by decide), startsWith_natText n '+' (by decide)]

theorem absText_intText (x : Int) : absText (intText x) = natText x.natAbs := by
  unfold intText
  split
  · simp [absText, startsWith, startsWith_natText _ '+' (by decide)]
    have := startsWith_natText x.natAbs '+' (by decide)
    simp [startsWith] at this
    simp [this]
  · exact absText_natText _

theorem eraseDot_natText (n : Nat) : eraseDot (natText n) = natText n := by
  rw [eraseDot, List.erase_of_not_mem (natText_no_dot n)]

theorem hasDot_natText (n : Nat) : hasDot (natText n) = false := by
  simp [hasDot, natText_no_dot n]

theorem decPart_of_no_dot (s : Str) (h : '.' ∉ s) : decPart s = [] := by
  unfold decPart
  have : s.dropWhile (fun c => c != '.') = [] := by
    rw [List.dropWhile_eq_nil_iff]
    intro c hc
    simp only [bne_iff_ne, ne_eq]
    intro hh; subst hh; exact h hc
  rw [this]; rfl

theorem decPlaces_natText (n : Nat) : decPlaces (natText n) = 0 := by
  simp [decPlaces, decPart_of_no_dot _ (natText_no_dot n)]

theorem removeTrailingZeros_no_dot (s : Str) (h : '.' ∉ s) : removeTrailingZeros s = s := by
  simp [removeTrailingZeros, hasDot, h]

theorem multiplyPositive_natText (m n : Nat) :
    multiplyPositive (natText m) (natText n) = natText (m * n) := by
  rw [multiplyPositive_eq _ _ (by rw [eraseDot_natText]; exact natText_digits m)
    (by rw [eraseDot_natText]; exact natText_digits n)]
  split
  · rename_i h
    simp only [Bool.or_eq_true, beq_iff_eq, natText_eq_zero] at h
    rcases h with h | h <;> subst h <;> simp [natText]
  · rw [eraseDot_natText, eraseDot_natText, natVal_natText, natVal_natText, decPlaces_natText,
      decPlaces_natText]
    simp only [placePoint, canonicalize, Nat.add_zero, gt_iff_lt, Nat.lt_irrefl, if_false]
    rw [removeLeadingZeros_natText, removeTrailingZeros_no_dot _ (natText_no_dot _)]

theorem multiply_intText (x y : Int) : multiply (intText x) (intText y) = .ok (intText (x * y)) := by
  rw [multiply_valid _ _ (isValidNumber_intText x) (isValidNumber_intText y)]
  simp only [absText_intText, multiplyPositive_natText, startsWith_intText]
  congr 1
  rw [← Int.natAbs_mul]
  have hz : (natText (x * y).natAbs != ['0']) = decide (x * y ≠ 0) := by
    by_cases h : x * y = 0
    · simp [h, natText]
    · have : natText (x * y).natAbs ≠ ['0'] := by
        rw [Ne, natText_eq_zero]; simpa using h
      simp [h, this]
  rw [hz]
  unfold intText
  by_cases h0 : x * y = 0
  · simp [h0]
  · have hx : x ≠ 0 := fun h => h0 (by simp [h])
    have hy : y ≠ 0 := fun h => h0 (by simp [h])
    by_cases hneg : x * y < 0
    · have : (decide (x < 0) != decide (y < 0)) = true := by
        rcases mul_neg_iff.mp hneg with ⟨h1, h2⟩ | ⟨h1, h2⟩
        · simp [h1, h2, not_lt.mpr (le_of_lt h2), not_lt.mpr (le_of_lt h1)]
        · simp [h1, h2, not_lt.mpr (le_of_lt h2), not_lt.mpr (le_of_lt h1)]
      simp [h0, hneg, this]
    · have hpos : 0 < x * y := lt_of_le_of_ne (not_lt.mp hneg) (Ne.symm h0)
      have : (decide (x < 0) != decide (y < 0)) = false := by
        rcases mul_pos_iff.mp hpos with ⟨h1, h2⟩ | ⟨h1, h2⟩
        · simp [not_lt.mpr (le_of_lt h2), not_lt.mpr (le_of_lt h1)]
        · simp [h1, h2]
      simp [hneg, this]


theorem natText_length_le (n : Nat) (h : n ≤ 1000) : (natText n).length ≤ 9 := by
  unfold natText
  split
  · simp
  · rename_i hn
    simp only [List.length_map, List.length_reverse]
    have h1 := Nat.base_pow_length_digits_le 10 n (by decide) hn
    by_contra hlen
    have h2 : 10 ^ 10 ≤ 10 ^ (Nat.digits 10 n).length :=
      Nat.pow_le_pow_right (by decide) (by omega)
    have h3 : (10 : Nat) ^ 10 = 10000000000 := by norm_num
    omega

theorem parseExponent_digits (s : Str) (hs : ∀ c ∈ s, isDigit c = true) : ∀ acc : Nat,
    s.foldl (fun acc c => acc * 10 + digitVal c) acc ≤ 1000 →
    parseExponent s acc = .value (s.foldl (fun acc c => acc * 10 + digitVal c) acc) := by
  induction s with
  | nil => intro acc _; rfl
  | cons c cs ih =>
    intro acc hle
    have hc := hs c (List.mem_cons_self _ _)
    simp only [List.foldl_cons] at hle ⊢
    have hmono : acc * 10 + digitVal c ≤
        cs.foldl (fun acc c => acc * 10 + digitVal c) (acc * 10 + digitVal c) := by
      rw [natVal_acc]
      have : acc * 10 + digitVal c ≤ (acc * 10 + digitVal c) * 10 ^ cs.length :=
        Nat.le_mul_of_pos_right _ (by positivity)
      omega
    have hsmall : ¬ (acc * 10 + digitVal c > 1000) := by omega
    simp only [parseExponent, hc, Bool.not_true, Bool.false_eq_true, if_false, hsmall]
    exact ih (fun x hx => hs x (List.mem_cons_of_mem _ hx)) _ hle

theorem parseExponent_natText (n : Nat) (h : n ≤ 1000) :
    parseExponent (natText n) 0 = .value n := by
  have := parseExponent_digits (natText n) (natText_digits n) 0
  have e : (natText n).foldl (fun acc c => acc * 10 + digitVal c) 0 = n := natVal_natText n
  rw [e] at this
  exact this h

theorem powLoop_intText : ∀ (fuel exp : Nat) (r c : Int), exp ≤ fuel →
    powLoop fuel exp (intText r) (intText c) = .ok (intText (r * c ^ exp)) := by
  intro fuel
  induction fuel with
  | zero =>
    intro exp r c h
    have : exp = 0 := by omega
    subst this
    simp [powLoop]
  | succ fuel ih =>
    intro exp r c h
    by_cases h0 : exp = 0
    · subst h0; simp [powLoop]
    · have hpos : exp > 0 := Nat.pos_of_ne_zero h0
      simp only [powLoop, hpos, if_true]
      have hsplit : c ^ exp = (c * c) ^ (exp / 2) * c ^ (exp % 2) := by
        rw [← pow_two, ← pow_mul, ← pow_add, Nat.div_add_mod]
      by_cases hodd : exp % 2 = 1
      · simp only [hodd, beq_self_eq_true, if_true, multiply_intText]
        by_cases h1 : exp > 1
        · simp only [h1, if_true, multiply_intText]
          rw [ih (exp / 2) (r * c) (c * c) (by omega), hsplit, hodd]
          congr 2
          ring
        · have e1 : exp = 1 := by omega
          subst e1
          simp only [Nat.lt_irrefl, if_false, gt_iff_lt]
          rw [ih (1 / 2) (r * c) c (by omega)]
          congr 2
          simp
      · have heven : exp % 2 = 0 := by omega
        have hne : (exp % 2 == 1) = false := by simp [heven]
        have h1 : exp > 1 := by omega
        simp only [hne, Bool.false_eq_true, if_false, h1, if_true, multiply_intText]
        rw [ih (exp / 2) r (c * c) (by omega), hsplit, heven]
        congr 2
        ring

theorem natText_one : natText 1 = ['1'] := by
  have : digitChar 1 = '1' := by decide
  simp [natText, this]

theorem intText_one : intText 1 = ['1'] := by
  have : digitChar 1 = '1' := by decide
  simp [intText, natText, this]

theorem intText_zero : intText 0 = ['0'] := by
  simp [intText, natText]

theorem intText_eq_natText (n : Nat) : intText (n : Int) = natText n := by
  simp [intText]

theorem intText_eq_zero (b : Int) : intText b = ['0'] ↔ b = 0 := by
  unfold intText
  split
  · rename_i h
    constructor
    · intro hh; simp at hh
    · intro hh; omega
  · rw [natText_eq_zero]; exact Int.natAbs_eq_zero

theorem intText_eq_one (b : Int) : intText b = ['1'] ↔ b = 1 := by
  unfold intText
  split
  · rename_i h
    constructor
    · intro hh; simp at hh
    · intro hh; omega
  · rename_i h
    constructor
    · intro hh
      have := natVal_natText b.natAbs
      rw [hh] at this
      have h1 : b.natAbs = 1 := by rw [← this]; decide
      omega
    · intro hh; subst hh; exact natText_one

theorem natText_eq_one (n : Nat) : natText n = ['1'] ↔ n = 1 := by
  constructor
  · intro hh
    have := natVal_natText n
    rw [hh] at this
    rw [← this]; decide
  · intro hh; subst hh; exact natText_one

theorem power_intText (b : Int) (n : Nat) (h : n ≤ 1000) :
    power (intText b) (natText n) = .ok (intText (b ^ n)) := by
  have hv1 := isValidNumber_intText b
  have hv2 := isValidNumber_natText n
  have hstart := startsWith_natText n '-' (by decide)
  simp only [power, callDepth, powerAux, powerBody, hv1, hv2, Bool.not_true, Bool.false_eq_true,
    if_false, finished, hstart, hasDot_natText, beq_iff_eq, natText_eq_zero, natText_eq_one,
    intText_eq_zero, intText_eq_one]
  by_cases hn0 : n = 0
  · subst hn0; simp [intText_one]
  · by_cases hb0 : b = 0
    · subst hb0; simp [hn0, intText_zero]
    · by_cases hb1 : b = 1
      · subst hb1; simp [hn0, intText_one]
      · by_cases hn1 : n = 1
        · subst hn1; simp [hb0, hb1]
        · simp only [hn0, hb0, hb1, hn1, if_false]
          have hlen : ¬ ((natText n).length > 9) := by
            have := natText_length_le n h; omega
          simp only [powerInteger, hlen, if_false, parseExponent_natText n h, beq_iff_eq, hn0,
            hn1]
          have := powLoop_intText n n 1 b (le_refl _)
          rw [intText_one] at this
          rw [this]
          simp

/-! ## Multiplying by one and normalisation (C10) -/

theorem popZerosRev_append (R Prev : Str) :
    popZerosRev (R ++ '.' :: Prev) = R.dropWhile (fun d => d == '0') ++ '.' :: Prev := by
  induction R with
  | nil =>
    cases Prev with
    | nil => rfl
    | cons p ps => simp [popZerosRev]
  | cons x xs ih =>
    cases hxs : xs ++ '.' :: Prev with
    | nil => simp at hxs
    | cons y ys =>
      rw [List.cons_append, hxs]
      by_cases hx : x = '0'
      · subst hx
        simp only [popZerosRev, beq_self_eq_true, if_true, List.dropWhile_cons_of_pos]
        rw [← hxs, ih]
      · simp [popZerosRev, hx, List.dropWhile_cons_of_neg, ← hxs]

theorem removeTrailingZeros_point (P F : Str) (hF : '.' ∉ F) :
    removeTrailingZeros (P ++ '.' :: F) = P ++ fractionTail F := by
  have hdot : hasDot (P ++ '.' :: F) = true := by simp [hasDot]
  simp only [removeTrailingZeros, hdot, Bool.not_true, Bool.false_eq_true, if_false]
  rw [List.reverse_append, List.reverse_cons, List.append_assoc, List.singleton_append,
    popZerosRev_append]
  unfold fractionTail stripTrailingZeros
  cases h : F.reverse.dropWhile (fun d => d == '0') with
  | nil => simp [startsWith]
  | cons y ys =>
    have hy : y ≠ '.' := by
      intro hh
      have hm : y ∈ F.reverse := (List.dropWhile_sublist _).subset (by rw [h]; simp)
      exact hF (by rw [hh] at hm; exact List.mem_reverse.mp hm)
    simp [startsWith, hy]

theorem dropZeros_point (I F : Str) :
    (I ++ '.' :: F).dropWhile (fun d => d == '0') = I.dropWhile (fun d => d == '0') ++ '.' :: F := by
  induction I with
  | nil => simp [List.dropWhile_cons]
  | cons x xs ih =>
    by_cases hx : x = '0'
    · subst hx; simpa using ih
    · simp [List.dropWhile_cons, hx]

theorem dropZeros_append (I F : Str) (h : I.dropWhile (fun d => d == '0') ≠ []) :
    (I ++ F).dropWhile (fun d => d == '0') = I.dropWhile (fun d => d == '0') ++ F := by
  rw [List.dropWhile_append]
  simp [h]

theorem dropZeros_append_nil (I F : Str) (h : I.dropWhile (fun d => d == '0') = []) :
    (I ++ F).dropWhile (fun d => d == '0') = F.dropWhile (fun d => d == '0') := by
  rw [List.dropWhile_append]
  simp [h]

theorem removeLeadingZeros_unsigned (s : Str) (h1 : startsWith s '-' = false)
    (h2 : startsWith s '+' = false) :
    removeLeadingZeros s =
      if (s.dropWhile (fun d => d == '0')).isEmpty then ['0']
      else s.dropWhile (fun d => d == '0') := by
  cases s with
  | nil => rfl
  | cons c cs =>
    have hc1 : c ≠ '-' := by intro h; subst h; simp [startsWith] at h1
    have hc2 : c ≠ '+' := by intro h; subst h; simp [startsWith] at h2
    have hs : (c == '-' || c == '+') = false := by simp [hc1, hc2]
    simp only [removeLeadingZeros, hs, Bool.false_eq_true, if_false, List.nil_append]
    by_cases h : ((c :: cs).dropWhile (fun d => d == '0')).isEmpty = true
    · simp only [h, if_true]
    · simp only [h, Bool.false_eq_true, if_false]

theorem removeLeadingZeros_neg (body : Str) :
    removeLeadingZeros ('-' :: body) =
      if (body.dropWhile (fun d => d == '0')).isEmpty then ['0']
      else '-' :: body.dropWhile (fun d => d == '0') := by
  simp [removeLeadingZeros]

theorem startsWith_digits (s : Str) (hs : ∀ c ∈ s, isDigit c = true) (c : Char)
    (hc : isDigit c = false) : startsWith s c = false := by
  cases s with
  | nil => rfl
  | cons d ds =>
    simp only [startsWith, List.head?_cons]
    by_contra h
    have : d = c := by simpa using h
    subst this
    rw [hs d (List.mem_cons_self _ _)] at hc
    exact absurd hc (by decide)

theorem startsWith_append_point (I F : Str) (hI : ∀ c ∈ I, isDigit c = true) (c : Char)
    (hc : isDigit c = false) (hp : c ≠ '.') : startsWith (I ++ '.' :: F) c = false := by
  cases I with
  | nil => simp [startsWith]; exact fun h => hp h.symm
  | cons d ds =>
    simp only [startsWith, List.cons_append, List.head?_cons]
    by_contra h
    have : d = c := by simpa using h
    subst this
    rw [hI d (List.mem_cons_self _ _)] at hc
    exact absurd hc (by decide)

theorem not_mem_dot_of_digits (s : Str) (hs : ∀ c ∈ s, isDigit c = true) : '.' ∉ s :=
  fun hm => (isDigit_not_sign _ (hs _ hm)).2.2 rfl

theorem dropZeros_digits (s : Str) (hs : ∀ c ∈ s, isDigit c = true) :
    ∀ c ∈ s.dropWhile (fun d => d == '0'), isDigit c = true :=
  fun c hc => hs c ((List.dropWhile_sublist _).subset hc)

/-- Normal form of an unsigned text with a point. -/
theorem canonicalize_point (I F : Str) (hI : ∀ c ∈ I, isDigit c = true)
    (hF : ∀ c ∈ F, isDigit c = true) :
    canonicalize (I ++ '.' :: F) = I.dropWhile (fun d => d == '0') ++ fractionTail F := by
  unfold canonicalize
  rw [removeLeadingZeros_unsigned _ (startsWith_append_point I F hI '-' (by decide) (by decide))
    (startsWith_append_point I F hI '+' (by decide) (by decide)), dropZeros_point]
  simp only [List.isEmpty_eq_true, List.append_eq_nil, reduceCtorEq, and_false, if_false]
  exact removeTrailingZeros_point _ F (not_mem_dot_of_digits F hF)

theorem canonicalize_neg_point (I F : Str) (hF : ∀ c ∈ F, isDigit c = true) :
    canonicalize ('-' :: (I ++ '.' :: F)) =
      '-' :: (I.dropWhile (fun d => d == '0') ++ fractionTail F) := by
  unfold canonicalize
  rw [removeLeadingZeros_neg, dropZeros_point]
  simp only [List.isEmpty_eq_true, List.append_eq_nil, reduceCtorEq, and_false, if_false]
  rw [← List.cons_append, removeTrailingZeros_point _ F (not_mem_dot_of_digits F hF)]
  rfl

theorem canonicalize_digits (s : Str) (hs : ∀ c ∈ s, isDigit c = true) :
    canonicalize s = removeLeadingZeros s := by
  unfold canonicalize
  apply removeTrailingZeros_no_dot
  rw [removeLeadingZeros_digits s hs]
  exact natText_no_dot _

theorem canonicalize_neg_digits (s : Str) (hs : ∀ c ∈ s, isDigit c = true) :
    canonicalize ('-' :: s) =
      if removeLeadingZeros s = ['0'] then ['0'] else '-' :: removeLeadingZeros s := by
  unfold canonicalize
  rw [removeLeadingZeros_neg, removeLeadingZeros_unsigned s
    (startsWith_digits s hs '-' (by decide)) (startsWith_digits s hs '+' (by decide))]
  by_cases h : (s.dropWhile (fun d => d == '0')).isEmpty = true
  · simp only [h, if_true]
    rfl
  · simp only [h, Bool.false_eq_true, if_false]
    have hne : s.dropWhile (fun d => d == '0') ≠ ['0'] := by
      intro hh
      have := List.head_dropWhile_not (fun d => d == '0') s (by rw [hh]; simp)
      simp [hh] at this
    rw [if_neg hne]
    apply removeTrailingZeros_no_dot
    intro hm
    rcases List.mem_cons.mp hm with h1 | h1
    · exact absurd h1 (by decide)
    · exact not_mem_dot_of_digits _ (dropZeros_digits s hs) h1


theorem eraseDot_point (I F : Str) (hI : ∀ c ∈ I, isDigit c = true) :
    eraseDot (I ++ '.' :: F) = I ++ F := by
  rw [eraseDot, List.erase_append_right _ (not_mem_dot_of_digits I hI), List.erase_cons_head]

theorem decPart_point (I F : Str) (hI : ∀ c ∈ I, isDigit c = true) :
    decPart (I ++ '.' :: F) = F := by
  unfold decPart
  have : (I ++ '.' :: F).dropWhile (fun c => c != '.') = '.' :: F := by
    induction I with
    | nil => simp [List.dropWhile_cons]
    | cons x xs ih =>
      have hx : x ≠ '.' := (isDigit_not_sign x (hI x (List.mem_cons_self _ _))).2.2
      simp only [List.cons_append, List.dropWhile_cons, bne_iff_ne, ne_eq, hx, not_false_eq_true,
        decide_True, if_true]
      exact ih (fun c hc => hI c (List.mem_cons_of_mem _ hc))
  rw [this]; rfl

theorem takeZeros_eq_replicate (F : Str) :
    F.takeWhile (fun d => d == '0') =
      List.replicate (F.takeWhile (fun d => d == '0')).length '0' := by
  rw [List.eq_replicate_iff]
  refine ⟨rfl, ?_⟩
  intro b hb
  have := List.mem_takeWhile_imp hb
  simpa using this

theorem pad_dropZeros (F : Str) :
    List.replicate (F.length - (F.dropWhile (fun d => d == '0')).length) '0' ++
      F.dropWhile (fun d => d == '0') = F := by
  have h := List.takeWhile_append_dropWhile (fun d => d == '0') F
  have hl : F.length = (F.takeWhile (fun d => d == '0')).length +
      (F.dropWhile (fun d => d == '0')).length := by
    have := congrArg List.length h
    rw [List.length_append] at this
    omega
  have : F.length - (F.dropWhile (fun d => d == '0')).length =
      (F.takeWhile (fun d => d == '0')).length := by omega
  rw [this, ← takeZeros_eq_replicate, h]

theorem placePoint_zero (s : Str) : placePoint s 0 = s := by
  simp [placePoint]

theorem placePoint_long (I F : Str) (hI : I ≠ []) (hF : F ≠ []) :
    placePoint (I ++ F) F.length = I ++ '.' :: F := by
  have h1 : F.length > 0 := List.length_pos.mpr hF
  have h2 : 0 < I.length := List.length_pos.mpr hI
  have h3 : ¬ (F.length ≥ (I ++ F).length) := by rw [List.length_append]; omega
  simp only [placePoint, h1, if_true, h3, if_false]
  have : (I ++ F).length - F.length = I.length := by simp
  rw [this, List.take_left', List.drop_left']
  · rfl
  · rfl

theorem placePoint_short (F : Str) (hF : F ≠ []) (hd : ∀ c ∈ F, isDigit c = true) :
    placePoint (removeLeadingZeros F) F.length = '0' :: '.' :: F := by
  have h1 : F.length > 0 := List.length_pos.mpr hF
  rw [removeLeadingZeros_unsigned F (startsWith_digits F hd '-' (by decide))
    (startsWith_digits F hd '+' (by decide))]
  by_cases h : (F.dropWhile (fun d => d == '0')).isEmpty = true
  · simp only [h, if_true]
    have h0 : F.dropWhile (fun d => d == '0') = [] := by simpa using h
    have hp := pad_dropZeros F
    rw [h0] at hp
    simp only [List.length_nil, Nat.sub_zero, List.append_nil] at hp
    have h2 : F.length ≥ ['0'].length := by simp; omega
    simp only [placePoint, h1, if_true, h2]
    congr 2
    have : List.replicate (F.length - ['0'].length) '0' ++ ['0'] =
        List.replicate F.length '0' := by
      have e : F.length = (F.length - 1) + 1 := by omega
      conv_rhs => rw [e, List.replicate_succ']
      simp
    rw [this, hp]
  · simp only [h, Bool.false_eq_true, if_false]
    have h2 : F.length ≥ (F.dropWhile (fun d => d == '0')).length :=
      (List.dropWhile_sublist _).length_le
    simp only [placePoint, h1, if_true, h2]
    rw [pad_dropZeros]

theorem multiplyPositive_one_digits (body : Str) (hd : ∀ c ∈ body, isDigit c = true) :
    multiplyPositive body ['1'] = removeLeadingZeros body := by
  have hno := not_mem_dot_of_digits body hd
  have e1 : eraseDot body = body := by rw [eraseDot, List.erase_of_not_mem hno]
  rw [multiplyPositive_eq body ['1'] (by rw [e1]; exact hd) (by decide)]
  have e2 : eraseDot ['1'] = ['1'] := by decide
  have e3 : natVal ['1'] = 1 := by decide
  have e4 : decPlaces ['1'] = 0 := by decide
  have e5 : decPlaces body = 0 := by simp [decPlaces, decPart_of_no_dot body hno]
  rw [e1, e2, e3, e4, e5, Nat.mul_one, placePoint_zero, natText_natVal body hd]
  split
  · rename_i h
    have : body = ['0'] := by simpa using h
    subst this
    rfl
  · rw [canonicalize_digits _ (by rw [removeLeadingZeros_digits body hd]; exact natText_digits _),
      removeLeadingZeros_digits body hd, removeLeadingZeros_natText]

theorem canonicalize_dropZeros (I : Str) (hI : ∀ c ∈ I, isDigit c = true)
    (hne : I.dropWhile (fun d => d == '0') ≠ []) :
    canonicalize (I.dropWhile (fun d => d == '0')) = I.dropWhile (fun d => d == '0') := by
  rw [canonicalize_digits _ (dropZeros_digits I hI),
    removeLeadingZeros_unsigned _ (startsWith_digits _ (dropZeros_digits I hI) '-' (by decide))
      (startsWith_digits _ (dropZeros_digits I hI) '+' (by decide))]
  have : (I.dropWhile (fun d => d == '0')).dropWhile (fun d => d == '0') =
      I.dropWhile (fun d => d == '0') := by
    cases h : I.dropWhile (fun d => d == '0') with
    | nil => exact absurd h hne
    | cons y ys =>
      have := List.head_dropWhile_not (fun d => d == '0') I (by rw [h]; simp)
      simp only [h, List.head_cons] at this
      simp [List.dropWhile_cons, this]
  rw [this]
  simp [hne]

theorem multiplyPositive_one_point (I F : Str) (hI : ∀ c ∈ I, isDigit c = true)
    (hF : ∀ c ∈ F, isDigit c = true)
    (hbare : ¬ (I.dropWhile (fun d => d == '0') = [] ∧ F = [])) :
    multiplyPositive (I ++ '.' :: F) ['1'] =
      I.dropWhile (fun d => d == '0') ++ fractionTail F := by
  have hIF : ∀ c ∈ I ++ F, isDigit c = true := by
    intro c hc
    rcases List.mem_append.mp hc with h | h
    · exact hI c h
    · exact hF c h
  rw [multiplyPositive_eq _ ['1'] (by rw [eraseDot_point I F hI]; exact hIF) (by decide)]
  have e2 : eraseDot ['1'] = ['1'] := by decide
  have e3 : natVal ['1'] = 1 := by decide
  have e4 : decPlaces ['1'] = 0 := by decide
  have e5 : decPlaces (I ++ '.' :: F) = F.length := by simp [decPlaces, decPart_point I F hI]
  have hne0 : (I ++ '.' :: F == ['0'] || ['1'] == ['0']) = false := by
    have : I ++ '.' :: F ≠ ['0'] := by
      intro h
      have : '.' ∈ ['0'] := by rw [← h]; simp
      simp at this
    simp [this]
  rw [hne0, e2, e3, e4, e5, eraseDot_point I F hI, Nat.mul_one, Nat.add_zero,
    natText_natVal _ hIF]
  simp only [Bool.false_eq_true, if_false]
  by_cases hz : I.dropWhile (fun d => d == '0') = []
  · have hFne : F ≠ [] := fun h => hbare ⟨hz, h⟩
    have e6 : removeLeadingZeros (I ++ F) = removeLeadingZeros F := by
      rw [removeLeadingZeros_unsigned _ (startsWith_digits _ hIF '-' (by decide))
        (startsWith_digits _ hIF '+' (by decide)),
        removeLeadingZeros_unsigned _ (startsWith_digits _ hF '-' (by decide))
        (startsWith_digits _ hF '+' (by decide)), dropZeros_append_nil I F hz]
    rw [e6, placePoint_short F hFne hF, hz]
    have := canonicalize_point ['0'] F (by decide) hF
    simpa using this
  · have e6 : removeLeadingZeros (I ++ F) = I.dropWhile (fun d => d == '0') ++ F := by
      rw [removeLeadingZeros_unsigned _ (startsWith_digits _ hIF '-' (by decide))
        (startsWith_digits _ hIF '+' (by decide)), dropZeros_append I F hz]
      simp [hz]
    rw [e6]
    by_cases hFe : F = []
    · subst hFe
      simp only [List.append_nil, List.length_nil, placePoint_zero]
      rw [canonicalize_dropZeros I hI hz]
      simp [fractionTail, stripTrailingZeros]
    · rw [placePoint_long _ F hz hFe]
      have := canonicalize_point (I.dropWhile (fun d => d == '0')) F (dropZeros_digits I hI) hF
      rw [this]
      congr 1
      cases h : I.dropWhile (fun d => d == '0') with
      | nil => exact absurd h hz
      | cons y ys =>
        have := List.head_dropWhile_not (fun d => d == '0') I (by rw [h]; simp)
        simp only [h, List.head_cons] at this
        simp [List.dropWhile_cons, this]


theorem point_form_ne_zero (I F : Str) :
    I.dropWhile (fun d => d == '0') ++ fractionTail F ≠ ['0'] := by
  cases h : I.dropWhile (fun d => d == '0') with
  | nil =>
    unfold fractionTail
    split <;> simp
  | cons y ys =>
    have := List.head_dropWhile_not (fun d => d == '0') I (by rw [h]; simp)
    simp only [h, List.head_cons] at this
    intro hh
    simp only [List.cons_append, List.cons.injEq] at hh
    simp [hh.1] at this

theorem isBarePointZero_point (a I F : Str) (ha : absText a = I ++ '.' :: F)
    (hb : isBarePointZero a = false) : ¬ (I.dropWhile (fun d => d == '0') = [] ∧ F = []) := by
  intro ⟨h1, h2⟩
  unfold isBarePointZero at hb
  rw [ha, dropZeros_point, h1, h2] at hb
  simp at hb

/-- C10, as amended: one is a multiplicative identity up to normalisation and a leading
plus sign. For every valid decimal text `a` other than a zero written with a bare point
(`"0."`, `"."`, `"-00."`, ...), `multiply(a, "1")` returns `canonicalize` of `a` without its
leading `'+'`, where `canonicalize(x)` is `removeTrailingZeros(removeLeadingZeros(x))`; for
an `a` without a leading `'+'` that is `canonicalize(a)` itself. -/
theorem multiply_one_canonicalize (a : Str) (hv : isValidNumber a = true)
    (hbare : isBarePointZero a = false) :
    multiply a ['1'] = .ok (canonicalize (dropPlus a)) ∧
      (startsWith a '+' = false → multiply a ['1'] = .ok (canonicalize a)) := by
  have main : multiply a ['1'] = .ok (canonicalize (dropPlus a)) := by
    obtain ⟨body, hne, hloop, habs, hshape⟩ := valid_shape a hv
    rw [multiply_valid a ['1'] hv (by decide), habs]
    have hone : absText ['1'] = ['1'] := by decide
    have hs1 : startsWith ['1'] '-' = false := by decide
    simp only [hone, hs1]
    rcases validLoop_false body hloop with hd | ⟨I, F, e, hI, hF⟩
    · -- the body is a digit string
      have hres := multiplyPositive_one_digits body hd
      have hplus := startsWith_digits body hd '+' (by decide)
      rcases hshape with ⟨e1, hneg⟩ | ⟨e1, hneg⟩ | ⟨e1, hneg⟩
      · subst e1
        simp only [hneg, hres, dropPlus, hplus, Bool.false_eq_true, if_false, bne_self_eq_false,
          Bool.and_false, canonicalize_digits a hd]
      · subst e1
        have hdp : dropPlus ('-' :: body) = '-' :: body := by simp [dropPlus, startsWith]
        rw [hdp, canonicalize_neg_digits body hd, hres]
        by_cases hz : removeLeadingZeros body = ['0']
        · simp [hz]
        · simp [hz, hneg]
      · subst e1
        have hdp : dropPlus ('+' :: body) = body := by simp [dropPlus, startsWith]
        simp only [hdp, hneg, hres, bne_self_eq_false, Bool.and_false, Bool.false_eq_true,
          if_false, canonicalize_digits body hd]
    · -- the body has a point
      subst e
      have hres := multiplyPositive_one_point I F hI hF (isBarePointZero_point a I F habs hbare)
      have hplus := startsWith_append_point I F hI '+' (by decide) (by decide)
      rcases hshape with ⟨e1, hneg⟩ | ⟨e1, hneg⟩ | ⟨e1, hneg⟩
      · subst e1
        simp only [hneg, hres, dropPlus, hplus, Bool.false_eq_true, if_false, bne_self_eq_false,
          Bool.and_false, canonicalize_point I F hI hF]
      · subst e1
        have hdp : dropPlus ('-' :: (I ++ '.' :: F)) = '-' :: (I ++ '.' :: F) := by
          simp [dropPlus, startsWith]
        rw [hdp, canonicalize_neg_point I F hF, hres]
        simp [point_form_ne_zero I F, hneg]
      · subst e1
        have hdp : dropPlus ('+' :: (I ++ '.' :: F)) = I ++ '.' :: F := by
          simp [dropPlus, startsWith]
        simp only [hdp, hneg, hres, bne_self_eq_false, Bool.and_false, Bool.false_eq_true,
          if_false, canonicalize_point I F hI hF]
  refine ⟨main, fun hp => ?_⟩
  rw [main]
  simp [dropPlus, hp]

/-- C10, at the text -012.50. -/
theorem multiply_one_canonicalize_witness :
    (isValidNumber "-012.50".toList = true ∧ isBarePointZero "-012.50".toList = false) ∧
    multiply "-012.50".toList ['1'] = .ok (canonicalize (dropPlus "-012.50".toList)) :=
  ⟨by decide, (multiply_one_canonicalize "-012.50".toList (by decide) (by decide)).1⟩

/-- C10 fails as stated at `"+5"`: a valid text for which `multiply("+5", "1")` is `"5"`
while `canonicalize("+5")` keeps the sign and is `"+5"`. -/
theorem multiply_one_plus_sign :
    isValidNumber "+5".toList = true ∧ multiply "+5".toList ['1'] = .ok "5".toList ∧
      canonicalize "+5".toList = "+5".toList ∧
      multiply "+5".toList ['1'] ≠ .ok (canonicalize "+5".toList) := by
  decide

/-! ## Canonical integer texts and the power theorem (C6) -/

theorem canonicalNat_digits (s : Str) (h : isCanonicalNat s = true) :
    ∀ c ∈ s, isDigit c = true := by
  unfold isCanonicalNat at h
  simp only [Bool.and_eq_true, List.all_eq_true] at h
  exact h.1.2

theorem natText_natVal_of_canonical (s : Str) (h : isCanonicalNat s = true) :
    natText (natVal s) = s := by
  have hd := canonicalNat_digits s h
  unfold isCanonicalNat at h
  simp only [Bool.and_eq_true, Bool.or_eq_true, beq_iff_eq, Bool.not_eq_true'] at h
  obtain ⟨⟨hne, _⟩, h0⟩ := h
  cases s with
  | nil => simp at hne
  | cons c cs =>
    rcases h0 with h0 | h0
    · rw [h0]; rfl
    · apply natText_natVal_canonical c cs hd
      intro hc
      subst hc
      simp [startsWith] at h0

theorem intText_intVal_of_canonical (s : Str) (h : isCanonicalInt s = true) :
    intText (intVal s) = s := by
  unfold isCanonicalInt at h
  simp only [Bool.or_eq_true, Bool.and_eq_true, bne_iff_ne, ne_eq] at h
  rcases h with h | ⟨⟨hneg, hc⟩, hnz⟩
  · have hd := canonicalNat_digits s h
    have hs := startsWith_digits s hd '-' (by decide)
    simp only [intVal, hs, Bool.false_eq_true, if_false, intText_eq_natText]
    exact natText_natVal_of_canonical s h
  · cases s with
    | nil => simp [startsWith] at hneg
    | cons c t =>
      have hc1 : c = '-' := by simpa [startsWith] using hneg
      subst hc1
      simp only [List.drop_succ_cons, List.drop_zero] at hc hnz
      have ht := natText_natVal_of_canonical t hc
      have hpos : natVal t ≠ 0 := by
        intro h0
        rw [h0] at ht
        exact hnz ht.symm
      have hlt : -((natVal t : Nat) : Int) < 0 := by omega
      simp only [intVal, hneg, if_true, List.drop_succ_cons, List.drop_zero, intText, hlt,
        Int.natAbs_neg, Int.natAbs_ofNat, ht]

theorem isCanonicalNat_natText (n : Nat) : isCanonicalNat (natText n) = true := by
  have hd := natText_digits n
  have hne := natText_ne_nil n
  have hfix := removeLeadingZeros_natText n
  unfold isCanonicalNat
  simp only [Bool.and_eq_true, Bool.not_eq_true', List.isEmpty_eq_false, ne_eq, hne,
    not_false_eq_true, List.all_eq_true, true_and, Bool.or_eq_true, beq_iff_eq]
  refine ⟨hd, ?_⟩
  by_cases hs : startsWith (natText n) '0' = true
  · left
    cases hx : natText n with
    | nil => exact absurd hx hne
    | cons c cs =>
      rw [hx] at hs hfix hd
      have hc : c = '0' := by simpa [startsWith] using hs
      subst hc
      rw [removeLeadingZeros_unsigned _ (by simp [startsWith]) (by simp [startsWith])] at hfix
      simp only [List.dropWhile_cons, beq_self_eq_true, if_true] at hfix
      split at hfix
      · exact hfix.symm
      · have hl := (List.dropWhile_sublist (fun d => d == '0') (l := cs)).length_le
        have := congrArg List.length hfix
        simp only [List.length_cons] at this
        omega
  · right
    simpa using hs

theorem isCanonicalInt_intText (x : Int) : isCanonicalInt (intText x) = true := by
  unfold isCanonicalInt intText
  split
  · rename_i h
    have hnz : natText x.natAbs ≠ ['0'] := by
      rw [Ne, natText_eq_zero]; omega
    simp [startsWith, isCanonicalNat_natText, hnz]
  · simp [isCanonicalNat_natText]

/-- C6: integer powers are exact. For every canonical integer base text `b` (optionally
negative) and every canonical non-negative integer exponent text `n` denoting at most 1000,
`power(b, n)` returns the canonical decimal text of the number `b` denotes raised to the
number `n` denotes; `power("2","10")` is `"1024"` and `power("5","0")` is `"1"`. -/
theorem power_integer_exact (b n : Str) (hb : isCanonicalInt b = true)
    (hn : isCanonicalNat n = true) (hle : natVal n ≤ 1000) :
    power b n = .ok (intText (intVal b ^ natVal n)) ∧
      isCanonicalInt (intText (intVal b ^ natVal n)) = true ∧
      power "2".toList "10".toList = .ok "1024".toList ∧
      power "5".toList "0".toList = .ok "1".toList := by
  refine ⟨?_, isCanonicalInt_intText _, by decide, by decide⟩
  have := power_intText (intVal b) (natVal n) hle
  rwa [intText_intVal_of_canonical b hb, natText_natVal_of_canonical n hn] at this

/-- C6, at the base -3 and the exponent 5. -/
theorem power_integer_exact_witness :
    (isCanonicalInt "-3".toList = true ∧ isCanonicalNat "5".toList = true ∧
      natVal "5".toList ≤ 1000) ∧
    power "-3".toList "5".toList = .ok (intText (intVal "-3".toList ^ natVal "5".toList)) :=
  ⟨by decide, (power_integer_exact "-3".toList "5".toList (by decide) (by decide) (by decide)).1⟩

/-! ## Runs at which the code departs from its specification (C3, C4, C5, C7, C9) -/

/-- C3: `add("0.1","0.2")` returns `".3"`, not `"0.3"`: `removeLeadingZeros` also strips the
zero in front of the decimal point; `add("-5","5")` is `"0"`. -/
theorem add_strips_zero_before_point :
    add "0.1".toList "0.2".toList = .ok ".3".toList ∧
      removeLeadingZeros "0.3".toList = ".3".toList ∧
      add "-5".toList "5".toList = .ok "0".toList := by
  decide

/-- C4: `divide("1","3")` stops after 15 fractional digits but returns
`".333333333333333"`, without the zero before the point. -/
theorem divide_one_by_three :
    divide "1".toList "3".toList = .ok ".333333333333333".toList ∧
      decPlaces ".333333333333333".toList = 15 ∧
      removeLeadingZeros "0.333333333333333".toList = ".333333333333333".toList := by
  decide

/-- C5: `divide("0","0.0")` returns `"0"` although the divisor denotes zero: the zero test
on the divisor compares with the three texts `"0"`, `"+0"`, `"-0"` only, and a zero dividend
returns before `divideIntegers` is reached, which raises the error for other dividends. -/
theorem divide_zero_by_zero_point_zero :
    isValidNumber "0".toList = true ∧ isValidNumber "0.0".toList = true ∧
      divide "0".toList "0.0".toList = .ok "0".toList ∧
      divide "5".toList "0.0".toList = domain_error "Division by zero".toList := by
  decide

/-- C7: `power("2","-1")` returns `"2"`: the exit `if (exp == 1) return base` comes before
the reciprocal is taken, while `divide("1", power("2","1"))` is `".5"`. -/
theorem power_minus_one_returns_base :
    power "2".toList "-1".toList = .ok "2".toList ∧
      power "2".toList "1".toList = .ok "2".toList ∧
      divide "1".toList "2".toList = .ok ".5".toList ∧
      power "2".toList "-2".toList = .ok ".25".toList := by
  decide

/-- C9: `add("0.5","-0.5")` returns the empty text and `add("-0.5","0.5")` returns `"-"`:
the zero difference `"0.0"` is normalised to the empty text, so the test for `"-0"` misses. -/
theorem add_not_commutative_at_opposites :
    isValidNumber "0.5".toList = true ∧ isValidNumber "-0.5".toList = true ∧
      add "0.5".toList "-0.5".toList = .ok [] ∧
      add "-0.5".toList "0.5".toList = .ok ['-'] ∧
      subtractPositive "0.5".toList "0.5".toList = [] := by
  decide

/-! ## Runs at which the code departs from its specification (C11, C12, C16) -/

/-- C11: normalisation is not idempotent at `"0.0"`: `canonicalize("0.0")` is the empty text
(`removeLeadingZeros` strips the zero before the point, `removeTrailingZeros` the rest), and
`canonicalize` of the empty text is `"0"`. -/
theorem canonicalize_twice_at_zero_point_zero :
    isValidNumber "0.0".toList = true ∧ canonicalize "0.0".toList = [] ∧
      canonicalize (canonicalize "0.0".toList) = "0".toList ∧
      canonicalize "-0.0".toList = "-".toList ∧
      canonicalize (canonicalize "-0.0".toList) = "0".toList := by
  decide

/-- C12: arithmetic results that are not canonical Decimals: `add("0.1","0.2")` is `".3"`,
`multiply("0.5","0.5")` and `divide("1","4")` are `".25"`, and `subtract("0.5","0.5")` is the
empty text, which `isValidNumber` rejects. -/
theorem results_not_canonical :
    add "0.1".toList "0.2".toList = .ok ".3".toList ∧
      isCanonicalDecimal ".3".toList = false ∧
      multiply "0.5".toList "0.5".toList = .ok ".25".toList ∧
      divide "1".toList "4".toList = .ok ".25".toList ∧
      isCanonicalDecimal ".25".toList = false ∧
      subtract "0.5".toList "0.5".toList = .ok [] ∧
      isValidNumber [] = false ∧
      isCanonicalDecimal "0.3".toList = true ∧ isCanonicalDecimal "-12.05".toList = true ∧
      isCanonicalDecimal "0".toList = true ∧ isCanonicalDecimal "-0".toList = false ∧
      isCanonicalDecimal "1.50".toList = false ∧ isCanonicalDecimal "007".toList = false := by
  decide

/-- C16: the even root 1012 of a negative number is not rejected. The parity scan of
`nthRoot` stops once the number read so far exceeds 100, here at 101, which is odd;
`nthRoot("-4","2")` does fail with the domain error. -/
theorem even_root_not_rejected :
    nthRoot "-4".toList "2".toList =
        domain_error "Even root of negative number is undefined in real numbers".toList ∧
      rootIntLoop "1012".toList 0 = 101 ∧
      isValidNumber "1012".toList = true ∧
      nthRoot "-4".toList "1012".toList = .ok "-.00395256916996".toList := by
  decide

/-! ## Operators without operands (C20) -/

theorem evalLoop_operator_short (token : Token) (rest : List Token)
    (evalStack : List ComplexNumber) (ht : token.type = .OPERATOR)
    (hs : evalStack.length < 2) :
    evalLoop (token :: rest) evalStack = .error (notEnoughOperands token.value) := by
  cases evalStack with
  | nil => simp [evalLoop, ht, notEnoughOperands, invalid_argument]
  | cons b below =>
    cases below with
    | nil => simp [evalLoop, ht, notEnoughOperands, invalid_argument]
    | cons a below => exfalso; simp only [List.length_cons] at hs; omega

theorem evalLoop_append (pre rest : List Token) : ∀ (evalStack : List ComplexNumber),
    evalLoop (pre ++ rest) evalStack =
      match evalLoop pre evalStack with
      | .error e => .error e
      | .ok between => evalLoop rest between := by
  induction pre with
  | nil => intro evalStack; rfl
  | cons token pre ih =>
    intro evalStack
    rw [List.cons_append]
    cases htype : token.type with
    | NUMBER => simp only [evalLoop, htype]; exact ih _
    | VARIABLE => simp only [evalLoop, htype]; exact ih _
    | OPERATOR =>
      cases evalStack with
      | nil => simp only [evalLoop, htype]; rfl
      | cons b below =>
        cases below with
        | nil => simp only [evalLoop, htype]; rfl
        | cons a below =>
          simp only [evalLoop, htype]
          cases applyOperator token.value a b with
          | error e => rfl
          | ok r => exact ih _
    | FUNCTION =>
      cases evalStack with
      | nil => simp only [evalLoop, htype]; rfl
      | cons operand below =>
        simp only [evalLoop, htype]
        cases applyFunction token.value operand with
        | error e => rfl
        | ok r => exact ih _
    | LEFT_PAREN => simp only [evalLoop, htype]; rfl
    | RIGHT_PAREN => simp only [evalLoop, htype]; rfl

theorem scanNumber_minus (a : Str) (ha : a.all (fun c => isDigit c || c == '.') = true)
    (hne : a ≠ []) : ∀ (prev : Option Char) (rest : Str),
      ∃ last, scanNumber prev (a ++ '-' :: rest) = (a, '-' :: rest, last) := by
  induction a with
  | nil => exact absurd rfl hne
  | cons x xs ih =>
    intro prev rest
    simp only [List.all_cons, Bool.and_eq_true] at ha
    have hx : isNumberChar prev x = true := isNumberChar_of_mem prev x ha.1
    cases xs with
    | nil =>
      have hstop : isNumberChar (some x) '-' = false := by
        have hxe : x ≠ 'e' ∧ x ≠ 'E' := by
          constructor <;> (intro h; subst h; revert ha; decide)
        simp [isNumberChar, isDigit, hxe.1, hxe.2]
      refine ⟨some x, ?_⟩
      simp [scanNumber, hx, hstop]
    | cons y ys =>
      obtain ⟨last, hl⟩ := ih ha.2 (by simp) (some x) rest
      refine ⟨last, ?_⟩
      rw [List.cons_append]
      generalize (y :: ys) ++ '-' :: rest = tail at hl ⊢
      simp only [scanNumber, hx, if_true, hl]

theorem tokenizeLoop_number_minus (a : Str) (ha : isUnsignedLiteral a = true) (fuel : Nat)
    (prev : Option Char) (rest : Str) :
    ∃ last, tokenizeLoop (fuel + 1) prev (a ++ '-' :: rest) =
      numberToken a :: tokenizeLoop fuel last ('-' :: rest) := by
  have ha' := ha
  unfold isUnsignedLiteral at ha
  simp only [Bool.and_eq_true, Bool.not_eq_true', decide_eq_true_eq] at ha
  obtain ⟨⟨hne, hall⟩, _⟩ := ha
  have hne' : a ≠ [] := by intro h; subst h; simp at hne
  obtain ⟨last, hl⟩ := scanNumber_minus a hall hne' prev rest
  obtain ⟨last2, h2⟩ := tokenizeLoop_number a ha' fuel prev [] (by simp)
  cases a with
  | nil => exact absurd rfl hne'
  | cons x xs =>
    refine ⟨last, ?_⟩
    simp only [List.all_cons, Bool.and_eq_true] at hall
    have hx := hall.1
    have hsp : isSpace x = false := by
      unfold isSpace
      unfold isDigit at hx
      rcases Bool.or_eq_true _ _ |>.mp hx with h | h
      · simp only [Bool.and_eq_true, decide_eq_true_eq] at h
        simp only [Bool.or_eq_false_iff, beq_eq_false_iff_ne, ne_eq, Bool.and_eq_false_iff,
          decide_eq_false_iff_not]
        omega
      · have : x = '.' := by simpa using h
        subst this
        decide
    rw [List.cons_append] at hl ⊢
    simp only [tokenizeLoop, hsp, hx, hl, numberToken]
    simp

theorem tokenizeLoop_minus (fuel : Nat) (prev : Option Char) (rest : Str) :
    tokenizeLoop (fuel + 1) prev ('-' :: rest) =
      operatorToken ['-'] 1 false :: tokenizeLoop fuel (some '-') rest := by
  simp [tokenizeLoop, isSpace, isDigit, isAlpha, operatorMap, operatorToken]

theorem tokenizeLoop_slash (fuel : Nat) (prev : Option Char) (rest : Str) :
    tokenizeLoop (fuel + 1) prev ('/' :: rest) =
      operatorToken ['/'] 2 false :: tokenizeLoop fuel (some '/') rest := by
  simp [tokenizeLoop, isSpace, isDigit, isAlpha, operatorMap, operatorToken]

/-- The tokens of a literal followed by one operator symbol. -/
theorem tokenize_literal_operator (a : Str) (op : Char) (ha : isUnsignedLiteral a = true)
    (hop : op ∈ operatorSymbols) :
    ∃ token, token.type = .OPERATOR ∧ token.value = [op] ∧
      tokenize (a ++ [op]) = [numberToken a, token] := by
  have la := literal_length_pos a ha
  obtain ⟨n, hn⟩ : ∃ n, (a ++ [op]).length = n + 2 := ⟨a.length - 1, by simp; omega⟩
  unfold tokenize
  rw [hn]
  simp only [operatorSymbols, List.mem_cons, List.mem_singleton, List.not_mem_nil, or_false]
    at hop
  rcases hop with h | h | h | h | h <;> subst h
  · obtain ⟨l, h1⟩ := tokenizeLoop_number a ha (n + 1) none ['+'] (by simp; decide)
    exact ⟨operatorToken ['+'] 1 false, rfl, rfl, by
      rw [h1, tokenizeLoop_plus, tokenizeLoop_nil]⟩
  · obtain ⟨l, h1⟩ := tokenizeLoop_number_minus a ha (n + 1) none []
    exact ⟨operatorToken ['-'] 1 false, rfl, rfl, by
      rw [h1, tokenizeLoop_minus, tokenizeLoop_nil]⟩
  · obtain ⟨l, h1⟩ := tokenizeLoop_number a ha (n + 1) none ['*'] (by simp; decide)
    exact ⟨operatorToken ['*'] 2 false, rfl, rfl, by
      rw [h1, tokenizeLoop_star _ _ _ (by decide), tokenizeLoop_nil]⟩
  · obtain ⟨l, h1⟩ := tokenizeLoop_number a ha (n + 1) none ['/'] (by simp; decide)
    exact ⟨operatorToken ['/'] 2 false, rfl, rfl, by
      rw [h1, tokenizeLoop_slash, tokenizeLoop_nil]⟩
  · obtain ⟨l, h1⟩ := tokenizeLoop_number a ha (n + 1) none ['^'] (by simp; decide)
    exact ⟨operatorToken ['^'] 4 true, rfl, rfl, by
      rw [h1, tokenizeLoop_caret, tokenizeLoop_nil]⟩

theorem shuntingYard_literal_operator (a : Str) (token : Token) (ht : token.type = .OPERATOR) :
    shuntingYard [numberToken a, token] = [numberToken a, token] := by
  simp [shuntingYard, shuntingStep, popOperators, numberToken, ht]

/-- C20: an operator without enough operands is rejected. Whenever the evaluation loop
reaches an `Operator` token with fewer than two values on the stack,
`evaluatePostfixExpression` throws `invalid_argument` with the text
"Invalid expression: not enough operands for operator " and the symbol; so for every
unsigned decimal literal `a` and every `op` among `+ - * / ^`, `parseExpression` on `a`
followed by `op` returns the `"Error: "` string with that text. -/
theorem operator_needs_two_operands :
    (∀ (pre rest : List Token) (token : Token) (evalStack : List ComplexNumber),
        evalLoop pre [] = .ok evalStack → token.type = .OPERATOR → evalStack.length < 2 →
        evaluatePostfixExpression (pre ++ token :: rest) =
          .error (notEnoughOperands token.value)) ∧
      (∀ (a : Str) (op : Char), isUnsignedLiteral a = true → op ∈ operatorSymbols →
        parseExpression (a ++ [op]) = "Error: ".toList ++ (notEnoughOperands [op]).what) ∧
      parseExpression "2+".toList =
        "Error: Invalid expression: not enough operands for operator +".toList := by
  refine ⟨?_, ?_, by decide⟩
  · intro pre rest token evalStack hpre ht hs
    unfold evaluatePostfixExpression
    rw [evalLoop_append, hpre]
    simp only [evalLoop_operator_short token rest evalStack ht hs]
  · intro a op ha hop
    obtain ⟨token, ht, hv, htok⟩ := tokenize_literal_operator a op ha hop
    unfold parseExpression evaluatePostfixExpression
    rw [htok, shuntingYard_literal_operator a token ht]
    have h1 : evalLoop [numberToken a, token] [] = .error (notEnoughOperands [op]) := by
      have := evalLoop_operator_short token [] [ComplexNumber.ofReal a] ht (by simp)
      rw [hv] at this
      simpa [evalLoop, numberToken] using this
    rw [h1]

/-- C20, at the literal 2.5 followed by the symbol for division. -/
theorem operator_needs_two_operands_witness :
    (isUnsignedLiteral "2.5".toList = true ∧ '/' ∈ operatorSymbols) ∧
    parseExpression ("2.5".toList ++ ['/']) =
      "Error: ".toList ++ (notEnoughOperands ['/']).what :=
  ⟨by decide, operator_needs_two_operands.2.1 "2.5".toList '/' (by decide) (by decide)⟩

/-! ## The grammar of valid numbers (C13) -/

theorem isValidLoop_true_eq (cs : Str) : isValidLoop true cs = cs.all isDigit := by
  induction cs with
  | nil => rfl
  | cons c cs ih =>
    by_cases hc : c = '.'
    · subst hc
      have : isDigit '.' = false := by decide
      simp [isValidLoop, this]
    · by_cases hd : isDigit c = true
      · simp [isValidLoop, hc, hd, ih]
      · simp [isValidLoop, hc, hd]

theorem isValidLoop_false_eq (body : Str) : isValidLoop false body = decimalShape body := by
  induction body with
  | nil => rfl
  | cons c cs ih =>
    by_cases hc : c = '.'
    · subst hc
      have : isDigit '.' = false := by decide
      simp [isValidLoop, decimalShape, List.dropWhile_cons, this, startsWith,
        isValidLoop_true_eq]
    · by_cases hd : isDigit c = true
      · simp only [isValidLoop, beq_iff_eq, hc, if_false, hd, Bool.not_true, Bool.false_eq_true,
          ih]
        simp [decimalShape, List.dropWhile_cons, hd]
      · have hd' : isDigit c = false := by simpa using hd
        simp [isValidLoop, decimalShape, List.dropWhile_cons, hc, hd', startsWith]

theorem dropSign_cons (c : Char) (cs : Str) :
    dropSign (c :: cs) = if (c == '-' || c == '+') = true then cs else c :: cs := by
  simp [dropSign, startsWith]

/-- What `isValidNumber` computes: a non-empty body of the decimal shape behind an optional
sign. -/
theorem isValidNumber_eq (s : Str) :
    isValidNumber s = (!(dropSign s).isEmpty && decimalShape (dropSign s)) := by
  cases s with
  | nil => rfl
  | cons c cs =>
    rw [dropSign_cons]
    by_cases h : (c == '-' || c == '+') = true
    · simp only [isValidNumber, h, if_true]
      cases cs with
      | nil => rfl
      | cons d ds => simp [isValidLoop_false_eq]
    · simp only [isValidNumber, h, Bool.false_eq_true, if_false]
      simp [isValidLoop_false_eq]

theorem dropSign_eq_point (s : Str) (h : dropSign s = ['.']) : isBarePoint s = true := by
  cases s with
  | nil => simp [dropSign, startsWith] at h
  | cons c cs =>
    rw [dropSign_cons] at h
    split at h
    · rename_i hc
      subst h
      simp only [Bool.or_eq_true, beq_iff_eq] at hc
      rcases hc with hc | hc <;> subst hc <;> decide
    · rw [h]; decide

theorem shape_has_digit (body : Str) (hne : body ≠ []) (hp : body ≠ ['.'])
    (hs : decimalShape body = true) : body.any isDigit = true := by
  cases body with
  | nil => exact absurd rfl hne
  | cons c cs =>
    by_cases hd : isDigit c = true
    · simp [hd]
    · have hd' : isDigit c = false := by simpa using hd
      simp only [decimalShape, List.dropWhile_cons, hd', Bool.false_eq_true, if_false,
        List.isEmpty_cons, Bool.false_or, Bool.and_eq_true, startsWith, List.head?_cons,
        beq_iff_eq, Option.some.injEq, List.drop_succ_cons, List.drop_zero] at hs
      obtain ⟨hc, hall⟩ := hs
      subst hc
      cases cs with
      | nil => exact absurd rfl hp
      | cons d ds =>
        simp only [List.all_cons, Bool.and_eq_true] at hall
        simp [hall.1]

/-- C13, as amended: what `isValidNumber` accepts. For every text `s` other than the bare
points `"."`, `"+."` and `"-."`, `isValidNumber(s)` is true exactly when `s` consists of an
optional leading `'+'` or `'-'`, then zero or more digits, then optionally one `'.'`
followed by zero or more digits, with at least one digit in all; such an `s` without a
digit is rejected, and so are the empty text and the sign-only texts. -/
theorem isValidNumber_grammar (s : Str) (hs : isBarePoint s = false) :
    isValidNumber s = relaxedValidNumber s ∧
      (s.any isDigit = false → isValidNumber s = false) ∧
      isValidNumber [] = false ∧ isValidNumber ['+'] = false ∧ isValidNumber ['-'] = false := by
  have main : isValidNumber s = relaxedValidNumber s := by
    rw [isValidNumber_eq]
    unfold relaxedValidNumber
    by_cases hshape : decimalShape (dropSign s) = true
    · by_cases hne : dropSign s = []
      · simp [hne]
      · have hp : dropSign s ≠ ['.'] := by
          intro h
          rw [dropSign_eq_point s h] at hs
          exact absurd hs (by decide)
        rw [shape_has_digit _ hne hp hshape]
        simp [hne, hshape]
    · simp [hshape]
  refine ⟨main, ?_, by decide, by decide, by decide⟩
  intro hno
  rw [main]
  unfold relaxedValidNumber
  have : (dropSign s).any isDigit = false := by
    rw [List.any_eq_false] at hno ⊢
    intro x hx
    apply hno
    unfold dropSign at hx
    split at hx
    · exact List.mem_of_mem_drop hx
    · exact hx
  simp [this]

/-- C13, at the texts -12.50 (accepted) and 1.2.3 (rejected). -/
theorem isValidNumber_grammar_witness :
    isBarePoint "-12.50".toList = false ∧
    isValidNumber "-12.50".toList = relaxedValidNumber "-12.50".toList ∧
    isValidNumber "-12.50".toList = true ∧ isValidNumber "1.2.3".toList = false :=
  ⟨by decide, (isValidNumber_grammar "-12.50".toList (by decide)).1, by decide, by decide⟩

/-- C13 fails as stated at `".5"`: the code accepts it although no digit stands before the
point, so it is not of the stated form. -/
theorem isValidNumber_accepts_leading_point :
    isValidNumber ".5".toList = true ∧ claimedValidNumber ".5".toList = false ∧
      claimedValidNumber "0.5".toList = true ∧ claimedValidNumber "5.".toList = true := by
  decide

/-! ## Magnitude comparison (C14) -/

theorem natVal_lt_pow (s : Str) (hs : ∀ c ∈ s, isDigit c = true) : natVal s < 10 ^ s.length := by
  induction s with
  | nil => simp [natVal]
  | cons c cs ih =>
    rw [natVal_cons]
    have h1 := digitVal_le c (hs c (List.mem_cons_self _ _))
    have h2 := ih (fun x hx => hs x (List.mem_cons_of_mem _ hx))
    have : digitVal c * 10 ^ cs.length ≤ 9 * 10 ^ cs.length := Nat.mul_le_mul_right _ h1
    simp only [List.length_cons, pow_succ]
    omega

theorem digit_toNat (c : Char) (h : isDigit c = true) : c.toNat = digitVal c + 48 := by
  rw [isDigit_iff] at h
  unfold digitVal
  omega

/-- On digit strings of equal length, the lexicographic order is the numeric order. -/
theorem strCompare_digits (x : Str) : ∀ (y : Str), x.length = y.length →
    (∀ c ∈ x, isDigit c = true) → (∀ c ∈ y, isDigit c = true) →
    strCompare x y = cmp3 (natVal x) (natVal y) := by
  induction x with
  | nil =>
    intro y hl _ _
    cases y with
    | nil => rfl
    | cons d ds => simp at hl
  | cons c cs ih =>
    intro y hl hx hy
    cases y with
    | nil => simp at hl
    | cons d ds =>
      have hl' : cs.length = ds.length := by simpa using hl
      have hc := hx c (List.mem_cons_self _ _)
      have hd := hy d (List.mem_cons_self _ _)
      have hcs : ∀ z ∈ cs, isDigit z = true := fun z hz => hx z (List.mem_cons_of_mem _ hz)
      have hds : ∀ z ∈ ds, isDigit z = true := fun z hz => hy z (List.mem_cons_of_mem _ hz)
      have b1 := natVal_lt_pow cs hcs
      have b2 := natVal_lt_pow ds hds
      rw [hl'] at b1
      simp only [strCompare, digit_toNat c hc, digit_toNat d hd, natVal_cons, hl']
      generalize 10 ^ ds.length = P at b1 b2 ⊢
      by_cases h1 : digitVal c < digitVal d
      · have : digitVal c * P + natVal cs < digitVal d * P + natVal ds := by
          have : (digitVal c + 1) * P ≤ digitVal d * P := Nat.mul_le_mul_right _ h1
          rw [Nat.add_mul] at this
          omega
        simp [cmp3, h1, this]
      · by_cases h2 : digitVal d < digitVal c
        · have : digitVal d * P + natVal ds < digitVal c * P + natVal cs := by
            have : (digitVal d + 1) * P ≤ digitVal c * P := Nat.mul_le_mul_right _ h2
            rw [Nat.add_mul] at this
            omega
          have h3 : ¬ (digitVal c * P + natVal cs < digitVal d * P + natVal ds) := by omega
          have h4 : ¬ (digitVal c * P + natVal cs = digitVal d * P + natVal ds) := by omega
          simp [cmp3, h1, h2, h3, h4]
        · have he : digitVal c = digitVal d := by omega
          have h5 : ¬ (digitVal c + 48 < digitVal d + 48) := by omega
          have h6 : ¬ (digitVal d + 48 < digitVal c + 48) := by omega
          simp only [h5, h6, if_false]
          rw [ih ds hl' hcs hds, he]
          simp only [cmp3]
          congr 1
          · simp
          · simp

theorem canonicalNat_lower (s : Str) (h : isCanonicalNat s = true) (h0 : s ≠ ['0']) :
    10 ^ (s.length - 1) ≤ natVal s := by
  have hd := canonicalNat_digits s h
  unfold isCanonicalNat at h
  simp only [Bool.and_eq_true, Bool.or_eq_true, beq_iff_eq, Bool.not_eq_true'] at h
  obtain ⟨⟨hne, _⟩, hz⟩ := h
  cases s with
  | nil => simp at hne
  | cons c cs =>
    rcases hz with hz | hz
    · exact absurd hz h0
    · have hc : c ≠ '0' := by intro hh; subst hh; simp [startsWith] at hz
      have hcd := hd c (List.mem_cons_self _ _)
      have : digitVal c ≠ 0 := fun hh => hc ((digitVal_eq_zero c hcd).mp hh)
      rw [natVal_cons]
      simp only [List.length_cons, Nat.add_sub_cancel]
      have : 1 * 10 ^ cs.length ≤ digitVal c * 10 ^ cs.length :=
        Nat.mul_le_mul_right _ (by omega)
      omega

/-- Canonical integer texts compare by length first, and a shorter one is smaller. -/
theorem canonicalNat_length_lt (x y : Str) (hx : isCanonicalNat x = true)
    (hy : isCanonicalNat y = true) (hl : x.length < y.length) : natVal x < natVal y := by
  have b1 := natVal_lt_pow x (canonicalNat_digits x hx)
  have hxne : 0 < x.length := by
    cases x with
    | nil => simp [isCanonicalNat] at hx
    | cons c cs => simp
  have hy0 : y ≠ ['0'] := by
    intro h
    subst h
    simp only [List.length_singleton] at hl
    omega
  have b2 := canonicalNat_lower y hy hy0
  have : 10 ^ x.length ≤ 10 ^ (y.length - 1) := Nat.pow_le_pow_right (by decide) (by omega)
  omega

theorem natVal_padRight (s : Str) (n : Nat) :
    natVal (padRight s n) = natVal s * 10 ^ (n - s.length) := by
  unfold padRight
  generalize n - s.length = k
  induction k with
  | zero => simp
  | succ k ih =>
    rw [List.replicate_succ', ← List.append_assoc, natVal_append_singleton, ih, pow_succ]
    simp [digitVal]
    ring

theorem padRight_digits (s : Str) (n : Nat) (hs : ∀ c ∈ s, isDigit c = true) :
    ∀ c ∈ padRight s n, isDigit c = true := by
  intro c hc
  unfold padRight at hc
  rcases List.mem_append.mp hc with h | h
  · exact hs c h
  · rw [List.mem_replicate] at h
    rw [h.2]; decide

theorem padRight_length (s : Str) (n : Nat) (h : s.length ≤ n) : (padRight s n).length = n := by
  simp [padRight]; omega

/-- What `compareAbs` computes from the digit runs of its arguments: the comparison of the
two magnitudes scaled by `10 ^ m`, where `m` is the longer fractional length. -/
theorem compareAbs_parts (a b IA FA IB FB : Str)
    (hIA : ∀ c ∈ IA, isDigit c = true) (hFA : ∀ c ∈ FA, isDigit c = true)
    (hIB : ∀ c ∈ IB, isDigit c = true) (hFB : ∀ c ∈ FB, isDigit c = true)
    (ha1 : dropSign (intPart a) = IA) (ha2 : decPart a = FA)
    (hb1 : dropSign (intPart b) = IB) (hb2 : decPart b = FB) :
    compareAbs a b =
      cmp3 (natVal IA * 10 ^ (max FA.length FB.length) +
          natVal FA * 10 ^ (max FA.length FB.length - FA.length))
        (natVal IB * 10 ^ (max FA.length FB.length) +
          natVal FB * 10 ^ (max FA.length FB.length - FB.length)) := by
  unfold compareAbs
  simp only [ha1, ha2, hb1, hb2]
  rw [removeLeadingZeros_digits IA hIA, removeLeadingZeros_digits IB hIB]
  set m := max FA.length FB.length with hm
  have cA := isCanonicalNat_natText (natVal IA)
  have cB := isCanonicalNat_natText (natVal IB)
  have vA := natVal_natText (natVal IA)
  have vB := natVal_natText (natVal IB)
  have pA := natVal_padRight FA m
  have pB := natVal_padRight FB m
  have lA : FA.length ≤ m := le_max_left _ _
  have lB : FB.length ≤ m := le_max_right _ _
  have fA : natVal (padRight FA m) < 10 ^ m := by
    have := natVal_lt_pow _ (padRight_digits FA m hFA)
    rwa [padRight_length FA m lA] at this
  have fB : natVal (padRight FB m) < 10 ^ m := by
    have := natVal_lt_pow _ (padRight_digits FB m hFB)
    rwa [padRight_length FB m lB] at this
  have hdec : strCompare (padRight FA m) (padRight FB m) =
      cmp3 (natVal (padRight FA m)) (natVal (padRight FB m)) :=
    strCompare_digits _ _ (by rw [padRight_length FA m lA, padRight_length FB m lB])
      (padRight_digits FA m hFA) (padRight_digits FB m hFB)
  rw [hdec, ← pA, ← pB]
  generalize natVal (padRight FA m) = fa at fA ⊢
  generalize natVal (padRight FB m) = fb at fB ⊢
  generalize hP : 10 ^ m = P at fA fB ⊢
  have scale_lt : ∀ (u v f g : Nat), u < v → f < P → u * P + f < v * P + g := by
    intro u v f g huv hf
    have : (u + 1) * P ≤ v * P := Nat.mul_le_mul_right _ huv
    rw [Nat.add_mul] at this
    omega
  by_cases hlen : (natText (natVal IA)).length = (natText (natVal IB)).length
  · have hint := strCompare_digits _ _ hlen (natText_digits _) (natText_digits _)
    rw [vA, vB] at hint
    simp only [hlen, bne_self_eq_false, Bool.false_eq_true, if_false, hint]
    by_cases h1 : natVal IA < natVal IB
    · have := scale_lt _ _ fa fb h1 fA
      simp [cmp3, h1, this]
    · by_cases h2 : natVal IB < natVal IA
      · have := scale_lt _ _ fb fa h2 fB
        have h3 : ¬ (natVal IA = natVal IB) := by omega
        have h4 : ¬ (natVal IA * P + fa < natVal IB * P + fb) := by omega
        have h5 : ¬ (natVal IA * P + fa = natVal IB * P + fb) := by omega
        simp [cmp3, h1, h3, h4, h5]
      · have he : natVal IA = natVal IB := by omega
        rw [he]
        by_cases h6 : fa < fb
        · simp [cmp3, h6]
        · by_cases h7 : fa = fb
          · simp [cmp3, h7]
          · have h8 : ¬ (natVal IB * P + fa < natVal IB * P + fb) := by omega
            simp [cmp3, h6, h7]
  · have hne : ((natText (natVal IA)).length != (natText (natVal IB)).length) = true := by
      simpa using hlen
    simp only [hne, if_true]
    by_cases hlt : (natText (natVal IA)).length < (natText (natVal IB)).length
    · have h1 := canonicalNat_length_lt _ _ cA cB hlt
      rw [vA, vB] at h1
      have := scale_lt _ _ fa fb h1 fA
      simp [cmp3, hlt, this]
    · have hgt : (natText (natVal IB)).length < (natText (natVal IA)).length := by omega
      have h2 := canonicalNat_length_lt _ _ cB cA hgt
      rw [vA, vB] at h2
      have := scale_lt _ _ fb fa h2 fB
      have h4 : ¬ (natVal IA * P + fa < natVal IB * P + fb) := by omega
      have h5 : ¬ (natVal IA * P + fa = natVal IB * P + fb) := by omega
      simp [cmp3, hlt, h4, h5]

theorem intPart_of_no_dot (s : Str) (h : '.' ∉ s) : intPart s = s := by
  unfold intPart
  rw [List.takeWhile_eq_self_iff]
  intro c hc
  simp only [bne_iff_ne, ne_eq]
  intro hh; subst hh; exact h hc

theorem intPart_point (I F : Str) (hI : ∀ c ∈ I, isDigit c = true) :
    intPart (I ++ '.' :: F) = I := by
  unfold intPart
  induction I with
  | nil => simp [List.takeWhile_cons]
  | cons x xs ih =>
    have hx : x ≠ '.' := (isDigit_not_sign x (hI x (List.mem_cons_self _ _))).2.2
    simp only [List.cons_append, List.takeWhile_cons, bne_iff_ne, ne_eq, hx, not_false_eq_true,
      decide_True, if_true]
    rw [ih (fun c hc => hI c (List.mem_cons_of_mem _ hc))]

theorem intPart_sign (c : Char) (s : Str) (hc : c ≠ '.') : intPart (c :: s) = c :: intPart s := by
  simp [intPart, List.takeWhile_cons, hc]

theorem decPart_sign (c : Char) (s : Str) (hc : c ≠ '.') : decPart (c :: s) = decPart s := by
  simp [decPart, List.dropWhile_cons, hc]

theorem dropSign_digits (s : Str) (hs : ∀ c ∈ s, isDigit c = true) : dropSign s = s := by
  simp [dropSign, startsWith_digits s hs '-' (by decide), startsWith_digits s hs '+' (by decide)]

/-- The digit runs of a valid text: `I` before the point and `F` after it (either may be
empty), as `compareAbs` and the arithmetic routines extract them. -/
theorem valid_parts (a : Str) (h : isValidNumber a = true) :
    ∃ I F, (∀ c ∈ I, isDigit c = true) ∧ (∀ c ∈ F, isDigit c = true) ∧
      dropSign (intPart a) = I ∧ decPart a = F ∧
      intPart (absText a) = I ∧ decPart (absText a) = F := by
  obtain ⟨body, hne, hloop, habs, hshape⟩ := valid_shape a h
  have hbody : ∃ I F, (∀ c ∈ I, isDigit c = true) ∧ (∀ c ∈ F, isDigit c = true) ∧
      intPart body = I ∧ decPart body = F := by
    rcases validLoop_false body hloop with hd | ⟨I, F, e, hI, hF⟩
    · exact ⟨body, [], hd, by simp, intPart_of_no_dot body (not_mem_dot_of_digits body hd),
        decPart_of_no_dot body (not_mem_dot_of_digits body hd)⟩
    · subst e
      exact ⟨I, F, hI, hF, intPart_point I F hI, decPart_point I F hI⟩
  obtain ⟨I, F, hI, hF, e1, e2⟩ := hbody
  refine ⟨I, F, hI, hF, ?_, ?_, by rw [habs, e1], by rw [habs, e2]⟩
  · rcases hshape with ⟨e, _⟩ | ⟨e, _⟩ | ⟨e, _⟩
    · rw [e, e1, dropSign_digits I hI]
    · rw [e, intPart_sign _ _ (by decide), e1]
      simp [dropSign, startsWith]
    · rw [e, intPart_sign _ _ (by decide), e1]
      simp [dropSign, startsWith]
  · rcases hshape with ⟨e, _⟩ | ⟨e, _⟩ | ⟨e, _⟩
    · rw [e, e2]
    · rw [e, decPart_sign _ _ (by decide), e2]
    · rw [e, decPart_sign _ _ (by decide), e2]

theorem cmp3_scaled (x y m : Nat) (p q : ℚ) (hp : p * 10 ^ m = (x : ℚ))
    (hq : q * 10 ^ m = (y : ℚ)) :
    cmp3 x y = if p < q then -1 else if p = q then 0 else 1 := by
  have hpos : (0 : ℚ) < 10 ^ m := by positivity
  have h1 : p < q ↔ x < y := by
    rw [← Nat.cast_lt (α := ℚ), ← hp, ← hq]
    exact (mul_lt_mul_right hpos).symm
  have h2 : p = q ↔ x = y := by
    rw [← Nat.cast_inj (R := ℚ), ← hp, ← hq]
    constructor
    · intro h; rw [h]
    · intro h; exact mul_right_cancel₀ (ne_of_gt hpos) h
  simp only [cmp3, h1, h2]

theorem magnitude_scaled (I F : Str) (m : Nat) (hm : F.length ≤ m) :
    ((natVal I : ℚ) + (natVal F : ℚ) / 10 ^ F.length) * 10 ^ m =
      ((natVal I * 10 ^ m + natVal F * 10 ^ (m - F.length) : Nat) : ℚ) := by
  obtain ⟨k, rfl⟩ : ∃ k, m = F.length + k := ⟨m - F.length, by omega⟩
  have hpos : (10 : ℚ) ^ F.length ≠ 0 := by positivity
  push_cast
  rw [Nat.add_sub_cancel_left, pow_add]
  field_simp
  ring

/-- C14: `compareAbs` compares magnitudes correctly. For all valid decimal texts `a` and
`b` it returns -1, 0 or 1 according to whether the magnitude of `a` is less than, equal to
or greater than that of `b` as rational numbers (signs, leading zeros and trailing
fractional zeros do not matter); `compareAbs("-5","3")` is 1, `compareAbs("3","-5")` is -1
and `compareAbs("2.50","2.5")` is 0. -/
theorem compareAbs_correct (a b : Str) (ha : isValidNumber a = true)
    (hb : isValidNumber b = true) :
    compareAbs a b =
        (if magnitude a < magnitude b then -1 else if magnitude a = magnitude b then 0 else 1) ∧
      compareAbs "-5".toList "3".toList = 1 ∧ compareAbs "3".toList "-5".toList = -1 ∧
      compareAbs "2.50".toList "2.5".toList = 0 := by
  refine ⟨?_, by decide, by decide, by decide⟩
  obtain ⟨IA, FA, hIA, hFA, a1, a2, a3, a4⟩ := valid_parts a ha
  obtain ⟨IB, FB, hIB, hFB, b1, b2, b3, b4⟩ := valid_parts b hb
  rw [compareAbs_parts a b IA FA IB FB hIA hFA hIB hFB a1 a2 b1 b2]
  apply cmp3_scaled _ _ (max FA.length FB.length)
  · unfold magnitude
    rw [a3, a4]
    exact magnitude_scaled IA FA _ (le_max_left _ _)
  · unfold magnitude
    rw [b3, b4]
    exact magnitude_scaled IB FB _ (le_max_right _ _)

/-- C14, at the texts -007.50 and +7.5. -/
theorem compareAbs_correct_witness :
    (isValidNumber "-007.50".toList = true ∧ isValidNumber "+7.5".toList = true) ∧
    compareAbs "-007.50".toList "+7.5".toList =
      (if magnitude "-007.50".toList < magnitude "+7.5".toList then -1
       else if magnitude "-007.50".toList = magnitude "+7.5".toList then 0 else 1) :=
  ⟨by decide, (compareAbs_correct "-007.50".toList "+7.5".toList (by decide) (by decide)).1⟩

/-! ## The exponent cap (C17) -/

theorem powLoopWith_multiply : ∀ (fuel exp : Nat) (result currentBase : Str),
    powLoopWith multiply fuel exp result currentBase = powLoop fuel exp result currentBase := by
  intro fuel
  induction fuel with
  | zero => intro exp result currentBase; rfl
  | succ fuel ih =>
    intro exp result currentBase
    simp only [powLoopWith, powLoop, ih]

theorem powerIntegerWith_multiply (base exponent absExponent : Str) (neg : Bool) :
    powerIntegerWith multiply base exponent absExponent neg =
      powerInteger base exponent absExponent neg := by
  simp only [powerIntegerWith, powerInteger, powLoopWith_multiply]

theorem parseExponent_tooLarge (s : Str) (hs : ∀ c ∈ s, isDigit c = true) : ∀ acc : Nat,
    acc ≤ 1000 → 1000 < s.foldl (fun acc c => acc * 10 + digitVal c) acc →
    parseExponent s acc = .tooLarge := by
  induction s with
  | nil => intro acc h1 h2; simp at h2; omega
  | cons c cs ih =>
    intro acc h1 h2
    have hc := hs c (List.mem_cons_self _ _)
    simp only [List.foldl_cons] at h2
    simp only [parseExponent, hc, Bool.not_true, Bool.false_eq_true, if_false]
    split
    · rfl
    · rename_i h
      exact ih (fun x hx => hs x (List.mem_cons_of_mem _ hx)) _ (by omega) h2

theorem exponent_shape (e : Str) (he : isIntegerExponent e = true) :
    (∀ c ∈ exponentDigits e, isDigit c = true) ∧ exponentDigits e ≠ [] ∧
      isValidNumber e = true ∧ hasDot (exponentDigits e) = false := by
  unfold isIntegerExponent at he
  simp only [Bool.and_eq_true, Bool.not_eq_true', List.all_eq_true] at he
  obtain ⟨hne, hd⟩ := he
  have hne' : exponentDigits e ≠ [] := by
    intro h; rw [h] at hne; simp at hne
  refine ⟨hd, hne', ?_, by simp [hasDot, not_mem_dot_of_digits _ hd]⟩
  have hv := validLoop_of_digits _ hd false
  by_cases hs : startsWith e '-' = true
  · have hx : exponentDigits e = e.drop 1 := by simp [exponentDigits, hs]
    rw [hx] at hv hne'
    cases e with
    | nil => simp [startsWith] at hs
    | cons c cs =>
      have hc : c = '-' := by simpa [startsWith] using hs
      subst hc
      simp only [List.drop_succ_cons, List.drop_zero] at hv hne'
      cases cs with
      | nil => exact absurd rfl hne'
      | cons d ds => simp [isValidNumber, hv]
  · have hx : exponentDigits e = e := by simp [exponentDigits, hs]
    rw [hx] at hv hne' hd
    cases e with
    | nil => exact absurd rfl hne'
    | cons c cs =>
      have h1 := isDigit_not_sign c (hd c (List.mem_cons_self _ _))
      simp [isValidNumber, h1.1, h1.2.1, hv]

/-- With a valid base other than `"0"` and `"1"` and an integer exponent text other than
`"0"` and `"1"`, `power` runs its integer-exponent part. -/
theorem power_integer_path (base e : Str) (hb : isValidNumber base = true)
    (hb0 : base ≠ ['0']) (hb1 : base ≠ ['1']) (he : isIntegerExponent e = true)
    (he0 : e ≠ ['0']) (he1 : e ≠ ['1']) :
    power base e = powerInteger base e (exponentDigits e) (startsWith e '-') := by
  obtain ⟨_, _, hv, hdot⟩ := exponent_shape e he
  have hdot' : hasDot (if startsWith e '-' = true then List.drop 1 e else e) = false := hdot
  simp only [power, callDepth, powerAux, powerBody, hb, hv, Bool.not_true, Bool.false_eq_true,
    if_false, finished, beq_iff_eq, hb0, hb1, he0, he1, hdot']
  rfl

theorem digitChar_toNat (n : Nat) : (digitChar n).toNat = n + 48 ∨ (digitChar n).toNat = 0 := by
  unfold digitChar Char.ofNat
  split
  · left; rfl
  · right; rfl

theorem machineChar_ne_paren (c : Char) (h : MachineChar c) : c ≠ '(' := by
  rcases h with h | h | ⟨n, h⟩
  · rw [h]; decide
  · rw [h]; decide
  · intro hc
    have h2 : (digitChar n).toNat = 40 := by rw [← h, hc]; rfl
    rcases digitChar_toNat n with h1 | h1 <;> omega

theorem machineChar_zero : MachineChar '0' := Or.inr (Or.inr ⟨0, by decide⟩)

theorem machineChar_one : MachineChar '1' := Or.inr (Or.inr ⟨1, by decide⟩)

theorem removeLeadingZeros_mem (s : Str) (c : Char) (h : c ∈ removeLeadingZeros s) :
    c ∈ s ∨ c = '0' := by
  cases s with
  | nil => right; simpa [removeLeadingZeros] using h
  | cons x xs =>
    have hsub : ∀ t : Str, c ∈ t.dropWhile (fun d => d == '0') → c ∈ t :=
      fun t ht => (List.dropWhile_sublist _).subset ht
    simp only [removeLeadingZeros] at h
    by_cases hs : (x == '-' || x == '+') = true
    · simp only [hs, if_true] at h
      by_cases hr : (xs.dropWhile (fun d => d == '0')).isEmpty = true
      · simp only [hr, if_true, List.mem_singleton] at h
        exact Or.inr h
      · simp only [hr, Bool.false_eq_true, if_false, List.singleton_append, List.isEmpty_cons]
          at h
        rcases List.mem_cons.mp h with h1 | h1
        · left; rw [h1]; exact List.mem_cons_self _ _
        · left; exact List.mem_cons_of_mem _ (hsub _ h1)
    · simp only [hs, Bool.false_eq_true, if_false, List.nil_append] at h
      by_cases hr : ((x :: xs).dropWhile (fun d => d == '0')).isEmpty = true
      · simp only [hr, if_true, List.mem_singleton] at h
        exact Or.inr h
      · simp only [hr, Bool.false_eq_true, if_false] at h
        left; exact hsub _ h

theorem popZerosRev_mem (r : Str) (c : Char) : c ∈ popZerosRev r → c ∈ r := by
  induction r with
  | nil => intro h; exact h
  | cons x xs ih =>
    intro h
    cases xs with
    | nil => exact h
    | cons y ys =>
      simp only [popZerosRev] at h
      split at h
      · exact List.mem_cons_of_mem _ (ih h)
      · exact h

theorem removeTrailingZeros_mem (s : Str) (c : Char) (h : c ∈ removeTrailingZeros s) :
    c ∈ s := by
  unfold removeTrailingZeros at h
  split at h
  · exact h
  · rw [List.mem_reverse] at h
    have : c ∈ popZerosRev s.reverse := by
      split at h
      · exact List.mem_of_mem_drop h
      · exact h
    exact List.mem_reverse.mp (popZerosRev_mem _ c this)

theorem removeLeadingZeros_machine (s : Str) (hs : ∀ c ∈ s, MachineChar c) :
    ∀ c ∈ removeLeadingZeros s, MachineChar c := by
  intro c hc
  rcases removeLeadingZeros_mem s c hc with h | h
  · exact hs c h
  · rw [h]; exact machineChar_zero

theorem canonicalize_machine (s : Str) (hs : ∀ c ∈ s, MachineChar c) :
    ∀ c ∈ removeTrailingZeros (removeLeadingZeros s), MachineChar c :=
  fun c hc => removeLeadingZeros_machine s hs c (removeTrailingZeros_mem _ c hc)

theorem cellsToStr_machine (cells : List Nat) : ∀ c ∈ cellsToStr cells, MachineChar c := by
  induction cells with
  | nil => intro c hc; simp [cellsToStr] at hc
  | cons x xs ih =>
    intro c hc
    simp only [cellsToStr] at hc
    split at hc
    · obtain ⟨n, _, hn⟩ := List.mem_map.mp hc
      exact Or.inr (Or.inr ⟨n, hn.symm⟩)
    · exact ih c hc

theorem placePoint_machine (s : Str) (n : Nat) (hs : ∀ c ∈ s, MachineChar c) :
    ∀ c ∈ placePoint s n, MachineChar c := by
  intro c hc
  unfold placePoint at hc
  split at hc
  · split at hc
    · simp only [List.mem_cons, List.mem_append, List.mem_replicate] at hc
      rcases hc with h | h | h | h
      · rw [h]; exact machineChar_zero
      · rw [h]; exact Or.inr (Or.inl rfl)
      · rw [h.2]; exact machineChar_zero
      · exact hs c h
    · simp only [List.mem_append, List.mem_cons] at hc
      rcases hc with h | h | h
      · exact hs c (List.mem_of_mem_take h)
      · rw [h]; exact Or.inr (Or.inl rfl)
      · exact hs c (List.mem_of_mem_drop h)
  · exact hs c hc

theorem multiplyPositive_machine (a b : Str) : ∀ c ∈ multiplyPositive a b, MachineChar c := by
  intro c hc
  unfold multiplyPositive at hc
  split at hc
  · simp only [List.mem_singleton] at hc
    rw [hc]; exact machineChar_zero
  · refine canonicalize_machine _ (placePoint_machine _ _ ?_) c hc
    intro d hd
    split at hd
    · simp only [List.mem_singleton] at hd
      rw [hd]; exact machineChar_zero
    · exact cellsToStr_machine _ d hd

theorem multiply_machine (a b r : Str) (h : multiply a b = .ok r) : ∀ c ∈ r, MachineChar c := by
  unfold multiply at h
  split at h
  · simp [invalid_argument] at h
  · split at h
    · simp [invalid_argument] at h
    · simp only [Except.ok.injEq] at h
      intro c hc
      rw [← h] at hc
      split at hc
      · rcases List.mem_cons.mp hc with h1 | h1
        · exact Or.inl h1
        · exact multiplyPositive_machine _ _ c h1
      · exact multiplyPositive_machine _ _ c hc

theorem divDigitLoop_machine (divisor : Str) : ∀ (ds quotient remainder : Str),
    (∀ c ∈ quotient, MachineChar c) →
    ∀ c ∈ (divDigitLoop divisor ds quotient remainder).1, MachineChar c := by
  intro ds
  induction ds with
  | nil => intro quotient remainder hq c hc; exact hq c hc
  | cons d ds ih =>
    intro quotient remainder hq
    simp only [divDigitLoop]
    apply ih
    intro c hc
    rcases List.mem_append.mp hc with h | h
    · exact hq c h
    · simp only [List.mem_singleton] at h
      exact Or.inr (Or.inr ⟨_, h⟩)

theorem divideIntegers_machine (a b q r : Str) (h : divideIntegers a b = .ok (q, r)) :
    ∀ c ∈ q, MachineChar c := by
  unfold divideIntegers at h
  split at h
  · simp [domain_error] at h
  · split at h
    · simp only [Except.ok.injEq, Prod.mk.injEq] at h
      intro c hc
      rw [← h.1] at hc
      simp only [List.mem_singleton] at hc
      rw [hc]; exact machineChar_zero
    · split at h
      · simp only [Except.ok.injEq, Prod.mk.injEq] at h
        intro c hc
        rw [← h.1] at hc
        simp only [List.mem_singleton] at hc
        rw [hc]; exact machineChar_zero
      · simp only [Except.ok.injEq, Prod.mk.injEq] at h
        intro c hc
        rw [← h.1] at hc
        exact removeLeadingZeros_machine _
          (divDigitLoop_machine b a [] [] (by simp)) c hc

theorem divDecLoop_machine (divisor : Str) : ∀ (places : Nat) (quotient remainder : Str),
    (∀ c ∈ quotient, MachineChar c) →
    ∀ c ∈ divDecLoop divisor places quotient remainder, MachineChar c := by
  intro places
  induction places with
  | zero => intro quotient remainder hq c hc; exact hq c hc
  | succ n ih =>
    intro quotient remainder hq
    simp only [divDecLoop]
    split
    · apply ih
      intro c hc
      rcases List.mem_append.mp hc with h | h
      · exact hq c h
      · simp only [List.mem_singleton] at h
        exact Or.inr (Or.inr ⟨_, h⟩)
    · exact hq

/-- The source function `divide` in terms of its three stages. -/
theorem divide_eq (a b : Str) :
    divide a b =
      if !isValidNumber a then invalid_argument ("Invalid first operand: ".toList ++ a)
      else if !isValidNumber b then invalid_argument ("Invalid second operand: ".toList ++ b)
      else if isZeroLiteral b then domain_error "Division by zero".toList
      else if isZeroLiteral a then .ok ['0']
      else
        match divideIntegers (divisionOperands a b).1 (divisionOperands a b).2.1 with
        | .error e => .error e
        | .ok (quotient, remainder) =>
          .ok (finishDivide (divisionOperands a b).2.1 quotient remainder
            (divisionOperands a b).2.2 (startsWith a '-' != startsWith b '-')) := by
  unfold divide
  rfl

theorem placeShift_machine (q : Str) (shift : Int) (hq : ∀ c ∈ q, MachineChar c) :
    ∀ c ∈ placeShift q shift, MachineChar c := by
  intro c hc
  unfold placeShift at hc
  split at hc
  · simp only [] at hc
    split at hc
    · simp only [List.mem_cons, List.mem_append, List.mem_replicate] at hc
      rcases hc with h | h | h | h
      · rw [h]; exact machineChar_zero
      · rw [h]; exact Or.inr (Or.inl rfl)
      · rw [h.2]; exact machineChar_zero
      · exact hq c h
    · split at hc
      · simp only [List.mem_append, List.mem_cons] at hc
        rcases hc with h | h | h
        · exact hq c (List.mem_of_mem_take h)
        · rw [h]; exact Or.inr (Or.inl rfl)
        · exact hq c (List.mem_of_mem_drop h)
      · exact hq c hc
  · exact hq c hc

theorem finishDivide_machine (divisor q r : Str) (shift : Int) (neg : Bool)
    (hq : ∀ c ∈ q, MachineChar c) : ∀ c ∈ finishDivide divisor q r shift neg, MachineChar c := by
  have h1 := placeShift_machine q shift hq
  have h2 : ∀ c ∈ (if r != ['0'] && !hasDot (placeShift q shift) then placeShift q shift ++ ['.']
      else placeShift q shift), MachineChar c := by
    intro c hc
    split at hc
    · rcases List.mem_append.mp hc with h | h
      · exact h1 c h
      · simp only [List.mem_singleton] at h
        exact Or.inr (Or.inl h)
    · exact h1 c hc
  have h3 := canonicalize_machine _ (divDecLoop_machine divisor MAX_DECIMAL_PLACES _ r h2)
  obtain ⟨x, hx, hform⟩ : ∃ x : Str, (∀ c ∈ x, MachineChar c) ∧
      finishDivide divisor q r shift neg
        = if (neg && x != ['0']) = true then '-' :: x else x := ⟨_, h3, rfl⟩
  rw [hform]
  intro c hc
  split at hc
  · rcases List.mem_cons.mp hc with h | h
    · exact Or.inl h
    · exact hx c h
  · exact hx c hc

theorem divide_machine (a b q : Str) (h : divide a b = .ok q) : ∀ c ∈ q, MachineChar c := by
  rw [divide_eq] at h
  split at h
  · simp [invalid_argument] at h
  · split at h
    · simp [invalid_argument] at h
    · split at h
      · simp [domain_error] at h
      · split at h
        · simp only [Except.ok.injEq] at h
          intro c hc
          rw [← h] at hc
          simp only [List.mem_singleton] at hc
          rw [hc]; exact machineChar_zero
        · split at h
          · simp at h
          · rename_i quotient remainder hdiv
            simp only [Except.ok.injEq] at h
            rw [← h]
            exact finishDivide_machine _ _ _ _ _ (divideIntegers_machine _ _ _ _ hdiv)

theorem powLoop_machine : ∀ (fuel exp : Nat) (result currentBase r : Str),
    powLoop fuel exp result currentBase = .ok r → (∀ c ∈ result, MachineChar c) →
    ∀ c ∈ r, MachineChar c := by
  intro fuel
  induction fuel with
  | zero =>
    intro exp result currentBase r h hres
    simp only [powLoop, Except.ok.injEq] at h
    rw [← h]; exact hres
  | succ fuel ih =>
    intro exp result currentBase r h hres
    simp only [powLoop] at h
    split at h
    · split at h
      · simp at h
      · rename_i result2 hr2
        have hres2 : ∀ c ∈ result2, MachineChar c := by
          split at hr2
          · exact multiply_machine _ _ _ hr2
          · simp only [Except.ok.injEq] at hr2
            rw [← hr2]; exact hres
        split at h
        · simp at h
        · exact ih _ _ _ _ h hres2
    · simp only [Except.ok.injEq] at h
      rw [← h]; exact hres

theorem foldl_digits_ge (s : Str) (acc : Nat) :
    acc ≤ s.foldl (fun acc c => acc * 10 + digitVal c) acc := by
  rw [natVal_acc]
  have : 1 ≤ 10 ^ s.length := Nat.one_le_pow _ _ (by norm_num)
  nlinarith

theorem parseExponent_value (s : Str) (hs : ∀ c ∈ s, isDigit c = true) : ∀ acc : Nat,
    s.foldl (fun acc c => acc * 10 + digitVal c) acc ≤ 1000 →
    parseExponent s acc = .value (s.foldl (fun acc c => acc * 10 + digitVal c) acc) := by
  induction s with
  | nil => intro acc _; rfl
  | cons c cs ih =>
    intro acc h
    have hc := hs c (List.mem_cons_self _ _)
    simp only [List.foldl_cons] at h ⊢
    have hge := foldl_digits_ge cs (acc * 10 + digitVal c)
    simp only [parseExponent, hc, Bool.not_true, Bool.false_eq_true, if_false]
    rw [if_neg (by omega)]
    exact ih (fun x hx => hs x (List.mem_cons_of_mem _ hx)) _ h

theorem valid_no_paren (a : Str) (h : isValidNumber a = true) : '(' ∉ a := by
  obtain ⟨body, _, hloop, _, hshape⟩ := valid_shape a h
  have hbody : '(' ∉ body := by
    rcases validLoop_false body hloop with hd | ⟨I, F, hIF, hI, hF⟩
    · intro hmem
      have := hd _ hmem
      simp [isDigit] at this
    · intro hmem
      rw [hIF] at hmem
      rcases List.mem_append.mp hmem with hm | hm
      · have := hI _ hm
        simp [isDigit] at this
      · rcases List.mem_cons.mp hm with hm | hm
        · simp at hm
        · have := hF _ hm
          simp [isDigit] at this
  rcases hshape with ⟨h1, _⟩ | ⟨h1, _⟩ | ⟨h1, _⟩
  · rw [h1]; exact hbody
  · rw [h1]; intro hm
    rcases List.mem_cons.mp hm with hm | hm
    · simp at hm
    · exact hbody hm
  · rw [h1]; intro hm
    rcases List.mem_cons.mp hm with hm | hm
    · simp at hm
    · exact hbody hm

theorem machine_no_paren (r : Str) (h : ∀ c ∈ r, MachineChar c) : '(' ∉ r :=
  fun hm => machineChar_ne_paren _ (h _ hm) rfl

theorem paren_mem_tooLargeMarker (base e : Str) : '(' ∈ tooLargeMarker base e := by
  simp [tooLargeMarker]

theorem paren_mem_tooLargeForComputationMarker (base e : Str) :
    '(' ∈ tooLargeForComputationMarker base e := by
  simp [tooLargeForComputationMarker]

theorem powerInteger_no_paren (base e m r : Str) (neg : Bool) (hbase : '(' ∉ base)
    (hm : ∀ c ∈ m, isDigit c = true) (hlen : m.length ≤ 9) (hval : natVal m ≤ 1000)
    (h : powerInteger base e m neg = .ok r) : '(' ∉ r := by
  unfold powerInteger at h
  rw [if_neg (by omega), parseExponent_value m hm 0 hval] at h
  simp only [] at h
  split at h
  · simp only [Except.ok.injEq] at h
    rw [← h]; simp
  · split at h
    · simp only [Except.ok.injEq] at h
      rw [← h]; exact hbase
    · split at h
      · simp at h
      · rename_i result hres
        have hmach := powLoop_machine _ _ _ _ _ hres (by
          intro c hc
          simp only [List.mem_singleton] at hc
          rw [hc]; exact machineChar_one)
        split at h
        · exact machine_no_paren _ (divide_machine _ _ _ h)
        · simp only [Except.ok.injEq] at h
          rw [← h]; exact machine_no_paren _ hmach

theorem power_exponent_zero (base : Str) (hb : isValidNumber base = true) :
    power base ['0'] = .ok ['1'] := by
  have hv : isValidNumber ['0'] = true := by decide
  simp [power, callDepth, powerAux, powerBody, hb, hv, finished]

theorem power_exponent_one (base : Str) (hb : isValidNumber base = true)
    (hb0 : base ≠ ['0']) (hb1 : base ≠ ['1']) : power base ['1'] = .ok base := by
  have hv : isValidNumber ['1'] = true := by decide
  simp [power, callDepth, powerAux, powerBody, hb, hv, finished, hb0, hb1]

/-- C17 (as amended). For every valid base other than `"0"` and `"1"` and every integer
exponent text (an optional `'-'`, then digits): when the digits are more than nine, or they
are at most nine and their value exceeds 1000, `power` returns an "exponent too large"
marker, and so does the integer-exponent routine with any routine at all in the place of
`multiply` (no multiplication is performed); when the digits are at most nine and their
value is at most 1000, no result of `power` is either marker. -/
theorem power_exponent_cap (base e : Str) (hb : isValidNumber base = true)
    (hb0 : base ≠ ['0']) (hb1 : base ≠ ['1']) (he : isIntegerExponent e = true) :
    (9 < (exponentDigits e).length →
      power base e = .ok (tooLargeMarker base e) ∧
      power base e = powerIntegerWith multiply base e (exponentDigits e) (startsWith e '-') ∧
      ∀ mul, powerIntegerWith mul base e (exponentDigits e) (startsWith e '-')
        = .ok (tooLargeMarker base e)) ∧
    ((exponentDigits e).length ≤ 9 → 1000 < natVal (exponentDigits e) →
      power base e = .ok (tooLargeForComputationMarker base e) ∧
      power base e = powerIntegerWith multiply base e (exponentDigits e) (startsWith e '-') ∧
      ∀ mul, powerIntegerWith mul base e (exponentDigits e) (startsWith e '-')
        = .ok (tooLargeForComputationMarker base e)) ∧
    ((exponentDigits e).length ≤ 9 → natVal (exponentDigits e) ≤ 1000 →
      power base e ≠ .ok (tooLargeMarker base e) ∧
      power base e ≠ .ok (tooLargeForComputationMarker base e)) := by
  obtain ⟨hd, hne, hv, hdot⟩ := exponent_shape e he
  have hpath : ∀ m : Str, exponentDigits e = m → (9 < m.length ∨ 1000 < natVal m) →
      power base e = powerInteger base e (exponentDigits e) (startsWith e '-') := by
    intro m hm hbig
    apply power_integer_path base e hb hb0 hb1 he
    · intro h0
      rw [h0] at hm
      rw [← hm] at hbig
      revert hbig; decide
    · intro h1
      rw [h1] at hm
      rw [← hm] at hbig
      revert hbig; decide
  refine ⟨?_, ?_, ?_⟩
  · intro hlen
    have hall : ∀ mul, powerIntegerWith mul base e (exponentDigits e) (startsWith e '-')
        = .ok (tooLargeMarker base e) := by
      intro mul
      simp only [powerIntegerWith, hlen, if_true, tooLargeMarker]
    refine ⟨?_, ?_, hall⟩
    · rw [hpath _ rfl (Or.inl hlen), ← powerIntegerWith_multiply]; exact hall _
    · rw [hpath _ rfl (Or.inl hlen), ← powerIntegerWith_multiply]
  · intro hlen hbig
    have hall : ∀ mul, powerIntegerWith mul base e (exponentDigits e) (startsWith e '-')
        = .ok (tooLargeForComputationMarker base e) := by
      intro mul
      have hp := parseExponent_tooLarge (exponentDigits e) hd 0 (by norm_num) hbig
      simp only [powerIntegerWith, if_neg (Nat.not_lt.mpr hlen), hp,
        tooLargeForComputationMarker]
    refine ⟨?_, ?_, hall⟩
    · rw [hpath _ rfl (Or.inr hbig), ← powerIntegerWith_multiply]; exact hall _
    · rw [hpath _ rfl (Or.inr hbig), ← powerIntegerWith_multiply]
  · intro hlen hval
    have hbase := valid_no_paren base hb
    have hnp : ∀ r, power base e = .ok r → '(' ∉ r := by
      intro r hr
      by_cases he0 : e = ['0']
      · rw [he0, power_exponent_zero base hb] at hr
        simp only [Except.ok.injEq] at hr
        rw [← hr]; simp
      · by_cases he1 : e = ['1']
        · rw [he1, power_exponent_one base hb hb0 hb1] at hr
          simp only [Except.ok.injEq] at hr
          rw [← hr]; exact hbase
        · rw [power_integer_path base e hb hb0 hb1 he he0 he1] at hr
          exact powerInteger_no_paren base e _ r _ hbase hd hlen hval hr
    exact ⟨fun h => hnp _ h (paren_mem_tooLargeMarker base e),
      fun h => hnp _ h (paren_mem_tooLargeForComputationMarker base e)⟩

/-- C17 (as amended), at base `"2"` with the exponent `"1001"`. -/
theorem power_exponent_cap_witness :
    (isValidNumber ['2'] = true ∧ isIntegerExponent "1001".toList = true ∧
      (exponentDigits "1001".toList).length ≤ 9 ∧
      1000 < natVal (exponentDigits "1001".toList)) ∧
    power ['2'] "1001".toList = .ok (tooLargeForComputationMarker ['2'] "1001".toList) ∧
    power ['2'] "1001".toList
      = powerIntegerWith multiply ['2'] "1001".toList (exponentDigits "1001".toList)
          (startsWith "1001".toList '-') ∧
    ∀ mul, powerIntegerWith mul ['2'] "1001".toList (exponentDigits "1001".toList)
        (startsWith "1001".toList '-')
      = .ok (tooLargeForComputationMarker ['2'] "1001".toList) :=
  ⟨by decide,
    (power_exponent_cap ['2'] "1001".toList (by decide) (by decide) (by decide)
      (by decide)).2.1 (by decide) (by decide)⟩

/-- C17, the run that contradicts the claim as stated: the exponent `"0000000001"` has
magnitude 1, which is at most 1000, and `power "2" "0000000001"` returns the marker, because
the text has more than nine digits. -/
theorem power_marker_at_padded_one :
    isValidNumber ['2'] = true ∧
    isIntegerExponent "0000000001".toList = true ∧
    natVal (exponentDigits "0000000001".toList) = 1 ∧
    power ['2'] "0000000001".toList = .ok (tooLargeMarker ['2'] "0000000001".toList) := by
  decide

/-! ## Newton iteration for the cube root of eight (C15) -/

theorem newtonLoop_continue (pw : Str → Str → Option (Except Exn Str))
    (absNumber root x x2 : Str) (left : Nat)
    (h : newtonStep pw absNumber root x = some (x2, true)) :
    newtonLoop pw absNumber root (left + 1) x = newtonLoop pw absNumber root left x2 := by
  simp only [newtonLoop, h]

theorem newtonLoop_stop (pw : Str → Str → Option (Except Exn Str))
    (absNumber root x x2 : Str) (left : Nat)
    (h : newtonStep pw absNumber root x = some (x2, false)) :
    newtonLoop pw absNumber root (left + 1) x = some x2 := by
  simp only [newtonLoop, h]

/-- The product of two unsigned valid texts from the product of their digit values. -/
theorem multiply_of_value (a b t r : Str) (ha : isValidNumber a = true)
    (hb : isValidNumber b = true) (hpa : absText a = a) (hpb : absText b = b)
    (hna : startsWith a '-' = false) (hnb : startsWith b '-' = false)
    (ha0 : a ≠ ['0']) (hb0 : b ≠ ['0'])
    (ht : isCanonicalNat t = true)
    (hv : natVal (eraseDot a) * natVal (eraseDot b) = natVal t)
    (hr : canonicalize (placePoint t (decPlaces a + decPlaces b)) = r) :
    multiply a b = .ok r := by
  obtain ⟨ba, _, hva, ea, _⟩ := valid_shape a ha
  obtain ⟨bb, _, hvb, eb, _⟩ := valid_shape b hb
  rw [hpa] at ea
  rw [hpb] at eb
  subst ea
  subst eb
  rw [multiply_valid a b ha hb]
  simp only [hpa, hpb, hna, hnb]
  rw [multiplyPositive_eq a b (eraseDot_digits a hva) (eraseDot_digits b hvb)]
  have h0 : (a == ['0'] || b == ['0']) = false := by simp [ha0, hb0]
  rw [h0, hv, natText_natVal_of_canonical t ht, hr]
  simp

/-- The call `power(x, "2")` in terms of `multiply`: the squaring loop squares the base
and multiplies it into the accumulator `"1"`. -/
theorem powerAux_two (depth : Nat) (x sq r : Str) (hx : isValidNumber x = true)
    (h0 : x ≠ ['0']) (h1 : x ≠ ['1']) (hsq : multiply x x = .ok sq)
    (hr : multiply ['1'] sq = .ok r) :
    powerAux (depth + 1) x ['2'] = some (.ok r) := by
  have hv : isValidNumber ['2'] = true := by decide
  have hp : parseExponent ['2'] 0 = .value 2 := by decide
  have hpi : powerInteger x ['2'] ['2'] false = .ok r := by
    simp [powerInteger, hp, powLoop, hsq, hr]
  simp [powerAux, powerBody, hx, hv, h0, h1, startsWith, hasDot, hpi]

/-- One pass of the Newton loop from the results of its seven operations. -/
theorem newtonStep_of (pw : Str → Str → Option (Except Exn Str))
    (absNumber root x rootMinus1 p d t1 nu x2 df : Str) (go : Bool)
    (h1 : subtract root ['1'] = .ok rootMinus1) (h2 : pw x rootMinus1 = some (.ok p))
    (h3 : divide absNumber p = .ok d) (h4 : multiply rootMinus1 x = .ok t1)
    (h5 : add t1 d = .ok nu) (h6 : divide nu root = .ok x2) (h7 : subtract x2 x = .ok df)
    (h8 : decide (compareAbs (if startsWith df '-' then df.drop 1 else df)
      "0.000000001".toList < 0) = !go) :
    newtonStep pw absNumber root x = some (x2, go) := by
  simp only [newtonStep, h1, h2, h3, h4, h5, h6, h7]
  cases go with
  | true =>
    have h : ¬ compareAbs (if startsWith df '-' then df.drop 1 else df)
        "0.000000001".toList < 0 := by simpa using h8
    rw [if_neg h]
  | false =>
    have h : compareAbs (if startsWith df '-' then df.drop 1 else df)
        "0.000000001".toList < 0 := by simpa using h8
    rw [if_pos h]

set_option maxRecDepth 100000 in
theorem cubeRoot8_square1 :
    powerAux 4 "2.666666666666666".toList ['2']
      = some (.ok "7.111111111111107555555555555556".toList) :=
  powerAux_two 3 "2.666666666666666".toList
    "7.111111111111107555555555555556".toList
    "7.111111111111107555555555555556".toList
    (by decide) (by decide) (by decide)
    (multiply_of_value "2.666666666666666".toList
      "2.666666666666666".toList
      "7111111111111107555555555555556".toList
      "7.111111111111107555555555555556".toList
      (by decide) (by decide) (by decide) (by decide) (by decide) (by decide)
      (by decide) (by decide) (by decide) (by decide) (by decide))
    (multiply_of_value ['1']
      "7.111111111111107555555555555556".toList
      "7111111111111107555555555555556".toList
      "7.111111111111107555555555555556".toList
      (by decide) (by decide) (by decide) (by decide) (by decide) (by decide)
      (by decide) (by decide) (by decide) (by decide) (by decide))

theorem cubeRoot8_quotient1 :
    divide ['8'] "7.111111111111107555555555555556".toList
      = .ok "1.125".toList := by
  decide!

theorem cubeRoot8_double1 :
    multiply ['2'] "2.666666666666666".toList
      = .ok "5.333333333333332".toList := by
  decide!

theorem cubeRoot8_sum1 :
    add "5.333333333333332".toList "1.125".toList
      = .ok "6.458333333333332".toList := by
  decide!

theorem cubeRoot8_third1 :
    divide "6.458333333333332".toList ['3']
      = .ok "2.152777777777777333333333333333".toList := by
  decide!

theorem cubeRoot8_change1 :
    subtract "2.152777777777777333333333333333".toList
        "2.666666666666666".toList
      = .ok "-.513888888888888666666666666667".toList := by
  decide!

theorem cubeRoot8_pass1 :
    newtonStep (powerAux 4) ['8'] ['3'] "2.666666666666666".toList
      = some ("2.152777777777777333333333333333".toList, true) :=
  newtonStep_of _ _ _ _ ['2'] _ _ _ _ _ _ _ (by decide) cubeRoot8_square1 cubeRoot8_quotient1
    cubeRoot8_double1 cubeRoot8_sum1 cubeRoot8_third1 cubeRoot8_change1 (by decide)

set_option maxRecDepth 100000 in
theorem cubeRoot8_square2 :
    powerAux 4 "2.152777777777777333333333333333".toList ['2']
      = some (.ok "4.634452160493825246913580246912342592592592592888888888888889".toList) :=
  powerAux_two 3 "2.152777777777777333333333333333".toList
    "4.634452160493825246913580246912342592592592592888888888888889".toList
    "4.634452160493825246913580246912342592592592592888888888888889".toList
    (by decide) (by decide) (by decide)
    (multiply_of_value "2.152777777777777333333333333333".toList
      "2.152777777777777333333333333333".toList
      "4634452160493825246913580246912342592592592592888888888888889".toList
      "4.634452160493825246913580246912342592592592592888888888888889".toList
      (by decide) (by decide) (by decide) (by decide) (by decide) (by decide)
      (by decide) (by decide) (by decide) (by decide) (by decide))
    (multiply_of_value ['1']
      "4.634452160493825246913580246912342592592592592888888888888889".toList
      "4634452160493825246913580246912342592592592592888888888888889".toList
      "4.634452160493825246913580246912342592592592592888888888888889".toList
      (by decide) (by decide) (by decide) (by decide) (by decide) (by decide)
      (by decide) (by decide) (by decide) (by decide) (by decide))

theorem cubeRoot8_quotient2 :
    divide ['8'] "4.634452160493825246913580246912342592592592592888888888888889".toList
      = .ok "1.726201873048908".toList := by
  decide!

theorem cubeRoot8_double2 :
    multiply ['2'] "2.152777777777777333333333333333".toList
      = .ok "4.305555555555554666666666666666".toList := by
  decide!

theorem cubeRoot8_sum2 :
    add "4.305555555555554666666666666666".toList "1.726201873048908".toList
      = .ok "6.031757428604462666666666666666".toList := by
  decide!

theorem cubeRoot8_third2 :
    divide "6.031757428604462666666666666666".toList ['3']
      = .ok "2.010585809534820888888888888888666666666666666".toList := by
  decide!

theorem cubeRoot8_change2 :
    subtract "2.010585809534820888888888888888666666666666666".toList
        "2.152777777777777333333333333333".toList
      = .ok "-.142191968242956444444444444444333333333333334".toList := by
  decide!

theorem cubeRoot8_pass2 :
    newtonStep (powerAux 4) ['8'] ['3'] "2.152777777777777333333333333333".toList
      = some ("2.010585809534820888888888888888666666666666666".toList, true) :=
  newtonStep_of _ _ _ _ ['2'] _ _ _ _ _ _ _ (by decide) cubeRoot8_square2 cubeRoot8_quotient2
    cubeRoot8_double2 cubeRoot8_sum2 cubeRoot8_third2 cubeRoot8_change2 (by decide)

set_option maxRecDepth 100000 in
theorem cubeRoot8_square3 :
    powerAux 4 "2.010585809534820888888888888888666666666666666".toList ['2']
      = some (.ok "4.042455297502791060399564938746563196430330200380947315681967259259259259259555555555555556".toList) :=
  powerAux_two 3 "2.010585809534820888888888888888666666666666666".toList
    "4.042455297502791060399564938746563196430330200380947315681967259259259259259555555555555556".toList
    "4.042455297502791060399564938746563196430330200380947315681967259259259259259555555555555556".toList
    (by decide) (by decide) (by decide)
    (multiply_of_value "2.010585809534820888888888888888666666666666666".toList
      "2.010585809534820888888888888888666666666666666".toList
      "4042455297502791060399564938746563196430330200380947315681967259259259259259555555555555556".toList
      "4.042455297502791060399564938746563196430330200380947315681967259259259259259555555555555556".toList
      (by decide) (by decide) (by decide) (by decide) (by decide) (by decide)
      (by decide) (by decide) (by decide) (by decide) (by decide))
    (multiply_of_value ['1']
      "4.042455297502791060399564938746563196430330200380947315681967259259259259259555555555555556".toList
      "4042455297502791060399564938746563196430330200380947315681967259259259259259555555555555556".toList
      "4.042455297502791060399564938746563196430330200380947315681967259259259259259555555555555556".toList
      (by decide) (by decide) (by decide) (by decide) (by decide) (by decide)
      (by decide) (by decide) (by decide) (by decide) (by decide))

theorem cubeRoot8_quotient3 :
    divide ['8'] "4.042455297502791060399564938746563196430330200380947315681967259259259259259555555555555556".toList
      = .ok "1.978995291535311".toList := by
  decide!

theorem cubeRoot8_double3 :
    multiply ['2'] "2.010585809534820888888888888888666666666666666".toList
      = .ok "4.021171619069641777777777777777333333333333332".toList := by
  decide!

theorem cubeRoot8_sum3 :
    add "4.021171619069641777777777777777333333333333332".toList "1.978995291535311".toList
      = .ok "6.000166910604952777777777777777333333333333332".toList := by
  decide!

theorem cubeRoot8_third3 :
    divide "6.000166910604952777777777777777333333333333332".toList ['3']
      = .ok "2.000055636868317592592592592592444444444444444".toList := by
  decide!

theorem cubeRoot8_change3 :
    subtract "2.000055636868317592592592592592444444444444444".toList
        "2.010585809534820888888888888888666666666666666".toList
      = .ok "-.010530172666503296296296296296222222222222222".toList := by
  decide!

theorem cubeRoot8_pass3 :
    newtonStep (powerAux 4) ['8'] ['3'] "2.010585809534820888888888888888666666666666666".toList
      = some ("2.000055636868317592592592592592444444444444444".toList, true) :=
  newtonStep_of _ _ _ _ ['2'] _ _ _ _ _ _ _ (by decide) cubeRoot8_square3 cubeRoot8_quotient3
    cubeRoot8_double3 cubeRoot8_sum3 cubeRoot8_third3 cubeRoot8_change3 (by decide)

set_option maxRecDepth 100000 in
theorem cubeRoot8_square4 :
    powerAux 4 "2.000055636868317592592592592592444444444444444".toList ['2']
      = some (.ok "4.000222550568731486559508774938536334680982773805163165033374781893004115226469135802469136".toList) :=
  powerAux_two 3 "2.000055636868317592592592592592444444444444444".toList
    "4.000222550568731486559508774938536334680982773805163165033374781893004115226469135802469136".toList
    "4.000222550568731486559508774938536334680982773805163165033374781893004115226469135802469136".toList
    (by decide) (by decide) (by decide)
    (multiply_of_value "2.000055636868317592592592592592444444444444444".toList
      "2.000055636868317592592592592592444444444444444".toList
      "4000222550568731486559508774938536334680982773805163165033374781893004115226469135802469136".toList
      "4.000222550568731486559508774938536334680982773805163165033374781893004115226469135802469136".toList
      (by decide) (by decide) (by decide) (by decide) (by decide) (by decide)
      (by decide) (by decide) (by decide) (by decide) (by decide))
    (multiply_of_value ['1']
      "4.000222550568731486559508774938536334680982773805163165033374781893004115226469135802469136".toList
      "4000222550568731486559508774938536334680982773805163165033374781893004115226469135802469136".toList
      "4.000222550568731486559508774938536334680982773805163165033374781893004115226469135802469136".toList
      (by decide) (by decide) (by decide) (by decide) (by decide) (by decide)
      (by decide) (by decide) (by decide) (by decide) (by decide))

theorem cubeRoot8_quotient4 :
    divide ['8'] "4.000222550568731486559508774938536334680982773805163165033374781893004115226469135802469136".toList
      = .ok "1.999888730906384".toList := by
  decide!

theorem cubeRoot8_double4 :
    multiply ['2'] "2.000055636868317592592592592592444444444444444".toList
      = .ok "4.000111273736635185185185185184888888888888888".toList := by
  decide!

theorem cubeRoot8_sum4 :
    add "4.000111273736635185185185185184888888888888888".toList "1.999888730906384".toList
      = .ok "6.000000004643019185185185185184888888888888888".toList := by
  decide!

theorem cubeRoot8_third4 :
    divide "6.000000004643019185185185185184888888888888888".toList ['3']
      = .ok "2.000000001547673061728395061728296296296296296".toList := by
  decide!

theorem cubeRoot8_change4 :
    subtract "2.000000001547673061728395061728296296296296296".toList
        "2.000055636868317592592592592592444444444444444".toList
      = .ok "-.000055635320644530864197530864148148148148148".toList := by
  decide!

theorem cubeRoot8_pass4 :
    newtonStep (powerAux 4) ['8'] ['3'] "2.000055636868317592592592592592444444444444444".toList
      = some ("2.000000001547673061728395061728296296296296296".toList, true) :=
  newtonStep_of _ _ _ _ ['2'] _ _ _ _ _ _ _ (by decide) cubeRoot8_square4 cubeRoot8_quotient4
    cubeRoot8_double4 cubeRoot8_sum4 cubeRoot8_third4 cubeRoot8_change4 (by decide)

set_option maxRecDepth 100000 in
theorem cubeRoot8_square5 :
    powerAux 4 "2.000000001547673061728395061728296296296296296".toList ['2']
      = some (.ok "4.000000006190692249308872152912929736320377108357872274650609236396890717878430727023319616".toList) :=
  powerAux_two 3 "2.000000001547673061728395061728296296296296296".toList
    "4.000000006190692249308872152912929736320377108357872274650609236396890717878430727023319616".toList
    "4.000000006190692249308872152912929736320377108357872274650609236396890717878430727023319616".toList
    (by decide) (by decide) (by decide)
    (multiply_of_value "2.000000001547673061728395061728296296296296296".toList
      "2.000000001547673061728395061728296296296296296".toList
      "4000000006190692249308872152912929736320377108357872274650609236396890717878430727023319616".toList
      "4.000000006190692249308872152912929736320377108357872274650609236396890717878430727023319616".toList
      (by decide) (by decide) (by decide) (by decide) (by decide) (by decide)
      (by decide) (by decide) (by decide) (by decide) (by decide))
    (multiply_of_value ['1']
      "4.000000006190692249308872152912929736320377108357872274650609236396890717878430727023319616".toList
      "4000000006190692249308872152912929736320377108357872274650609236396890717878430727023319616".toList
      "4.000000006190692249308872152912929736320377108357872274650609236396890717878430727023319616".toList
      (by decide) (by decide) (by decide) (by decide) (by decide) (by decide)
      (by decide) (by decide) (by decide) (by decide) (by decide))

theorem cubeRoot8_quotient5 :
    divide ['8'] "4.000000006190692249308872152912929736320377108357872274650609236396890717878430727023319616".toList
      = .ok "1.999999996904653".toList := by
  decide!

theorem cubeRoot8_double5 :
    multiply ['2'] "2.000000001547673061728395061728296296296296296".toList
      = .ok "4.000000003095346123456790123456592592592592592".toList := by
  decide!

theorem cubeRoot8_sum5 :
    add "4.000000003095346123456790123456592592592592592".toList "1.999999996904653".toList
      = .ok "5.999999999999999123456790123456592592592592592".toList := by
  decide!

theorem cubeRoot8_third5 :
    divide "5.999999999999999123456790123456592592592592592".toList ['3']
      = .ok "1.999999999999999707818930041152197530864197530666666666666666".toList := by
  decide!

theorem cubeRoot8_change5 :
    subtract "1.999999999999999707818930041152197530864197530666666666666666".toList
        "2.000000001547673061728395061728296296296296296".toList
      = .ok "-.000000001547673353909465020576098765432098765333333333333334".toList := by
  decide!

theorem cubeRoot8_pass5 :
    newtonStep (powerAux 4) ['8'] ['3'] "2.000000001547673061728395061728296296296296296".toList
      = some ("1.999999999999999707818930041152197530864197530666666666666666".toList, true) :=
  newtonStep_of _ _ _ _ ['2'] _ _ _ _ _ _ _ (by decide) cubeRoot8_square5 cubeRoot8_quotient5
    cubeRoot8_double5 cubeRoot8_sum5 cubeRoot8_third5 cubeRoot8_change5 (by decide)

set_option maxRecDepth 100000 in
theorem cubeRoot8_square6 :
    powerAux 4 "1.999999999999999707818930041152197530864197530666666666666666".toList ['2']
      = some (.ok "3.999999999999998831275720164608875493234432419780453521651507216176395874613025453436976070847736625514403555555555555556".toList) :=
  powerAux_two 3 "1.999999999999999707818930041152197530864197530666666666666666".toList
    "3.999999999999998831275720164608875493234432419780453521651507216176395874613025453436976070847736625514403555555555555556".toList
    "3.999999999999998831275720164608875493234432419780453521651507216176395874613025453436976070847736625514403555555555555556".toList
    (by decide) (by decide) (by decide)
    (multiply_of_value "1.999999999999999707818930041152197530864197530666666666666666".toList
      "1.999999999999999707818930041152197530864197530666666666666666".toList
      "3999999999999998831275720164608875493234432419780453521651507216176395874613025453436976070847736625514403555555555555556".toList
      "3.999999999999998831275720164608875493234432419780453521651507216176395874613025453436976070847736625514403555555555555556".toList
      (by decide) (by decide) (by decide) (by decide) (by decide) (by decide)
      (by decide) (by decide) (by decide) (by decide) (by decide))
    (multiply_of_value ['1']
      "3.999999999999998831275720164608875493234432419780453521651507216176395874613025453436976070847736625514403555555555555556".toList
      "3999999999999998831275720164608875493234432419780453521651507216176395874613025453436976070847736625514403555555555555556".toList
      "3.999999999999998831275720164608875493234432419780453521651507216176395874613025453436976070847736625514403555555555555556".toList
      (by decide) (by decide) (by decide) (by decide) (by decide) (by decide)
      (by decide) (by decide) (by decide) (by decide) (by decide))

theorem cubeRoot8_quotient6 :
    divide ['8'] "3.999999999999998831275720164608875493234432419780453521651507216176395874613025453436976070847736625514403555555555555556".toList
      = .ok ['2'] := by
  decide!

theorem cubeRoot8_double6 :
    multiply ['2'] "1.999999999999999707818930041152197530864197530666666666666666".toList
      = .ok "3.999999999999999415637860082304395061728395061333333333333332".toList := by
  decide!

theorem cubeRoot8_sum6 :
    add "3.999999999999999415637860082304395061728395061333333333333332".toList ['2']
      = .ok "5.999999999999999415637860082304395061728395061333333333333332".toList := by
  decide!

theorem cubeRoot8_third6 :
    divide "5.999999999999999415637860082304395061728395061333333333333332".toList ['3']
      = .ok "1.999999999999999805212620027434798353909465020444444444444444".toList := by
  decide!

theorem cubeRoot8_change6 :
    subtract "1.999999999999999805212620027434798353909465020444444444444444".toList
        "1.999999999999999707818930041152197530864197530666666666666666".toList
      = .ok ".000000000000000097393689986282600823045267489777777777777778".toList := by
  decide!

theorem cubeRoot8_pass6 :
    newtonStep (powerAux 4) ['8'] ['3'] "1.999999999999999707818930041152197530864197530666666666666666".toList
      = some ("1.999999999999999805212620027434798353909465020444444444444444".toList, false) :=
  newtonStep_of _ _ _ _ ['2'] _ _ _ _ _ _ _ (by decide) cubeRoot8_square6 cubeRoot8_quotient6
    cubeRoot8_double6 cubeRoot8_sum6 cubeRoot8_third6 cubeRoot8_change6 (by decide)

theorem cubeRoot8_loop :
    newtonLoop (powerAux 4) ['8'] ['3'] maxIterations "2.666666666666666".toList
      = some "1.999999999999999805212620027434798353909465020444444444444444".toList :=
  (newtonLoop_continue _ _ _ _ _ 49 cubeRoot8_pass1).trans <|
  (newtonLoop_continue _ _ _ _ _ 48 cubeRoot8_pass2).trans <|
  (newtonLoop_continue _ _ _ _ _ 47 cubeRoot8_pass3).trans <|
  (newtonLoop_continue _ _ _ _ _ 46 cubeRoot8_pass4).trans <|
  (newtonLoop_continue _ _ _ _ _ 45 cubeRoot8_pass5).trans <|
  newtonLoop_stop _ _ _ _ _ 44 cubeRoot8_pass6

/-- The call `nthRoot(number, root)` past its guards, from the first estimate and the
Newton loop. -/
theorem nthRoot_of (number root x0 r res : Str)
    (hv : (!isValidNumber number || !isValidNumber root) = false)
    (h0 : number ≠ ['0']) (h1 : number ≠ ['1']) (hr1 : root ≠ ['1']) (hr0 : root ≠ ['0'])
    (hev : (startsWith number '-' && !hasDot root && rootIntLoop root 0 % 2 == 0) = false)
    (hd : divide (if startsWith number '-' then number.drop 1 else number) root = .ok x0)
    (hlo : ¬ compareAbs x0 "0.001".toList < 0) (hhi : ¬ compareAbs x0 "1000".toList > 0)
    (hloop : newtonLoop (powerAux 4) (if startsWith number '-' then number.drop 1 else number)
      root maxIterations x0 = some r)
    (hres : (if startsWith number '-' then '-' :: r else r) = res) :
    nthRoot number root = .ok res := by
  have h : nthRootBody (powerAux 4) number root = some (.ok res) := by
    simp only [nthRootBody, hv, beq_iff_eq, h0, h1, hr1, hr0, hev, hd, if_neg hlo, if_neg hhi,
      hloop, Bool.false_eq_true, if_false, hres]
  simp only [nthRoot, callDepth, nthRootAux, h, finished]

theorem nthRoot_eight_three :
    nthRoot ['8'] ['3']
      = .ok "1.999999999999999805212620027434798353909465020444444444444444".toList :=
  nthRoot_of ['8'] ['3'] "2.666666666666666".toList
    "1.999999999999999805212620027434798353909465020444444444444444".toList
    "1.999999999999999805212620027434798353909465020444444444444444".toList
    (by decide) (by decide) (by decide) (by decide) (by decide) (by decide) (by decide)
    (by decide) (by decide) cubeRoot8_loop (by decide)

theorem nthRoot_minus_eight_three :
    nthRoot "-8".toList ['3']
      = .ok "-1.999999999999999805212620027434798353909465020444444444444444".toList :=
  nthRoot_of "-8".toList ['3'] "2.666666666666666".toList
    "1.999999999999999805212620027434798353909465020444444444444444".toList
    "-1.999999999999999805212620027434798353909465020444444444444444".toList
    (by decide) (by decide) (by decide) (by decide) (by decide) (by decide) (by decide)
    (by decide) (by decide) cubeRoot8_loop (by decide)

theorem decimalValue_cube_root :
    decimalValue "1.999999999999999805212620027434798353909465020444444444444444".toList
      = 1 + 999999999999999805212620027434798353909465020444444444444444 / 10 ^ 60 := by
  have hI : natVal (intPart (absText "1.999999999999999805212620027434798353909465020444444444444444".toList)) = 1 := by decide
  have hF : natVal (decPart (absText "1.999999999999999805212620027434798353909465020444444444444444".toList))
      = 999999999999999805212620027434798353909465020444444444444444 := by decide
  have hL : (decPart (absText "1.999999999999999805212620027434798353909465020444444444444444".toList)).length = 60 := by decide
  have hs : startsWith "1.999999999999999805212620027434798353909465020444444444444444".toList '-' = false := by decide
  simp only [decimalValue, magnitude, hI, hF, hL, hs]
  norm_num

theorem decimalValue_minus_cube_root :
    decimalValue "-1.999999999999999805212620027434798353909465020444444444444444".toList
      = -(1 + 999999999999999805212620027434798353909465020444444444444444 / 10 ^ 60) := by
  have hI : natVal (intPart (absText "-1.999999999999999805212620027434798353909465020444444444444444".toList)) = 1 := by decide
  have hF : natVal (decPart (absText "-1.999999999999999805212620027434798353909465020444444444444444".toList))
      = 999999999999999805212620027434798353909465020444444444444444 := by decide
  have hL : (decPart (absText "-1.999999999999999805212620027434798353909465020444444444444444".toList)).length = 60 := by decide
  have hs : startsWith "-1.999999999999999805212620027434798353909465020444444444444444".toList '-' = true := by decide
  simp only [decimalValue, magnitude, hI, hF, hL, hs]
  norm_num

/-- C15: Newton root extraction converges on the cube root of plus and minus eight.
`nthRoot("8","3")` returns a decimal text whose value differs from 2 by less than 1e-9, and
`nthRoot("-8","3")` returns the same text behind a `'-'`, whose value differs from -2 by less
than 1e-9. -/
theorem nthRoot_cube_root_of_eight :
    nthRoot ['8'] ['3']
        = .ok "1.999999999999999805212620027434798353909465020444444444444444".toList ∧
      |decimalValue "1.999999999999999805212620027434798353909465020444444444444444".toList - 2|
        < 1 / 10 ^ 9 ∧
      nthRoot "-8".toList ['3']
        = .ok "-1.999999999999999805212620027434798353909465020444444444444444".toList ∧
      |decimalValue "-1.999999999999999805212620027434798353909465020444444444444444".toList - (-2)|
        < 1 / 10 ^ 9 := by
  refine ⟨nthRoot_eight_three, ?_, nthRoot_minus_eight_three, ?_⟩
  · rw [decimalValue_cube_root, abs_lt]
    constructor <;> norm_num
  · rw [decimalValue_minus_cube_root, abs_lt]
    constructor <;> norm_num

/-! ## Addition and subtraction of digit strings -/

theorem natVal_reverse (s : Str) : natVal s.reverse = leVal s := by
  induction s with
  | nil => rfl
  | cons c cs ih =>
    rw [List.reverse_cons, natVal_append_singleton, ih, leVal]
    ring

theorem leVal_reverse (s : Str) : leVal s.reverse = natVal s := by
  rw [← natVal_reverse, List.reverse_reverse]

theorem natVal_append (s t : Str) : natVal (s ++ t) = natVal s * 10 ^ t.length + natVal t := by
  unfold natVal
  rw [List.foldl_append, natVal_acc]
  congr 1
  exact (natVal_eq_cellsVal t).symm

/-- The borrow loop of `subtractPositive`: on two equally long digit strings (last digit
first) it puts as many digits in front of the result, and they read the difference, up to
a borrow out of the top digit. -/
theorem subLoop_spec : ∀ (as bs : Str) (borrow : Nat) (result : Str),
    as.length = bs.length → (∀ c ∈ as, isDigit c = true) → (∀ c ∈ bs, isDigit c = true) →
    borrow ≤ 1 →
    ∃ (D : Str) (k : Nat), subLoop as bs (borrow : Int) result = D ++ result ∧
      D.length = as.length ∧ (∀ c ∈ D, isDigit c = true) ∧ k ≤ 1 ∧
      natVal D + leVal bs + borrow = leVal as + k * 10 ^ as.length := by
  intro as
  induction as with
  | nil =>
    intro bs borrow result hl _ _ hb
    cases bs with
    | nil => exact ⟨[], borrow, by simp [subLoop], rfl, by simp, hb, by simp [natVal, leVal]⟩
    | cons b bs => simp at hl
  | cons a as ih =>
    intro bs borrow result hl ha hb hbor
    cases bs with
    | nil => simp at hl
    | cons b bs =>
      have hl' : as.length = bs.length := by simpa using hl
      have ha' : ∀ c ∈ as, isDigit c = true := fun c hc => ha c (List.mem_cons_of_mem _ hc)
      have hb' : ∀ c ∈ bs, isDigit c = true := fun c hc => hb c (List.mem_cons_of_mem _ hc)
      have da := digitVal_le a (ha a (List.mem_cons_self _ _))
      have db := digitVal_le b (hb b (List.mem_cons_self _ _))
      simp only [subLoop]
      by_cases hneg : ((digitVal a : Int) - (digitVal b : Int) - (borrow : Int)) < 0
      · rw [if_pos hneg]
        obtain ⟨D, k, hD, hlen, hdig, hk, hval⟩ :=
          ih bs 1 (digitChar ((digitVal a : Int) - (digitVal b : Int) - (borrow : Int) + 10).toNat
            :: result) hl' ha' hb' (le_refl 1)
        have hd : ((digitVal a : Int) - (digitVal b : Int) - (borrow : Int) + 10).toNat
            = digitVal a + 10 - digitVal b - borrow := by omega
        have hd9 : digitVal a + 10 - digitVal b - borrow ≤ 9 := by omega
        refine ⟨D ++ [digitChar (digitVal a + 10 - digitVal b - borrow)], k, ?_, ?_, ?_, hk, ?_⟩
        · rw [show ((1 : Nat) : Int) = 1 from rfl] at hD
          rw [hD, hd]; simp
        · simp [hlen]
        · intro c hc
          rcases List.mem_append.mp hc with h | h
          · exact hdig c h
          · simp only [List.mem_singleton] at h
            rw [h]; exact isDigit_digitChar _ hd9
        · rw [natVal_append_singleton, digitVal_digitChar _ hd9]
          simp only [leVal, List.length_cons, pow_succ, ← Nat.mul_assoc]
          have : natVal D * 10 + 10 * leVal bs + 10 = 10 * leVal as + k * 10 ^ as.length * 10 := by
            nlinarith [hval]
          omega
      · rw [if_neg hneg]
        obtain ⟨D, k, hD, hlen, hdig, hk, hval⟩ :=
          ih bs 0 (digitChar ((digitVal a : Int) - (digitVal b : Int) - (borrow : Int)).toNat
            :: result) hl' ha' hb' (by norm_num)
        have hd : ((digitVal a : Int) - (digitVal b : Int) - (borrow : Int)).toNat
            = digitVal a - digitVal b - borrow := by omega
        have hd9 : digitVal a - digitVal b - borrow ≤ 9 := by omega
        refine ⟨D ++ [digitChar (digitVal a - digitVal b - borrow)], k, ?_, ?_, ?_, hk, ?_⟩
        · rw [show ((0 : Nat) : Int) = 0 from rfl] at hD
          rw [hD, hd]; simp
        · simp [hlen]
        · intro c hc
          rcases List.mem_append.mp hc with h | h
          · exact hdig c h
          · simp only [List.mem_singleton] at h
            rw [h]; exact isDigit_digitChar _ hd9
        · rw [natVal_append_singleton, digitVal_digitChar _ hd9]
          simp only [leVal, List.length_cons, pow_succ, ← Nat.mul_assoc]
          have : natVal D * 10 + 10 * leVal bs = 10 * leVal as + k * 10 ^ as.length * 10 := by
            nlinarith [hval]
          omega

theorem natVal_replicate_zero (k : Nat) : natVal (List.replicate k '0') = 0 := by
  induction k with
  | zero => rfl
  | succ k ih =>
    rw [List.replicate_succ, natVal_cons, ih]
    simp [digitVal]

theorem natVal_zeros_append (k : Nat) (s : Str) : natVal (List.replicate k '0' ++ s) = natVal s := by
  rw [natVal_append, natVal_replicate_zero]; simp

theorem digits_zeros_append (k : Nat) (s : Str) (hs : ∀ c ∈ s, isDigit c = true) :
    ∀ c ∈ List.replicate k '0' ++ s, isDigit c = true := by
  intro c hc
  rcases List.mem_append.mp hc with h | h
  · rw [(List.mem_replicate.mp h).2]; decide
  · exact hs c h

theorem padRight_nil_zero : padRight [] 0 = [] := rfl

/-- On digit strings without a point, with the first at least the second,
`subtractPositive` is the subtraction of the numbers. -/
theorem subtractPositive_digits (a b : Str) (ha : ∀ c ∈ a, isDigit c = true)
    (hb : ∀ c ∈ b, isDigit c = true) (hle : natVal b ≤ natVal a) :
    subtractPositive a b = natText (natVal a - natVal b) := by
  have hda := not_mem_dot_of_digits a ha
  have hdb := not_mem_dot_of_digits b hb
  unfold subtractPositive
  rw [intPart_of_no_dot a hda, intPart_of_no_dot b hdb, decPart_of_no_dot a hda,
    decPart_of_no_dot b hdb]
  simp only [padRight_nil_zero, List.append_nil, List.length_nil, Nat.max_self, gt_iff_lt,
    Nat.lt_irrefl, if_false]
  have hA := digits_zeros_append (max a.length b.length - a.length) a ha
  have hB := digits_zeros_append (max a.length b.length - b.length) b hb
  have hlen : (List.replicate (max a.length b.length - a.length) '0' ++ a).reverse.length
      = (List.replicate (max a.length b.length - b.length) '0' ++ b).reverse.length := by
    simp only [List.length_reverse, List.length_append, List.length_replicate]
    omega
  obtain ⟨D, k, hD, hDlen, hDdig, hk, hval⟩ := subLoop_spec _ _ 0 []
    hlen (fun c hc => hA c (List.mem_reverse.mp hc)) (fun c hc => hB c (List.mem_reverse.mp hc))
    (by norm_num)
  rw [show ((0 : Nat) : Int) = 0 from rfl] at hD
  rw [hD, List.append_nil, removeLeadingZeros_digits D hDdig,
    removeTrailingZeros_no_dot _ (natText_no_dot _)]
  congr 1
  rw [leVal_reverse, leVal_reverse, natVal_zeros_append, natVal_zeros_append] at hval
  have h1 := natVal_lt_pow D hDdig
  have h2 := natVal_lt_pow _ hA
  rw [natVal_zeros_append] at h2
  rw [hDlen] at h1
  simp only [List.length_reverse] at h1 hval
  have hk0 : k = 0 := by
    rcases Nat.eq_zero_or_pos k with h | h
    · exact h
    · have : k = 1 := by omega
      subst this
      omega
  subst hk0
  omega

theorem digitsText_zero : digitsText 0 = [] := by simp [digitsText]

theorem digitsText_pos (n : Nat) (h : 0 < n) :
    digitsText n = digitsText (n / 10) ++ [digitChar (n % 10)] := by
  unfold digitsText
  rw [Nat.digits_def' (by norm_num) h]
  simp

theorem natText_eq_digitsText (n : Nat) (h : 0 < n) : natText n = digitsText n := by
  simp [natText, digitsText, Nat.pos_iff_ne_zero.mp h]

theorem digitsText_digits (n : Nat) : ∀ c ∈ digitsText n, isDigit c = true := by
  rcases Nat.eq_zero_or_pos n with h | h
  · subst h; simp [digitsText_zero]
  · rw [← natText_eq_digitsText n h]; exact natText_digits n

theorem natVal_digitsText (n : Nat) : natVal (digitsText n) = n := by
  rcases Nat.eq_zero_or_pos n with h | h
  · subst h; simp [digitsText_zero, natVal]
  · rw [← natText_eq_digitsText n h]; exact natVal_natText n

/-- The carry loop of `addPositive` writes the digits of the carry, whatever the number of
passes allowed beyond `carry`: the loop ends on its own condition. -/
theorem addCarryLoop_eq : ∀ (carry fuel : Nat) (intResult : Str), carry ≤ fuel →
    addCarryLoop fuel carry intResult = digitsText carry ++ intResult := by
  intro carry
  induction carry using Nat.strong_induction_on with
  | _ carry ih =>
    intro fuel intResult hf
    rcases Nat.eq_zero_or_pos carry with h0 | hpos
    · subst h0
      cases fuel with
      | zero => simp [addCarryLoop, digitsText_zero]
      | succ f => simp [addCarryLoop, digitsText_zero]
    · cases fuel with
      | zero => omega
      | succ f =>
        simp only [addCarryLoop, hpos, if_true]
        rw [ih (carry / 10) (Nat.div_lt_self hpos (by norm_num)) f _ (by omega),
          digitsText_pos carry hpos]
        simp

theorem addIntRest_spec : ∀ (bs : Str) (carry : Nat) (intResult : Str),
    (∀ c ∈ bs, isDigit c = true) →
    ∃ D : Str, addIntRest bs carry intResult = D ++ intResult ∧
      (∀ c ∈ D, isDigit c = true) ∧ natVal D = leVal bs + carry := by
  intro bs
  induction bs with
  | nil =>
    intro carry intResult _
    exact ⟨digitsText carry, by simp [addIntRest, addCarryLoop_eq], digitsText_digits carry,
      by simp [natVal_digitsText, leVal]⟩
  | cons b bs ih =>
    intro carry intResult hb
    obtain ⟨D, hD, hdig, hval⟩ := ih ((carry + digitVal b) / 10)
      (digitChar ((carry + digitVal b) % 10) :: intResult)
      (fun c hc => hb c (List.mem_cons_of_mem _ hc))
    have h9 : (carry + digitVal b) % 10 ≤ 9 := by omega
    refine ⟨D ++ [digitChar ((carry + digitVal b) % 10)], ?_, ?_, ?_⟩
    · simp only [addIntRest]; rw [hD]; simp
    · intro c hc
      rcases List.mem_append.mp hc with h | h
      · exact hdig c h
      · simp only [List.mem_singleton] at h
        rw [h]; exact isDigit_digitChar _ h9
    · rw [natVal_append_singleton, digitVal_digitChar _ h9, hval]
      simp only [leVal]
      omega

theorem addIntLoop_spec : ∀ (as bs : Str) (carry : Nat) (intResult : Str),
    (∀ c ∈ as, isDigit c = true) → (∀ c ∈ bs, isDigit c = true) →
    ∃ D : Str, addIntLoop as bs carry intResult = D ++ intResult ∧
      (∀ c ∈ D, isDigit c = true) ∧ natVal D = leVal as + leVal bs + carry := by
  intro as
  induction as with
  | nil =>
    intro bs carry intResult _ hb
    obtain ⟨D, hD, hdig, hval⟩ := addIntRest_spec bs carry intResult hb
    exact ⟨D, by simp [addIntLoop, hD], hdig, by simp [hval, leVal]⟩
  | cons a as ih =>
    intro bs carry intResult ha hb
    have ha' : ∀ c ∈ as, isDigit c = true := fun c hc => ha c (List.mem_cons_of_mem _ hc)
    cases bs with
    | nil =>
      obtain ⟨D, hD, hdig, hval⟩ := ih [] ((carry + digitVal a) / 10)
        (digitChar ((carry + digitVal a) % 10) :: intResult) ha' (by simp)
      have h9 : (carry + digitVal a) % 10 ≤ 9 := by omega
      refine ⟨D ++ [digitChar ((carry + digitVal a) % 10)], ?_, ?_, ?_⟩
      · simp only [addIntLoop]; rw [hD]; simp
      · intro c hc
        rcases List.mem_append.mp hc with h | h
        · exact hdig c h
        · simp only [List.mem_singleton] at h
          rw [h]; exact isDigit_digitChar _ h9
      · rw [natVal_append_singleton, digitVal_digitChar _ h9, hval]
        simp only [leVal]
        omega
    | cons b bs =>
      obtain ⟨D, hD, hdig, hval⟩ := ih bs ((carry + digitVal a + digitVal b) / 10)
        (digitChar ((carry + digitVal a + digitVal b) % 10) :: intResult) ha'
        (fun c hc => hb c (List.mem_cons_of_mem _ hc))
      have h9 : (carry + digitVal a + digitVal b) % 10 ≤ 9 := by omega
      refine ⟨D ++ [digitChar ((carry + digitVal a + digitVal b) % 10)], ?_, ?_, ?_⟩
      · simp only [addIntLoop]; rw [hD]; simp
      · intro c hc
        rcases List.mem_append.mp hc with h | h
        · exact hdig c h
        · simp only [List.mem_singleton] at h
          rw [h]; exact isDigit_digitChar _ h9
      · rw [natVal_append_singleton, digitVal_digitChar _ h9, hval]
        simp only [leVal]
        omega

/-- On digit strings without a point, `addPositive` is the addition of the numbers. -/
theorem addPositive_digits (a b : Str) (ha : ∀ c ∈ a, isDigit c = true)
    (hb : ∀ c ∈ b, isDigit c = true) :
    addPositive a b = natText (natVal a + natVal b) := by
  have hda := not_mem_dot_of_digits a ha
  have hdb := not_mem_dot_of_digits b hb
  unfold addPositive
  rw [intPart_of_no_dot a hda, intPart_of_no_dot b hdb, decPart_of_no_dot a hda,
    decPart_of_no_dot b hdb]
  simp only [padRight_nil_zero, List.reverse_nil, addDecLoop, List.length_nil, Nat.max_self,
    gt_iff_lt, Nat.lt_irrefl, if_false, List.append_nil]
  obtain ⟨D, hD, hdig, hval⟩ := addIntLoop_spec a.reverse b.reverse 0 []
    (fun c hc => ha c (List.mem_reverse.mp hc)) (fun c hc => hb c (List.mem_reverse.mp hc))
  rw [hD, List.append_nil, removeLeadingZeros_digits D hdig,
    removeTrailingZeros_no_dot _ (natText_no_dot _), hval, leVal_reverse, leVal_reverse]
  simp

/-! ## Addition and subtraction of integers -/

theorem compareAbs_digits (a b : Str) (ha : ∀ c ∈ a, isDigit c = true)
    (hb : ∀ c ∈ b, isDigit c = true) : compareAbs a b = cmp3 (natVal a) (natVal b) := by
  have hda := not_mem_dot_of_digits a ha
  have hdb := not_mem_dot_of_digits b hb
  have h := compareAbs_parts a b a [] b [] ha (by simp) hb (by simp)
    (by rw [intPart_of_no_dot a hda, dropSign_digits a ha]) (decPart_of_no_dot a hda)
    (by rw [intPart_of_no_dot b hdb, dropSign_digits b hb]) (decPart_of_no_dot b hdb)
  simpa [natVal] using h

theorem compareAbs_natText (m n : Nat) : compareAbs (natText m) (natText n) = cmp3 m n := by
  rw [compareAbs_digits _ _ (natText_digits m) (natText_digits n), natVal_natText, natVal_natText]

theorem addPositive_natText (m n : Nat) : addPositive (natText m) (natText n) = natText (m + n) := by
  rw [addPositive_digits _ _ (natText_digits m) (natText_digits n), natVal_natText, natVal_natText]

theorem subtractPositive_natText (m n : Nat) (h : n ≤ m) :
    subtractPositive (natText m) (natText n) = natText (m - n) := by
  rw [subtractPositive_digits _ _ (natText_digits m) (natText_digits n)
    (by rw [natVal_natText, natVal_natText]; exact h), natVal_natText, natVal_natText]

theorem natText_ne_minus_zero (n : Nat) : natText n ≠ ['-', '0'] := by
  intro h
  have := natText_digits n '-' (by rw [h]; simp)
  simp [isDigit] at this

theorem isValidNumber_signedText (neg : Bool) (n : Nat) :
    isValidNumber (signedText neg n) = true := by
  cases neg
  · exact isValidNumber_natText n
  · exact isValidNumber_neg_natText n

theorem startsWith_signedText (neg : Bool) (n : Nat) :
    startsWith (signedText neg n) '-' = neg := by
  cases neg
  · exact startsWith_natText n '-' (by decide)
  · simp [signedText, startsWith]

theorem absText_signedText (neg : Bool) (n : Nat) : absText (signedText neg n) = natText n := by
  cases neg
  · exact absText_natText n
  · have h := startsWith_natText n '+' (by decide)
    simp only [signedText, if_true, absText, startsWith, List.head?_cons, beq_self_eq_true,
      List.drop_succ_cons, List.drop_zero]
    simp only [startsWith] at h
    simp [h]

theorem intText_eq_signedText (x : Int) : intText x = signedText (decide (x < 0)) x.natAbs := by
  by_cases h : x < 0 <;> simp [intText, signedText, h]

/-- On signed digit texts `add` is the addition of integers. -/
theorem add_signedText (s t : Bool) (m n : Nat) :
    add (signedText s m) (signedText t n) = .ok (intText (signedVal s m + signedVal t n)) := by
  unfold add
  simp only [isValidNumber_signedText, Bool.not_true, Bool.false_eq_true, if_false,
    startsWith_signedText, absText_signedText]
  congr 1
  cases s <;> cases t
  · simp only [beq_self_eq_true, if_true, addPositive_natText, signedVal, Bool.false_eq_true,
      if_false]
    have hs : ¬ ((m : Int) + (n : Int) < 0) := by omega
    have hn : ((m : Int) + (n : Int)).natAbs = m + n := by omega
    simp [intText, hs, hn, natText_ne_minus_zero]
  · simp only [compareAbs_natText, signedVal, Bool.false_eq_true, if_false, if_true]
    by_cases hc : n ≤ m
    · have hc3 : cmp3 m n ≥ 0 := by
        unfold cmp3; split_ifs <;> omega
      have hs : ¬ ((m : Int) + -(n : Int) < 0) := by omega
      have hn : ((m : Int) + -(n : Int)).natAbs = m - n := by omega
      simp [hc3, subtractPositive_natText _ _ hc, intText, hs, hn, natText_ne_minus_zero]
    · have hc3 : ¬ cmp3 m n ≥ 0 := by
        unfold cmp3; split_ifs <;> omega
      have hs : (m : Int) + -(n : Int) < 0 := by omega
      have hn : ((m : Int) + -(n : Int)).natAbs = n - m := by omega
      have hz : ¬ (n - m = 0) := by omega
      simp [hc3, subtractPositive_natText _ _ (by omega : m ≤ n), intText, hs, hn,
        natText_eq_zero, hz]
  · simp only [compareAbs_natText, signedVal, Bool.false_eq_true, if_false, if_true]
    by_cases hc : n ≤ m
    · have hc3 : cmp3 m n ≥ 0 := by
        unfold cmp3; split_ifs <;> omega
      by_cases hz : m - n = 0
      · have h0 : -(m : Int) + (n : Int) = 0 := by omega
        have hnt : natText 0 = ['0'] := by simp [natText]
        simp [hc3, subtractPositive_natText _ _ hc, h0, intText, hz, hnt]
      · have hs : -(m : Int) + (n : Int) < 0 := by omega
        have hn : (-(m : Int) + (n : Int)).natAbs = m - n := by omega
        simp [hc3, subtractPositive_natText _ _ hc, intText, hs, hn, natText_eq_zero, hz]
    · have hc3 : ¬ cmp3 m n ≥ 0 := by
        unfold cmp3; split_ifs <;> omega
      have hs : ¬ (-(m : Int) + (n : Int) < 0) := by omega
      have hn : (-(m : Int) + (n : Int)).natAbs = n - m := by omega
      simp [hc3, subtractPositive_natText _ _ (by omega : m ≤ n), intText, hs, hn,
        natText_ne_minus_zero]
  · simp only [beq_self_eq_true, if_true, addPositive_natText, signedVal]
    by_cases hz : m + n = 0
    · have h0 : -(m : Int) + -(n : Int) = 0 := by omega
      have hnt : natText 0 = ['0'] := by simp [natText]
      simp [h0, intText, hz, hnt]
    · have hs : -(m : Int) + -(n : Int) < 0 := by omega
      have hn : (-(m : Int) + -(n : Int)).natAbs = m + n := by omega
      simp [intText, hs, hn, natText_eq_zero, hz]

theorem signedVal_intText (x : Int) : signedVal (decide (x < 0)) x.natAbs = x := by
  by_cases h : x < 0
  · simp only [signedVal, h, decide_True, if_true]; omega
  · simp only [signedVal, h, decide_False, Bool.false_eq_true, if_false]; omega

/-- On canonical integer texts `add` is the addition of integers. -/
theorem add_intText (x y : Int) : add (intText x) (intText y) = .ok (intText (x + y)) := by
  rw [intText_eq_signedText x, intText_eq_signedText y, add_signedText, signedVal_intText,
    signedVal_intText]

/-- On canonical integer texts `subtract` is the subtraction of integers. -/
theorem subtract_intText (x y : Int) :
    subtract (intText x) (intText y) = .ok (intText (x - y)) := by
  unfold subtract
  simp only [isValidNumber_intText, Bool.not_true, Bool.false_eq_true, if_false,
    startsWith_intText]
  have hneg : (if decide (y < 0) = true then (intText y).drop 1 else '-' :: intText y)
      = signedText (!decide (y < 0)) y.natAbs := by
    by_cases h : y < 0 <;> simp [intText, signedText, h]
  rw [hneg, intText_eq_signedText x, add_signedText, signedVal_intText]
  congr 2
  by_cases h : y < 0
  · simp only [signedVal, h, decide_True, Bool.not_true, Bool.false_eq_true, if_false]; omega
  · simp only [signedVal, h, decide_False, Bool.not_false, if_true]; omega

/-! ## The subtraction loops of the division routines -/

/-- The subtraction loop of the division routines on digit strings with a positive divisor:
once more passes are allowed than the quotient of the two numbers, the loop ends on its own
condition, with the remainder of the division and the quotient added to the count. -/
theorem divSubLoop_spec (divisor : Str) (hd : ∀ c ∈ divisor, isDigit c = true)
    (hpos : 0 < natVal divisor) : ∀ (fuel : Nat) (remainder : Str) (count : Nat),
    (∀ c ∈ remainder, isDigit c = true) → natVal remainder / natVal divisor < fuel →
    divSubLoop divisor fuel remainder count =
      (if natVal remainder < natVal divisor then remainder
       else natText (natVal remainder % natVal divisor),
       count + natVal remainder / natVal divisor) := by
  intro fuel
  induction fuel with
  | zero => intro remainder count _ h; exact absurd h (Nat.not_lt_zero _)
  | succ fuel ih =>
    intro remainder count hr hf
    simp only [divSubLoop, compareAbs_digits remainder divisor hr hd]
    by_cases hlt : natVal remainder < natVal divisor
    · have hc3 : ¬ cmp3 (natVal remainder) (natVal divisor) ≥ 0 := by
        unfold cmp3; rw [if_pos hlt]; omega
      simp [hc3, hlt, Nat.div_eq_of_lt hlt]
    · have hc3 : cmp3 (natVal remainder) (natVal divisor) ≥ 0 := by
        unfold cmp3; split_ifs <;> omega
      have hge : natVal divisor ≤ natVal remainder := by omega
      have e : natVal remainder = (natVal remainder - natVal divisor) + natVal divisor := by
        omega
      have hdiv : natVal remainder / natVal divisor
          = (natVal remainder - natVal divisor) / natVal divisor + 1 := by
        conv_lhs => rw [e]
        exact Nat.add_div_right _ hpos
      have hmod : natVal remainder % natVal divisor
          = (natVal remainder - natVal divisor) % natVal divisor := by
        conv_lhs => rw [e]
        exact Nat.add_mod_right _ _
      simp only [hc3, if_true, hlt, if_false]
      rw [subtractPositive_digits remainder divisor hr hd hge,
        ih _ _ (natText_digits _) (by rw [natVal_natText]; omega), natVal_natText, hdiv, hmod]
      congr 1
      · split
        · rename_i hsmall
          rw [Nat.mod_eq_of_lt hsmall]
        · rfl
      · omega

theorem divSubLoop_digits (divisor : Str) (hd : ∀ c ∈ divisor, isDigit c = true)
    (hpos : 0 < natVal divisor) (fuel : Nat) (remainder : Str) (count : Nat)
    (hr : ∀ c ∈ remainder, isDigit c = true) (hf : natVal remainder / natVal divisor < fuel) :
    ∀ c ∈ (divSubLoop divisor fuel remainder count).1, isDigit c = true := by
  rw [divSubLoop_spec divisor hd hpos fuel remainder count hr hf]
  simp only []
  split
  · exact hr
  · exact natText_digits _

/-- More passes allowed to the subtraction loop change nothing. -/
theorem divSubLoop_extra (divisor : Str) (hd : ∀ c ∈ divisor, isDigit c = true)
    (hpos : 0 < natVal divisor) (extra : Nat) (remainder : Str) (count : Nat)
    (hr : ∀ c ∈ remainder, isDigit c = true) :
    divSubLoop divisor (natVal remainder + 1 + extra) remainder count
      = divSubLoop divisor (natVal remainder + 1) remainder count := by
  have h := Nat.div_le_self (natVal remainder) (natVal divisor)
  rw [divSubLoop_spec divisor hd hpos _ remainder count hr (by omega),
    divSubLoop_spec divisor hd hpos _ remainder count hr (by omega)]

theorem removeLeadingZeros_keeps_digits (s : Str) (hs : ∀ c ∈ s, isDigit c = true) :
    ∀ c ∈ removeLeadingZeros s, isDigit c = true := by
  rw [removeLeadingZeros_digits s hs]; exact natText_digits _

theorem digits_append_singleton (s : Str) (d : Char) (hs : ∀ c ∈ s, isDigit c = true)
    (hd : isDigit d = true) : ∀ c ∈ s ++ [d], isDigit c = true := by
  intro c hc
  rcases List.mem_append.mp hc with h | h
  · exact hs c h
  · simp only [List.mem_singleton] at h
    rw [h]; exact hd

theorem divDigitLoopWith_eq (extra : Nat) (divisor : Str)
    (hd : ∀ c ∈ divisor, isDigit c = true) (hpos : 0 < natVal divisor) :
    ∀ (ds quotient remainder : Str), (∀ c ∈ ds, isDigit c = true) →
    (∀ c ∈ remainder, isDigit c = true) →
    divDigitLoopWith extra divisor ds quotient remainder
        = divDigitLoop divisor ds quotient remainder ∧
      ∀ c ∈ (divDigitLoop divisor ds quotient remainder).2, isDigit c = true := by
  intro ds
  induction ds with
  | nil => intro quotient remainder _ hr; exact ⟨rfl, hr⟩
  | cons d ds ih =>
    intro quotient remainder hds hr
    have hr2 := removeLeadingZeros_keeps_digits _
      (digits_append_singleton remainder d hr (hds d (List.mem_cons_self _ _)))
    have hle := Nat.div_le_self (natVal (removeLeadingZeros (remainder ++ [d]))) (natVal divisor)
    have hr3 := divSubLoop_digits divisor hd hpos
      (natVal (removeLeadingZeros (remainder ++ [d])) + 1) _ 0 hr2 (by omega)
    simp only [divDigitLoopWith, divDigitLoop, divSubLoop_extra divisor hd hpos extra _ 0 hr2]
    exact ih _ _ (fun c hc => hds c (List.mem_cons_of_mem _ hc)) hr3

theorem divDecLoopWith_eq (extra : Nat) (divisor : Str)
    (hd : ∀ c ∈ divisor, isDigit c = true) (hpos : 0 < natVal divisor) :
    ∀ (places : Nat) (quotient remainder : Str), (∀ c ∈ remainder, isDigit c = true) →
    divDecLoopWith extra divisor places quotient remainder
      = divDecLoop divisor places quotient remainder := by
  intro places
  induction places with
  | zero => intro quotient remainder _; rfl
  | succ places ih =>
    intro quotient remainder hr
    have hr2 := removeLeadingZeros_keeps_digits _
      (digits_append_singleton remainder '0' hr (by decide))
    have hle := Nat.div_le_self (natVal (removeLeadingZeros (remainder ++ ['0'])))
      (natVal divisor)
    have hr3 := divSubLoop_digits divisor hd hpos
      (natVal (removeLeadingZeros (remainder ++ ['0'])) + 1) _ 0 hr2 (by omega)
    simp only [divDecLoopWith, divDecLoop, divSubLoop_extra divisor hd hpos extra _ 0 hr2]
    split
    · exact ih _ _ hr3
    · rfl

theorem natVal_pos_of_natText (n : Nat) (h : natText n ≠ ['0']) : 0 < natVal (natText n) := by
  rw [natVal_natText]
  rcases Nat.eq_zero_or_pos n with h0 | h0
  · exact absurd ((natText_eq_zero n).mpr h0) h
  · exact h0

/-- For canonical digit texts `divideIntegers` does not depend on the passes allowed to
the subtraction loop, and its remainder is a digit text. -/
theorem divideIntegersWith_eq (extra m n : Nat) :
    divideIntegersWith extra (natText m) (natText n) = divideIntegers (natText m) (natText n) ∧
      ∀ q r, divideIntegers (natText m) (natText n) = .ok (q, r) →
        ∀ c ∈ r, isDigit c = true := by
  unfold divideIntegersWith divideIntegers
  by_cases h0 : natText n = ['0']
  · simp [h0, domain_error]
  · have hpos := natVal_pos_of_natText n h0
    have hloop := divDigitLoopWith_eq extra (natText n) (natText_digits n) hpos (natText m) [] []
      (natText_digits m) (by simp)
    simp only [beq_iff_eq, h0, if_false, hloop.1]
    refine ⟨trivial, ?_⟩
    intro q r h
    split at h
    · simp only [Except.ok.injEq, Prod.mk.injEq] at h
      rw [← h.2]; simp [isDigit]
    · split at h
      · simp only [Except.ok.injEq, Prod.mk.injEq] at h
        rw [← h.2]; exact natText_digits m
      · simp only [Except.ok.injEq, Prod.mk.injEq] at h
        rw [← h.2]
        exact removeLeadingZeros_keeps_digits _ hloop.2

theorem divisionOperands_natText (a b : Str) (ha : isValidNumber a = true)
    (hb : isValidNumber b = true) :
    ∃ m n, (divisionOperands a b).1 = natText m ∧ (divisionOperands a b).2.1 = natText n := by
  obtain ⟨IA, FA, hIA, hFA, _, _, a1, a2⟩ := valid_parts a ha
  obtain ⟨IB, FB, hIB, hFB, _, _, b1, b2⟩ := valid_parts b hb
  have hA : ∀ c ∈ IA ++ FA, isDigit c = true := by
    intro c hc
    rcases List.mem_append.mp hc with h | h
    · exact hIA c h
    · exact hFA c h
  have hB : ∀ c ∈ IB ++ FB, isDigit c = true := by
    intro c hc
    rcases List.mem_append.mp hc with h | h
    · exact hIB c h
    · exact hFB c h
  simp only [divisionOperands, a1, a2, b1, b2]
  split
  · refine ⟨_, _, removeLeadingZeros_digits _ ?_, removeLeadingZeros_digits _ hB⟩
    intro c hc
    rcases List.mem_append.mp hc with h | h
    · exact hA c h
    · rw [(List.mem_replicate.mp h).2]; decide
  · exact ⟨_, _, removeLeadingZeros_digits _ hA, removeLeadingZeros_digits _ hB⟩

/-- The result of `divide` does not depend on the passes allowed to its subtraction loops:
every one of them ends on its own condition `compareAbs(remainder, divisor) < 0`. -/
theorem divideWith_eq (extra : Nat) (a b : Str) : divideWith extra a b = divide a b := by
  rw [divide_eq]
  unfold divideWith
  by_cases ha : isValidNumber a = true
  · by_cases hb : isValidNumber b = true
    · obtain ⟨m, n, hm, hn⟩ := divisionOperands_natText a b ha hb
      have hI := divideIntegersWith_eq extra m n
      simp only [ha, hb, Bool.not_true, Bool.false_eq_true, if_false, hm, hn, hI.1]
      split
      · rfl
      · split
        · rfl
        · cases hdiv : divideIntegers (natText m) (natText n) with
          | error e => rfl
          | ok p =>
            obtain ⟨q, r⟩ := p
            have hr := hI.2 q r hdiv
            simp only [finishDivideWith, finishDivide]
            by_cases h0 : natText n = ['0']
            · simp [divideIntegers, h0, domain_error] at hdiv
            · rw [divDecLoopWith_eq extra (natText n) (natText_digits n)
                (natVal_pos_of_natText n h0) _ _ r hr]
    · simp [ha, hb]
  · simp [ha]

/-! ## The squaring loop and the tokenizer loop -/

theorem powLoop_fuel : ∀ (exp fuel1 fuel2 : Nat) (result currentBase : Str),
    exp ≤ fuel1 → exp ≤ fuel2 →
    powLoop fuel1 exp result currentBase = powLoop fuel2 exp result currentBase := by
  intro exp
  induction exp using Nat.strong_induction_on with
  | _ exp ih =>
    intro fuel1 fuel2 result currentBase h1 h2
    rcases Nat.eq_zero_or_pos exp with h0 | hpos
    · subst h0
      cases fuel1 <;> cases fuel2 <;> simp [powLoop]
    · cases fuel1 with
      | zero => omega
      | succ f1 =>
        cases fuel2 with
        | zero => omega
        | succ f2 =>
          simp only [powLoop, hpos, if_true]
          split
          · rfl
          · split
            · rfl
            · exact ih (exp / 2) (Nat.div_lt_self hpos (by norm_num)) f1 f2 _ _
                (by omega) (by omega)

theorem scanNumber_length : ∀ (s : Str) (prev : Option Char),
    (scanNumber prev s).2.1.length ≤ s.length := by
  intro s
  induction s with
  | nil => intro prev; simp [scanNumber]
  | cons c cs ih =>
    intro prev
    have h := ih (some c)
    rcases hsc : scanNumber (some c) cs with ⟨cur, rest, last⟩
    rw [hsc] at h
    by_cases hn : isNumberChar prev c = true
    · simp only [scanNumber, hn, if_true, hsc, List.length_cons]
      exact Nat.le_succ_of_le h
    · simp [scanNumber, hn]

theorem scanIdent_length : ∀ (s : Str) (prev : Option Char),
    (scanIdent prev s).2.1.length ≤ s.length := by
  intro s
  induction s with
  | nil => intro prev; simp [scanIdent]
  | cons c cs ih =>
    intro prev
    have h := ih (some c)
    rcases hsc : scanIdent (some c) cs with ⟨cur, rest, last⟩
    rw [hsc] at h
    by_cases hn : isAlphaNum c = true
    · simp only [scanIdent, hn, if_true, hsc, List.length_cons]
      exact Nat.le_succ_of_le h
    · simp [scanIdent, hn]

theorem scanNumber_rest (prev : Option Char) (c : Char) (cs : Str)
    (h : (isDigit c || c == '.') = true) :
    (scanNumber prev (c :: cs)).2.1.length ≤ cs.length := by
  have hn : isNumberChar prev c = true := by
    simp only [isNumberChar, Bool.or_eq_true] at h ⊢
    rcases h with h | h
    · exact Or.inl (Or.inl (Or.inl (Or.inl h)))
    · exact Or.inl (Or.inl (Or.inl (Or.inr h)))
  have hl := scanNumber_length cs (some c)
  rcases hsc : scanNumber (some c) cs with ⟨cur, rest, last⟩
  rw [hsc] at hl
  simp only [scanNumber, hn, if_true, hsc]
  exact hl

theorem scanIdent_rest (prev : Option Char) (c : Char) (cs : Str) (h : isAlpha c = true) :
    (scanIdent prev (c :: cs)).2.1.length ≤ cs.length := by
  have hn : isAlphaNum c = true := by simp [isAlphaNum, h]
  have hl := scanIdent_length cs (some c)
  rcases hsc : scanIdent (some c) cs with ⟨cur, rest, last⟩
  rw [hsc] at hl
  simp only [scanIdent, hn, if_true, hsc]
  exact hl

/-- The `for` loop of `tokenize` does not depend on the passes allowed beyond the length
of the text: every pass takes at least one character. -/
theorem tokenizeLoop_fuel : ∀ (fuel1 fuel2 : Nat) (prev : Option Char) (s : Str),
    s.length ≤ fuel1 → s.length ≤ fuel2 →
    tokenizeLoop fuel1 prev s = tokenizeLoop fuel2 prev s := by
  intro fuel1
  induction fuel1 with
  | zero =>
    intro fuel2 prev s h1 _
    have : s = [] := List.length_eq_zero.mp (by omega)
    subst this
    cases fuel2 <;> simp [tokenizeLoop]
  | succ f1 ih =>
    intro fuel2 prev s h1 h2
    cases s with
    | nil => cases fuel2 <;> simp [tokenizeLoop]
    | cons c cs =>
      cases fuel2 with
      | zero => simp at h2
      | succ f2 =>
        simp only [List.length_cons, Nat.add_le_add_iff_right] at h1 h2
        rcases hn : scanNumber prev (c :: cs) with ⟨ncur, nrest, nlast⟩
        rcases hi : scanIdent prev (c :: cs) with ⟨icur, irest, ilast⟩
        simp only [tokenizeLoop, hn, hi]
        split
        · exact ih f2 _ cs h1 h2
        · split
          · rename_i hnum
            have hl := scanNumber_rest prev c cs hnum
            rw [hn] at hl
            simp only [] at hl
            rw [ih f2 _ _ (by omega) (by omega)]
          · split
            · rename_i halpha
              have hl := scanIdent_rest prev c cs halpha
              rw [hi] at hl
              simp only [] at hl
              rw [ih f2 _ _ (by omega) (by omega)]
            · split
              · have hl : (if (c == '*' && startsWith cs '*') = true then cs.drop 1 else cs).length
                    ≤ cs.length := by
                  split
                  · simp
                  · exact le_refl _
                rw [ih f2 _ _ (by omega) (by omega)]
              · split
                · rw [ih f2 _ cs h1 h2]
                · split
                  · rw [ih f2 _ cs h1 h2]
                  · exact ih f2 _ cs h1 h2

/-! ## Nested calls of power and nthRoot -/

/-- The digits of a valid text without a point: the text behind its sign. -/
theorem absText_digits_of_no_dot (a : Str) (ha : isValidNumber a = true) (hd : '.' ∉ a) :
    ∀ c ∈ absText a, isDigit c = true := by
  obtain ⟨body, _, hloop, habs, hshape⟩ := valid_shape a ha
  rw [habs]
  rcases validLoop_false body hloop with h | ⟨I, F, e, _, _⟩
  · exact h
  · exfalso
    apply hd
    have hb : '.' ∈ body := by rw [e]; simp
    rcases hshape with ⟨e1, _⟩ | ⟨e1, _⟩ | ⟨e1, _⟩
    · rw [e1]; exact hb
    · rw [e1]; exact List.mem_cons_of_mem _ hb
    · rw [e1]; exact List.mem_cons_of_mem _ hb

theorem no_dot_minus_natText (n : Nat) : '.' ∉ '-' :: natText n := by
  intro h
  rcases List.mem_cons.mp h with h | h
  · simp at h
  · exact natText_no_dot n h

/-- A sum of two texts without a point has no point. -/
theorem add_no_dot (a b r : Str) (ha : '.' ∉ a) (hb : '.' ∉ b) (h : add a b = .ok r) :
    '.' ∉ r := by
  unfold add at h
  by_cases hva : isValidNumber a = true
  · by_cases hvb : isValidNumber b = true
    · have hA := absText_digits_of_no_dot a hva ha
      have hB := absText_digits_of_no_dot b hvb hb
      simp only [hva, hvb, Bool.not_true, Bool.false_eq_true, if_false, Except.ok.injEq,
        addPositive_digits _ _ hA hB, compareAbs_digits _ _ hA hB] at h
      have key : ∀ res : Str, '.' ∉ res →
          '.' ∉ (if (res == ['-', '0']) = true then ['0'] else res) := by
        intro res hres
        split
        · simp
        · exact hres
      rw [← h]
      apply key
      by_cases hs : (startsWith a '-' == startsWith b '-') = true
      · rw [if_pos hs]
        split
        · exact no_dot_minus_natText _
        · exact natText_no_dot _
      · rw [if_neg hs]
        by_cases hc : cmp3 (natVal (absText a)) (natVal (absText b)) ≥ 0
        · have hle : natVal (absText b) ≤ natVal (absText a) := by
            unfold cmp3 at hc
            split_ifs at hc <;> omega
          rw [if_pos hc, subtractPositive_digits _ _ hA hB hle]
          split
          · exact no_dot_minus_natText _
          · exact natText_no_dot _
        · have hle : natVal (absText a) ≤ natVal (absText b) := by
            unfold cmp3 at hc
            split_ifs at hc <;> omega
          rw [if_neg hc, subtractPositive_digits _ _ hB hA hle]
          split
          · exact no_dot_minus_natText _
          · exact natText_no_dot _
    · simp [hva, hvb, invalid_argument] at h
  · simp [hva, invalid_argument] at h

theorem subtract_no_dot (a b r : Str) (ha : '.' ∉ a) (hb : '.' ∉ b)
    (h : subtract a b = .ok r) : '.' ∉ r := by
  unfold subtract at h
  split at h
  · simp [invalid_argument] at h
  · split at h
    · simp [invalid_argument] at h
    · apply add_no_dot a _ r ha _ h
      split
      · exact fun hm => hb (List.mem_of_mem_drop hm)
      · intro hm
        rcases List.mem_cons.mp hm with h1 | h1
        · simp at h1
        · exact hb h1

/-- The exponent test of `power`: no point behind the optional sign. -/
theorem hasDot_exponent_of_no_dot (e : Str) (h : '.' ∉ e) :
    hasDot (if startsWith e '-' then e.drop 1 else e) = false := by
  split
  · simp only [hasDot, List.contains_eq_any_beq, List.any_eq_false, beq_iff_eq]
    intro x hx
    rintro rfl
    exact h (List.mem_of_mem_drop hx)
  · simp only [hasDot, List.contains_eq_any_beq, List.any_eq_false, beq_iff_eq]
    intro x hx
    rintro rfl
    exact h hx

/-- The call `power(base, exponent)` reaches `powerDecimal` only with a point in the
exponent, and otherwise only passes on what `powerDecimal` returns. -/
theorem powerBody_congr (pd pd2 : Str → Str → Option (Except Exn Str)) (base exponent : Str)
    (h : hasDot (if startsWith exponent '-' then exponent.drop 1 else exponent) = false ∨
      pd base exponent = pd2 base exponent) :
    powerBody pd base exponent = powerBody pd2 base exponent := by
  unfold powerBody
  rcases h with h | h
  · simp only [h, Bool.false_eq_true, if_false]
  · simp only [h]

theorem powerBody_total (pd : Str → Str → Option (Except Exn Str)) (base exponent : Str)
    (h : pd base exponent ≠ none) : powerBody pd base exponent ≠ none := by
  unfold powerBody
  simp only []
  split_ifs <;> first | exact h | simp

theorem newtonStep_congr (pw pw2 : Str → Str → Option (Except Exn Str)) (absNumber root x : Str)
    (hroot : '.' ∉ root) (h : ∀ x e, '.' ∉ e → pw x e = pw2 x e) :
    newtonStep pw absNumber root x = newtonStep pw2 absNumber root x := by
  unfold newtonStep
  cases hsub : subtract root ['1'] with
  | error e => rfl
  | ok rm =>
    have hrm := subtract_no_dot root ['1'] rm hroot (by simp) hsub
    simp only [h x rm hrm]

theorem newtonStep_total (pw : Str → Str → Option (Except Exn Str)) (absNumber root x : Str)
    (h : ∀ x e, pw x e ≠ none) : newtonStep pw absNumber root x ≠ none := by
  unfold newtonStep
  cases subtract root ['1'] with
  | error e => simp
  | ok rm =>
    simp only []
    cases hp : pw x rm with
    | none => exact absurd hp (h x rm)
    | some v =>
      cases v with
      | error e => simp
      | ok p =>
        simp only []
        cases divide absNumber p with
        | error e => simp
        | ok d =>
          simp only []
          cases multiply rm x with
          | error e => simp
          | ok t =>
            simp only []
            cases add t d with
            | error e => simp
            | ok nu =>
              simp only []
              cases divide nu root with
              | error e => simp
              | ok x2 =>
                simp only []
                cases subtract x2 x with
                | error e => simp
                | ok df =>
                  simp only []
                  split_ifs <;> simp

theorem newtonLoop_congr (pw pw2 : Str → Str → Option (Except Exn Str)) (absNumber root : Str)
    (hroot : '.' ∉ root) (h : ∀ x e, '.' ∉ e → pw x e = pw2 x e) : ∀ (left : Nat) (x : Str),
    newtonLoop pw absNumber root left x = newtonLoop pw2 absNumber root left x := by
  intro left
  induction left with
  | zero => intro x; rfl
  | succ left ih =>
    intro x
    simp only [newtonLoop, newtonStep_congr pw pw2 absNumber root x hroot h]
    cases newtonStep pw2 absNumber root x with
    | none => rfl
    | some p =>
      obtain ⟨x2, go⟩ := p
      cases go with
      | false => rfl
      | true => exact ih x2

theorem newtonLoop_total (pw : Str → Str → Option (Except Exn Str)) (absNumber root : Str)
    (h : ∀ x e, pw x e ≠ none) : ∀ (left : Nat) (x : Str),
    newtonLoop pw absNumber root left x ≠ none := by
  intro left
  induction left with
  | zero => intro x; simp [newtonLoop]
  | succ left ih =>
    intro x
    simp only [newtonLoop]
    cases hs : newtonStep pw absNumber root x with
    | none => exact absurd hs (newtonStep_total pw absNumber root x h)
    | some p =>
      obtain ⟨x2, go⟩ := p
      cases go with
      | false => simp
      | true => exact ih x2

theorem nthRootBody_congr (pw pw2 : Str → Str → Option (Except Exn Str)) (number root : Str)
    (hroot : '.' ∉ root) (h : ∀ x e, '.' ∉ e → pw x e = pw2 x e) :
    nthRootBody pw number root = nthRootBody pw2 number root := by
  unfold nthRootBody
  simp only [newtonLoop_congr pw pw2 _ root hroot h]

theorem nthRootBody_total (pw : Str → Str → Option (Except Exn Str)) (number root : Str)
    (h : ∀ x e, pw x e ≠ none) : nthRootBody pw number root ≠ none := by
  unfold nthRootBody
  by_cases h1 : (!isValidNumber number || !isValidNumber root) = true
  · rw [if_pos h1]; simp
  rw [if_neg h1]
  by_cases h2 : (number == ['0']) = true
  · rw [if_pos h2]; simp
  rw [if_neg h2]
  by_cases h3 : (number == ['1']) = true
  · rw [if_pos h3]; simp
  rw [if_neg h3]
  by_cases h4 : (root == ['1']) = true
  · rw [if_pos h4]; simp
  rw [if_neg h4]
  by_cases h5 : (root == ['0']) = true
  · rw [if_pos h5]; simp
  rw [if_neg h5]
  simp only []
  by_cases h6 : (startsWith number '-' && !hasDot root && rootIntLoop root 0 % 2 == 0) = true
  · rw [if_pos h6]; simp
  rw [if_neg h6]
  generalize (if startsWith number '-' = true then List.drop 1 number else number) = absNumber
  cases divide absNumber root with
  | error e => simp
  | ok x =>
    simp only []
    generalize (if compareAbs (if compareAbs x "0.001".toList < 0 then "0.001".toList else x)
      "1000".toList > 0 then "1000".toList
      else if compareAbs x "0.001".toList < 0 then "0.001".toList else x) = x0
    cases hl : newtonLoop pw absNumber root maxIterations x0 with
    | none => exact absurd hl (newtonLoop_total pw _ root h _ _)
    | some y => simp

/-! ## Nested calls of powerDecimal -/

/-- The source function `powerDecimal` in terms of its guards and its core. -/
theorem powerDecimalBody_eq (pw nr : Str → Str → Option (Except Exn Str))
    (base exponent : Str) :
    powerDecimalBody pw nr base exponent =
      if !isValidNumber base || !isValidNumber exponent then
        some (invalid_argument "Invalid input for decimal power".toList)
      else if base == ['0'] then
        if startsWith exponent '-' then
          some (domain_error "0 to negative power is undefined".toList)
        else some (.ok ['0'])
      else if base == ['1'] then some (.ok ['1'])
      else if exponent == ['0'] then some (.ok ['1'])
      else if exponent == ['1'] then some (.ok base)
      else powerDecimalCore pw nr base exponent := by
  unfold powerDecimalBody powerDecimalCore exponentParts
  rfl

theorem intPart_no_dot (s : Str) : '.' ∉ intPart s := by
  unfold intPart
  intro h
  have := List.mem_takeWhile_imp h
  simp at this

theorem not_mem_of_hasDot_false (s : Str) (h : hasDot s = false) : '.' ∉ s := by
  intro hm
  simp [hasDot, hm] at h

theorem exponentParts_no_dot (exponent : Str) (hv : isValidNumber exponent = true) :
    '.' ∉ (exponentParts exponent).1 ∧ '.' ∉ (exponentParts exponent).2 := by
  obtain ⟨I, F, _, hF, _, d1, _, d2⟩ := valid_parts exponent hv
  obtain ⟨body, _, _, habs, hshape⟩ := valid_shape exponent hv
  have hdec : decPart (if startsWith exponent '-' = true then List.drop 1 exponent
      else exponent) = F := by
    rcases hshape with ⟨e, hs⟩ | ⟨e, hs⟩ | ⟨e, hs⟩
    · rw [hs]; simpa using d1
    · rw [hs, if_pos rfl, ← d2, habs]
      conv_lhs => rw [e]
      simp
    · rw [hs]; simpa using d1
  unfold exponentParts
  simp only []
  generalize (if startsWith exponent '-' = true then List.drop 1 exponent else exponent) = abs
    at hdec ⊢
  constructor
  · by_cases hi : (intPart abs).isEmpty = true
    · rw [if_pos hi]; simp
    · rw [if_neg hi]; exact intPart_no_dot _
  · intro hm
    have hm2 := List.mem_reverse.mp hm
    have hm3 := List.mem_reverse.mp ((List.dropWhile_sublist _).subset hm2)
    by_cases hd : hasDot abs = true
    · rw [if_pos hd, hdec] at hm3
      exact not_mem_dot_of_digits F hF hm3
    · rw [if_neg hd] at hm3
      exact not_mem_of_hasDot_false _ (by simpa using hd) hm3

theorem multiply_no_dot (a b r : Str) (ha : '.' ∉ a) (hb : '.' ∉ b)
    (h : multiply a b = .ok r) : '.' ∉ r := by
  by_cases hva : isValidNumber a = true
  · by_cases hvb : isValidNumber b = true
    · have hA := absText_digits_of_no_dot a hva ha
      have hB := absText_digits_of_no_dot b hvb hb
      have hdA := not_mem_dot_of_digits _ hA
      have hdB := not_mem_dot_of_digits _ hB
      have eA : eraseDot (absText a) = absText a := by
        rw [eraseDot, List.erase_of_not_mem hdA]
      have eB : eraseDot (absText b) = absText b := by
        rw [eraseDot, List.erase_of_not_mem hdB]
      have hmp : '.' ∉ multiplyPositive (absText a) (absText b) := by
        rw [multiplyPositive_eq _ _ (by rw [eA]; exact hA) (by rw [eB]; exact hB)]
        split
        · simp
        · rw [decPlaces, decPlaces, decPart_of_no_dot _ hdA, decPart_of_no_dot _ hdB]
          simp only [List.length_nil, Nat.add_zero, placePoint_zero]
          rw [canonicalize_digits _ (natText_digits _), removeLeadingZeros_natText]
          exact natText_no_dot _
      rw [multiply_valid a b hva hvb] at h
      simp only [Except.ok.injEq] at h
      rw [← h]
      split
      · intro hm
        rcases List.mem_cons.mp hm with h1 | h1
        · simp at h1
        · exact hmp h1
      · exact hmp
    · simp [multiply, hva, hvb, invalid_argument] at h
  · simp [multiply, hva, invalid_argument] at h

theorem denominatorLoop_no_dot : ∀ (n : Nat) (d r : Str), '.' ∉ d →
    denominatorLoop n d = .ok r → '.' ∉ r := by
  intro n
  induction n with
  | zero =>
    intro d r hd h
    simp only [denominatorLoop, Except.ok.injEq] at h
    rw [← h]; exact hd
  | succ n ih =>
    intro d r hd h
    simp only [denominatorLoop] at h
    cases hm : multiply d ['1', '0'] with
    | error e => simp [hm] at h
    | ok d2 =>
      rw [hm] at h
      exact ih d2 r (multiply_no_dot d ['1', '0'] d2 hd (by simp) hm) h

theorem reduceLoop_mem : ∀ (n d : Str) (c : Char),
    (c ∈ (reduceLoop n d).1 → c ∈ n) ∧ (c ∈ (reduceLoop n d).2 → c ∈ d) := by
  intro n
  induction n with
  | nil => intro d c; simp [reduceLoop]
  | cons x xs ih =>
    intro d c
    cases xs with
    | nil => simp [reduceLoop]
    | cons x2 xs2 =>
      cases d with
      | nil => simp [reduceLoop]
      | cons y ys =>
        cases ys with
        | nil => simp [reduceLoop]
        | cons y2 ys2 =>
          simp only [reduceLoop]
          split
          · have := ih (y2 :: ys2) c
            exact ⟨fun h => List.mem_cons_of_mem _ (this.1 h),
              fun h => List.mem_cons_of_mem _ (this.2 h)⟩
          · exact ⟨id, id⟩

theorem powerDecimalTry_congr (pw pw2 nr nr2 : Str → Str → Option (Except Exn Str))
    (base integerPart numerator denominator : Str) (neg : Bool)
    (hi : '.' ∉ integerPart) (hn : '.' ∉ numerator) (hd : '.' ∉ denominator)
    (hpw : ∀ x e, '.' ∉ e → pw x e = pw2 x e) (hnr : ∀ n r, '.' ∉ r → nr n r = nr2 n r) :
    powerDecimalTry pw nr base integerPart numerator denominator neg
      = powerDecimalTry pw2 nr2 base integerPart numerator denominator neg := by
  unfold powerDecimalTry
  simp only [hpw _ integerPart hi, hpw _ numerator hn, hnr _ denominator hd]

theorem powerDecimalTry_total (pw nr : Str → Str → Option (Except Exn Str))
    (base integerPart numerator denominator : Str) (neg : Bool)
    (hpw : ∀ x e, pw x e ≠ none) (hnr : ∀ n r, nr n r ≠ none) :
    powerDecimalTry pw nr base integerPart numerator denominator neg ≠ none := by
  unfold powerDecimalTry
  by_cases hip : (integerPart != ['0']) = true
  · simp only [hip, if_true]
    cases hp : pw base integerPart with
    | none => exact absurd hp (hpw _ _)
    | some v =>
      cases v with
      | error e => simp
      | ok ir =>
        simp only []
        by_cases hnum : (numerator != ['0']) = true
        · simp only [hnum, if_true]
          cases hp2 : pw ir numerator with
          | none => exact absurd hp2 (hpw _ _)
          | some v2 =>
            cases v2 with
            | error e => simp
            | ok pwd =>
              simp only []
              cases hn : nr pwd denominator with
              | none => exact absurd hn (hnr _ _)
              | some v3 => cases v3 <;> simp
        · simp [hnum]
  · simp only [hip, Bool.false_eq_true, if_false]
    cases hp2 : pw base numerator with
    | none => exact absurd hp2 (hpw _ _)
    | some v2 =>
      cases v2 with
      | error e => simp
      | ok pwd =>
        simp only []
        cases hn : nr pwd denominator with
        | none => exact absurd hn (hnr _ _)
        | some v3 => cases v3 <;> simp

theorem powerDecimalBody_congr (pw pw2 nr nr2 : Str → Str → Option (Except Exn Str))
    (base exponent : Str)
    (hpw : ∀ x e, '.' ∉ e → pw x e = pw2 x e) (hnr : ∀ n r, '.' ∉ r → nr n r = nr2 n r) :
    powerDecimalBody pw nr base exponent = powerDecimalBody pw2 nr2 base exponent := by
  rw [powerDecimalBody_eq, powerDecimalBody_eq]
  by_cases hv : (!isValidNumber base || !isValidNumber exponent) = true
  · rw [if_pos hv, if_pos hv]
  · rw [if_neg hv, if_neg hv]
    have hve : isValidNumber exponent = true := by
      simp only [Bool.or_eq_true, Bool.not_eq_true', not_or, Bool.not_eq_false] at hv
      exact hv.2
    obtain ⟨h1, h2⟩ := exponentParts_no_dot exponent hve
    have hcore : powerDecimalCore pw nr base exponent = powerDecimalCore pw2 nr2 base exponent := by
      unfold powerDecimalCore
      rw [hpw _ _ h1]
      split
      · rfl
      · cases hden : denominatorLoop (exponentParts exponent).2.length ['1'] with
        | error e => rfl
        | ok denominator =>
          have hd := denominatorLoop_no_dot _ _ _ (by simp) hden
          simp only []
          rw [powerDecimalTry_congr pw pw2 nr nr2 _ _ _ _ _ h1
            (fun hm => h2 (List.mem_reverse.mp
              ((reduceLoop_mem _ _ _).1 (List.mem_reverse.mp hm))))
            (fun hm => hd (List.mem_reverse.mp
              ((reduceLoop_mem _ _ _).2 (List.mem_reverse.mp hm)))) hpw hnr]
    rw [hcore]

theorem powerDecimalBody_total (pw nr : Str → Str → Option (Except Exn Str))
    (base exponent : Str) (hpw : ∀ x e, pw x e ≠ none) (hnr : ∀ n r, nr n r ≠ none) :
    powerDecimalBody pw nr base exponent ≠ none := by
  rw [powerDecimalBody_eq]
  have hcore : powerDecimalCore pw nr base exponent ≠ none := by
    unfold powerDecimalCore
    split
    · cases hp : pw base (exponentParts exponent).1 with
      | none => exact absurd hp (hpw _ _)
      | some v => cases v <;> simp
    · cases denominatorLoop (exponentParts exponent).2.length ['1'] with
      | error e => simp
      | ok denominator =>
        simp only []
        cases ht : powerDecimalTry pw nr base (exponentParts exponent).1
            (reduceLoop (exponentParts exponent).2.reverse denominator.reverse).1.reverse
            (reduceLoop (exponentParts exponent).2.reverse denominator.reverse).2.reverse
            (startsWith exponent '-') with
        | none => exact absurd ht (powerDecimalTry_total pw nr _ _ _ _ _ hpw hnr)
        | some v => cases v <;> simp
  split_ifs <;> first | exact hcore | simp

theorem powerFlat_total (x e : Str) : powerFlat x e ≠ none :=
  powerBody_total finishedCall x e (by simp [finishedCall])

theorem nthRootFlat_total (n r : Str) : nthRootFlat n r ≠ none :=
  nthRootBody_total powerFlat n r powerFlat_total

theorem powerDecimalFlat_total (b e : Str) : powerDecimalFlat b e ≠ none :=
  powerDecimalBody_total powerFlat nthRootFlat b e powerFlat_total nthRootFlat_total

theorem powerAux_flat (depth : Nat) (x e : Str) (he : '.' ∉ e) :
    powerAux (depth + 1) x e = powerFlat x e := by
  simp only [powerAux]
  exact powerBody_congr _ _ x e (Or.inl (hasDot_exponent_of_no_dot e he))

theorem nthRootAux_flat (depth : Nat) (n r : Str) (hr : '.' ∉ r) :
    nthRootAux (depth + 2) n r = nthRootFlat n r := by
  simp only [nthRootAux]
  exact nthRootBody_congr _ _ n r hr (fun x e he => powerAux_flat depth x e he)

theorem powerDecimalAux_flat (depth : Nat) (b e : Str) :
    powerDecimalAux (depth + 3) b e = powerDecimalFlat b e := by
  simp only [powerDecimalAux]
  exact powerDecimalBody_congr _ _ _ _ b e (fun x e he => powerAux_flat (depth + 1) x e he)
    (fun n r hr => nthRootAux_flat depth n r hr)

/-- From depth 4 on the depth bound does not matter to `power`: the call finishes, with a
result free of the bound. -/
theorem powerAux_depth (depth : Nat) (b e : Str) :
    powerAux (depth + 4) b e = powerBody powerDecimalFlat b e ∧
      powerBody powerDecimalFlat b e ≠ none := by
  constructor
  · simp only [powerAux]
    exact powerBody_congr _ _ b e (Or.inr (powerDecimalAux_flat depth b e))
  · exact powerBody_total _ b e (powerDecimalFlat_total b e)

/-! ## Totality of the entry point (C18) -/

/-- C18: the top-level entry point is total. For every input text `parseExpression`
returns `"Result: "` followed by the rendering of the value when the evaluation succeeds
and `"Error: "` followed by the message when tokenizing, postfix conversion, evaluation
or arithmetic fails, so every result begins with one of the two. No loop of the pipeline
depends on the number of passes it is allowed: the tokenizer loop, the subtraction loops
of `divide`, the carry loop of `addPositive` and the squaring loop of `power` end on their
own conditions, and every call of `power` finishes within the bound on nested calls. -/
theorem parseExpression_total (s : Str) :
    ("Result: ".toList <+: parseExpression s ∨ "Error: ".toList <+: parseExpression s) ∧
    ((∃ r, evaluatePostfixExpression (shuntingYard (tokenize s)) = .ok r ∧
        parseExpression s = "Result: ".toList ++ r) ∨
      (∃ e, evaluatePostfixExpression (shuntingYard (tokenize s)) = .error e ∧
        parseExpression s = "Error: ".toList ++ e.what)) ∧
    (∀ extra, tokenizeLoop (s.length + extra) none s = tokenize s) ∧
    (∀ a b extra, divideWith extra a b = divide a b) ∧
    (∀ carry extra r, addCarryLoop (carry + extra) carry r = addCarryLoop carry carry r) ∧
    (∀ exp extra r b, powLoop (exp + extra) exp r b = powLoop exp exp r b) ∧
    (∀ b e extra, powerAux (callDepth + extra) b e = powerAux callDepth b e ∧
      powerAux callDepth b e = some (power b e)) := by
  have hcases : (∃ r, evaluatePostfixExpression (shuntingYard (tokenize s)) = .ok r ∧
        parseExpression s = "Result: ".toList ++ r) ∨
      (∃ e, evaluatePostfixExpression (shuntingYard (tokenize s)) = .error e ∧
        parseExpression s = "Error: ".toList ++ e.what) := by
    unfold parseExpression
    cases h : evaluatePostfixExpression (shuntingYard (tokenize s)) with
    | error e => exact Or.inr ⟨e, rfl, rfl⟩
    | ok r => exact Or.inl ⟨r, rfl, rfl⟩
  refine ⟨?_, hcases, ?_, ?_, ?_, ?_, ?_⟩
  · rcases hcases with ⟨r, _, h⟩ | ⟨e, _, h⟩
    · exact Or.inl ⟨r, h.symm⟩
    · exact Or.inr ⟨e.what, h.symm⟩
  · intro extra
    exact tokenizeLoop_fuel _ _ none s (by omega) (le_refl _)
  · intro a b extra
    exact divideWith_eq extra a b
  · intro carry extra r
    rw [addCarryLoop_eq carry _ r (by omega), addCarryLoop_eq carry _ r (le_refl _)]
  · intro exp extra r b
    exact powLoop_fuel exp _ _ r b (by omega) (le_refl _)
  · intro b e extra
    have h1 := powerAux_depth (1 + extra) b e
    have h2 := powerAux_depth 1 b e
    have e1 : callDepth + extra = 1 + extra + 4 := by simp [callDepth]; omega
    have e2 : callDepth = 1 + 4 := rfl
    constructor
    · rw [e1, h1.1, e2, h2.1]
    · unfold power finished
      rw [e2, h2.1]
      cases hp : powerBody powerDecimalFlat b e with
      | none => exact absurd hp h2.2
      | some r => rfl

/-! ## Canonical results of integer expressions (C19) -/

theorem popOperators_all (P : Token → Prop) (token : Token) : ∀ (operators output : List Token),
    (∀ t ∈ output, P t) → (∀ t ∈ operators, P t) →
    (∀ t ∈ (popOperators token output operators).1, P t) ∧
      (∀ t ∈ (popOperators token output operators).2, P t) := by
  intro operators
  induction operators with
  | nil => intro output ho hs; exact ⟨ho, hs⟩
  | cons top ops ih =>
    intro output ho hs
    simp only [popOperators]
    split
    · apply ih
      · intro t ht
        rcases List.mem_append.mp ht with h | h
        · exact ho t h
        · simp only [List.mem_singleton] at h
          rw [h]; exact hs top (List.mem_cons_self _ _)
      · exact fun t ht => hs t (List.mem_cons_of_mem _ ht)
    · exact ⟨ho, hs⟩

theorem popToLeftParen_all (P : Token → Prop) : ∀ (operators output : List Token),
    (∀ t ∈ output, P t) → (∀ t ∈ operators, P t) →
    (∀ t ∈ (popToLeftParen output operators).1, P t) ∧
      (∀ t ∈ (popToLeftParen output operators).2, P t) := by
  intro operators
  induction operators with
  | nil => intro output ho hs; exact ⟨ho, hs⟩
  | cons top ops ih =>
    intro output ho hs
    simp only [popToLeftParen]
    split
    · apply ih
      · intro t ht
        rcases List.mem_append.mp ht with h | h
        · exact ho t h
        · simp only [List.mem_singleton] at h
          rw [h]; exact hs top (List.mem_cons_self _ _)
      · exact fun t ht => hs t (List.mem_cons_of_mem _ ht)
    · exact ⟨ho, hs⟩

theorem all_append_singleton (P : Token → Prop) (output : List Token) (token : Token)
    (ho : ∀ t ∈ output, P t) (ht : P token) : ∀ t ∈ output ++ [token], P t := by
  intro t h
  rcases List.mem_append.mp h with h | h
  · exact ho t h
  · simp only [List.mem_singleton] at h
    rw [h]; exact ht

theorem all_cons (P : Token → Prop) (operators : List Token) (token : Token)
    (ho : ∀ t ∈ operators, P t) (ht : P token) : ∀ t ∈ token :: operators, P t := by
  intro t h
  rcases List.mem_cons.mp h with h | h
  · rw [h]; exact ht
  · exact ho t h

theorem shuntingStep_all (P : Token → Prop) (state : List Token × List Token) (token : Token)
    (ht : P token) (h1 : ∀ t ∈ state.1, P t) (h2 : ∀ t ∈ state.2, P t) :
    (∀ t ∈ (shuntingStep state token).1, P t) ∧ (∀ t ∈ (shuntingStep state token).2, P t) := by
  obtain ⟨output, operators⟩ := state
  simp only at h1 h2
  cases htype : token.type with
  | NUMBER =>
    simp only [shuntingStep, htype]
    exact ⟨all_append_singleton P _ _ h1 ht, h2⟩
  | VARIABLE =>
    simp only [shuntingStep, htype]
    exact ⟨all_append_singleton P _ _ h1 ht, h2⟩
  | FUNCTION =>
    simp only [shuntingStep, htype]
    exact ⟨h1, all_cons P _ _ h2 ht⟩
  | OPERATOR =>
    have h := popOperators_all P token operators output h1 h2
    simp only [shuntingStep, htype]
    exact ⟨h.1, all_cons P _ _ h.2 ht⟩
  | LEFT_PAREN =>
    simp only [shuntingStep, htype]
    exact ⟨h1, all_cons P _ _ h2 ht⟩
  | RIGHT_PAREN =>
    have h := popToLeftParen_all P operators output h1 h2
    simp only [shuntingStep, htype]
    generalize (popToLeftParen output operators).1 = o2 at h ⊢
    generalize (popToLeftParen output operators).2 = s2 at h ⊢
    cases s2 with
    | nil => exact ⟨h.1, by simp⟩
    | cons top below =>
      have hb : ∀ t ∈ below, P t := fun t ht => h.2 t (List.mem_cons_of_mem _ ht)
      by_cases hl : (top.type == TokenType.LEFT_PAREN) = true
      · simp only [hl, if_true]
        cases below with
        | nil => exact ⟨h.1, by simp⟩
        | cons t2 b2 =>
          simp only []
          split
          · exact ⟨all_append_singleton P _ _ h.1 (hb t2 (List.mem_cons_self _ _)),
              fun t ht => hb t (List.mem_cons_of_mem _ ht)⟩
          · exact ⟨h.1, hb⟩
      · simp only [hl, Bool.false_eq_true, if_false]
        split
        · exact ⟨all_append_singleton P _ _ h.1 (h.2 top (List.mem_cons_self _ _)), hb⟩
        · exact ⟨h.1, h.2⟩

theorem shuntingFold_all (P : Token → Prop) : ∀ (tokens : List Token)
    (state : List Token × List Token), (∀ t ∈ tokens, P t) →
    (∀ t ∈ state.1, P t) → (∀ t ∈ state.2, P t) →
    (∀ t ∈ (tokens.foldl shuntingStep state).1, P t) ∧
      (∀ t ∈ (tokens.foldl shuntingStep state).2, P t) := by
  intro tokens
  induction tokens with
  | nil => intro state _ h1 h2; exact ⟨h1, h2⟩
  | cons token rest ih =>
    intro state ht h1 h2
    have hs := shuntingStep_all P state token (ht token (List.mem_cons_self _ _)) h1 h2
    exact ih _ (fun t h => ht t (List.mem_cons_of_mem _ h)) hs.1 hs.2

/-- The shunting yard only passes on tokens of its input. -/
theorem shuntingYard_all (P : Token → Prop) (tokens : List Token) (h : ∀ t ∈ tokens, P t) :
    ∀ t ∈ shuntingYard tokens, P t := by
  have hf := shuntingFold_all P tokens ([], []) h (by simp) (by simp)
  unfold shuntingYard
  rcases hp : tokens.foldl shuntingStep ([], []) with ⟨output, operators⟩
  rw [hp] at hf
  intro t ht
  rcases List.mem_append.mp ht with h1 | h1
  · exact hf.1 t h1
  · exact hf.2 t h1

theorem intText_zero_text : intText 0 = ['0'] := by simp [intText, natText]

theorem isReal_ofReal (r : Str) : (ComplexNumber.ofReal r).isReal = true := by
  simp [ComplexNumber.isReal, ComplexNumber.ofReal]

theorem imagOrZero_ofReal (r : Str) : (ComplexNumber.ofReal r).imagOrZero = ['0'] := by
  simp [ComplexNumber.imagOrZero, isReal_ofReal]

theorem real_ofReal (r : Str) : (ComplexNumber.ofReal r).real = r := rfl

theorem toString_ofReal (r : Str) : (ComplexNumber.ofReal r).toString = r := by
  unfold ComplexNumber.toString
  rw [if_pos (isReal_ofReal r)]
  rfl

theorem collapse_zero (r : Str) : ComplexNumber.collapse r ['0'] = .ofReal r := by
  simp [ComplexNumber.collapse]

theorem addComplex_intText (x y : Int) :
    addComplex (.ofReal (intText x)) (.ofReal (intText y)) = .ok (.ofReal (intText (x + y))) := by
  have h0 := add_intText 0 0
  rw [intText_zero_text] at h0
  simp only [Int.add_zero, intText_zero_text] at h0
  simp only [addComplex, imagOrZero_ofReal, real_ofReal, add_intText, h0, bind,
    Except.bind, pure, Except.pure, collapse_zero]

theorem subtractComplex_intText (x y : Int) :
    subtractComplex (.ofReal (intText x)) (.ofReal (intText y))
      = .ok (.ofReal (intText (x - y))) := by
  have h0 := subtract_intText 0 0
  rw [intText_zero_text] at h0
  simp only [Int.sub_zero, intText_zero_text] at h0
  simp only [subtractComplex, imagOrZero_ofReal, real_ofReal, subtract_intText, h0, bind,
    Except.bind, pure, Except.pure, collapse_zero]

theorem multiplyComplex_intText (x y : Int) :
    multiplyComplex (.ofReal (intText x)) (.ofReal (intText y))
      = .ok (.ofReal (intText (x * y))) := by
  have h00 := multiply_intText 0 0
  have hx0 := multiply_intText x 0
  have h0y := multiply_intText 0 y
  have hs := subtract_intText (x * y) 0
  have ha := add_intText 0 0
  simp only [Int.mul_zero, Int.zero_mul, Int.sub_zero, Int.add_zero, intText_zero_text]
    at h00 hx0 h0y hs ha
  simp only [multiplyComplex, imagOrZero_ofReal, real_ofReal, multiply_intText, h00,
    hx0, h0y, hs, ha, bind, Except.bind, pure, Except.pure, collapse_zero]

theorem applyOperator_intText (op : Str) (x y : Int)
    (hop : op = ['+'] ∨ op = ['-'] ∨ op = ['*']) :
    ∃ z : Int, applyOperator op (.ofReal (intText x)) (.ofReal (intText y))
      = .ok (.ofReal (intText z)) := by
  rcases hop with h | h | h
  · subst h
    exact ⟨x + y, by simp [applyOperator, addComplex_intText]⟩
  · subst h
    exact ⟨x - y, by simp [applyOperator, subtractComplex_intText]⟩
  · subst h
    exact ⟨x * y, by simp [applyOperator, multiplyComplex_intText]⟩

/-- The evaluator keeps a stack of canonical integers canonical on integer tokens. -/
theorem evalLoop_integer : ∀ (tokens : List Token) (evalStack out : List ComplexNumber),
    (∀ t ∈ tokens, isIntegerToken t = true) → (∀ z ∈ evalStack, IsIntegerValue z) →
    evalLoop tokens evalStack = .ok out → ∀ z ∈ out, IsIntegerValue z := by
  intro tokens
  induction tokens with
  | nil =>
    intro evalStack out _ hs h
    simp only [evalLoop, Except.ok.injEq] at h
    rw [← h]; exact hs
  | cons token rest ih =>
    intro evalStack out ht hs h
    have hrest : ∀ t ∈ rest, isIntegerToken t = true :=
      fun t h => ht t (List.mem_cons_of_mem _ h)
    have htok := ht token (List.mem_cons_self _ _)
    cases htype : token.type with
    | NUMBER =>
      simp only [evalLoop, htype] at h
      have hc : isCanonicalNat token.value = true := by
        simpa [isIntegerToken, htype] using htok
      apply ih _ out hrest _ h
      intro z hz
      rcases List.mem_cons.mp hz with h1 | h1
      · refine ⟨(natVal token.value : Int), ?_⟩
        rw [h1, intText_eq_natText, natText_natVal_of_canonical _ hc]
      · exact hs z h1
    | OPERATOR =>
      simp only [evalLoop, htype] at h
      have hop : token.value = ['+'] ∨ token.value = ['-'] ∨ token.value = ['*'] := by
        have h3 : (token.value = ['+'] ∨ token.value = ['-']) ∨ token.value = ['*'] := by
          simpa [isIntegerToken, htype] using htok
        exact or_assoc.mp h3
      cases evalStack with
      | nil => simp [invalid_argument] at h
      | cons b below =>
        cases below with
        | nil => simp [invalid_argument] at h
        | cons a below =>
          obtain ⟨y, hy⟩ := hs b (List.mem_cons_self _ _)
          obtain ⟨x, hx⟩ := hs a (List.mem_cons_of_mem _ (List.mem_cons_self _ _))
          obtain ⟨z, hz⟩ := applyOperator_intText token.value x y hop
          simp only [hx, hy, hz] at h
          apply ih _ out hrest _ h
          intro w hw
          rcases List.mem_cons.mp hw with h1 | h1
          · exact ⟨z, h1⟩
          · exact hs w (List.mem_cons_of_mem _ (List.mem_cons_of_mem _ h1))
    | VARIABLE => simp [isIntegerToken, htype] at htok
    | FUNCTION => simp [isIntegerToken, htype] at htok
    | LEFT_PAREN => simp [evalLoop, htype, invalid_argument] at h
    | RIGHT_PAREN => simp [evalLoop, htype, invalid_argument] at h

theorem isCanonicalDecimal_intText (x : Int) : isCanonicalDecimal (intText x) = true := by
  have hnd : ∀ n : Nat, intPart (natText n) = natText n := fun n =>
    intPart_of_no_dot _ (natText_no_dot n)
  unfold isCanonicalDecimal
  rw [startsWith_intText]
  by_cases hx : x < 0
  · have hne : natText x.natAbs ≠ ['0'] := by
      rw [Ne, natText_eq_zero]; omega
    simp [hx, intText, hnd, isCanonicalNat_natText, hasDot_natText, hne]
  · simp [hx, intText, hnd, isCanonicalNat_natText, hasDot_natText]

theorem result_of_parseExpression (s r : Str)
    (h : parseExpression s = "Result: ".toList ++ r) :
    evaluatePostfixExpression (shuntingYard (tokenize s)) = .ok r := by
  unfold parseExpression at h
  cases he : evaluatePostfixExpression (shuntingYard (tokenize s)) with
  | error e =>
    rw [he] at h
    simp at h
  | ok v =>
    rw [he] at h
    simp only [List.append_cancel_left_eq] at h
    rw [h]

theorem parseExpression_literal (a : Str) (ha : isUnsignedLiteral a = true) :
    parseExpression a = "Result: ".toList ++ a := by
  have la := literal_length_pos a ha
  obtain ⟨n, hn⟩ : ∃ n, a.length = n + 1 := ⟨a.length - 1, by omega⟩
  obtain ⟨l, h1⟩ := tokenizeLoop_number a ha n none [] (by simp)
  have ht : tokenize a = [numberToken a] := by
    unfold tokenize
    rw [hn]
    rw [List.append_nil] at h1
    rw [h1, tokenizeLoop_nil]
  unfold parseExpression
  rw [ht]
  simp [shuntingYard, shuntingStep, numberToken, evaluatePostfixExpression, evalLoop,
    toString_ofReal]

/-- C19 (as amended). Successful evaluation of an integer expression yields canonical text:
whenever every token of `s` is a canonical unsigned integer literal, one of the operators
`+`, `-`, `*`, or a parenthesis, and `parseExpression(s)` returns `"Result: r"`, then `r` is
the canonical text of an integer, which is a canonical decimal (no redundant leading zero,
no signed zero). A lone unsigned literal is returned as it is written. -/
theorem result_canonical_on_integers (s r : Str)
    (htokens : (tokenize s).all isIntegerToken = true)
    (hresult : parseExpression s = "Result: ".toList ++ r) :
    ((∃ x : Int, r = intText x) ∧ isCanonicalDecimal r = true) ∧
      ∀ a, isUnsignedLiteral a = true → parseExpression a = "Result: ".toList ++ a := by
  refine ⟨?_, parseExpression_literal⟩
  have hev := result_of_parseExpression s r hresult
  have hpost := shuntingYard_all (fun t => isIntegerToken t = true) (tokenize s)
    (by simpa [List.all_eq_true] using htokens)
  unfold evaluatePostfixExpression at hev
  cases hl : evalLoop (shuntingYard (tokenize s)) [] with
  | error e => simp [hl] at hev
  | ok out =>
    have hout := evalLoop_integer _ [] out hpost (by simp) hl
    rw [hl] at hev
    cases out with
    | nil => simp [invalid_argument] at hev
    | cons top below =>
      cases below with
      | cons z zs => simp [invalid_argument] at hev
      | nil =>
        simp only [Except.ok.injEq] at hev
        obtain ⟨x, hx⟩ := hout top (List.mem_cons_self _ _)
        rw [hx, toString_ofReal] at hev
        rw [← hev]
        exact ⟨⟨x, rfl⟩, isCanonicalDecimal_intText x⟩

/-- C19 (as amended), at the expression `12*(3-5)`. -/
theorem result_canonical_on_integers_witness :
    ((tokenize "12*(3-5)".toList).all isIntegerToken = true ∧
      parseExpression "12*(3-5)".toList = "Result: ".toList ++ "-24".toList) ∧
    (∃ x : Int, "-24".toList = intText x) ∧ isCanonicalDecimal "-24".toList = true :=
  ⟨by decide,
    (result_canonical_on_integers "12*(3-5)".toList "-24".toList (by decide) (by decide)).1⟩

/-- C19 fails as stated at the lone literal `007`: `parseExpression("007")` returns
`"Result: 007"`, the literal as written, and `007` is no canonical decimal (it has redundant
leading zeros) and no complex rendering (it holds no `i`). -/
theorem lone_literal_not_canonical :
    parseExpression "007".toList = "Result: ".toList ++ "007".toList ∧
      isCanonicalDecimal "007".toList = false ∧ 'i' ∉ "007".toList ∧
      parseExpression "1.50".toList = "Result: ".toList ++ "1.50".toList ∧
      isCanonicalDecimal "1.50".toList = false := by
  decide

/-! ## The final stack, parentheses and operand validation (C21-C25) -/

/-- C21: the evaluation must end with exactly one value. When the loop of
`evaluatePostfixExpression` ends with a stack of any size other than one, the function fails
with the invalid-argument error on the final stack size; when it ends with one value, the
result is the rendering `toString()` of that value, and every result arises so. The empty
expression and `"2 3"` make `parseExpression` return an `"Error: "` text. -/
theorem final_stack_one_value (tokens : List Token) :
    (∀ evalStack, evalLoop tokens [] = .ok evalStack → evalStack.length ≠ 1 →
      evaluatePostfixExpression tokens = invalid_argument (finalStackMessage evalStack.length)) ∧
    (∀ top, evalLoop tokens [] = .ok [top] →
      evaluatePostfixExpression tokens = .ok top.toString) ∧
    (∀ r, evaluatePostfixExpression tokens = .ok r →
      ∃ top, evalLoop tokens [] = .ok [top] ∧ r = top.toString) ∧
    parseExpression [] = "Error: ".toList ++ finalStackMessage 0 ∧
    parseExpression "2 3".toList = "Error: ".toList ++ finalStackMessage 2 ∧
    finalStackMessage 2 = "Invalid expression: final stack size is 2, expected 1".toList := by
  refine ⟨?_, ?_, ?_, by decide, by decide, by decide⟩
  · intro evalStack h hlen
    unfold evaluatePostfixExpression
    rw [h]
    cases evalStack with
    | nil => rfl
    | cons top below =>
      cases below with
      | nil => simp at hlen
      | cons z zs => rfl
  · intro top h
    unfold evaluatePostfixExpression
    rw [h]
  · intro r h
    unfold evaluatePostfixExpression at h
    cases hl : evalLoop tokens [] with
    | error e => simp [hl] at h
    | ok evalStack =>
      rw [hl] at h
      cases evalStack with
      | nil => simp [invalid_argument] at h
      | cons top below =>
        cases below with
        | nil =>
          simp only [Except.ok.injEq] at h
          exact ⟨top, rfl, h.symm⟩
        | cons z zs => simp [invalid_argument] at h

/-- C22: an unmatched right parenthesis is not an error. `parseExpression("2)")` returns
`"Result: 2"` and `parseExpression("(2))")` likewise: the `RIGHT_PAREN` case of
`shuntingYard` pops nothing when no left parenthesis is on the stack and goes on. An
unmatched left parenthesis is an error: it reaches the postfix output and the evaluator. -/
theorem unmatched_right_paren_accepted :
    parseExpression "2)".toList = "Result: 2".toList ∧
      parseExpression "(2))".toList = "Result: 2".toList ∧
      parseExpression ")2".toList = "Result: 2".toList ∧
      shuntingYard (tokenize "2)".toList) = [numberToken ['2']] ∧
      parseExpression "(2".toList
        = "Error: Unexpected token type in postfix expression".toList := by
  decide

/-- C23: `subtract` fails with the invalid-argument error on two valid operands when the
second begins with `'+'`: it puts `'-'` in front of the text `"+5"` and `add` rejects
`"-+5"`. -/
theorem subtract_rejects_plus_operand :
    isValidNumber "1".toList = true ∧ isValidNumber "+5".toList = true ∧
      subtract "1".toList "+5".toList
        = invalid_argument "Invalid second operand: -+5".toList ∧
      add "1".toList "+5".toList = .ok "6".toList ∧
      subtract "1".toList "5".toList = .ok "-4".toList := by
  decide

/-- C24: a zero imaginary part that is not collapsed. The sum of `1+0.5i` and `1-0.5i` has
the imaginary part `add("0.5","-0.5")`, which is the empty text; which denotes
zero; the test `imagPart == "0"` misses it, the value is not real-only and renders as
`"2+i"`. -/
theorem zero_imaginary_not_collapsed :
    addComplex { real := "1".toList, imaginary := "0.5".toList }
        { real := "1".toList, imaginary := "-0.5".toList }
      = .ok { real := "2".toList, imaginary := [] } ∧
    (ComplexNumber.mk "2".toList []).isReal = false ∧
    (ComplexNumber.mk "2".toList []).toString = "2+i".toList ∧
    add "0.5".toList "-0.5".toList = .ok [] ∧
    subtractComplex { real := "1".toList, imaginary := "0.5".toList }
        { real := "1".toList, imaginary := "0.5".toList }
      = .ok { real := "0".toList, imaginary := [] } ∧
    decimalValue [] = 0 := by
  refine ⟨by decide, by decide, by decide, by decide, by decide, ?_⟩
  simp [decimalValue, magnitude, startsWith, absText, intPart, decPart, natVal]

/-- C25: complex division by the real zero written `"0.0"` fails with the invalid-argument
error, not with division by zero: `multiply("0.0","0.0")` is the empty text and the `add`
that forms the denominator rejects it. Division by `"0"` fails with division by zero. -/
theorem divideComplex_zero_point_zero :
    divideComplex (.ofReal "1".toList) (.ofReal "0.0".toList)
      = invalid_argument "Invalid first operand: ".toList ∧
    multiply "0.0".toList "0.0".toList = .ok [] ∧
    divideComplex (.ofReal "1".toList) (.ofReal "0".toList)
      = domain_error "Division by zero".toList := by
  decide

/-! ## Best-effort root extraction (C30) -/

theorem magnitude_parts (a I F : Str) (hI : intPart (absText a) = I)
    (hF : decPart (absText a) = F) :
    magnitude a * 10 ^ F.length = (natVal (I ++ F) : ℚ) := by
  unfold magnitude
  rw [hI, hF, natVal_append]
  have hpos : (10 : ℚ) ^ F.length ≠ 0 := by positivity
  push_cast
  field_simp

theorem divisionOperands_divisor (a b : Str) (hb : isValidNumber b = true) :
    ∃ n : Nat, (divisionOperands a b).2.1 = natText n ∧
      (magnitude b * 10 ^ (decPart (absText b)).length = (n : ℚ)) := by
  obtain ⟨IB, FB, hIB, hFB, _, _, b1, b2⟩ := valid_parts b hb
  have hB : ∀ c ∈ IB ++ FB, isDigit c = true := by
    intro c hc
    rcases List.mem_append.mp hc with h | h
    · exact hIB c h
    · exact hFB c h
  refine ⟨natVal (IB ++ FB), ?_, ?_⟩
  · simp only [divisionOperands, b1, b2]
    exact removeLeadingZeros_digits _ hB
  · rw [b2]; exact magnitude_parts b IB FB b1 b2

/-- With valid operands and a divisor that denotes a number other than zero, `divide`
returns a value. -/
theorem divide_ok (a b : Str) (ha : isValidNumber a = true) (hb : isValidNumber b = true)
    (hnz : magnitude b ≠ 0) : ∃ q, divide a b = .ok q := by
  obtain ⟨m, n0, hm, hn0⟩ := divisionOperands_natText a b ha hb
  obtain ⟨n, hn, hval⟩ := divisionOperands_divisor a b hb
  have hnpos : n ≠ 0 := by
    intro h0
    rw [h0] at hval
    have hpos : (10 : ℚ) ^ (decPart (absText b)).length ≠ 0 := by positivity
    simp only [Nat.cast_zero, mul_eq_zero] at hval
    rcases hval with h | h
    · exact hnz h
    · exact hpos h
  have hne : natText n ≠ ['0'] := by
    rw [Ne, natText_eq_zero]; exact hnpos
  have hint : ∃ p, divideIntegers (natText m) (natText n) = .ok p := by
    unfold divideIntegers
    simp only [beq_iff_eq, hne, if_false]
    split
    · exact ⟨_, rfl⟩
    · split
      · exact ⟨_, rfl⟩
      · exact ⟨_, rfl⟩
  obtain ⟨⟨quotient, remainder⟩, hp⟩ := hint
  rw [divide_eq]
  simp only [ha, hb, Bool.not_true, Bool.false_eq_true, if_false, hm, hn, hp]
  split
  · rename_i hz
    exfalso
    apply hnz
    simp only [isZeroLiteral, Bool.or_eq_true, beq_iff_eq] at hz
    rcases hz with (h | h) | h <;> subst h <;>
      simp [magnitude, absText, startsWith, intPart, decPart, natVal, digitVal]
  · split
    · exact ⟨_, rfl⟩
    · exact ⟨_, rfl⟩

theorem magnitude_zero_text : magnitude ['0'] = 0 := by
  simp [magnitude, absText, startsWith, intPart, decPart, natVal, digitVal]

/-- Past its guards `nthRoot` returns a value when the nested call of `power` finishes:
no failure inside the Newton loop is passed on. -/
theorem nthRootBody_ok (pw : Str → Str → Option (Except Exn Str)) (number root : Str)
    (hn : isValidNumber number = true) (hpos : startsWith number '-' = false)
    (hr : isValidNumber root = true) (hnz : magnitude root ≠ 0)
    (h : ∀ x e, pw x e ≠ none) : ∃ r, nthRootBody pw number root = some (.ok r) := by
  unfold nthRootBody
  have h1 : ¬ (!isValidNumber number || !isValidNumber root) = true := by simp [hn, hr]
  rw [if_neg h1]
  by_cases h2 : (number == ['0']) = true
  · rw [if_pos h2]; exact ⟨_, rfl⟩
  rw [if_neg h2]
  by_cases h3 : (number == ['1']) = true
  · rw [if_pos h3]; exact ⟨_, rfl⟩
  rw [if_neg h3]
  by_cases h4 : (root == ['1']) = true
  · rw [if_pos h4]; exact ⟨_, rfl⟩
  rw [if_neg h4]
  have h5 : ¬ (root == ['0']) = true := by
    intro h0
    rw [beq_iff_eq] at h0
    exact hnz (by rw [h0]; exact magnitude_zero_text)
  rw [if_neg h5]
  simp only [hpos, Bool.false_and, Bool.false_eq_true, if_false]
  obtain ⟨x, hx⟩ := divide_ok number root hn hr hnz
  rw [hx]
  simp only []
  generalize (if compareAbs (if compareAbs x "0.001".toList < 0 then "0.001".toList else x)
    "1000".toList > 0 then "1000".toList
    else if compareAbs x "0.001".toList < 0 then "0.001".toList else x) = x0
  cases hl : newtonLoop pw number root maxIterations x0 with
  | none => exact absurd hl (newtonLoop_total pw _ root h _ _)
  | some y => exact ⟨_, rfl⟩

/-- A failure of an operation inside one Newton pass ends the pass with the estimate held
at that moment: `x` before the assignment `x = divide(numerator, root)`, the new estimate
after it. -/
theorem newtonStep_failure (pw : Str → Str → Option (Except Exn Str))
    (absNumber root x : Str) :
    (∀ e, subtract root ['1'] = .error e → newtonStep pw absNumber root x = some (x, false)) ∧
    (∀ rm e, subtract root ['1'] = .ok rm → pw x rm = some (.error e) →
      newtonStep pw absNumber root x = some (x, false)) ∧
    (∀ rm p e, subtract root ['1'] = .ok rm → pw x rm = some (.ok p) →
      divide absNumber p = .error e → newtonStep pw absNumber root x = some (x, false)) ∧
    (∀ rm p d e, subtract root ['1'] = .ok rm → pw x rm = some (.ok p) →
      divide absNumber p = .ok d → multiply rm x = .error e →
      newtonStep pw absNumber root x = some (x, false)) ∧
    (∀ rm p d t e, subtract root ['1'] = .ok rm → pw x rm = some (.ok p) →
      divide absNumber p = .ok d → multiply rm x = .ok t → add t d = .error e →
      newtonStep pw absNumber root x = some (x, false)) ∧
    (∀ rm p d t nu e, subtract root ['1'] = .ok rm → pw x rm = some (.ok p) →
      divide absNumber p = .ok d → multiply rm x = .ok t → add t d = .ok nu →
      divide nu root = .error e → newtonStep pw absNumber root x = some (x, false)) ∧
    (∀ rm p d t nu x2 e, subtract root ['1'] = .ok rm → pw x rm = some (.ok p) →
      divide absNumber p = .ok d → multiply rm x = .ok t → add t d = .ok nu →
      divide nu root = .ok x2 → subtract x2 x = .error e →
      newtonStep pw absNumber root x = some (x2, false)) := by
  refine ⟨?_, ?_, ?_, ?_, ?_, ?_, ?_⟩
  · intro e h1
    simp only [newtonStep, h1]
  · intro rm e h1 h2
    simp only [newtonStep, h1, h2]
  · intro rm p e h1 h2 h3
    simp only [newtonStep, h1, h2, h3]
  · intro rm p d e h1 h2 h3 h4
    simp only [newtonStep, h1, h2, h3, h4]
  · intro rm p d t e h1 h2 h3 h4 h5
    simp only [newtonStep, h1, h2, h3, h4, h5]
  · intro rm p d t nu e h1 h2 h3 h4 h5 h6
    simp only [newtonStep, h1, h2, h3, h4, h5, h6]
  · intro rm p d t nu x2 e h1 h2 h3 h4 h5 h6 h7
    simp only [newtonStep, h1, h2, h3, h4, h5, h6, h7]

/-- C30: `nthRoot` is best-effort inside its loop. For every valid number text without a
minus sign and every valid root text that denotes a number other than zero, `nthRoot`
returns a value. A Newton pass in which an operation fails ends the loop with the estimate
held at that moment, which is what the loop returns. In `nthRoot("5","2000")` the call
`power(x,"1999")` returns the exponent-too-large marker, `divide` rejects it, and the result
is the first estimate `divide("5","2000")`. -/
theorem nthRoot_best_effort (number root : Str) (hn : isValidNumber number = true)
    (hpos : startsWith number '-' = false) (hr : isValidNumber root = true)
    (hnz : magnitude root ≠ 0) :
    (∃ r, nthRoot number root = .ok r) ∧
    (∀ (pw : Str → Str → Option (Except Exn Str)) (absNumber x y : Str) (left : Nat),
      newtonStep pw absNumber root x = some (y, false) →
      newtonLoop pw absNumber root (left + 1) x = some y) ∧
    (∀ (pw : Str → Str → Option (Except Exn Str)) (absNumber x rm p : Str) (e : Exn)
      (left : Nat), subtract root ['1'] = .ok rm → pw x rm = some (.ok p) →
      divide absNumber p = .error e → newtonLoop pw absNumber root (left + 1) x = some x) ∧
    (divide "5".toList "2000".toList = .ok ".0025".toList ∧
      power ".0025".toList "1999".toList
        = .ok (tooLargeForComputationMarker ".0025".toList "1999".toList) ∧
      divide "5".toList (tooLargeForComputationMarker ".0025".toList "1999".toList)
        = invalid_argument ("Invalid second operand: ".toList ++
            tooLargeForComputationMarker ".0025".toList "1999".toList) ∧
      nthRoot "5".toList "2000".toList = .ok ".0025".toList) := by
  refine ⟨?_, ?_, ?_, by decide⟩
  · obtain ⟨r, hres⟩ := nthRootBody_ok (powerAux 4) number root hn hpos hr hnz
      (fun x e => by rw [(powerAux_depth 0 x e).1]; exact (powerAux_depth 0 x e).2)
    exact ⟨r, by simp only [nthRoot, callDepth, nthRootAux, hres, finished]⟩
  · intro pw absNumber x y left h
    exact newtonLoop_stop pw absNumber root x y left h
  · intro pw absNumber x rm p e left h1 h2 h3
    exact newtonLoop_stop pw absNumber root x x left
      ((newtonStep_failure pw absNumber root x).2.2.1 rm p e h1 h2 h3)

/-- C30, at the square root of two. -/
theorem nthRoot_best_effort_witness :
    (isValidNumber ['2'] = true ∧ startsWith ['2'] '-' = false ∧ magnitude ['2'] ≠ 0) ∧
    ∃ r, nthRoot ['2'] ['2'] = .ok r :=
  ⟨⟨by decide, by decide, by
      simp [magnitude, absText, startsWith, intPart, decPart, natVal, digitVal]⟩,
    (nthRoot_best_effort ['2'] ['2'] (by decide) (by decide) (by decide) (by
      simp [magnitude, absText, startsWith, intPart, decPart, natVal, digitVal])).1⟩

/-! ## Exact multiplication (C27) -/

theorem natVal_dropZeros (s : Str) : natVal (s.dropWhile (fun d => d == '0')) = natVal s := by
  conv_rhs => rw [← pad_dropZeros s]
  rw [natVal_zeros_append]

theorem stripTrailingZeros_append (F : Str) :
    ∃ k, F = stripTrailingZeros F ++ List.replicate k '0' := by
  unfold stripTrailingZeros
  refine ⟨F.reverse.length - (F.reverse.dropWhile (fun d => d == '0')).length, ?_⟩
  have h := pad_dropZeros F.reverse
  have h2 := congrArg List.reverse h
  rw [List.reverse_append, List.reverse_reverse, List.reverse_replicate] at h2
  exact h2.symm

theorem natVal_append_zeros (s : Str) (k : Nat) :
    natVal (s ++ List.replicate k '0') = natVal s * 10 ^ k := by
  rw [natVal_append, natVal_replicate_zero, List.length_replicate]; simp

/-- Trailing zeros do not change the fraction a digit run denotes. -/
theorem fraction_strip (F : Str) :
    (natVal (stripTrailingZeros F) : ℚ) / 10 ^ (stripTrailingZeros F).length
      = (natVal F : ℚ) / 10 ^ F.length := by
  obtain ⟨k, hk⟩ := stripTrailingZeros_append F
  have hl : F.length = (stripTrailingZeros F).length + k := by
    conv_lhs => rw [hk]
    simp
  have hv : natVal F = natVal (stripTrailingZeros F) * 10 ^ k := by
    conv_lhs => rw [hk]
    exact natVal_append_zeros _ k
  rw [hv, hl, pow_add]
  have h1 : (10 : ℚ) ^ (stripTrailingZeros F).length ≠ 0 := by positivity
  have h2 : (10 : ℚ) ^ k ≠ 0 := by positivity
  push_cast
  field_simp
  ring

theorem absText_unsigned (s : Str) (h1 : startsWith s '-' = false)
    (h2 : startsWith s '+' = false) : absText s = s := by
  simp [absText, h1, h2]

theorem magnitude_digits (s : Str) (hs : ∀ c ∈ s, isDigit c = true) :
    magnitude s = (natVal s : ℚ) := by
  have hd := not_mem_dot_of_digits s hs
  unfold magnitude
  rw [absText_unsigned s (startsWith_digits s hs '-' (by decide))
    (startsWith_digits s hs '+' (by decide)), intPart_of_no_dot s hd, decPart_of_no_dot s hd]
  simp [natVal]

theorem magnitude_point (I F : Str) (hI : ∀ c ∈ I, isDigit c = true) :
    magnitude (I ++ '.' :: F) = (natVal I : ℚ) + (natVal F : ℚ) / 10 ^ F.length := by
  unfold magnitude
  rw [absText_unsigned _ (startsWith_append_point I F hI '-' (by decide) (by decide))
    (startsWith_append_point I F hI '+' (by decide) (by decide)), intPart_point I F hI,
    decPart_point I F hI]

/-- The normal form of a text with a point denotes the same number. -/
theorem magnitude_point_form (I F : Str) (hI : ∀ c ∈ I, isDigit c = true)
    (hF : ∀ c ∈ F, isDigit c = true) :
    magnitude (I.dropWhile (fun d => d == '0') ++ fractionTail F)
      = (natVal I : ℚ) + (natVal F : ℚ) / 10 ^ F.length := by
  have hI2 := dropZeros_digits I hI
  have hS : ∀ c ∈ stripTrailingZeros F, isDigit c = true := by
    intro c hc
    unfold stripTrailingZeros at hc
    exact hF c (List.mem_reverse.mp ((List.dropWhile_sublist _).subset (List.mem_reverse.mp hc)))
  rw [← fraction_strip F]
  unfold fractionTail
  split
  · rename_i he
    have he2 : stripTrailingZeros F = [] := by simpa using he
    rw [List.append_nil, magnitude_digits _ hI2, natVal_dropZeros, he2]
    simp [natVal]
  · rw [magnitude_point _ _ hI2, natVal_dropZeros]

theorem point_form_unsigned (I F : Str) (hI : ∀ c ∈ I, isDigit c = true) (c : Char)
    (hc : isDigit c = false) (hp : c ≠ '.') :
    startsWith (I.dropWhile (fun d => d == '0') ++ fractionTail F) c = false := by
  unfold fractionTail
  split
  · rw [List.append_nil]
    exact startsWith_digits _ (dropZeros_digits I hI) c hc
  · exact startsWith_append_point _ _ (dropZeros_digits I hI) c hc hp

/-- The text `placePoint` builds from a digit string, in normal form, denotes the number
of the digits with the point moved. -/
theorem placePoint_value (T : Str) (k : Nat) (hT : ∀ c ∈ T, isDigit c = true) :
    magnitude (canonicalize (placePoint T k)) = (natVal T : ℚ) / 10 ^ k ∧
      startsWith (canonicalize (placePoint T k)) '-' = false ∧
      startsWith (canonicalize (placePoint T k)) '+' = false := by
  unfold placePoint
  by_cases hk : k > 0
  · rw [if_pos hk]
    by_cases hlen : k ≥ T.length
    · rw [if_pos hlen]
      have hF : ∀ c ∈ List.replicate (k - T.length) '0' ++ T, isDigit c = true :=
        digits_zeros_append _ T hT
      have h0 : ∀ c ∈ ['0'], isDigit c = true := by simp [isDigit]
      have e : '0' :: '.' :: (List.replicate (k - T.length) '0' ++ T)
          = ['0'] ++ '.' :: (List.replicate (k - T.length) '0' ++ T) := rfl
      rw [e, canonicalize_point _ _ h0 hF]
      refine ⟨?_, point_form_unsigned _ _ h0 '-' (by decide) (by decide),
        point_form_unsigned _ _ h0 '+' (by decide) (by decide)⟩
      rw [magnitude_point_form _ _ h0 hF, natVal_zeros_append]
      have hl : (List.replicate (k - T.length) '0' ++ T).length = k := by
        simp only [List.length_append, List.length_replicate]; omega
      rw [hl]
      simp [natVal, digitVal]
    · rw [if_neg hlen]
      have hI : ∀ c ∈ T.take (T.length - k), isDigit c = true :=
        fun c hc => hT c (List.mem_of_mem_take hc)
      have hF : ∀ c ∈ T.drop (T.length - k), isDigit c = true :=
        fun c hc => hT c (List.mem_of_mem_drop hc)
      rw [canonicalize_point _ _ hI hF]
      refine ⟨?_, point_form_unsigned _ _ hI '-' (by decide) (by decide),
        point_form_unsigned _ _ hI '+' (by decide) (by decide)⟩
      rw [magnitude_point_form _ _ hI hF]
      have hl : (T.drop (T.length - k)).length = k := by
        simp only [List.length_drop]; omega
      have hv : natVal T = natVal (T.take (T.length - k)) * 10 ^ k
          + natVal (T.drop (T.length - k)) := by
        conv_lhs => rw [← List.take_append_drop (T.length - k) T]
        rw [natVal_append, hl]
      rw [hl, hv]
      have hpos : (10 : ℚ) ^ k ≠ 0 := by positivity
      push_cast
      field_simp
  · rw [if_neg hk]
    have hk0 : k = 0 := by omega
    subst hk0
    rw [canonicalize_digits T hT, removeLeadingZeros_digits T hT]
    refine ⟨?_, startsWith_natText _ '-' (by decide), startsWith_natText _ '+' (by decide)⟩
    rw [magnitude_digits _ (natText_digits _), natVal_natText]
    simp

/-- The digit runs of a valid text as the arithmetic routines read them. -/
theorem valid_body (a : Str) (h : isValidNumber a = true) :
    ∃ I F, (∀ c ∈ I, isDigit c = true) ∧ (∀ c ∈ F, isDigit c = true) ∧
      intPart (absText a) = I ∧ decPart (absText a) = F ∧
      eraseDot (absText a) = I ++ F ∧ decPlaces (absText a) = F.length ∧
      (absText a = I ∧ F = [] ∨ absText a = I ++ '.' :: F) := by
  obtain ⟨body, _, hloop, habs, _⟩ := valid_shape a h
  rw [habs]
  rcases validLoop_false body hloop with hd | ⟨I, F, e, hI, hF⟩
  · have hnd := not_mem_dot_of_digits body hd
    refine ⟨body, [], hd, by simp, intPart_of_no_dot body hnd, decPart_of_no_dot body hnd, ?_,
      ?_, Or.inl ⟨rfl, rfl⟩⟩
    · rw [eraseDot, List.erase_of_not_mem hnd, List.append_nil]
    · rw [decPlaces, decPart_of_no_dot body hnd]
  · subst e
    exact ⟨I, F, hI, hF, intPart_point I F hI, decPart_point I F hI, eraseDot_point I F hI,
      by rw [decPlaces, decPart_point I F hI], Or.inr rfl⟩

theorem decimalValue_signed (res : Str) (h1 : startsWith res '-' = false)
    (h2 : startsWith res '+' = false) :
    decimalValue res = magnitude res ∧ decimalValue ('-' :: res) = -magnitude res := by
  have e1 : absText ('-' :: res) = res := by
    simp only [absText, startsWith, List.head?_cons, beq_self_eq_true, if_true,
      List.drop_succ_cons, List.drop_zero]
    simp only [startsWith] at h2
    simp [h2]
  constructor
  · simp [decimalValue, h1]
  · have hs : startsWith ('-' :: res) '-' = true := by simp [startsWith]
    simp only [decimalValue, hs, if_true, magnitude, e1, absText_unsigned res h1 h2]

/-- The number a valid text denotes, from its digits without the point. -/
theorem decimalValue_valid (a : Str) (h : isValidNumber a = true) :
    magnitude a = (natVal (eraseDot (absText a)) : ℚ) / 10 ^ decPlaces (absText a) ∧
      decimalValue a = (if startsWith a '-' then -1 else 1) * magnitude a := by
  obtain ⟨I, F, hI, hF, e1, e2, e3, e4, _⟩ := valid_body a h
  constructor
  · have hm := magnitude_parts a I F e1 e2
    have hpos : (10 : ℚ) ^ F.length ≠ 0 := by positivity
    rw [e3, e4, ← hm]
    field_simp
  · unfold decimalValue
    split <;> simp

/-- C27: multiplication is numerically exact. For all valid decimal texts `a` and `b`,
`multiply(a,b)` returns a text whose number (an absent integer or fractional digit run
reads as zero) is the product of the numbers of `a` and `b`. The digit array of the double
loop ends with every cell at most 9, and unless an operand is the text `"0"` the result is
the normal form of the product of the two digit strings with the point put
`decPlaces(a) + decPlaces(b)` places from the right. -/
theorem multiply_exact (a b : Str) (ha : isValidNumber a = true) (hb : isValidNumber b = true) :
    (∃ r, multiply a b = .ok r ∧ decimalValue r = decimalValue a * decimalValue b) ∧
    (∀ x ∈ mulOuter (removeLeadingZeros (eraseDot (absText a)))
        (removeLeadingZeros (eraseDot (absText b)))
        (removeLeadingZeros (eraseDot (absText a))).length
        (List.replicate ((removeLeadingZeros (eraseDot (absText a))).length +
          (removeLeadingZeros (eraseDot (absText b))).length) 0), x ≤ 9) ∧
    multiplyPositive (absText a) (absText b) =
      (if absText a == ['0'] || absText b == ['0'] then ['0']
       else canonicalize (placePoint
         (natText (natVal (eraseDot (absText a)) * natVal (eraseDot (absText b))))
         (decPlaces (absText a) + decPlaces (absText b)))) := by
  obtain ⟨IA, FA, hIA, hFA, _, _, a3, _, _⟩ := valid_body a ha
  obtain ⟨IB, FB, hIB, hFB, _, _, b3, _, _⟩ := valid_body b hb
  have hA : ∀ c ∈ eraseDot (absText a), isDigit c = true := by
    rw [a3]
    intro c hc
    rcases List.mem_append.mp hc with h | h
    · exact hIA c h
    · exact hFA c h
  have hB : ∀ c ∈ eraseDot (absText b), isDigit c = true := by
    rw [b3]
    intro c hc
    rcases List.mem_append.mp hc with h | h
    · exact hIB c h
    · exact hFB c h
  have heq := multiplyPositive_eq (absText a) (absText b) hA hB
  refine ⟨?_, ?_, heq⟩
  · rw [multiply_valid a b ha hb]
    refine ⟨_, rfl, ?_⟩
    obtain ⟨ma, sa⟩ := decimalValue_valid a ha
    obtain ⟨mb, sb⟩ := decimalValue_valid b hb
    simp only []
    have hres : magnitude (multiplyPositive (absText a) (absText b)) = magnitude a * magnitude b ∧
        startsWith (multiplyPositive (absText a) (absText b)) '-' = false ∧
        startsWith (multiplyPositive (absText a) (absText b)) '+' = false := by
      rw [heq]
      split
      · rename_i hz
        have hprod : magnitude a * magnitude b = 0 := by
          simp only [Bool.or_eq_true, beq_iff_eq] at hz
          rcases hz with h | h
          · rw [ma, h]; simp [eraseDot, natVal, digitVal]
          · rw [mb, h]; simp [eraseDot, natVal, digitVal]
        rw [hprod]
        exact ⟨magnitude_zero_text, by decide, by decide⟩
      · obtain ⟨v, s1, s2⟩ := placePoint_value
          (natText (natVal (eraseDot (absText a)) * natVal (eraseDot (absText b))))
          (decPlaces (absText a) + decPlaces (absText b)) (natText_digits _)
        refine ⟨?_, s1, s2⟩
        rw [v, natVal_natText, ma, mb, pow_add]
        have h1 : (10 : ℚ) ^ decPlaces (absText a) ≠ 0 := by positivity
        have h2 : (10 : ℚ) ^ decPlaces (absText b) ≠ 0 := by positivity
        push_cast
        field_simp
    obtain ⟨hm, hs1, hs2⟩ := hres
    obtain ⟨d1, d2⟩ := decimalValue_signed _ hs1 hs2
    rw [sa, sb]
    by_cases hneg : (multiplyPositive (absText a) (absText b) != ['0'] &&
        startsWith a '-' != startsWith b '-') = true
    · rw [if_pos hneg, d2, hm]
      simp only [Bool.and_eq_true, bne_iff_ne, ne_eq] at hneg
      cases h1 : startsWith a '-' <;> cases h2 : startsWith b '-' <;>
        simp [h1, h2] at hneg ⊢
    · rw [if_neg hneg, d1, hm]
      simp only [Bool.and_eq_true, bne_iff_ne, ne_eq, not_and, Decidable.not_not] at hneg
      by_cases h0 : multiplyPositive (absText a) (absText b) = ['0']
      · have hz : magnitude a * magnitude b = 0 := by
          rw [← hm, h0]; exact magnitude_zero_text
        rcases mul_eq_zero.mp hz with h | h <;> rw [h] <;> simp
      · have := hneg h0
        cases h1 : startsWith a '-' <;> cases h2 : startsWith b '-' <;>
          simp [h1, h2] at this ⊢
  · exact mulCells_bound _ _ (removeLeadingZeros_keeps_digits _ hA)
      (removeLeadingZeros_keeps_digits _ hB)

/-- C27, at the texts `-1.5` and `0.20`. -/
theorem multiply_exact_witness :
    (isValidNumber "-1.5".toList = true ∧ isValidNumber "0.20".toList = true) ∧
    ∃ r, multiply "-1.5".toList "0.20".toList = .ok r ∧
      decimalValue r = decimalValue "-1.5".toList * decimalValue "0.20".toList :=
  ⟨by decide, (multiply_exact "-1.5".toList "0.20".toList (by decide) (by decide)).1⟩

/-! ## Exact addition (C26) -/

/-- The fractional loop of `addPositive`: on two equally long digit strings (last digit
first) it puts as many digits in front of the result and returns the carry out of them. -/
theorem addDecLoop_spec : ∀ (as bs : Str) (carry : Nat) (result : Str),
    as.length = bs.length → (∀ c ∈ as, isDigit c = true) → (∀ c ∈ bs, isDigit c = true) →
    ∃ (D : Str) (k : Nat), addDecLoop as bs carry result = (D ++ result, k) ∧
      D.length = as.length ∧ (∀ c ∈ D, isDigit c = true) ∧
      natVal D + k * 10 ^ as.length = leVal as + leVal bs + carry := by
  intro as
  induction as with
  | nil =>
    intro bs carry result hl _ _
    cases bs with
    | nil => exact ⟨[], carry, by simp [addDecLoop], rfl, by simp, by simp [natVal, leVal]⟩
    | cons b bs => simp at hl
  | cons a as ih =>
    intro bs carry result hl ha hb
    cases bs with
    | nil => simp at hl
    | cons b bs =>
      have hl2 : as.length = bs.length := by simpa using hl
      obtain ⟨D, k, hD, hlen, hdig, hval⟩ := ih bs ((digitVal a + digitVal b + carry) / 10)
        (digitChar ((digitVal a + digitVal b + carry) % 10) :: result) hl2
        (fun c hc => ha c (List.mem_cons_of_mem _ hc))
        (fun c hc => hb c (List.mem_cons_of_mem _ hc))
      have h9 : (digitVal a + digitVal b + carry) % 10 ≤ 9 := by omega
      refine ⟨D ++ [digitChar ((digitVal a + digitVal b + carry) % 10)], k, ?_, ?_, ?_, ?_⟩
      · simp only [addDecLoop]; rw [hD]; simp
      · simp [hlen]
      · intro c hc
        rcases List.mem_append.mp hc with h | h
        · exact hdig c h
        · simp only [List.mem_singleton] at h
          rw [h]; exact isDigit_digitChar _ h9
      · rw [natVal_append_singleton, digitVal_digitChar _ h9]
        simp only [leVal, List.length_cons, pow_succ, ← Nat.mul_assoc]
        have := hval
        omega

theorem padRight_length_le (s : Str) (n : Nat) (h : s.length ≤ n) : (padRight s n).length = n := by
  simp only [padRight, List.length_append, List.length_replicate]; omega

theorem padRight_keeps_digits (s : Str) (n : Nat) (hs : ∀ c ∈ s, isDigit c = true) :
    ∀ c ∈ padRight s n, isDigit c = true := by
  intro c hc
  unfold padRight at hc
  rcases List.mem_append.mp hc with h | h
  · exact hs c h
  · rw [(List.mem_replicate.mp h).2]; decide

/-- The number of a text from its digit runs, scaled to `m` fractional digits. -/
theorem scaled_value (I F : Str) (m : Nat) (hm : F.length ≤ m) :
    ((natVal I * 10 ^ m + natVal (padRight F m) : Nat) : ℚ) / 10 ^ m
      = (natVal I : ℚ) + (natVal F : ℚ) / 10 ^ F.length := by
  rw [natVal_padRight]
  obtain ⟨k, rfl⟩ : ∃ k, m = F.length + k := ⟨m - F.length, by omega⟩
  have h1 : (10 : ℚ) ^ F.length ≠ 0 := by positivity
  have h2 : (10 : ℚ) ^ k ≠ 0 := by positivity
  rw [Nat.add_sub_cancel_left, pow_add]
  push_cast
  field_simp
  ring

/-- The number `addPositive` denotes on two texts with digit runs `IA.FA` and `IB.FB`. -/
theorem addPositive_value (a b IA FA IB FB : Str)
    (hIA : ∀ c ∈ IA, isDigit c = true) (hFA : ∀ c ∈ FA, isDigit c = true)
    (hIB : ∀ c ∈ IB, isDigit c = true) (hFB : ∀ c ∈ FB, isDigit c = true)
    (a1 : intPart a = IA) (a2 : decPart a = FA) (b1 : intPart b = IB) (b2 : decPart b = FB) :
    magnitude (addPositive a b)
        = ((natVal IA : ℚ) + (natVal FA : ℚ) / 10 ^ FA.length)
          + ((natVal IB : ℚ) + (natVal FB : ℚ) / 10 ^ FB.length) ∧
      startsWith (addPositive a b) '-' = false ∧ startsWith (addPositive a b) '+' = false := by
  unfold addPositive
  rw [a1, a2, b1, b2]
  have hla : FA.length ≤ max FA.length FB.length := le_max_left _ _
  have hlb : FB.length ≤ max FA.length FB.length := le_max_right _ _
  generalize hm : max FA.length FB.length = m at hla hlb
  have hlen : (padRight FA m).reverse.length = (padRight FB m).reverse.length := by
    simp only [List.length_reverse, padRight_length_le _ _ hla, padRight_length_le _ _ hlb]
  obtain ⟨dec, k, hdec, hdl, hdd, hdv⟩ := addDecLoop_spec _ _ 0 [] hlen
    (fun c hc => padRight_keeps_digits FA m hFA c (List.mem_reverse.mp hc))
    (fun c hc => padRight_keeps_digits FB m hFB c (List.mem_reverse.mp hc))
  simp only [hdec, List.append_nil]
  obtain ⟨D, hD, hDd, hDv⟩ := addIntLoop_spec IA.reverse IB.reverse k []
    (fun c hc => hIA c (List.mem_reverse.mp hc)) (fun c hc => hIB c (List.mem_reverse.mp hc))
  rw [hD, List.append_nil]
  rw [leVal_reverse, leVal_reverse] at hDv hdv
  simp only [List.length_reverse, padRight_length_le _ _ hla, Nat.add_zero] at hdl hdv
  rw [← scaled_value IA FA m hla, ← scaled_value IB FB m hlb]
  have hpos : (10 : ℚ) ^ m ≠ 0 := by positivity
  have hsum : ((natVal D : ℚ) + (natVal dec : ℚ) / 10 ^ m)
      = ((natVal IA * 10 ^ m + natVal (padRight FA m) : Nat) : ℚ) / 10 ^ m
        + ((natVal IB * 10 ^ m + natVal (padRight FB m) : Nat) : ℚ) / 10 ^ m := by
    have e1 : (natVal dec : ℚ) = (natVal (padRight FA m) : ℚ) + natVal (padRight FB m)
        - k * 10 ^ m := by
      have := congrArg (Nat.cast : Nat → ℚ) hdv
      push_cast at this
      linarith
    have e2 : (natVal D : ℚ) = natVal IA + natVal IB + k := by
      have := congrArg (Nat.cast : Nat → ℚ) hDv
      push_cast at this
      linarith
    rw [e1, e2]
    push_cast
    field_simp
    ring
  by_cases hpos2 : m > 0
  · rw [if_pos hpos2, ← canonicalize, canonicalize_point D dec hDd hdd]
    refine ⟨?_, point_form_unsigned _ _ hDd '-' (by decide) (by decide),
      point_form_unsigned _ _ hDd '+' (by decide) (by decide)⟩
    rw [magnitude_point_form D dec hDd hdd, hdl, hsum]
  · have hm0 : m = 0 := by omega
    have hdec0 : dec = [] := List.length_eq_zero.mp (by rw [hdl, hm0])
    rw [if_neg hpos2, hdec0, List.append_nil, ← canonicalize, canonicalize_digits D hDd,
      removeLeadingZeros_digits D hDd]
    refine ⟨?_, startsWith_natText _ '-' (by decide), startsWith_natText _ '+' (by decide)⟩
    rw [magnitude_digits _ (natText_digits _), natVal_natText, ← hsum, hdec0]
    simp [natVal]

/-- The number `subtractPositive` denotes on two texts with digit runs `IA.FA` and `IB.FB`,
the first denoting at least the number of the second. -/
theorem subtractPositive_value (a b IA FA IB FB : Str)
    (hIA : ∀ c ∈ IA, isDigit c = true) (hFA : ∀ c ∈ FA, isDigit c = true)
    (hIB : ∀ c ∈ IB, isDigit c = true) (hFB : ∀ c ∈ FB, isDigit c = true)
    (a1 : intPart a = IA) (a2 : decPart a = FA) (b1 : intPart b = IB) (b2 : decPart b = FB)
    (hge : natVal IB * 10 ^ (max FA.length FB.length)
        + natVal (padRight FB (max FA.length FB.length))
      ≤ natVal IA * 10 ^ (max FA.length FB.length)
        + natVal (padRight FA (max FA.length FB.length))) :
    magnitude (subtractPositive a b)
        = ((natVal IA : ℚ) + (natVal FA : ℚ) / 10 ^ FA.length)
          - ((natVal IB : ℚ) + (natVal FB : ℚ) / 10 ^ FB.length) ∧
      startsWith (subtractPositive a b) '-' = false ∧
      startsWith (subtractPositive a b) '+' = false := by
  unfold subtractPositive
  rw [a1, a2, b1, b2]
  have hla : FA.length ≤ max FA.length FB.length := le_max_left _ _
  have hlb : FB.length ≤ max FA.length FB.length := le_max_right _ _
  generalize max FA.length FB.length = m at hla hlb hge
  have hia : IA.length ≤ max IA.length IB.length := le_max_left _ _
  have hib : IB.length ≤ max IA.length IB.length := le_max_right _ _
  generalize max IA.length IB.length = n at hia hib
  simp only []
  have hAd : ∀ c ∈ List.replicate (n - IA.length) '0' ++ IA ++ padRight FA m,
      isDigit c = true := by
    intro c hc
    rcases List.mem_append.mp hc with h | h
    · exact digits_zeros_append _ IA hIA c h
    · exact padRight_keeps_digits FA m hFA c h
  have hBd : ∀ c ∈ List.replicate (n - IB.length) '0' ++ IB ++ padRight FB m,
      isDigit c = true := by
    intro c hc
    rcases List.mem_append.mp hc with h | h
    · exact digits_zeros_append _ IB hIB c h
    · exact padRight_keeps_digits FB m hFB c h
  have hAl : (List.replicate (n - IA.length) '0' ++ IA ++ padRight FA m).length = n + m := by
    simp only [List.length_append, List.length_replicate, padRight_length_le _ _ hla]; omega
  have hBl : (List.replicate (n - IB.length) '0' ++ IB ++ padRight FB m).length = n + m := by
    simp only [List.length_append, List.length_replicate, padRight_length_le _ _ hlb]; omega
  have hAv : natVal (List.replicate (n - IA.length) '0' ++ IA ++ padRight FA m)
      = natVal IA * 10 ^ m + natVal (padRight FA m) := by
    rw [natVal_append, natVal_zeros_append, padRight_length_le _ _ hla]
  have hBv : natVal (List.replicate (n - IB.length) '0' ++ IB ++ padRight FB m)
      = natVal IB * 10 ^ m + natVal (padRight FB m) := by
    rw [natVal_append, natVal_zeros_append, padRight_length_le _ _ hlb]
  obtain ⟨D, k, hD, hDl, hDd, hk, hDv⟩ := subLoop_spec
    (List.replicate (n - IA.length) '0' ++ IA ++ padRight FA m).reverse
    (List.replicate (n - IB.length) '0' ++ IB ++ padRight FB m).reverse 0 []
    (by simp only [List.length_reverse, hAl, hBl])
    (fun c hc => hAd c (List.mem_reverse.mp hc)) (fun c hc => hBd c (List.mem_reverse.mp hc))
    (by norm_num)
  rw [show ((0 : Nat) : Int) = 0 from rfl] at hD
  rw [hD, List.append_nil]
  rw [leVal_reverse, leVal_reverse, hAv, hBv] at hDv
  simp only [List.length_reverse, hAl] at hDl hDv
  have hb1 := natVal_lt_pow D hDd
  have hb2 := natVal_lt_pow _ hAd
  rw [hAv, hAl] at hb2
  rw [hDl] at hb1
  have hk0 : k = 0 := by
    rcases Nat.eq_zero_or_pos k with h | h
    · exact h
    · have : k = 1 := by omega
      subst this
      omega
  subst hk0
  have hDval : (natVal D : ℚ) / 10 ^ m
      = ((natVal IA : ℚ) + (natVal FA : ℚ) / 10 ^ FA.length)
        - ((natVal IB : ℚ) + (natVal FB : ℚ) / 10 ^ FB.length) := by
    rw [← scaled_value IA FA m hla, ← scaled_value IB FB m hlb]
    have e : (natVal D : ℚ) = ((natVal IA * 10 ^ m + natVal (padRight FA m) : Nat) : ℚ)
        - ((natVal IB * 10 ^ m + natVal (padRight FB m) : Nat) : ℚ) := by
      have : natVal D + (natVal IB * 10 ^ m + natVal (padRight FB m))
          = natVal IA * 10 ^ m + natVal (padRight FA m) := by omega
      have h2 := congrArg (Nat.cast : Nat → ℚ) this
      push_cast at h2 ⊢
      linarith
    rw [e]
    ring
  by_cases hpos : m > 0
  · rw [if_pos hpos, ← canonicalize]
    have hI : ∀ c ∈ D.take (D.length - m), isDigit c = true :=
      fun c hc => hDd c (List.mem_of_mem_take hc)
    have hF : ∀ c ∈ D.drop (D.length - m), isDigit c = true :=
      fun c hc => hDd c (List.mem_of_mem_drop hc)
    rw [canonicalize_point _ _ hI hF]
    refine ⟨?_, point_form_unsigned _ _ hI '-' (by decide) (by decide),
      point_form_unsigned _ _ hI '+' (by decide) (by decide)⟩
    rw [magnitude_point_form _ _ hI hF, ← hDval]
    have hl : (D.drop (D.length - m)).length = m := by
      simp only [List.length_drop]; omega
    have hv : natVal D = natVal (D.take (D.length - m)) * 10 ^ m
        + natVal (D.drop (D.length - m)) := by
      conv_lhs => rw [← List.take_append_drop (D.length - m) D]
      rw [natVal_append, hl]
    rw [hl, hv]
    have hp : (10 : ℚ) ^ m ≠ 0 := by positivity
    push_cast
    field_simp
  · have hm0 : m = 0 := by omega
    rw [if_neg hpos, ← canonicalize, canonicalize_digits D hDd, removeLeadingZeros_digits D hDd]
    refine ⟨?_, startsWith_natText _ '-' (by decide), startsWith_natText _ '+' (by decide)⟩
    rw [magnitude_digits _ (natText_digits _), natVal_natText, ← hDval, hm0]
    simp

/-- The closing lines of `add`: the sign in front of an unsigned result, and `"0"` for
`"-0"`. -/
theorem signed_result_value (res : Str) (neg : Bool) (h1 : startsWith res '-' = false)
    (h2 : startsWith res '+' = false) :
    decimalValue (if (if neg then '-' :: res else res) == ['-', '0'] then ['0']
        else (if neg then '-' :: res else res))
      = if neg then -magnitude res else magnitude res := by
  obtain ⟨d1, d2⟩ := decimalValue_signed res h1 h2
  cases neg with
  | false =>
    have hne : (res == ['-', '0']) = false := by
      rw [beq_eq_false_iff_ne]
      intro h
      rw [h] at h1
      simp [startsWith] at h1
    simp only [Bool.false_eq_true, if_false, hne, d1]
  | true =>
    simp only [if_true]
    by_cases hz : ('-' :: res == ['-', '0']) = true
    · have hres : res = ['0'] := by simpa using hz
      rw [if_pos hz, hres, magnitude_zero_text]
      simp [decimalValue, startsWith, magnitude_zero_text]
    · rw [if_neg hz, d2]

/-- C26: addition is numerically exact. For all valid decimal texts `a` and `b`, `add(a,b)`
returns a text whose number (an absent integer or fractional digit run reads as zero) is
exactly the sum of the numbers of `a` and `b`. -/
theorem add_exact (a b : Str) (ha : isValidNumber a = true) (hb : isValidNumber b = true) :
    ∃ r, add a b = .ok r ∧ decimalValue r = decimalValue a + decimalValue b := by
  obtain ⟨IA, FA, hIA, hFA, a1, a2, _, _, _⟩ := valid_body a ha
  obtain ⟨IB, FB, hIB, hFB, b1, b2, _, _, _⟩ := valid_body b hb
  have vA : magnitude a = (natVal IA : ℚ) + (natVal FA : ℚ) / 10 ^ FA.length := by
    unfold magnitude; rw [a1, a2]
  have vB : magnitude b = (natVal IB : ℚ) + (natVal FB : ℚ) / 10 ^ FB.length := by
    unfold magnitude; rw [b1, b2]
  obtain ⟨_, sa⟩ := decimalValue_valid a ha
  obtain ⟨_, sb⟩ := decimalValue_valid b hb
  have hcmp := compareAbs_parts (absText a) (absText b) IA FA IB FB hIA hFA hIB hFB
    (by rw [a1, dropSign_digits IA hIA]) a2 (by rw [b1, dropSign_digits IB hIB]) b2
  rw [← natVal_padRight, ← natVal_padRight] at hcmp
  unfold add
  simp only [ha, hb, Bool.not_true, Bool.false_eq_true, if_false]
  refine ⟨_, rfl, ?_⟩
  rw [sa, sb]
  by_cases hs : (startsWith a '-' == startsWith b '-') = true
  · obtain ⟨hm, u1, u2⟩ := addPositive_value (absText a) (absText b) IA FA IB FB hIA hFA hIB hFB
      a1 a2 b1 b2
    have hsb : startsWith b '-' = startsWith a '-' := by
      simpa using (beq_iff_eq.mp hs).symm
    simp only [hs, if_true]
    rw [signed_result_value _ _ u1 u2, hm, ← vA, ← vB, hsb]
    cases startsWith a '-' <;> simp
    ring
  · simp only [hs, Bool.false_eq_true, if_false]
    have hsne : startsWith b '-' = !startsWith a '-' := by
      cases h1 : startsWith a '-' <;> cases h2 : startsWith b '-' <;> simp [h1, h2] at hs ⊢
    by_cases hc : compareAbs (absText a) (absText b) ≥ 0
    · have hge : natVal IB * 10 ^ (max FA.length FB.length)
            + natVal (padRight FB (max FA.length FB.length))
          ≤ natVal IA * 10 ^ (max FA.length FB.length)
            + natVal (padRight FA (max FA.length FB.length)) := by
        rw [hcmp] at hc
        unfold cmp3 at hc
        split_ifs at hc <;> omega
      obtain ⟨hm, u1, u2⟩ := subtractPositive_value (absText a) (absText b) IA FA IB FB
        hIA hFA hIB hFB a1 a2 b1 b2 hge
      simp only [hc, if_true]
      rw [signed_result_value _ _ u1 u2, hm, ← vA, ← vB, hsne]
      cases startsWith a '-' <;> simp <;> ring
    · have hge : natVal IA * 10 ^ (max FB.length FA.length)
            + natVal (padRight FA (max FB.length FA.length))
          ≤ natVal IB * 10 ^ (max FB.length FA.length)
            + natVal (padRight FB (max FB.length FA.length)) := by
        rw [hcmp] at hc
        unfold cmp3 at hc
        rw [max_comm FB.length FA.length]
        split_ifs at hc <;> omega
      obtain ⟨hm, u1, u2⟩ := subtractPositive_value (absText b) (absText a) IB FB IA FA
        hIB hFB hIA hFA b1 b2 a1 a2 hge
      simp only [hc, if_false]
      rw [signed_result_value _ _ u1 u2, hm, ← vA, ← vB, hsne]
      cases startsWith a '-' <;> simp <;> ring

/-- C26, at the texts `0.5` and `-0.5`, whose sum is the empty text. -/
theorem add_exact_witness :
    (isValidNumber "0.5".toList = true ∧ isValidNumber "-0.5".toList = true) ∧
    ∃ r, add "0.5".toList "-0.5".toList = .ok r ∧
      decimalValue r = decimalValue "0.5".toList + decimalValue "-0.5".toList :=
  ⟨by decide, add_exact "0.5".toList "-0.5".toList (by decide) (by decide)⟩

/-! ## Euclidean division of integer texts (C29) -/

/-- The subtraction loop runs as often as the quotient of the two numbers says, and every
call of `subtractPositive` has a first argument at least the divisor. -/
theorem divSubLoopTrace_spec (divisor : Str) (hd : ∀ c ∈ divisor, isDigit c = true)
    (hpos : 0 < natVal divisor) : ∀ (fuel : Nat) (remainder : Str),
    (∀ c ∈ remainder, isDigit c = true) → natVal remainder / natVal divisor < fuel →
    (divSubLoopTrace divisor fuel remainder).length = natVal remainder / natVal divisor ∧
      ∀ x ∈ divSubLoopTrace divisor fuel remainder,
        (∀ c ∈ x, isDigit c = true) ∧ natVal divisor ≤ natVal x := by
  intro fuel
  induction fuel with
  | zero => intro remainder _ h; exact absurd h (Nat.not_lt_zero _)
  | succ fuel ih =>
    intro remainder hr hf
    simp only [divSubLoopTrace, compareAbs_digits remainder divisor hr hd]
    by_cases hlt : natVal remainder < natVal divisor
    · have hc3 : ¬ cmp3 (natVal remainder) (natVal divisor) ≥ 0 := by
        unfold cmp3; rw [if_pos hlt]; omega
      simp [hc3, Nat.div_eq_of_lt hlt]
    · have hc3 : cmp3 (natVal remainder) (natVal divisor) ≥ 0 := by
        unfold cmp3; split_ifs <;> omega
      have hge : natVal divisor ≤ natVal remainder := by omega
      have e : natVal remainder = (natVal remainder - natVal divisor) + natVal divisor := by
        omega
      have hdiv : natVal remainder / natVal divisor
          = (natVal remainder - natVal divisor) / natVal divisor + 1 := by
        conv_lhs => rw [e]
        exact Nat.add_div_right _ hpos
      rw [if_pos hc3, subtractPositive_digits remainder divisor hr hd hge]
      obtain ⟨h1, h2⟩ := ih (natText (natVal remainder - natVal divisor)) (natText_digits _)
        (by rw [natVal_natText]; omega)
      rw [natVal_natText] at h1
      constructor
      · rw [List.length_cons, h1, hdiv]
      · intro x hx
        rcases List.mem_cons.mp hx with h | h
        · rw [h]; exact ⟨hr, hge⟩
        · exact h2 x h

/-- The digit loop of `divideIntegers` on digit strings, with a remainder below a positive
divisor: it appends one quotient digit per dividend digit, and the digits appended and the
final remainder are the quotient and the remainder of the number still to divide. -/
theorem divDigitLoop_spec (divisor : Str) (hd : ∀ c ∈ divisor, isDigit c = true)
    (hpos : 0 < natVal divisor) : ∀ (ds quotient remainder : Str),
    (∀ c ∈ ds, isDigit c = true) → (∀ c ∈ remainder, isDigit c = true) →
    natVal remainder < natVal divisor →
    ∃ Q : Str, (divDigitLoop divisor ds quotient remainder).1 = quotient ++ Q ∧
      Q.length = ds.length ∧ (∀ c ∈ Q, isDigit c = true) ∧
      natVal Q = (natVal remainder * 10 ^ ds.length + natVal ds) / natVal divisor ∧
      natVal (divDigitLoop divisor ds quotient remainder).2
        = (natVal remainder * 10 ^ ds.length + natVal ds) % natVal divisor ∧
      (∀ c ∈ (divDigitLoop divisor ds quotient remainder).2, isDigit c = true) ∧
      (∀ t ∈ divDigitLoopTrace divisor ds remainder, t.length ≤ 9 ∧
        ∀ x ∈ t, (∀ c ∈ x, isDigit c = true) ∧ natVal divisor ≤ natVal x) := by
  intro ds
  induction ds with
  | nil =>
    intro quotient remainder _ hr hlt
    refine ⟨[], by simp [divDigitLoop], rfl, by simp, ?_, ?_, hr, by simp [divDigitLoopTrace]⟩
    · have h0 : natVal ([] : Str) = 0 := rfl
      rw [List.length_nil, pow_zero, Nat.mul_one, h0, Nat.add_zero, Nat.div_eq_of_lt hlt]
    · have h0 : natVal ([] : Str) = 0 := rfl
      have h1 : (divDigitLoop divisor [] quotient remainder).2 = remainder := rfl
      rw [h1, List.length_nil, pow_zero, Nat.mul_one, h0, Nat.add_zero, Nat.mod_eq_of_lt hlt]
  | cons d ds ih =>
    intro quotient remainder hds hr hlt
    have hdd := hds d (List.mem_cons_self _ _)
    have hd9 := digitVal_le d hdd
    have hr1 : ∀ c ∈ remainder ++ [d], isDigit c = true :=
      digits_append_singleton remainder d hr hdd
    have e1 : removeLeadingZeros (remainder ++ [d])
        = natText (natVal remainder * 10 + digitVal d) := by
      rw [removeLeadingZeros_digits _ hr1, natVal_append_singleton]
    have hq9 : (natVal remainder * 10 + digitVal d) / natVal divisor ≤ 9 := by
      have : natVal remainder * 10 + digitVal d < 10 * natVal divisor := by omega
      have h2 : (natVal remainder * 10 + digitVal d) / natVal divisor < 10 :=
        (Nat.div_lt_iff_lt_mul hpos).mpr this
      omega
    have hle := Nat.div_le_self (natVal remainder * 10 + digitVal d) (natVal divisor)
    have hsub := divSubLoop_spec divisor hd hpos (natVal remainder * 10 + digitVal d + 1)
      (natText (natVal remainder * 10 + digitVal d)) 0 (natText_digits _)
      (by rw [natVal_natText]; omega)
    have htr := divSubLoopTrace_spec divisor hd hpos (natVal remainder * 10 + digitVal d + 1)
      (natText (natVal remainder * 10 + digitVal d)) (natText_digits _)
      (by rw [natVal_natText]; omega)
    rw [natVal_natText] at hsub htr
    have hrem : (if natVal remainder * 10 + digitVal d < natVal divisor
          then natText (natVal remainder * 10 + digitVal d)
          else natText ((natVal remainder * 10 + digitVal d) % natVal divisor))
        = natText ((natVal remainder * 10 + digitVal d) % natVal divisor) := by
      split
      · rename_i h; rw [Nat.mod_eq_of_lt h]
      · rfl
    rw [hrem, Nat.zero_add] at hsub
    have hmodlt := Nat.mod_lt (natVal remainder * 10 + digitVal d) hpos
    obtain ⟨Q, hQ, hQl, hQd, hQv, hRv, hRd, hT⟩ := ih
      (quotient ++ [digitChar ((natVal remainder * 10 + digitVal d) / natVal divisor)])
      (natText ((natVal remainder * 10 + digitVal d) % natVal divisor))
      (fun c hc => hds c (List.mem_cons_of_mem _ hc)) (natText_digits _)
      (by rw [natVal_natText]; exact hmodlt)
    rw [natVal_natText] at hQv hRv
    have hstep : divDigitLoop divisor (d :: ds) quotient remainder
        = divDigitLoop divisor ds
            (quotient ++ [digitChar ((natVal remainder * 10 + digitVal d) / natVal divisor)])
            (natText ((natVal remainder * 10 + digitVal d) % natVal divisor)) := by
      simp only [divDigitLoop, e1, natVal_natText, hsub]
    have hV : natVal remainder * 10 ^ (d :: ds).length + natVal (d :: ds)
        = ((natVal remainder * 10 + digitVal d) % natVal divisor * 10 ^ ds.length + natVal ds)
          + natVal divisor
            * ((natVal remainder * 10 + digitVal d) / natVal divisor * 10 ^ ds.length) := by
      rw [natVal_cons, List.length_cons, pow_succ]
      have hdm := Nat.div_add_mod (natVal remainder * 10 + digitVal d) (natVal divisor)
      have : natVal remainder * (10 ^ ds.length * 10) + (digitVal d * 10 ^ ds.length + natVal ds)
          = (natVal remainder * 10 + digitVal d) * 10 ^ ds.length + natVal ds := by ring
      rw [this]
      conv_lhs => rw [← hdm]
      ring
    rw [hstep, hV, Nat.add_mul_div_left _ _ hpos, Nat.add_mul_mod_self_left]
    refine ⟨digitChar ((natVal remainder * 10 + digitVal d) / natVal divisor) :: Q, ?_, ?_, ?_,
      ?_, hRv, hRd, ?_⟩
    · rw [hQ]; simp
    · simp [hQl]
    · intro c hc
      rcases List.mem_cons.mp hc with h | h
      · rw [h]; exact isDigit_digitChar _ hq9
      · exact hQd c h
    · rw [natVal_cons, digitVal_digitChar _ hq9, hQl, hQv]
      ring
    · intro t ht
      simp only [divDigitLoopTrace, e1, natVal_natText, hsub] at ht
      rcases List.mem_cons.mp ht with h | h
      · rw [h]
        exact ⟨by rw [htr.1]; exact hq9, htr.2⟩
      · exact hT t h

/-- On canonical digit texts `divideIntegers` returns the canonical texts of the quotient
and of the remainder. -/
theorem divideIntegers_natText (m n : Nat) (hn : n ≠ 0) :
    divideIntegers (natText m) (natText n) = .ok (natText (m / n), natText (m % n)) := by
  have h0 : natText n ≠ ['0'] := fun h => hn ((natText_eq_zero n).mp h)
  have hpos : 0 < n := Nat.pos_of_ne_zero hn
  unfold divideIntegers
  simp only [beq_iff_eq, h0, if_false, compareAbs_natText, natText_eq_zero]
  by_cases hm : m = 0
  · rw [if_pos hm, hm]; simp [natText]
  · rw [if_neg hm]
    by_cases hlt : m < n
    · have hc : cmp3 m n < 0 := by unfold cmp3; rw [if_pos hlt]; omega
      rw [if_pos hc, Nat.div_eq_of_lt hlt, Nat.mod_eq_of_lt hlt]; simp [natText]
    · have hc : ¬ cmp3 m n < 0 := by unfold cmp3; split_ifs <;> omega
      rw [if_neg hc]
      obtain ⟨Q, hQ, _, hQd, hQv, hRv, hRd, _⟩ := divDigitLoop_spec (natText n) (natText_digits n)
        (by rw [natVal_natText]; exact hpos) (natText m) [] [] (natText_digits m) (by simp)
        (by rw [natVal_natText]; exact hpos)
      have h00 : natVal ([] : Str) = 0 := rfl
      rw [h00, Nat.zero_mul, Nat.zero_add, natVal_natText, natVal_natText] at hQv hRv
      rw [List.nil_append] at hQ
      rcases hloop : divDigitLoop (natText n) (natText m) [] [] with ⟨q, r⟩
      rw [hloop] at hQ hRv hRd
      simp only at hQ hRv hRd ⊢
      rw [hQ, removeLeadingZeros_digits Q hQd, removeLeadingZeros_digits r hRd, hQv, hRv]

/-- C29: for canonical non-negative integer texts `n` and `d` with `d` other than `"0"`,
`divideIntegers n d` returns canonical integer texts `(q, r)` with `n = q * d + r` and
`0 ≤ r < d`; every run of the repeated-subtraction loop makes at most 9 passes, every call
of `subtractPositive` in it has a first argument at least as large as the divisor, and
every character the digit loop appends to the quotient is a digit. -/
theorem divideIntegers_euclidean (n d : Str) (hn : isCanonicalNat n = true)
    (hd : isCanonicalNat d = true) (hd0 : d ≠ ['0']) :
    (∃ q r, divideIntegers n d = .ok (q, r) ∧ isCanonicalNat q = true ∧
      isCanonicalNat r = true ∧ natVal n = natVal q * natVal d + natVal r ∧
      natVal r < natVal d) ∧
    (∀ t ∈ divDigitLoopTrace d n [], t.length ≤ 9 ∧
      ∀ x ∈ t, (∀ c ∈ x, isDigit c = true) ∧ natVal d ≤ natVal x ∧ compareAbs x d ≥ 0) ∧
    (∀ c ∈ (divDigitLoop d n [] []).1, isDigit c = true) := by
  have en := natText_natVal_of_canonical n hn
  have ed := natText_natVal_of_canonical d hd
  have hdd := canonicalNat_digits d hd
  have hnd := canonicalNat_digits n hn
  have hne : natVal d ≠ 0 := by
    intro h
    rw [h] at ed
    exact hd0 ed.symm
  have hpos : 0 < natVal d := Nat.pos_of_ne_zero hne
  obtain ⟨Q, hQ, _, hQd, _, _, _, hT⟩ := divDigitLoop_spec d hdd hpos n [] [] hnd (by simp)
    (by exact hpos)
  refine ⟨⟨natText (natVal n / natVal d), natText (natVal n % natVal d), ?_,
    isCanonicalNat_natText _, isCanonicalNat_natText _, ?_, ?_⟩, ?_, ?_⟩
  · have h := divideIntegers_natText (natVal n) (natVal d) hne
    rw [en, ed] at h
    exact h
  · rw [natVal_natText, natVal_natText, Nat.mul_comm]
    exact (Nat.div_add_mod _ _).symm
  · rw [natVal_natText]; exact Nat.mod_lt _ hpos
  · intro t ht
    refine ⟨(hT t ht).1, ?_⟩
    intro x hx
    obtain ⟨h1, h2⟩ := (hT t ht).2 x hx
    refine ⟨h1, h2, ?_⟩
    rw [compareAbs_digits x d h1 hdd]
    unfold cmp3
    split_ifs <;> omega
  · rw [hQ, List.nil_append]; exact hQd

theorem divideIntegers_euclidean_witness :
    (∃ q r, divideIntegers "1234".toList "7".toList = .ok (q, r) ∧ isCanonicalNat q = true ∧
      isCanonicalNat r = true ∧
      natVal "1234".toList = natVal q * natVal "7".toList + natVal r ∧
      natVal r < natVal "7".toList) ∧
    (∀ t ∈ divDigitLoopTrace "7".toList "1234".toList [], t.length ≤ 9 ∧
      ∀ x ∈ t, (∀ c ∈ x, isDigit c = true) ∧ natVal "7".toList ≤ natVal x ∧
        compareAbs x "7".toList ≥ 0) ∧
    (∀ c ∈ (divDigitLoop "7".toList "1234".toList [] []).1, isDigit c = true) :=
  divideIntegers_euclidean "1234".toList "7".toList (by decide) (by decide) (by decide)

/-! ## Truncated division (C28) -/

/-- The decimal loop of `divide` on a canonical remainder below a positive divisor: it
appends at most as many digits as places are allowed, the digits are the quotient of the
shifted remainder, and the loop stops early only on a zero remainder. -/
theorem divDecLoop_spec (n : Nat) (hn : 0 < n) : ∀ (places : Nat) (quotient : Str) (R : Nat),
    R < n →
    ∃ E : Str, (∀ c ∈ E, isDigit c = true) ∧
      divDecLoop (natText n) places quotient (natText R) = quotient ++ E ∧
      E.length ≤ places ∧
      R * 10 ^ E.length
        = natVal E * n + natVal (divDecRemainder (natText n) places (natText R)) ∧
      natVal (divDecRemainder (natText n) places (natText R)) < n ∧
      (E.length = places ∨ divDecRemainder (natText n) places (natText R) = ['0']) := by
  intro places
  induction places with
  | zero =>
    intro quotient R hR
    refine ⟨[], by simp, by simp [divDecLoop], Nat.le_refl _, ?_, ?_, Or.inl rfl⟩
    · have h0 : natVal ([] : Str) = 0 := rfl
      have h1 : divDecRemainder (natText n) 0 (natText R) = natText R := rfl
      rw [h1, natVal_natText, h0]; simp
    · have h1 : divDecRemainder (natText n) 0 (natText R) = natText R := rfl
      rw [h1, natVal_natText]; exact hR
  | succ places ih =>
    intro quotient R hR
    by_cases hz : R = 0
    · have e0 : natText R = ['0'] := (natText_eq_zero R).mpr hz
      have h1 : divDecRemainder (natText n) (places + 1) (natText R) = ['0'] := by
        rw [e0]; simp [divDecRemainder]
      have h2 : divDecLoop (natText n) (places + 1) quotient (natText R) = quotient := by
        rw [e0]; simp [divDecLoop]
      have h0 : natVal ([] : Str) = 0 := rfl
      refine ⟨[], by simp, by rw [h2]; simp, Nat.zero_le _, ?_, ?_, Or.inr h1⟩
      · have h3 : natVal ['0'] = 0 := by decide
        rw [h1, h3, hz, h0]; simp
      · rw [h1]; exact hn
    · have e0 : natText R ≠ ['0'] := fun h => hz ((natText_eq_zero R).mp h)
      have hpos : 0 < natVal (natText n) := by rw [natVal_natText]; exact hn
      have hr1 : ∀ c ∈ natText R ++ ['0'], isDigit c = true :=
        digits_append_singleton (natText R) '0' (natText_digits R) (by decide)
      have e1 : removeLeadingZeros (natText R ++ ['0']) = natText (R * 10) := by
        rw [removeLeadingZeros_digits _ hr1, natVal_append_singleton, natVal_natText]
        rfl
      have hle := Nat.div_le_self (R * 10) n
      have hsub := divSubLoop_spec (natText n) (natText_digits n) hpos (R * 10 + 1)
        (natText (R * 10)) 0 (natText_digits _) (by rw [natVal_natText, natVal_natText]; omega)
      rw [natVal_natText, natVal_natText] at hsub
      have hrem : (if R * 10 < n then natText (R * 10) else natText (R * 10 % n))
          = natText (R * 10 % n) := by
        split
        · rename_i h; rw [Nat.mod_eq_of_lt h]
        · rfl
      rw [hrem, Nat.zero_add] at hsub
      have hq9 : R * 10 / n ≤ 9 := by
        have h2 : R * 10 / n < 10 := (Nat.div_lt_iff_lt_mul hn).mpr (by omega)
        omega
      have hmodlt := Nat.mod_lt (R * 10) hn
      obtain ⟨E, hEd, hE, hEl, hEv, hRlt, hstop⟩ :=
        ih (quotient ++ [digitChar (R * 10 / n)]) (R * 10 % n) hmodlt
      have hstepR : divDecRemainder (natText n) (places + 1) (natText R)
          = divDecRemainder (natText n) places (natText (R * 10 % n)) := by
        simp only [divDecRemainder, bne_iff_ne, ne_eq, e0, not_false_eq_true, if_true, e1,
          natVal_natText, hsub]
      have hstepQ : divDecLoop (natText n) (places + 1) quotient (natText R)
          = divDecLoop (natText n) places (quotient ++ [digitChar (R * 10 / n)])
              (natText (R * 10 % n)) := by
        simp only [divDecLoop, bne_iff_ne, ne_eq, e0, not_false_eq_true, if_true, e1,
          natVal_natText, hsub]
      rw [hstepR, hstepQ]
      refine ⟨digitChar (R * 10 / n) :: E, ?_, ?_, ?_, ?_, hRlt, ?_⟩
      · intro c hc
        rcases List.mem_cons.mp hc with h | h
        · rw [h]; exact isDigit_digitChar _ hq9
        · exact hEd c h
      · rw [hE]; simp
      · simp only [List.length_cons]; omega
      · have hdm := Nat.div_add_mod (R * 10) n
        have e2 : R * 10 ^ (E.length + 1) = (n * (R * 10 / n) + R * 10 % n) * 10 ^ E.length := by
          rw [hdm, pow_succ]; ring
        rw [natVal_cons, digitVal_digitChar _ hq9, List.length_cons, e2, add_mul, hEv]
        ring
      · rcases hstop with h | h
        · left; simp only [List.length_cons]; omega
        · right; exact h

/-- The point placement of `divide` for a shift of `s > 0` places to the left: an integer
run, the point, and a fractional run of `s` digits that together read the digit string. -/
theorem placeShift_form (T : Str) (hT : ∀ c ∈ T, isDigit c = true) (s : Nat) (hs : 0 < s) :
    ∃ I F : Str, (∀ c ∈ I, isDigit c = true) ∧ (∀ c ∈ F, isDigit c = true) ∧
      placeShift T (-(s : Int)) = I ++ '.' :: F ∧ F.length = s ∧
      natVal I * 10 ^ s + natVal F = natVal T := by
  have hneg : (-(s : Int)) < 0 := by omega
  unfold placeShift
  rw [if_pos hneg]
  by_cases hle : (T.length : Int) + -(s : Int) ≤ 0
  · simp only [hle, if_true]
    have e : (-((T.length : Int) + -(s : Int))).toNat = s - T.length := by omega
    rw [e]
    refine ⟨['0'], List.replicate (s - T.length) '0' ++ T, by simp [isDigit],
      digits_zeros_append _ T hT, rfl, ?_, ?_⟩
    · simp only [List.length_append, List.length_replicate]; omega
    · rw [natVal_zeros_append]
      simp [natVal, digitVal]
  · have hlt : (T.length : Int) + -(s : Int) < (T.length : Int) := by omega
    simp only [hle, if_false, hlt, if_true]
    have e : ((T.length : Int) + -(s : Int)).toNat = T.length - s := by omega
    rw [e]
    have hl : (T.drop (T.length - s)).length = s := by
      simp only [List.length_drop]; omega
    refine ⟨T.take (T.length - s), T.drop (T.length - s),
      fun c hc => hT c (List.mem_of_mem_take hc), fun c hc => hT c (List.mem_of_mem_drop hc),
      rfl, hl, ?_⟩
    conv_rhs => rw [← List.take_append_drop (T.length - s) T]
    rw [natVal_append, hl]

theorem finishDivide_eq (divisor quotient remainder : Str) (decimalShift : Int) (neg : Bool) :
    finishDivide divisor quotient remainder decimalShift neg
      = if neg && divideMagnitudeText divisor quotient remainder decimalShift != ['0']
        then '-' :: divideMagnitudeText divisor quotient remainder decimalShift
        else divideMagnitudeText divisor quotient remainder decimalShift := rfl

/-- The decimal loop started on a quotient text with a point: the normal form of the result
reads the integer run plus the fractional run with the new digits behind it. -/
theorem divDecLoop_point_value (n R : Nat) (hn : 0 < n) (hR : R < n) (I F : Str)
    (hI : ∀ c ∈ I, isDigit c = true) (hF : ∀ c ∈ F, isDigit c = true) :
    ∃ E : Str, (∀ c ∈ E, isDigit c = true) ∧ E.length ≤ MAX_DECIMAL_PLACES ∧
      startsWith (canonicalize (divDecLoop (natText n) MAX_DECIMAL_PLACES (I ++ '.' :: F)
        (natText R))) '-' = false ∧
      startsWith (canonicalize (divDecLoop (natText n) MAX_DECIMAL_PLACES (I ++ '.' :: F)
        (natText R))) '+' = false ∧
      magnitude (canonicalize (divDecLoop (natText n) MAX_DECIMAL_PLACES (I ++ '.' :: F)
        (natText R)))
        = (((natVal I * 10 ^ F.length + natVal F) * 10 ^ E.length + natVal E : Nat) : ℚ)
            / 10 ^ (F.length + E.length) ∧
      R * 10 ^ E.length = natVal E * n
        + natVal (divDecRemainder (natText n) MAX_DECIMAL_PLACES (natText R)) ∧
      natVal (divDecRemainder (natText n) MAX_DECIMAL_PLACES (natText R)) < n ∧
      (E.length = MAX_DECIMAL_PLACES ∨
        divDecRemainder (natText n) MAX_DECIMAL_PLACES (natText R) = ['0']) := by
  obtain ⟨E, hEd, hE, hEl, hEv, hRlt, hstop⟩ :=
    divDecLoop_spec n hn MAX_DECIMAL_PLACES (I ++ '.' :: F) R hR
  have hFE : ∀ c ∈ F ++ E, isDigit c = true := by
    intro c hc
    rcases List.mem_append.mp hc with h | h
    · exact hF c h
    · exact hEd c h
  have e : I ++ '.' :: F ++ E = I ++ '.' :: (F ++ E) := by simp
  rw [hE, e, canonicalize_point I (F ++ E) hI hFE]
  refine ⟨E, hEd, hEl, point_form_unsigned I (F ++ E) hI '-' (by decide) (by decide),
    point_form_unsigned I (F ++ E) hI '+' (by decide) (by decide), ?_, hEv, hRlt, hstop⟩
  rw [magnitude_point_form I (F ++ E) hI hFE, natVal_append, List.length_append]
  have h1 : (10 : ℚ) ^ (F.length + E.length) ≠ 0 := by positivity
  push_cast
  field_simp
  ring

/-- The unsigned result of `divide` from the integer quotient `Q` and remainder `R < n`
with the point `s` places from the right: with `E` the digits the decimal loop appends,
it reads `(Q * 10^|E| + E) / 10^(s + |E|)`. -/
theorem divideMagnitudeText_value (n Q R s : Nat) (hn : 0 < n) (hR : R < n) :
    ∃ E : Str, (∀ c ∈ E, isDigit c = true) ∧ E.length ≤ MAX_DECIMAL_PLACES ∧
      startsWith (divideMagnitudeText (natText n) (natText Q) (natText R) (-(s : Int))) '-'
        = false ∧
      startsWith (divideMagnitudeText (natText n) (natText Q) (natText R) (-(s : Int))) '+'
        = false ∧
      magnitude (divideMagnitudeText (natText n) (natText Q) (natText R) (-(s : Int)))
        = ((Q * 10 ^ E.length + natVal E : Nat) : ℚ) / 10 ^ (s + E.length) ∧
      R * 10 ^ E.length = natVal E * n
        + natVal (divDecRemainder (natText n) MAX_DECIMAL_PLACES (natText R)) ∧
      natVal (divDecRemainder (natText n) MAX_DECIMAL_PLACES (natText R)) < n ∧
      (E.length = MAX_DECIMAL_PLACES ∨
        divDecRemainder (natText n) MAX_DECIMAL_PLACES (natText R) = ['0']) := by
  unfold divideMagnitudeText
  by_cases hs : 0 < s
  · obtain ⟨I, F, hI, hF, hform, hFl, hval⟩ := placeShift_form (natText Q) (natText_digits Q) s hs
    have hdot : hasDot (I ++ '.' :: F) = true := by simp [hasDot]
    rw [hform, hdot]
    simp only [Bool.not_true, Bool.and_false, Bool.false_eq_true, if_false]
    obtain ⟨E, hEd, hEl, h1, h2, h3, h4, h5, h6⟩ := divDecLoop_point_value n R hn hR I F hI hF
    refine ⟨E, hEd, hEl, h1, h2, ?_, h4, h5, h6⟩
    rw [h3, hFl, hval, natVal_natText]
  · have hs0 : s = 0 := by omega
    subst hs0
    have hps : placeShift (natText Q) (-((0 : Nat) : Int)) = natText Q := by
      simp [placeShift]
    rw [hps, hasDot_natText]
    by_cases hz : R = 0
    · have e0 : natText R = ['0'] := (natText_eq_zero R).mpr hz
      have hloop : ∀ q : Str, divDecLoop (natText n) MAX_DECIMAL_PLACES q ['0'] = q := by
        intro q; simp [divDecLoop, MAX_DECIMAL_PLACES]
      have hrem : divDecRemainder (natText n) MAX_DECIMAL_PLACES ['0'] = ['0'] := by
        simp [divDecRemainder, MAX_DECIMAL_PLACES]
      have h3 : natVal ['0'] = 0 := by decide
      have h0 : natVal ([] : Str) = 0 := rfl
      rw [e0, hloop, hrem]
      simp only [bne_self_eq_false, Bool.false_and, Bool.false_eq_true, if_false]
      rw [canonicalize_digits _ (natText_digits Q), removeLeadingZeros_natText]
      refine ⟨[], by simp, Nat.zero_le _, startsWith_natText Q '-' (by decide),
        startsWith_natText Q '+' (by decide), ?_, ?_, ?_, Or.inr trivial⟩
      · rw [magnitude_digits _ (natText_digits Q), natVal_natText, h0]
        simp
      · rw [h3, h0, hz]; simp
      · rw [h3]; exact hn
    · have e0 : natText R ≠ ['0'] := fun h => hz ((natText_eq_zero R).mp h)
      have hb : (natText R != ['0'] && !false) = true := by simp [e0]
      rw [hb, if_pos rfl]
      obtain ⟨E, hEd, hEl, h1, h2, h3, h4, h5, h6⟩ :=
        divDecLoop_point_value n R hn hR (natText Q) [] (natText_digits Q) (by simp)
      have h0 : natVal ([] : Str) = 0 := rfl
      refine ⟨E, hEd, hEl, h1, h2, ?_, h4, h5, h6⟩
      rw [h3, natVal_natText, h0]
      simp

/-- The integer operands `divide` derives from valid texts: the digits of the dividend
padded by the surplus of decimal places of the divisor, the digits of the divisor, and the
surplus of decimal places of the dividend as a shift to the left. -/
theorem divisionOperands_value (a b : Str) (ha : isValidNumber a = true)
    (hb : isValidNumber b = true) :
    ∃ A n fa fb : Nat, magnitude a * 10 ^ fa = (A : ℚ) ∧ magnitude b * 10 ^ fb = (n : ℚ) ∧
      divisionOperands a b
        = (natText (A * 10 ^ (fb - fa)), natText n, -((fa - fb : Nat) : Int)) := by
  obtain ⟨IA, FA, hIA, hFA, _, _, a1, a2⟩ := valid_parts a ha
  obtain ⟨IB, FB, hIB, hFB, _, _, b1, b2⟩ := valid_parts b hb
  have hA : ∀ c ∈ IA ++ FA, isDigit c = true := by
    intro c hc
    rcases List.mem_append.mp hc with h | h
    · exact hIA c h
    · exact hFA c h
  have hB : ∀ c ∈ IB ++ FB, isDigit c = true := by
    intro c hc
    rcases List.mem_append.mp hc with h | h
    · exact hIB c h
    · exact hFB c h
  refine ⟨natVal (IA ++ FA), natVal (IB ++ FB), FA.length, FB.length,
    magnitude_parts a IA FA a1 a2, magnitude_parts b IB FB b1 b2, ?_⟩
  simp only [divisionOperands, a1, a2, b1, b2]
  by_cases hpos : (FB.length : Int) - (FA.length : Int) > 0
  · simp only [hpos, if_true]
    have hAz : ∀ c ∈ IA ++ FA ++ List.replicate ((FB.length : Int) - (FA.length : Int)).toNat '0',
        isDigit c = true := by
      intro c hc
      rcases List.mem_append.mp hc with h | h
      · exact hA c h
      · rw [(List.mem_replicate.mp h).2]; decide
    have e1 : ((FB.length : Int) - (FA.length : Int)).toNat = FB.length - FA.length := by omega
    have e2 : FA.length - FB.length = 0 := by omega
    rw [removeLeadingZeros_digits _ hAz, removeLeadingZeros_digits _ hB, natVal_append_zeros,
      e1, e2]
    rfl
  · simp only [hpos, if_false]
    have e1 : FB.length - FA.length = 0 := by omega
    have e2 : (FB.length : Int) - (FA.length : Int) = -((FA.length - FB.length : Nat) : Int) := by
      omega
    rw [removeLeadingZeros_digits _ hA, removeLeadingZeros_digits _ hB, e1, e2]
    simp

/-- The arithmetic of truncated long division: with `m = Q * n + R` the scaled dividend
and `E` the `p` digits of `R * 10^p` over `n` up to a remainder `Rf < n`, the number
`(Q * 10^p + E) / 10^(s + p)` is below the true quotient by `Rf / (n * 10^(s + p))`. -/
theorem truncation_bound (M N U : ℚ) (A n m Q R Ev Rf fa fb e s p : Nat) (hn : 0 < n)
    (hA : M * 10 ^ fa = (A : ℚ)) (hN : N * 10 ^ fb = (n : ℚ)) (hm : m = A * 10 ^ e)
    (hfs : fb + s = fa + e) (hQR : m = Q * n + R) (hE : R * 10 ^ p = Ev * n + Rf)
    (hU : U = ((Q * 10 ^ p + Ev : Nat) : ℚ) / 10 ^ (s + p)) (hRf : Rf < n)
    (hp : p = 15 ∨ Rf = 0) :
    0 ≤ U ∧ U ≤ M / N ∧ M / N - U < 1 / 10 ^ 15 ∧ (Rf = 0 → U = M / N) := by
  have hnq : (0 : ℚ) < (n : ℚ) := by exact_mod_cast hn
  have h10 : ∀ k : Nat, (0 : ℚ) < 10 ^ k := fun k => by positivity
  have hNpos : 0 < N := by
    have : 0 < N * 10 ^ fb := by rw [hN]; exact hnq
    exact (mul_pos_iff_of_pos_right (h10 fb)).mp this
  have hmq : (m : ℚ) = (A : ℚ) * 10 ^ e := by exact_mod_cast hm
  have hQRq : (m : ℚ) = (Q : ℚ) * n + R := by exact_mod_cast hQR
  have hEq : (R : ℚ) * 10 ^ p = (Ev : ℚ) * n + Rf := by exact_mod_cast hE
  have hpow : (10 : ℚ) ^ fb * 10 ^ s = 10 ^ fa * 10 ^ e := by
    rw [← pow_add, ← pow_add, hfs]
  have hMN : M / N = (m : ℚ) / (n * 10 ^ s) := by
    rw [div_eq_div_iff hNpos.ne' (mul_pos hnq (h10 s)).ne', hmq, ← hA, ← hN]
    linear_combination (M * N) * hpow
  have hRf2 : (Rf : ℚ) = (R : ℚ) * 10 ^ p - (Ev : ℚ) * n := by linarith
  have hdiff : M / N - U = (Rf : ℚ) / (n * 10 ^ (s + p)) := by
    have hne3 := (h10 s).ne'
    have hne4 := (h10 p).ne'
    have hne6 := hnq.ne'
    rw [hMN, hU, hQRq, hRf2, pow_add]
    push_cast
    field_simp
    ring
  have hRfq : (0 : ℚ) ≤ (Rf : ℚ) := by positivity
  have hden : (0 : ℚ) < (n : ℚ) * 10 ^ (s + p) := mul_pos hnq (h10 _)
  have hU0 : 0 ≤ U := by rw [hU]; positivity
  refine ⟨hU0, ?_, ?_, ?_⟩
  · have : 0 ≤ M / N - U := by rw [hdiff]; positivity
    linarith
  · rw [hdiff]
    rcases hp with h15 | h0
    · rw [div_lt_div_iff₀ hden (h10 15), one_mul, h15, pow_add]
      have hlt : (Rf : ℚ) < n := by exact_mod_cast hRf
      have h1 : (1 : ℚ) ≤ 10 ^ s := one_le_pow₀ (by norm_num)
      have h2 : (Rf : ℚ) * 10 ^ 15 < (n : ℚ) * 10 ^ 15 :=
        mul_lt_mul_of_pos_right hlt (h10 15)
      have h3 : (n : ℚ) * 10 ^ 15 ≤ (n : ℚ) * (10 ^ s * 10 ^ 15) := by
        have : (n : ℚ) * 10 ^ 15 * 1 ≤ (n : ℚ) * 10 ^ 15 * 10 ^ s :=
          mul_le_mul_of_nonneg_left h1 (by positivity)
        linarith
      linarith
    · rw [h0]; simp
  · intro h0
    rw [h0] at hdiff
    simp only [Nat.cast_zero, zero_div] at hdiff
    linarith

theorem magnitude_of_zero_literal (a : Str) (h : isZeroLiteral a = true) :
    decimalValue a = 0 ∧ magnitude a = 0 := by
  simp only [isZeroLiteral, Bool.or_eq_true, beq_iff_eq] at h
  rcases h with (h | h) | h <;> subst h <;>
    simp [decimalValue, magnitude, absText, startsWith, intPart, decPart, natVal, digitVal]

/-- The closing line of `divide`: the sign in front of an unsigned result other than
`"0"`. -/
theorem divide_sign_value (u : Str) (neg : Bool) (h1 : startsWith u '-' = false)
    (h2 : startsWith u '+' = false) :
    decimalValue (if neg && u != ['0'] then '-' :: u else u)
      = if neg then -magnitude u else magnitude u := by
  obtain ⟨d1, d2⟩ := decimalValue_signed u h1 h2
  cases neg with
  | false => simp only [Bool.false_and, Bool.false_eq_true, if_false, d1]
  | true =>
    by_cases hz : u = ['0']
    · subst hz
      simp [decimalValue, startsWith, magnitude_zero_text]
    · have hb : (true && u != ['0']) = true := by simp [hz]
      rw [hb, if_pos rfl, if_pos rfl, d2]

/-- C28: division truncates toward zero with an error below `10^-15`. For all valid
decimal texts `a` and `b` with `b` denoting a nonzero value, `divide(a,b)` returns a text
whose number `q` satisfies `|q| ≤ |a/b|` and `|a/b| - |q| < 10^-15`, has the sign of `a/b`
or is zero, and equals `a/b` when the dividend is a zero literal or the remainder of the
long division is `"0"` when the decimal loop of at most 15 passes ends. -/
theorem divide_truncates (a b : Str) (ha : isValidNumber a = true)
    (hb : isValidNumber b = true) (hnz : decimalValue b ≠ 0) :
    ∃ q, divide a b = .ok q ∧
      |decimalValue q| ≤ |decimalValue a / decimalValue b| ∧
      |decimalValue a / decimalValue b| - |decimalValue q| < 1 / 10 ^ 15 ∧
      0 ≤ decimalValue q * (decimalValue a / decimalValue b) ∧
      ((isZeroLiteral a = true ∨
        ∃ Q R, divideIntegers (divisionOperands a b).1 (divisionOperands a b).2.1 = .ok (Q, R) ∧
          divDecRemainder (divisionOperands a b).2.1 MAX_DECIMAL_PLACES R = ['0']) →
        decimalValue q = decimalValue a / decimalValue b) := by
  have hbz : isZeroLiteral b = false := by
    by_contra h
    exact hnz (magnitude_of_zero_literal b (by simpa using h)).1
  have hva := (decimalValue_valid a ha).2
  have hvb := (decimalValue_valid b hb).2
  have hMb : magnitude b ≠ 0 := by
    intro h
    rw [hvb, h] at hnz
    simp at hnz
  rw [divide_eq]
  simp only [ha, hb, hbz, Bool.not_true, Bool.false_eq_true, if_false]
  by_cases haz : isZeroLiteral a = true
  · rw [if_pos haz]
    have h0 := (magnitude_of_zero_literal a haz).1
    have hq : decimalValue ['0'] = 0 := by
      simp [decimalValue, startsWith, magnitude_zero_text]
    refine ⟨['0'], rfl, ?_, ?_, ?_, ?_⟩
    · rw [hq, h0]; simp
    · rw [hq, h0]; simp
    · rw [hq]; simp
    · intro _; rw [hq, h0]; simp
  · rw [if_neg haz]
    obtain ⟨A, n, fa, fb, hA, hN, hops⟩ := divisionOperands_value a b ha hb
    have hn0 : n ≠ 0 := by
      intro h0
      rw [h0] at hN
      have hpos : (10 : ℚ) ^ fb ≠ 0 := by positivity
      simp only [Nat.cast_zero, mul_eq_zero] at hN
      rcases hN with h | h
      · exact hMb h
      · exact hpos h
    have hn : 0 < n := Nat.pos_of_ne_zero hn0
    have hR : A * 10 ^ (fb - fa) % n < n := Nat.mod_lt _ hn
    rw [hops]
    simp only [divideIntegers_natText (A * 10 ^ (fb - fa)) n hn0, finishDivide_eq]
    obtain ⟨E, _, _, h1, h2, hU, hE, hRf, hstop⟩ :=
      divideMagnitudeText_value n (A * 10 ^ (fb - fa) / n) (A * 10 ^ (fb - fa) % n) (fa - fb) hn hR
    have hQR : A * 10 ^ (fb - fa)
        = A * 10 ^ (fb - fa) / n * n + A * 10 ^ (fb - fa) % n := by
      exact (Nat.div_add_mod' _ _).symm
    have hstop2 : E.length = 15 ∨
        natVal (divDecRemainder (natText n) MAX_DECIMAL_PLACES
          (natText (A * 10 ^ (fb - fa) % n))) = 0 := by
      rcases hstop with h | h
      · exact Or.inl h
      · right; rw [h]; decide
    obtain ⟨b0, b1, b2, b3⟩ := truncation_bound (magnitude a) (magnitude b) _ A n _ _ _ _ _
      fa fb (fb - fa) (fa - fb) E.length hn hA hN rfl (by omega) hQR hE hU hRf hstop2
    have hX : 0 ≤ magnitude a / magnitude b := le_trans b0 b1
    refine ⟨_, rfl, ?_⟩
    rw [divide_sign_value _ _ h1 h2, hva, hvb]
    have hexact : (isZeroLiteral a = true ∨
        ∃ Q R, (Except.ok (natText (A * 10 ^ (fb - fa) / n), natText (A * 10 ^ (fb - fa) % n))
            : Except Exn (Str × Str)) = .ok (Q, R) ∧
          divDecRemainder (natText n) MAX_DECIMAL_PLACES R = ['0']) →
        natVal (divDecRemainder (natText n) MAX_DECIMAL_PLACES
          (natText (A * 10 ^ (fb - fa) % n))) = 0 := by
      intro h
      rcases h with h | ⟨Q, R, hQ, hz⟩
      · exact absurd h haz
      · simp only [Except.ok.injEq, Prod.mk.injEq] at hQ
        rw [hQ.2, hz]; decide
    generalize magnitude (divideMagnitudeText (natText n) (natText (A * 10 ^ (fb - fa) / n))
      (natText (A * 10 ^ (fb - fa) % n)) (-((fa - fb : Nat) : Int))) = U at b0 b1 b2 b3 ⊢
    have hdiv : ∀ x y : ℚ, x * magnitude a / (y * magnitude b)
        = x / y * (magnitude a / magnitude b) := by
      intro x y; rw [mul_div_mul_comm]
    rw [hdiv]
    generalize magnitude a / magnitude b = X at b1 b2 b3 hX ⊢
    have hex := fun h => b3 (hexact h)
    clear b3 hexact
    cases startsWith a '-' <;> cases startsWith b '-'
    · simp only [bne_self_eq_false, Bool.false_eq_true, if_false, div_one, one_mul,
        abs_of_nonneg b0, abs_of_nonneg hX]
      exact ⟨b1, b2, mul_nonneg b0 hX, hex⟩
    · have e1 : (false != true) = true := rfl
      have e2 : (1 : ℚ) / -1 * X = -X := by ring
      simp only [e1, if_true, Bool.false_eq_true, if_false, e2, abs_neg, abs_of_nonneg b0,
        abs_of_nonneg hX, neg_mul_neg]
      exact ⟨b1, b2, mul_nonneg b0 hX, fun h => by rw [hex h]⟩
    · have e1 : (true != false) = true := rfl
      have e2 : (-1 : ℚ) / 1 * X = -X := by ring
      simp only [e1, if_true, Bool.false_eq_true, if_false, e2, abs_neg, abs_of_nonneg b0,
        abs_of_nonneg hX, neg_mul_neg]
      exact ⟨b1, b2, mul_nonneg b0 hX, fun h => by rw [hex h]⟩
    · have e2 : (-1 : ℚ) / -1 * X = X := by ring
      simp only [bne_self_eq_false, Bool.false_eq_true, if_false, if_true, e2,
        abs_of_nonneg b0, abs_of_nonneg hX]
      exact ⟨b1, b2, mul_nonneg b0 hX, hex⟩

theorem divide_truncates_witness :
    ∃ q, divide "-1".toList "0.3".toList = .ok q ∧
      |decimalValue q| ≤ |decimalValue "-1".toList / decimalValue "0.3".toList| ∧
      |decimalValue "-1".toList / decimalValue "0.3".toList| - |decimalValue q| < 1 / 10 ^ 15 ∧
      0 ≤ decimalValue q * (decimalValue "-1".toList / decimalValue "0.3".toList) ∧
      ((isZeroLiteral "-1".toList = true ∨
        ∃ Q R, divideIntegers (divisionOperands "-1".toList "0.3".toList).1
            (divisionOperands "-1".toList "0.3".toList).2.1 = .ok (Q, R) ∧
          divDecRemainder (divisionOperands "-1".toList "0.3".toList).2.1
            MAX_DECIMAL_PLACES R = ['0']) →
        decimalValue q = decimalValue "-1".toList / decimalValue "0.3".toList) :=
  divide_truncates "-1".toList "0.3".toList (by decide) (by decide)
    (by
      have h1 : startsWith "0.3".toList '-' = false := by decide
      have h2 : natVal (intPart (absText "0.3".toList)) = 0 := by decide
      have h3 : natVal (decPart (absText "0.3".toList)) = 3 := by decide
      have h4 : (decPart (absText "0.3".toList)).length = 1 := by decide
      unfold decimalValue magnitude
      rw [h1, h2, h3, h4]
      norm_num)

/-! ## The modulo operator and the exponent sign (C36, C33) -/

theorem tokenizeLoop_percent (fuel : Nat) (prev : Option Char) (rest : Str) :
    tokenizeLoop (fuel + 1) prev ('%' :: rest) =
      operatorToken ['%'] 2 false :: tokenizeLoop fuel (some '%') rest := by
  simp [tokenizeLoop, isSpace, isDigit, isAlpha, operatorMap, operatorToken]

theorem tokenize_modulo (a b : Str) (ha : isUnsignedLiteral a = true)
    (hb : isUnsignedLiteral b = true) :
    tokenize (a ++ '%' :: b) = [numberToken a, operatorToken ['%'] 2 false, numberToken b] := by
  have la := literal_length_pos a ha
  have lb := literal_length_pos b hb
  obtain ⟨n, hn⟩ : ∃ n, (a ++ '%' :: b).length = n + 3 :=
    ⟨a.length + b.length - 2, by simp; omega⟩
  unfold tokenize
  rw [hn]
  obtain ⟨l1, h1⟩ := tokenizeLoop_number a ha (n + 2) none ('%' :: b) (by simp; decide)
  obtain ⟨l2, h2⟩ := tokenizeLoop_number b hb n (some '%') [] (by simp)
  rw [List.append_nil] at h2
  rw [h1, tokenizeLoop_percent, h2, tokenizeLoop_nil]

theorem shuntingYard_binary (a b : Str) (token : Token) (ht : token.type = .OPERATOR) :
    shuntingYard [numberToken a, token, numberToken b]
      = [numberToken a, numberToken b, token] := by
  simp [shuntingYard, shuntingStep, popOperators, numberToken, ht]

theorem evalLoop_modulo (token : Token) (rest : List Token) (y x : ComplexNumber)
    (below : List ComplexNumber) (ht : token.type = .OPERATOR) (hv : token.value = ['%']) :
    evalLoop (token :: rest) (y :: x :: below)
      = .error ⟨.invalidArgument, "Unknown operator: %".toList⟩ := by
  simp only [evalLoop, ht, hv]
  rfl

/-- C36: the modulo operator is accepted by the parser but never evaluated. For unsigned
decimal literals `a` and `b`, `tokenize` on `a%b` gives the `Number` token of `a`, an
`Operator` token `%` of precedence 2 and the `Number` token of `b`; whenever the
evaluation loop reaches an `Operator` token `%` with at least two values on the stack,
`evaluatePostfixExpression` throws `invalid_argument` with the text "Unknown operator: %";
so `parseExpression` on `a%b` returns "Error: Unknown operator: %", as on `"5%3"`. -/
theorem modulo_never_evaluated (a b : Str) (ha : isUnsignedLiteral a = true)
    (hb : isUnsignedLiteral b = true) :
    tokenize (a ++ '%' :: b) = [numberToken a, operatorToken ['%'] 2 false, numberToken b] ∧
      (∀ (pre rest : List Token) (token : Token) (evalStack : List ComplexNumber),
        evalLoop pre [] = .ok evalStack → token.type = .OPERATOR → token.value = ['%'] →
        2 ≤ evalStack.length →
        evaluatePostfixExpression (pre ++ token :: rest) =
          .error ⟨.invalidArgument, "Unknown operator: %".toList⟩) ∧
      parseExpression (a ++ '%' :: b) = "Error: Unknown operator: %".toList ∧
      parseExpression "5%3".toList = "Error: Unknown operator: %".toList := by
  refine ⟨tokenize_modulo a b ha hb, ?_, ?_, by decide⟩
  · intro pre rest token evalStack hpre ht hv hs
    unfold evaluatePostfixExpression
    rw [evalLoop_append, hpre]
    cases evalStack with
    | nil => simp at hs
    | cons y below =>
      cases below with
      | nil => simp at hs
      | cons x below => simp only [evalLoop_modulo token rest y x below ht hv]
  · unfold parseExpression evaluatePostfixExpression
    rw [tokenize_modulo a b ha hb, shuntingYard_binary a b _ rfl]
    have h1 : evalLoop [numberToken a, numberToken b, operatorToken ['%'] 2 false] []
        = .error ⟨.invalidArgument, "Unknown operator: %".toList⟩ := by
      have := evalLoop_modulo (operatorToken ['%'] 2 false) [] (ComplexNumber.ofReal b)
        (ComplexNumber.ofReal a) [] rfl rfl
      simpa [evalLoop, numberToken] using this
    rw [h1]
    rfl

theorem modulo_never_evaluated_witness :
    tokenize ("12.5".toList ++ '%' :: "4".toList)
        = [numberToken "12.5".toList, operatorToken ['%'] 2 false, numberToken "4".toList] ∧
      (∀ (pre rest : List Token) (token : Token) (evalStack : List ComplexNumber),
        evalLoop pre [] = .ok evalStack → token.type = .OPERATOR → token.value = ['%'] →
        2 ≤ evalStack.length →
        evaluatePostfixExpression (pre ++ token :: rest) =
          .error ⟨.invalidArgument, "Unknown operator: %".toList⟩) ∧
      parseExpression ("12.5".toList ++ '%' :: "4".toList)
        = "Error: Unknown operator: %".toList ∧
      parseExpression "5%3".toList = "Error: Unknown operator: %".toList :=
  modulo_never_evaluated "12.5".toList "4".toList (by decide) (by decide)

/-- C33: a `'+'` behind the exponent marker is not taken into the number. On `"1e+5"` and
`"1E+5"` the tokenizer gives three tokens, the `Number` token `1e`, the `Operator` token
`+` and the `Number` token `5`, while `"1e-5"` is one `Number` token. -/
theorem exponent_plus_not_absorbed :
    tokenize "1e+5".toList
        = [numberToken "1e".toList, operatorToken ['+'] 1 false, numberToken "5".toList] ∧
      tokenize "1E+5".toList
        = [numberToken "1E".toList, operatorToken ['+'] 1 false, numberToken "5".toList] ∧
      tokenize "1e-5".toList = [numberToken "1e-5".toList] := by
  decide

/-! ## The text behind the tokens (C34) -/

theorem digit_kept (c : Char) (h : isDigit c = true) :
    (!isSpace c && isTokenChar c) = true := by
  have h2 := h
  unfold isDigit at h2
  simp only [Bool.and_eq_true, decide_eq_true_eq] at h2
  have hs : isSpace c = false := by
    unfold isSpace
    simp only [Bool.or_eq_false_iff, beq_eq_false_iff_ne, ne_eq, Bool.and_eq_false_iff,
      decide_eq_false_iff_not]
    omega
  simp [hs, isTokenChar, h]

theorem alpha_kept (c : Char) (h : isAlpha c = true) :
    (!isSpace c && isTokenChar c) = true := by
  have h2 := h
  unfold isAlpha at h2
  simp only [Bool.and_eq_true, Bool.or_eq_true, decide_eq_true_eq] at h2
  have hs : isSpace c = false := by
    unfold isSpace
    simp only [Bool.or_eq_false_iff, beq_eq_false_iff_ne, ne_eq, Bool.and_eq_false_iff,
      decide_eq_false_iff_not]
    omega
  simp [hs, isTokenChar, h]

theorem numberChar_kept (prev : Option Char) (c : Char) (h : isNumberChar prev c = true) :
    (!isSpace c && isTokenChar c) = true := by
  unfold isNumberChar at h
  simp only [Bool.or_eq_true, Bool.and_eq_true, beq_iff_eq] at h
  rcases h with (((h | h) | h) | h) | h
  · exact digit_kept c h
  · subst h; decide
  · subst h; decide
  · subst h; decide
  · rw [h.1]; decide

theorem alphaNum_kept (c : Char) (h : isAlphaNum c = true) :
    (!isSpace c && isTokenChar c) = true := by
  unfold isAlphaNum at h
  rcases Bool.or_eq_true _ _ |>.mp h with h | h
  · exact alpha_kept c h
  · exact digit_kept c h

/-- The number loop splits the text in the run it takes and the text it leaves, and takes
only characters of the alphabet. -/
theorem scanNumber_split : ∀ (s : Str) (prev : Option Char),
    (scanNumber prev s).1 ++ (scanNumber prev s).2.1 = s ∧
      ∀ c ∈ (scanNumber prev s).1, (!isSpace c && isTokenChar c) = true := by
  intro s
  induction s with
  | nil => intro prev; simp [scanNumber]
  | cons c cs ih =>
    intro prev
    have h := ih (some c)
    rcases hsc : scanNumber (some c) cs with ⟨cur, rest, last⟩
    rw [hsc] at h
    by_cases hn : isNumberChar prev c = true
    · simp only [scanNumber, hn, if_true, hsc, List.cons_append]
      refine ⟨by rw [h.1], ?_⟩
      intro x hx
      rcases List.mem_cons.mp hx with e | e
      · rw [e]; exact numberChar_kept prev c hn
      · exact h.2 x e
    · simp [scanNumber, hn]

theorem scanIdent_split : ∀ (s : Str) (prev : Option Char),
    (scanIdent prev s).1 ++ (scanIdent prev s).2.1 = s ∧
      ∀ c ∈ (scanIdent prev s).1, (!isSpace c && isTokenChar c) = true := by
  intro s
  induction s with
  | nil => intro prev; simp [scanIdent]
  | cons c cs ih =>
    intro prev
    have h := ih (some c)
    rcases hsc : scanIdent (some c) cs with ⟨cur, rest, last⟩
    rw [hsc] at h
    by_cases hn : isAlphaNum c = true
    · simp only [scanIdent, hn, if_true, hsc, List.cons_append]
      refine ⟨by rw [h.1], ?_⟩
      intro x hx
      rcases List.mem_cons.mp hx with e | e
      · rw [e]; exact alphaNum_kept c hn
      · exact h.2 x e
    · simp [scanIdent, hn]

theorem keptText_append_kept (cur rest : Str)
    (h : ∀ c ∈ cur, (!isSpace c && isTokenChar c) = true) :
    keptText (cur ++ rest) = cur ++ keptText rest := by
  unfold keptText
  rw [List.filter_append, List.filter_eq_self.mpr h]

theorem keptText_cons_kept (c : Char) (rest : Str)
    (h : (!isSpace c && isTokenChar c) = true) :
    keptText (c :: rest) = c :: keptText rest := by
  unfold keptText
  simp only [List.filter_cons, h, if_true]

theorem keptText_cons_dropped (c : Char) (rest : Str)
    (h : (!isSpace c && isTokenChar c) = false) :
    keptText (c :: rest) = keptText rest := by
  unfold keptText
  simp only [List.filter_cons, h, Bool.false_eq_true, if_false]

/-- The `for` loop of `tokenize`, allowed as many passes as the text is long: the values
of its tokens are the text without the characters it skips, and it emits at most one token
per character. -/
theorem tokenizeLoop_values : ∀ (fuel : Nat) (prev : Option Char) (s : Str),
    s.length ≤ fuel →
    tokenValues (tokenizeLoop fuel prev s) = keptText s ∧
      (tokenizeLoop fuel prev s).length ≤ s.length := by
  intro fuel
  induction fuel with
  | zero =>
    intro prev s h
    have : s = [] := List.length_eq_zero.mp (by omega)
    subst this
    exact ⟨rfl, Nat.le_refl _⟩
  | succ f ih =>
    intro prev s h
    cases s with
    | nil => exact ⟨rfl, Nat.le_refl _⟩
    | cons c cs =>
      simp only [List.length_cons, Nat.add_le_add_iff_right] at h
      rcases hn : scanNumber prev (c :: cs) with ⟨ncur, nrest, nlast⟩
      rcases hi : scanIdent prev (c :: cs) with ⟨icur, irest, ilast⟩
      simp only [tokenizeLoop, hn, hi]
      split
      · rename_i hsp
        obtain ⟨h1, h2⟩ := ih (some c) cs h
        rw [keptText_cons_dropped c cs (by simp [hsp])]
        exact ⟨h1, by simp only [List.length_cons]; omega⟩
      · rename_i hsp
        split
        · rename_i hnum
          have hl := scanNumber_rest prev c cs hnum
          have hsplit := scanNumber_split (c :: cs) prev
          rw [hn] at hl hsplit
          simp only [] at hl hsplit
          obtain ⟨h1, h2⟩ := ih nlast nrest (by omega)
          constructor
          · rw [← hsplit.1, keptText_append_kept ncur nrest hsplit.2]
            simp only [tokenValues, h1]
          · simp only [List.length_cons]; omega
        · rename_i hnum
          split
          · rename_i halpha
            have hl := scanIdent_rest prev c cs halpha
            have hsplit := scanIdent_split (c :: cs) prev
            rw [hi] at hl hsplit
            simp only [] at hl hsplit
            obtain ⟨h1, h2⟩ := ih ilast irest (by omega)
            split
            · constructor
              · rw [← hsplit.1, keptText_append_kept icur irest hsplit.2]
                simp only [tokenValues, h1]
              · simp only [List.length_cons]; omega
            · constructor
              · rw [← hsplit.1, keptText_append_kept icur irest hsplit.2]
                simp only [tokenValues, h1]
              · simp only [List.length_cons]; omega
          · rename_i halpha
            split
            · rename_i hop
              by_cases hdouble : (c == '*' && startsWith cs '*') = true
              · simp only [Bool.and_eq_true, beq_iff_eq] at hdouble
                obtain ⟨e, hstar⟩ := hdouble
                subst e
                cases cs with
                | nil => simp [startsWith] at hstar
                | cons d ds =>
                  have e2 : d = '*' := by simpa [startsWith] using hstar
                  subst e2
                  simp only [List.length_cons] at h
                  obtain ⟨h1, h2⟩ := ih (some '*') ds (by omega)
                  have hm : operatorMap ['*', '*'] = some (4, true) := by decide
                  simp only [beq_self_eq_true, hstar, Bool.and_self, if_true, hm,
                    List.drop_succ_cons, List.drop_zero]
                  rw [keptText_cons_kept '*' _ (by decide), keptText_cons_kept '*' _ (by decide)]
                  exact ⟨by simp only [tokenValues, h1]; rfl,
                    by simp only [List.length_cons]; omega⟩
              · obtain ⟨h1, h2⟩ := ih (some c) cs h
                have hkept : (!isSpace c && isTokenChar c) = true := by
                  simp only [Bool.or_eq_true, beq_iff_eq] at hop
                  rcases hop with ((((e | e) | e) | e) | e) | e <;> subst e <;> decide
                have hm : ∃ info, operatorMap [c] = some info := by
                  apply Option.isSome_iff_exists.mp
                  simp only [Bool.or_eq_true, beq_iff_eq] at hop
                  rcases hop with ((((e | e) | e) | e) | e) | e <;> subst e <;> decide
                obtain ⟨info, hinfo⟩ := hm
                simp only [hdouble, Bool.false_eq_true, if_false, hinfo]
                rw [keptText_cons_kept c cs hkept]
                exact ⟨by simp only [tokenValues, h1]; rfl,
                  by simp only [List.length_cons]; omega⟩
            · rename_i hop
              split
              · rename_i hl
                have e : c = '(' := by simpa using hl
                subst e
                obtain ⟨h1, h2⟩ := ih (some '(') cs h
                rw [keptText_cons_kept '(' cs (by decide)]
                exact ⟨by simp only [tokenValues, h1]; rfl,
                  by simp only [List.length_cons]; omega⟩
              · rename_i hl
                split
                · rename_i hr
                  have e : c = ')' := by simpa using hr
                  subst e
                  obtain ⟨h1, h2⟩ := ih (some ')') cs h
                  rw [keptText_cons_kept ')' cs (by decide)]
                  exact ⟨by simp only [tokenValues, h1]; rfl,
                    by simp only [List.length_cons]; omega⟩
                · rename_i hr
                  obtain ⟨h1, h2⟩ := ih (some c) cs h
                  have hdrop : (!isSpace c && isTokenChar c) = false := by
                    simp only [Bool.or_eq_true, beq_iff_eq, not_or] at hnum hop
                    simp only [beq_iff_eq] at hl hr
                    simp only [Bool.not_eq_true] at halpha
                    have hd : isDigit c = false := by simpa using hnum.1
                    simp [isTokenChar, hd, halpha, hnum.2, hop, hl, hr]
                  rw [keptText_cons_dropped c cs hdrop]
                  exact ⟨h1, by simp only [List.length_cons]; omega⟩

/-- C34: the tokenizer loses nothing but skipped characters. For every ASCII text `s`, the
value fields of `tokenize s` concatenated in order are `s` with every whitespace character
and every character outside digits, letters and `. + - * / % ^ ( )` removed; the number of
tokens is at most the length of `s`; and the loop ends within `s.length` passes, so that
allowing more passes gives the same tokens. -/
theorem tokenize_keeps_text (s : Str) (hascii : isAscii s = true) :
    tokenValues (tokenize s) = keptText s ∧
      (tokenize s).length ≤ s.length ∧
      (∀ extra : Nat, tokenizeLoop (s.length + extra) none s = tokenize s) ∧
      isAscii (tokenValues (tokenize s)) = true := by
  obtain ⟨h1, h2⟩ := tokenizeLoop_values s.length none s (Nat.le_refl _)
  refine ⟨h1, h2, ?_, ?_⟩
  · intro extra
    exact tokenizeLoop_fuel _ _ none s (by omega) (Nat.le_refl _)
  · unfold tokenize
    rw [h1]
    unfold isAscii keptText at *
    simp only [List.all_eq_true, decide_eq_true_eq] at hascii ⊢
    intro c hc
    exact hascii c (List.mem_filter.mp hc).1

theorem tokenize_keeps_text_witness :
    tokenValues (tokenize "2 + x$3 **(4)".toList) = keptText "2 + x$3 **(4)".toList ∧
      (tokenize "2 + x$3 **(4)".toList).length ≤ "2 + x$3 **(4)".toList.length ∧
      (∀ extra : Nat, tokenizeLoop ("2 + x$3 **(4)".toList.length + extra) none
        "2 + x$3 **(4)".toList = tokenize "2 + x$3 **(4)".toList) ∧
      isAscii (tokenValues (tokenize "2 + x$3 **(4)".toList)) = true :=
  tokenize_keeps_text "2 + x$3 **(4)".toList (by decide)

/-! ## The shunting yard reorders (C35) -/

/-- The operator loop moves a run of tokens from the top of the stack to the output, none
of them a left parenthesis. -/
theorem popOperators_split (token : Token) : ∀ (operators output : List Token),
    ∃ popped remaining, popOperators token output operators = (output ++ popped, remaining) ∧
      popped ++ remaining = operators ∧ ∀ t ∈ popped, t.type ≠ .LEFT_PAREN := by
  intro operators
  induction operators with
  | nil => intro output; exact ⟨[], [], by simp [popOperators], rfl, by simp⟩
  | cons top ops ih =>
    intro output
    simp only [popOperators]
    split
    · rename_i hc
      obtain ⟨popped, remaining, h1, h2, h3⟩ := ih (output ++ [top])
      refine ⟨top :: popped, remaining, by rw [h1]; simp, by rw [← h2]; rfl, ?_⟩
      intro t ht
      rcases List.mem_cons.mp ht with e | e
      · rw [e]
        simp only [Bool.and_eq_true, bne_iff_ne, ne_eq] at hc
        exact hc.1
      · exact h3 t e
    · exact ⟨[], top :: ops, by simp, rfl, by simp⟩

/-- The first loop of the `RIGHT_PAREN` case moves a run of tokens to the output, none of
them a left parenthesis, and stops on an empty stack or with a left parenthesis on top. -/
theorem popToLeftParen_split : ∀ (operators output : List Token),
    ∃ popped remaining, popToLeftParen output operators = (output ++ popped, remaining) ∧
      popped ++ remaining = operators ∧ (∀ t ∈ popped, t.type ≠ .LEFT_PAREN) ∧
      (remaining = [] ∨ ∃ top below, remaining = top :: below ∧ top.type = .LEFT_PAREN) := by
  intro operators
  induction operators with
  | nil => intro output; exact ⟨[], [], by simp [popToLeftParen], rfl, by simp, Or.inl rfl⟩
  | cons top ops ih =>
    intro output
    simp only [popToLeftParen]
    split
    · rename_i hc
      obtain ⟨popped, remaining, h1, h2, h3, h4⟩ := ih (output ++ [top])
      refine ⟨top :: popped, remaining, by rw [h1]; simp, by rw [← h2]; rfl, ?_, h4⟩
      intro t ht
      rcases List.mem_cons.mp ht with e | e
      · rw [e]
        simpa using hc
      · exact h3 t e
    · rename_i hc
      refine ⟨[], top :: ops, by simp, rfl, by simp, Or.inr ⟨top, ops, rfl, ?_⟩⟩
      simpa using hc

/-- The shape of one pass of the loop of `shuntingYard`: a run `popped` of the stack goes
to the output, a left parenthesis `dropped` may be removed and a function `fn` below it
moved to the output, and the token goes to the output (`toOutput`), on the stack
(`toStack`) or nowhere. -/
theorem shuntingStep_shape (output operators : List Token) (token : Token) :
    ∃ popped dropped fn rest toOutput toStack,
      shuntingStep (output, operators) token
        = (output ++ toOutput ++ popped ++ fn, toStack ++ rest) ∧
      operators = popped ++ dropped ++ fn ++ rest ∧
      (∀ t ∈ popped, t.type ≠ .LEFT_PAREN) ∧
      (∀ t ∈ dropped, t.type = .LEFT_PAREN) ∧ dropped.length ≤ 1 ∧
      (∀ t ∈ fn, t.type = .FUNCTION) ∧
      ((token.type = .NUMBER ∨ token.type = .VARIABLE) ∧ toOutput = [token] ∧ toStack = [] ∧
          popped = [] ∧ dropped = [] ∧ fn = [] ∨
        (token.type = .FUNCTION ∨ token.type = .OPERATOR ∨ token.type = .LEFT_PAREN) ∧
          toOutput = [] ∧ toStack = [token] ∧ dropped = [] ∧ fn = [] ∨
        token.type = .RIGHT_PAREN ∧ toOutput = [] ∧ toStack = [] ∧
          (dropped = [] → rest = [] ∧ fn = [])) := by
  cases htype : token.type with
  | NUMBER =>
    exact ⟨[], [], [], operators, [token], [], by simp [shuntingStep, htype], by simp,
      by simp, by simp, by simp, by simp, Or.inl ⟨Or.inl rfl, rfl, rfl, rfl, rfl, rfl⟩⟩
  | VARIABLE =>
    exact ⟨[], [], [], operators, [token], [], by simp [shuntingStep, htype], by simp,
      by simp, by simp, by simp, by simp, Or.inl ⟨Or.inr rfl, rfl, rfl, rfl, rfl, rfl⟩⟩
  | FUNCTION =>
    exact ⟨[], [], [], operators, [], [token], by simp [shuntingStep, htype], by simp,
      by simp, by simp, by simp, by simp, Or.inr (Or.inl ⟨Or.inl rfl, rfl, rfl, rfl, rfl⟩)⟩
  | LEFT_PAREN =>
    exact ⟨[], [], [], operators, [], [token], by simp [shuntingStep, htype], by simp,
      by simp, by simp, by simp, by simp,
      Or.inr (Or.inl ⟨Or.inr (Or.inr rfl), rfl, rfl, rfl, rfl⟩)⟩
  | OPERATOR =>
    obtain ⟨popped, remaining, h1, h2, h3⟩ := popOperators_split token operators output
    refine ⟨popped, [], [], remaining, [], [token], ?_, by simp [h2], h3, by simp, by simp,
      by simp, Or.inr (Or.inl ⟨Or.inr (Or.inl rfl), rfl, rfl, rfl, rfl⟩)⟩
    simp only [shuntingStep, htype, h1]
    simp
  | RIGHT_PAREN =>
    obtain ⟨popped, remaining, h1, h2, h3, h4⟩ := popToLeftParen_split operators output
    rcases h4 with h4 | ⟨top, below, h4, htop⟩
    · subst h4
      refine ⟨popped, [], [], [], [], [], ?_, by simp [← h2], h3, by simp, by simp, by simp,
        Or.inr (Or.inr ⟨rfl, rfl, rfl, fun _ => ⟨rfl, rfl⟩⟩)⟩
      simp only [shuntingStep, htype, h1]
      simp
    · subst h4
      cases below with
      | nil =>
        refine ⟨popped, [top], [], [], [], [], ?_, by simp [← h2], h3, by simp [htop],
          by simp, by simp, Or.inr (Or.inr ⟨rfl, rfl, rfl, fun _ => ⟨rfl, rfl⟩⟩)⟩
        simp only [shuntingStep, htype, h1]
        simp [htop]
      | cons f below =>
        by_cases hf : f.type = .FUNCTION
        · refine ⟨popped, [top], [f], below, [], [], ?_, by simp [← h2], h3, by simp [htop],
            by simp, by simp [hf], Or.inr (Or.inr ⟨rfl, rfl, rfl, fun h => by simp at h⟩)⟩
          simp only [shuntingStep, htype, h1]
          simp [htop, hf]
        · refine ⟨popped, [top], [], f :: below, [], [], ?_, by simp [← h2], h3,
            by simp [htop], by simp, by simp,
            Or.inr (Or.inr ⟨rfl, rfl, rfl, fun h => by simp at h⟩)⟩
          simp only [shuntingStep, htype, h1]
          simp [htop, hf]

theorem withoutParens_append (l1 l2 : List Token) :
    withoutParens (l1 ++ l2) = withoutParens l1 ++ withoutParens l2 := by
  simp [withoutParens]

theorem withoutParens_lefts (l : List Token) (h : ∀ t ∈ l, t.type = .LEFT_PAREN) :
    withoutParens l = [] := by
  unfold withoutParens
  rw [List.filter_eq_nil_iff]
  intro t ht
  simp [isParen, h t ht]

theorem operandTokens_append (l1 l2 : List Token) :
    operandTokens (l1 ++ l2) = operandTokens l1 ++ operandTokens l2 := by
  simp [operandTokens]

theorem leftParenCount_append (l1 l2 : List Token) :
    leftParenCount (l1 ++ l2) = leftParenCount l1 + leftParenCount l2 := by
  simp [leftParenCount]

theorem leftParenCount_none (l : List Token) (h : ∀ t ∈ l, t.type ≠ .LEFT_PAREN) :
    leftParenCount l = 0 := by
  unfold leftParenCount
  rw [List.countP_eq_zero]
  intro t ht
  simpa using h t ht

theorem leftParenCount_lefts (l : List Token) (h : ∀ t ∈ l, t.type = .LEFT_PAREN) :
    leftParenCount l = l.length := by
  unfold leftParenCount
  rw [List.countP_eq_length]
  intro t ht
  simpa using h t ht

/-- One pass of the loop of `shuntingYard` adds the token, unless it is a parenthesis, to
the tokens held in the output and on the stack. -/
theorem shuntingStep_perm (output operators : List Token) (token : Token) :
    (withoutParens ((shuntingStep (output, operators) token).1 ++
        (shuntingStep (output, operators) token).2)).Perm
      (withoutParens (output ++ operators) ++ withoutParens [token]) := by
  obtain ⟨popped, dropped, fn, rest, toOutput, toStack, hstep, hops, _, hd, _, _, hcase⟩ :=
    shuntingStep_shape output operators token
  rw [hstep, hops]
  simp only [withoutParens_append, withoutParens_lefts dropped hd, List.append_nil]
  rcases hcase with ⟨_, h1, h2, h3, _, h5⟩ | ⟨_, h1, h2, _, h5⟩ | ⟨ht, h1, h2, _⟩
  · subst h1 h2 h3 h5
    have e : withoutParens ([] : List Token) = [] := rfl
    simp only [e, List.append_nil, List.nil_append, List.append_assoc]
    exact List.Perm.append_left _ List.perm_append_comm
  · subst h1 h2 h5
    have e : withoutParens ([] : List Token) = [] := rfl
    simp only [e, List.append_nil, List.nil_append, List.append_assoc]
    exact List.Perm.append_left _ (List.Perm.append_left _ List.perm_append_comm)
  · subst h1 h2
    have e : withoutParens ([] : List Token) = [] := rfl
    have e2 : withoutParens [token] = [] := by simp [withoutParens, isParen, ht]
    simp only [e, e2, List.append_nil, List.nil_append, List.append_assoc]
    exact List.Perm.refl _

/-- One pass of the loop of `shuntingYard` puts an operand token at the end of the output
and never on the stack. -/
theorem shuntingStep_operands (output operators : List Token) (token : Token)
    (hs : operandTokens operators = []) :
    operandTokens (shuntingStep (output, operators) token).1
        = operandTokens output ++ operandTokens [token] ∧
      operandTokens (shuntingStep (output, operators) token).2 = [] := by
  obtain ⟨popped, dropped, fn, rest, toOutput, toStack, hstep, hops, _, _, _, _, hcase⟩ :=
    shuntingStep_shape output operators token
  rw [hops] at hs
  simp only [operandTokens_append, List.append_eq_nil] at hs
  obtain ⟨⟨⟨hp, _⟩, hf⟩, hr⟩ := hs
  rw [hstep]
  simp only [operandTokens_append, hp, hf, hr, List.append_nil]
  have e : operandTokens ([] : List Token) = [] := rfl
  rcases hcase with ⟨_, h1, h2, _⟩ | ⟨ht, h1, h2, _⟩ | ⟨ht, h1, h2, _⟩
  · subst h1 h2
    exact ⟨rfl, e⟩
  · subst h1 h2
    have e2 : operandTokens [token] = [] := by
      rcases ht with ht | ht | ht <;> simp [operandTokens, ht]
    simp only [e, e2, List.append_nil]
    trivial
  · subst h1 h2
    have e2 : operandTokens [token] = [] := by simp [operandTokens, ht]
    simp only [e, e2, List.append_nil]
    trivial

/-- One pass of the loop of `shuntingYard` puts no right parenthesis in the output or on
the stack, and no left parenthesis in the output. -/
theorem shuntingStep_parens (output operators : List Token) (token : Token) :
    ((∀ t ∈ output ++ operators, t.type ≠ .RIGHT_PAREN) →
      ∀ t ∈ (shuntingStep (output, operators) token).1 ++
        (shuntingStep (output, operators) token).2, t.type ≠ .RIGHT_PAREN) ∧
    ((∀ t ∈ output, t.type ≠ .LEFT_PAREN) →
      ∀ t ∈ (shuntingStep (output, operators) token).1, t.type ≠ .LEFT_PAREN) := by
  obtain ⟨popped, dropped, fn, rest, toOutput, toStack, hstep, hops, hp, _, _, hf, hcase⟩ :=
    shuntingStep_shape output operators token
  have hto : ∀ t ∈ toOutput ++ toStack, t = token ∧ t.type ≠ .RIGHT_PAREN ∧
      (t ∈ toOutput → t.type ≠ .LEFT_PAREN) := by
    intro t ht
    rcases hcase with ⟨hty, h1, h2, _⟩ | ⟨hty, h1, h2, _⟩ | ⟨hty, h1, h2, _⟩
    · subst h1 h2
      simp only [List.append_nil, List.mem_singleton] at ht
      subst ht
      rcases hty with hty | hty <;> simp [hty]
    · subst h1 h2
      simp only [List.nil_append, List.mem_singleton] at ht
      subst ht
      rcases hty with hty | hty | hty <;> simp [hty]
    · subst h1 h2
      simp at ht
  rw [hstep]
  constructor
  · intro h t ht
    rw [hops] at h
    simp only [List.mem_append] at ht h
    rcases ht with (((ht | ht) | ht) | ht) | ht | ht
    · exact h t (Or.inl ht)
    · exact (hto t (List.mem_append.mpr (Or.inl ht))).2.1
    · exact h t (Or.inr (Or.inl (Or.inl (Or.inl ht))))
    · exact h t (Or.inr (Or.inl (Or.inr ht)))
    · exact (hto t (List.mem_append.mpr (Or.inr ht))).2.1
    · exact h t (Or.inr (Or.inr ht))
  · intro h t ht
    simp only [List.mem_append] at ht
    rcases ht with ((ht | ht) | ht) | ht
    · exact h t ht
    · exact (hto t (List.mem_append.mpr (Or.inl ht))).2.2 ht
    · exact hp t ht
    · rw [hf t ht]; decide

/-- One pass of the loop of `shuntingYard` keeps as many left parentheses on the stack as
are open. -/
theorem shuntingStep_depth (output operators : List Token) (token : Token) :
    leftParenCount (shuntingStep (output, operators) token).2
      = parenDepth (leftParenCount operators) token := by
  obtain ⟨popped, dropped, fn, rest, toOutput, toStack, hstep, hops, hp, hd, hdl, hf, hcase⟩ :=
    shuntingStep_shape output operators token
  have hfn : leftParenCount fn = 0 :=
    leftParenCount_none fn (fun t ht => by rw [hf t ht]; decide)
  rw [hstep, hops]
  simp only [leftParenCount_append, leftParenCount_none popped hp,
    leftParenCount_lefts dropped hd, hfn]
  have e : leftParenCount ([] : List Token) = 0 := rfl
  rcases hcase with ⟨hty, _, h2, _, h4, _⟩ | ⟨hty, _, h2, h4, _⟩ | ⟨hty, _, h2, h4⟩
  · subst h2 h4
    rcases hty with hty | hty <;> simp [parenDepth, hty, e]
  · subst h2 h4
    rcases hty with hty | hty | hty <;> simp [parenDepth, hty, leftParenCount]
    omega
  · subst h2
    simp only [parenDepth, hty, e]
    cases dropped with
    | nil =>
      obtain ⟨hr, _⟩ := h4 rfl
      subst hr
      simp [e]
    | cons d ds =>
      simp only [List.length_cons] at hdl ⊢
      omega

/-- The loop of `shuntingYard` from any state whose stack holds no operand and whose
output holds no left parenthesis. -/
theorem shuntingFold_inv : ∀ (tokens output operators : List Token),
    operandTokens operators = [] → (∀ t ∈ output ++ operators, t.type ≠ .RIGHT_PAREN) →
    (∀ t ∈ output, t.type ≠ .LEFT_PAREN) →
    (withoutParens ((tokens.foldl shuntingStep (output, operators)).1 ++
        (tokens.foldl shuntingStep (output, operators)).2)).Perm
      (withoutParens (output ++ operators) ++ withoutParens tokens) ∧
    operandTokens (tokens.foldl shuntingStep (output, operators)).1
      = operandTokens output ++ operandTokens tokens ∧
    operandTokens (tokens.foldl shuntingStep (output, operators)).2 = [] ∧
    (∀ t ∈ (tokens.foldl shuntingStep (output, operators)).1 ++
      (tokens.foldl shuntingStep (output, operators)).2, t.type ≠ .RIGHT_PAREN) ∧
    (∀ t ∈ (tokens.foldl shuntingStep (output, operators)).1, t.type ≠ .LEFT_PAREN) ∧
    leftParenCount (tokens.foldl shuntingStep (output, operators)).2
      = tokens.foldl parenDepth (leftParenCount operators) := by
  intro tokens
  induction tokens with
  | nil =>
    intro output operators h1 h2 h3
    have e : withoutParens ([] : List Token) = [] := rfl
    have e2 : operandTokens ([] : List Token) = [] := rfl
    simp only [List.foldl_nil, e, e2, List.append_nil]
    exact ⟨List.Perm.refl _, trivial, h1, h2, h3, trivial⟩
  | cons token rest ih =>
    intro output operators h1 h2 h3
    have hperm := shuntingStep_perm output operators token
    have hopd := shuntingStep_operands output operators token h1
    have hpar := shuntingStep_parens output operators token
    have hdep := shuntingStep_depth output operators token
    rcases hst : shuntingStep (output, operators) token with ⟨o1, s1⟩
    rw [hst] at hperm hopd hpar hdep
    simp only [] at hperm hopd hpar hdep
    obtain ⟨i1, i2, i3, i4, i5, i6⟩ := ih o1 s1 hopd.2 (hpar.1 h2) (hpar.2 h3)
    simp only [List.foldl_cons, hst]
    refine ⟨?_, ?_, i3, i4, i5, ?_⟩
    · have e : withoutParens (token :: rest) = withoutParens [token] ++ withoutParens rest :=
        withoutParens_append [token] rest
      rw [e, ← List.append_assoc]
      exact i1.trans (List.Perm.append_right _ hperm)
    · have e : operandTokens (token :: rest) = operandTokens [token] ++ operandTokens rest :=
        operandTokens_append [token] rest
      rw [i2, hopd.1, e, List.append_assoc]
    · rw [i6, hdep]

/-- C35: `shuntingYard` only reorders tokens and drops parentheses. For every token
sequence, the output without its parenthesis tokens is a permutation of the input without
its parenthesis tokens; the `Number` and `Variable` tokens of the output are those of the
input in the same order; no `RightParen` token is in the output; and the output holds as
many `LeftParen` tokens as the input has left parentheses that are never closed, so it
holds one only when the input has such a parenthesis; on `(2)*(3` it holds one. -/
theorem shuntingYard_reorders (tokens : List Token) :
    (withoutParens (shuntingYard tokens)).Perm (withoutParens tokens) ∧
      operandTokens (shuntingYard tokens) = operandTokens tokens ∧
      (∀ t ∈ shuntingYard tokens, t.type ≠ .RIGHT_PAREN) ∧
      leftParenCount (shuntingYard tokens) = openParens tokens ∧
      ((∃ t ∈ shuntingYard tokens, t.type = .LEFT_PAREN) → 0 < openParens tokens) ∧
      leftParenCount (shuntingYard (tokenize "(2)*(3".toList)) = 1 := by
  obtain ⟨i1, i2, i3, i4, i5, i6⟩ := shuntingFold_inv tokens [] [] rfl (by simp) (by simp)
  have hy : shuntingYard tokens = (tokens.foldl shuntingStep ([], [])).1 ++
      (tokens.foldl shuntingStep ([], [])).2 := by
    unfold shuntingYard
    rcases tokens.foldl shuntingStep ([], []) with ⟨o, s⟩
    rfl
  have hcount : leftParenCount (shuntingYard tokens) = openParens tokens := by
    rw [hy, leftParenCount_append, leftParenCount_none _ i5, i6]
    simp [openParens, leftParenCount]
  refine ⟨?_, ?_, ?_, hcount, ?_, by decide⟩
  · rw [hy]
    simpa [withoutParens] using i1
  · rw [hy, operandTokens_append, i2, i3]
    simp [operandTokens]
  · rw [hy]; exact i4
  · rintro ⟨t, ht, hty⟩
    rw [← hcount]
    unfold leftParenCount
    rw [List.countP_pos_iff]
    exact ⟨t, ht, by simp [hty]⟩

/-! ## Where failures are propagated (C31) -/

theorem except_bind_ok {α β : Type} (x : Except Exn α) (f : α → Except Exn β) (z : β)
    (h : (x >>= f) = .ok z) : ∃ a, x = .ok a ∧ f a = .ok z := by
  cases x with
  | error e => simp [bind, Except.bind] at h
  | ok a => exact ⟨a, rfl, h⟩

/-- A value of `addComplex` needs both sums. -/
theorem addComplex_ok (a b z : ComplexNumber) (h : addComplex a b = .ok z) :
    ∃ re im, add a.real b.real = .ok re ∧ add a.imagOrZero b.imagOrZero = .ok im ∧
      z = ComplexNumber.collapse re im := by
  unfold addComplex at h
  obtain ⟨re, h1, h⟩ := except_bind_ok _ _ _ h
  obtain ⟨im, h2, h⟩ := except_bind_ok _ _ _ h
  refine ⟨re, im, h1, h2, ?_⟩
  simp only [pure, Except.pure, Except.ok.injEq] at h
  exact h.symm

theorem subtractComplex_ok (a b z : ComplexNumber) (h : subtractComplex a b = .ok z) :
    ∃ re im, subtract a.real b.real = .ok re ∧
      subtract a.imagOrZero b.imagOrZero = .ok im ∧ z = ComplexNumber.collapse re im := by
  unfold subtractComplex at h
  obtain ⟨re, h1, h⟩ := except_bind_ok _ _ _ h
  obtain ⟨im, h2, h⟩ := except_bind_ok _ _ _ h
  refine ⟨re, im, h1, h2, ?_⟩
  simp only [pure, Except.pure, Except.ok.injEq] at h
  exact h.symm

theorem multiplyComplex_ok (a b z : ComplexNumber) (h : multiplyComplex a b = .ok z) :
    ∃ p1 p2 re p3 p4 im, multiply a.real b.real = .ok p1 ∧
      multiply a.imagOrZero b.imagOrZero = .ok p2 ∧ subtract p1 p2 = .ok re ∧
      multiply a.real b.imagOrZero = .ok p3 ∧ multiply a.imagOrZero b.real = .ok p4 ∧
      add p3 p4 = .ok im ∧ z = ComplexNumber.collapse re im := by
  unfold multiplyComplex at h
  obtain ⟨p1, h1, h⟩ := except_bind_ok _ _ _ h
  obtain ⟨p2, h2, h⟩ := except_bind_ok _ _ _ h
  obtain ⟨re, h3, h⟩ := except_bind_ok _ _ _ h
  obtain ⟨p3, h4, h⟩ := except_bind_ok _ _ _ h
  obtain ⟨p4, h5, h⟩ := except_bind_ok _ _ _ h
  obtain ⟨im, h6, h⟩ := except_bind_ok _ _ _ h
  refine ⟨p1, p2, re, p3, p4, im, h1, h2, h3, h4, h5, h6, ?_⟩
  simp only [pure, Except.pure, Except.ok.injEq] at h
  exact h.symm

theorem divideComplex_ok (a b z : ComplexNumber) (h : divideComplex a b = .ok z) :
    ∃ d1 d2 den n1 n2 realNum n3 n4 imagNum re im,
      multiply b.real b.real = .ok d1 ∧ multiply b.imagOrZero b.imagOrZero = .ok d2 ∧
      add d1 d2 = .ok den ∧ den ≠ ['0'] ∧
      multiply a.real b.real = .ok n1 ∧ multiply a.imagOrZero b.imagOrZero = .ok n2 ∧
      add n1 n2 = .ok realNum ∧
      multiply a.imagOrZero b.real = .ok n3 ∧ multiply a.real b.imagOrZero = .ok n4 ∧
      subtract n3 n4 = .ok imagNum ∧
      divide realNum den = .ok re ∧ divide imagNum den = .ok im ∧
      z = ComplexNumber.collapse re im := by
  unfold divideComplex at h
  obtain ⟨d1, h1, h⟩ := except_bind_ok _ _ _ h
  obtain ⟨d2, h2, h⟩ := except_bind_ok _ _ _ h
  obtain ⟨den, h3, h⟩ := except_bind_ok _ _ _ h
  by_cases hz : (den == ['0']) = true
  · simp [hz, domain_error] at h
  · simp only [hz, Bool.false_eq_true, if_false] at h
    obtain ⟨n1, h4, h⟩ := except_bind_ok _ _ _ h
    obtain ⟨n2, h5, h⟩ := except_bind_ok _ _ _ h
    obtain ⟨realNum, h6, h⟩ := except_bind_ok _ _ _ h
    obtain ⟨n3, h7, h⟩ := except_bind_ok _ _ _ h
    obtain ⟨n4, h8, h⟩ := except_bind_ok _ _ _ h
    obtain ⟨imagNum, h9, h⟩ := except_bind_ok _ _ _ h
    obtain ⟨re, h10, h⟩ := except_bind_ok _ _ _ h
    obtain ⟨im, h11, h⟩ := except_bind_ok _ _ _ h
    refine ⟨d1, d2, den, n1, n2, realNum, n3, n4, imagNum, re, im, h1, h2, h3, ?_, h4, h5, h6,
      h7, h8, h9, h10, h11, ?_⟩
    · simpa using hz
    · simp only [pure, Except.pure, Except.ok.injEq] at h
      exact h.symm

/-- An exception of `applyOperator` is the exception of `evaluatePostfixExpression`. -/
theorem evalLoop_operator_error (pre rest : List Token) (token : Token)
    (y x : ComplexNumber) (below : List ComplexNumber) (e : Exn)
    (hpre : evalLoop pre [] = .ok (y :: x :: below)) (ht : token.type = .OPERATOR)
    (happ : applyOperator token.value x y = .error e) :
    evaluatePostfixExpression (pre ++ token :: rest) = .error e := by
  unfold evaluatePostfixExpression
  rw [evalLoop_append, hpre]
  simp only [evalLoop, ht, happ]

/-- C31, where the claim fails: the `try` block of `powerDecimal` and the `^` branch of the
evaluator turn a failure into a value. `nthRoot("-1024","10")` throws the even-root
`domain_error`, and `powerDecimal("-4","0.5")`, which makes that call, returns the text
`decimal_power(-4, 0.5) [approximation needed]`; `power("0.0","-2")` throws
`invalid_argument`, and `parseExpression` on `0.0^(0-2)` returns a `"Result: "` string
with the text `Power Error: ` and the message. -/
theorem failures_turned_into_values :
    power "-4".toList "5".toList = .ok "-1024".toList ∧
      nthRoot "-1024".toList "10".toList = .error ⟨.domainError,
        "Even root of negative number is undefined in real numbers".toList⟩ ∧
      powerDecimal "-4".toList "0.5".toList
        = .ok "decimal_power(-4, 0.5) [approximation needed]".toList ∧
      power "0.0".toList "-2".toList
        = .error ⟨.invalidArgument, "Invalid second operand: ".toList⟩ ∧
      parseExpression "0.0^(0-2)".toList
        = "Result: Power Error: Invalid second operand: ".toList := by
  refine ⟨by decide, by decide, by decide, by decide, by decide⟩

/-- C31, amended: failures are propagated except in the iteration loop of `nthRoot`, in
the `try` block of `powerDecimal` and in the `^` branch of the evaluator. A value of
`addComplex`, `subtractComplex`, `multiplyComplex` or `divideComplex` needs every scalar
operation of the call to succeed, and an exception of the `+ - * /` handling is the
exception of `evaluatePostfixExpression`, which `parseExpression` renders as `"Error: "`
and the message; `power` failing in the `^` branch on two real operands gives the real
value `Power Error: ` and the message; in `powerDecimal` an exception of the branch for an
exponent whose fractional digits are all zeros is propagated, and an exception inside the
`try` block gives the text `decimal_power(base, exponent) [approximation needed]`. -/
theorem failures_propagated_outside_catch_blocks :
    (∀ a b z, addComplex a b = .ok z →
      ∃ re im, add a.real b.real = .ok re ∧ add a.imagOrZero b.imagOrZero = .ok im ∧
        z = ComplexNumber.collapse re im) ∧
    (∀ a b z, subtractComplex a b = .ok z →
      ∃ re im, subtract a.real b.real = .ok re ∧
        subtract a.imagOrZero b.imagOrZero = .ok im ∧ z = ComplexNumber.collapse re im) ∧
    (∀ a b z, multiplyComplex a b = .ok z →
      ∃ p1 p2 re p3 p4 im, multiply a.real b.real = .ok p1 ∧
        multiply a.imagOrZero b.imagOrZero = .ok p2 ∧ subtract p1 p2 = .ok re ∧
        multiply a.real b.imagOrZero = .ok p3 ∧ multiply a.imagOrZero b.real = .ok p4 ∧
        add p3 p4 = .ok im ∧ z = ComplexNumber.collapse re im) ∧
    (∀ a b z, divideComplex a b = .ok z →
      ∃ d1 d2 den n1 n2 realNum n3 n4 imagNum re im,
        multiply b.real b.real = .ok d1 ∧ multiply b.imagOrZero b.imagOrZero = .ok d2 ∧
        add d1 d2 = .ok den ∧ den ≠ ['0'] ∧
        multiply a.real b.real = .ok n1 ∧ multiply a.imagOrZero b.imagOrZero = .ok n2 ∧
        add n1 n2 = .ok realNum ∧
        multiply a.imagOrZero b.real = .ok n3 ∧ multiply a.real b.imagOrZero = .ok n4 ∧
        subtract n3 n4 = .ok imagNum ∧
        divide realNum den = .ok re ∧ divide imagNum den = .ok im ∧
        z = ComplexNumber.collapse re im) ∧
    (∀ (pre rest : List Token) (token : Token) (y x : ComplexNumber)
        (below : List ComplexNumber) (e : Exn),
      evalLoop pre [] = .ok (y :: x :: below) → token.type = .OPERATOR →
      applyOperator token.value x y = .error e →
      evaluatePostfixExpression (pre ++ token :: rest) = .error e) ∧
    (∀ (s : Str) (e : Exn), evaluatePostfixExpression (shuntingYard (tokenize s)) = .error e →
      parseExpression s = "Error: ".toList ++ e.what) ∧
    parseExpression "1e5+1".toList = "Error: Invalid first operand: 1e5".toList ∧
    parseExpression "1/0".toList = "Error: Division by zero".toList ∧
    (∀ (op : Str) (a b : ComplexNumber) (e : Exn), op = ['^'] ∨ op = ['*', '*'] →
      a.isReal = true → b.isReal = true → power a.real b.real = .error e →
      applyOperator op a b = .ok (.ofReal ("Power Error: ".toList ++ e.what))) ∧
    (∀ (pw nr : Str → Str → Option (Except Exn Str)) (base exponent : Str) (e : Exn),
      (exponentParts exponent).2 = [] →
      (pw base (exponentParts exponent).1 = some (.error e) ∨
        ∃ r, pw base (exponentParts exponent).1 = some (.ok r) ∧
          startsWith exponent '-' = true ∧ divide ['1'] r = .error e) →
      powerDecimalCore pw nr base exponent = some (.error e)) ∧
    (∀ (pw nr : Str → Str → Option (Except Exn Str)) (base exponent denominator : Str)
        (e : Exn),
      (exponentParts exponent).2 ≠ [] →
      denominatorLoop (exponentParts exponent).2.length ['1'] = .ok denominator →
      powerDecimalTry pw nr base (exponentParts exponent).1
          (reduceLoop (exponentParts exponent).2.reverse denominator.reverse).1.reverse
          (reduceLoop (exponentParts exponent).2.reverse denominator.reverse).2.reverse
          (startsWith exponent '-') = some (.error e) →
      powerDecimalCore pw nr base exponent = some (.ok (approximationMarker base exponent))) ∧
    (∀ (pw nr : Str → Str → Option (Except Exn Str)) (base exponent : Str),
      isValidNumber base = true → isValidNumber exponent = true → base ≠ ['0'] →
      base ≠ ['1'] → exponent ≠ ['0'] → exponent ≠ ['1'] →
      powerDecimalBody pw nr base exponent = powerDecimalCore pw nr base exponent) := by
  refine ⟨addComplex_ok, subtractComplex_ok, multiplyComplex_ok, divideComplex_ok,
    evalLoop_operator_error, ?_, by decide, by decide, ?_, ?_, ?_, ?_⟩
  · intro s e h
    unfold parseExpression
    rw [h]
  · intro op a b e hop ha hb hp
    unfold applyOperator
    rcases hop with h | h <;> subst h <;> simp [ha, hb, hp]
  · intro pw nr base exponent e hparts h
    unfold powerDecimalCore
    rw [hparts]
    rcases h with h | ⟨r, h, hneg, hdiv⟩
    · simp [h]
    · simp [h, hneg, hdiv]
  · intro pw nr base exponent denominator e hparts hden htry
    unfold powerDecimalCore
    have hne : (exponentParts exponent).2.isEmpty = false := by
      cases h : (exponentParts exponent).2 with
      | nil => exact absurd h hparts
      | cons c cs => rfl
    simp only [hne, Bool.false_eq_true, if_false, hden, htry]
    rfl
  · intro pw nr base exponent hb he h0 h1 e0 e1
    rw [powerDecimalBody_eq]
    simp [hb, he, h0, h1, e0, e1]

/-! ## Termination of power, powerDecimal and nthRoot (C32) -/

theorem natText_pow_ten (k : Nat) : natText (10 ^ k) = powerOfTenText k := by
  have hv : natVal (powerOfTenText k) = 10 ^ k := by
    unfold powerOfTenText
    rw [natVal_cons, natVal_replicate_zero, List.length_replicate]
    simp [digitVal]
  have hc : isCanonicalNat (powerOfTenText k) = true := by
    unfold isCanonicalNat powerOfTenText
    simp only [List.isEmpty_cons, Bool.not_false, List.all_cons, Bool.true_and,
      Bool.and_eq_true, List.all_eq_true, Bool.or_eq_true, beq_iff_eq, Bool.not_eq_true']
    refine ⟨⟨by decide, ?_⟩, Or.inr (by simp [startsWith])⟩
    intro c hc
    rw [(List.mem_replicate.mp hc).2]; decide
  rw [← hv]
  exact natText_natVal_of_canonical _ hc

/-- The denominator loop of `powerDecimal` multiplies by ten on every pass. -/
theorem denominatorLoop_value : ∀ (n j : Nat),
    denominatorLoop n (natText (10 ^ j)) = .ok (natText (10 ^ (j + n))) := by
  intro n
  induction n with
  | zero => intro j; rfl
  | succ n ih =>
    intro j
    have h10 : (['1', '0'] : Str) = intText ((10 : Nat) : Int) := by
      rw [intText_eq_natText]
      exact (natText_natVal_of_canonical ['1', '0'] (by decide)).symm
    have hm : multiply (natText (10 ^ j)) ['1', '0'] = .ok (natText (10 ^ (j + 1))) := by
      rw [h10, ← intText_eq_natText, multiply_intText, ← intText_eq_natText]
      congr 2
    simp only [denominatorLoop, hm]
    rw [ih (j + 1)]
    congr 3
    omega

/-- The reduction loop of `powerDecimal` does nothing on a numerator that does not end in
a zero. -/
theorem reduceLoop_noop (n d : Str) (h : ∀ c ∈ n.head?, c ≠ '0') : reduceLoop n d = (n, d) := by
  cases n with
  | nil => simp [reduceLoop]
  | cons x xs =>
    have hx : x ≠ '0' := h x (by simp)
    cases xs with
    | nil => simp [reduceLoop]
    | cons x2 xs2 =>
      cases d with
      | nil => simp [reduceLoop]
      | cons y ys =>
        cases ys with
        | nil => simp [reduceLoop]
        | cons y2 ys2 => simp [reduceLoop, hx]

theorem head_dropZeros (s : Str) : ∀ c ∈ (s.dropWhile (fun d => d == '0')).head?, c ≠ '0' := by
  induction s with
  | nil => simp
  | cons x xs ih =>
    by_cases hx : x = '0'
    · subst hx
      simpa [List.dropWhile] using ih
    · intro c hc
      have : (x == '0') = false := by simpa using hx
      simp only [List.dropWhile, this, List.head?_cons, Option.mem_def,
        Option.some.injEq] at hc
      rw [← hc]; exact hx

/-- The numerator and the denominator `powerDecimal` hands on: the fractional digits and
the power of ten with as many zeros. -/
theorem powerDecimal_fraction (exponent : Str) :
    denominatorLoop (exponentParts exponent).2.length ['1']
        = .ok (powerOfTenText (exponentParts exponent).2.length) ∧
      reduceLoop (exponentParts exponent).2.reverse
          (powerOfTenText (exponentParts exponent).2.length).reverse
        = ((exponentParts exponent).2.reverse,
            (powerOfTenText (exponentParts exponent).2.length).reverse) := by
  constructor
  · have h1 : (['1'] : Str) = natText (10 ^ 0) := by
      rw [natText_pow_ten]; rfl
    rw [h1, denominatorLoop_value, natText_pow_ten, Nat.zero_add]
  · apply reduceLoop_noop
    unfold exponentParts
    simp only [List.reverse_reverse]
    exact head_dropZeros _

theorem powerOfTenText_no_dot (k : Nat) : '.' ∉ powerOfTenText k := by
  rw [← natText_pow_ten]; exact natText_no_dot _

/-- The call `powerDecimal(base, exponent)` uses `nthRoot` only at roots that are powers of
ten with at least one zero. -/
theorem powerDecimalBody_root (pw nr nr2 : Str → Str → Option (Except Exn Str))
    (base exponent : Str)
    (hnr : ∀ (x : Str) (k : Nat), 0 < k → nr x (powerOfTenText k) = nr2 x (powerOfTenText k)) :
    powerDecimalBody pw nr base exponent = powerDecimalBody pw nr2 base exponent := by
  rw [powerDecimalBody_eq, powerDecimalBody_eq]
  have hcore : powerDecimalCore pw nr base exponent = powerDecimalCore pw nr2 base exponent := by
    unfold powerDecimalCore
    by_cases hemp : (exponentParts exponent).2.isEmpty = true
    · rw [if_pos hemp, if_pos hemp]
    · rw [if_neg hemp, if_neg hemp]
      obtain ⟨h1, h2⟩ := powerDecimal_fraction exponent
      have hk : 0 < (exponentParts exponent).2.length := by
        cases h : (exponentParts exponent).2 with
        | nil => rw [h] at hemp; simp at hemp
        | cons c cs => simp
      have htry : ∀ (ip num : Str) (neg : Bool),
          powerDecimalTry pw nr base ip num (powerOfTenText (exponentParts exponent).2.length) neg
            = powerDecimalTry pw nr2 base ip num
                (powerOfTenText (exponentParts exponent).2.length) neg := by
        intro ip num neg
        unfold powerDecimalTry
        simp only [hnr _ _ hk]
      simp only [h1, h2, List.reverse_reverse, htry]
  rw [hcore]

/-- Inside `nthRoot` with a root without a point, here a power of ten, the nested call of
`power` never reaches `powerDecimal`. -/
theorem nthRootBody_root (pd pd2 : Str → Str → Option (Except Exn Str)) (number : Str)
    (k : Nat) :
    nthRootBody (powerBody pd) number (powerOfTenText k)
      = nthRootBody (powerBody pd2) number (powerOfTenText k) :=
  nthRootBody_congr _ _ number _ (powerOfTenText_no_dot k)
    (fun x e he => powerBody_congr pd pd2 x e (Or.inl (hasDot_exponent_of_no_dot e he)))

theorem nthRootAux_depth (depth : Nat) (n r : Str) :
    nthRootAux (depth + 5) n r = nthRootBody (powerBody powerDecimalFlat) n r ∧
      nthRootBody (powerBody powerDecimalFlat) n r ≠ none := by
  have hf : powerAux (depth + 4) = powerBody powerDecimalFlat := by
    funext b e
    exact (powerAux_depth depth b e).1
  constructor
  · simp only [nthRootAux, hf]
  · exact nthRootBody_total _ n r (fun x e => (powerAux_depth 0 x e).2)

theorem newtonPasses_le (pw : Str → Str → Option (Except Exn Str)) (absNumber root : Str) :
    ∀ (left : Nat) (x : Str), newtonPasses pw absNumber root left x ≤ left := by
  intro left
  induction left with
  | zero => intro x; exact Nat.le_refl _
  | succ left ih =>
    intro x
    simp only [newtonPasses]
    cases newtonStep pw absNumber root x with
    | none => simp
    | some p =>
      obtain ⟨x2, go⟩ := p
      cases go with
      | false => simp
      | true =>
        have := ih x2
        simp only []
        omega

theorem parseExponent_le : ∀ (s : Str) (acc exp : Nat), acc ≤ 1000 →
    parseExponent s acc = .value exp → exp ≤ 1000 := by
  intro s
  induction s with
  | nil =>
    intro acc exp hacc h
    simp only [parseExponent, ExpParse.value.injEq] at h
    omega
  | cons c cs ih =>
    intro acc exp hacc h
    simp only [parseExponent] at h
    split at h
    · simp at h
    · split at h
      · simp at h
      · exact ih _ exp (by omega) h

/-- The squaring loop halves the exponent: `fuel` passes are enough below `2^fuel`. -/
theorem powLoop_passes : ∀ (fuel extra exp : Nat) (result currentBase : Str),
    exp < 2 ^ fuel →
    powLoop (fuel + extra) exp result currentBase = powLoop fuel exp result currentBase := by
  intro fuel
  induction fuel with
  | zero =>
    intro extra exp result currentBase h
    have h0 : exp = 0 := by simpa using h
    subst h0
    cases extra <;> simp [powLoop]
  | succ fuel ih =>
    intro extra exp result currentBase h
    have e : fuel + 1 + extra = (fuel + extra) + 1 := by omega
    rw [e]
    simp only [powLoop]
    split
    · split
      · rfl
      · split
        · rfl
        · apply ih
          rw [pow_succ] at h
          omega
    · rfl

theorem some_finished (r : Option (Except Exn Str)) (h : r ≠ none) : some (finished r) = r := by
  cases r with
  | none => exact absurd rfl h
  | some v => rfl

/-- Every pass of the repeated-subtraction loop of the division routines lowers the
remainder. -/
theorem divSubLoop_decreases (divisor remainder : Str)
    (hd : ∀ c ∈ divisor, isDigit c = true) (hr : ∀ c ∈ remainder, isDigit c = true)
    (hpos : 0 < natVal divisor) (hge : compareAbs remainder divisor ≥ 0) :
    natVal (subtractPositive remainder divisor) < natVal remainder ∧
      ∀ c ∈ subtractPositive remainder divisor, isDigit c = true := by
  rw [compareAbs_digits remainder divisor hr hd] at hge
  have hle : natVal divisor ≤ natVal remainder := by
    unfold cmp3 at hge
    split_ifs at hge <;> omega
  rw [subtractPositive_digits remainder divisor hr hd hle]
  refine ⟨?_, natText_digits _⟩
  rw [natVal_natText]
  omega

/-- C32: `power`, `powerDecimal` and `nthRoot` terminate. Allowed nested calls to depth 5
(`callDepth`) each of them finishes, and allowing more changes nothing; `powerDecimal` uses
`nthRoot` only at roots that are powers of ten, and `nthRoot` with such a root uses `power`
only where `power` does not reach `powerDecimal`; the Newton loop makes at most 50 passes;
the squaring loop is reached only with an exponent of at most 1000 and then makes at most
10 passes; every pass of a repeated-subtraction loop of the division routines lowers the
remainder, and `divide` does not depend on the passes allowed to these loops. -/
theorem power_family_terminates :
    (∀ (b e : Str) (extra : Nat), powerAux (callDepth + extra) b e = some (power b e)) ∧
    (∀ (b e : Str) (extra : Nat),
      powerDecimalAux (callDepth + extra) b e = some (powerDecimal b e)) ∧
    (∀ (n r : Str) (extra : Nat), nthRootAux (callDepth + extra) n r = some (nthRoot n r)) ∧
    (∀ (pw nr nr2 : Str → Str → Option (Except Exn Str)) (base exponent : Str),
      (∀ (x : Str) (k : Nat), 0 < k → nr x (powerOfTenText k) = nr2 x (powerOfTenText k)) →
      powerDecimalBody pw nr base exponent = powerDecimalBody pw nr2 base exponent) ∧
    (∀ (pd pd2 : Str → Str → Option (Except Exn Str)) (number : Str) (k : Nat),
      nthRootBody (powerBody pd) number (powerOfTenText k)
        = nthRootBody (powerBody pd2) number (powerOfTenText k)) ∧
    (∀ (pw : Str → Str → Option (Except Exn Str)) (absNumber root x : Str),
      newtonPasses pw absNumber root maxIterations x ≤ 50) ∧
    (∀ (s : Str) (exp : Nat), parseExponent s 0 = .value exp → exp ≤ 1000) ∧
    (∀ (exp : Nat) (result currentBase : Str), exp ≤ 1000 →
      powLoop exp exp result currentBase = powLoop 10 exp result currentBase) ∧
    (∀ divisor remainder : Str, (∀ c ∈ divisor, isDigit c = true) →
      (∀ c ∈ remainder, isDigit c = true) → 0 < natVal divisor →
      compareAbs remainder divisor ≥ 0 →
      natVal (subtractPositive remainder divisor) < natVal remainder ∧
        ∀ c ∈ subtractPositive remainder divisor, isDigit c = true) ∧
    (∀ (a b : Str) (extra : Nat), divideWith extra a b = divide a b) := by
  refine ⟨?_, ?_, ?_, powerDecimalBody_root, nthRootBody_root,
    fun pw a r x => newtonPasses_le pw a r maxIterations x,
    fun s exp h => parseExponent_le s 0 exp (by omega) h, ?_, divSubLoop_decreases,
    fun a b extra => divideWith_eq extra a b⟩
  · intro b e extra
    have e1 : callDepth + extra = (extra + 1) + 4 := by unfold callDepth; omega
    have e2 : callDepth = 1 + 4 := rfl
    unfold power
    rw [e1, (powerAux_depth (extra + 1) b e).1, e2, (powerAux_depth 1 b e).1]
    exact (some_finished _ (powerAux_depth 1 b e).2).symm
  · intro b e extra
    have e1 : callDepth + extra = (extra + 2) + 3 := by unfold callDepth; omega
    have e2 : callDepth = 2 + 3 := rfl
    unfold powerDecimal
    rw [e1, powerDecimalAux_flat (extra + 2) b e, e2, powerDecimalAux_flat 2 b e]
    exact (some_finished _ (powerDecimalFlat_total b e)).symm
  · intro n r extra
    have e1 : callDepth + extra = extra + 5 := by unfold callDepth; omega
    have e2 : callDepth = 0 + 5 := rfl
    unfold nthRoot
    rw [e1, (nthRootAux_depth extra n r).1, e2, (nthRootAux_depth 0 n r).1]
    exact (some_finished _ (nthRootAux_depth 0 n r).2).symm
  · intro exp result currentBase h
    by_cases h10 : exp ≤ 10
    · exact powLoop_fuel exp exp 10 result currentBase (Nat.le_refl _) h10
    · have e : exp = 10 + (exp - 10) := by omega
      conv_lhs => rw [e]
      rw [powLoop_passes 10 (exp - 10) _ result currentBase (by omega)]
      congr 1
      omega

end Calc
